import Mathlib

/-!
# FunctionVizTool3D: the expression compiler and evaluator

A shallow embedding of `src/ObjectiveFunction.{h,cpp}`: the tokenizer, the
shunting-yard conversion to reverse-Polish order, the function binder and the
stack evaluator, followed by theorems about them.  The mesh builder
`SurfaceWidget::buildMeshCPU` (the sampled heights, their range, the sizes of the
mesh) and the analytic presets of `MainWindow::populatePresets` are embedded too.

Conventions of the embedding.

* `double` is an abstract carrier `D` together with a record `DoubleOps D` of the
  operations the code applies to doubles (literals, `std::stod`, `+ - * /`,
  `std::pow`, `<`, the thirteen unary library functions, quiet NaN).  Theorems
  stated for every `D` and every `DoubleOps D` hold in particular for IEEE-754
  binary64.  `exactOps` is one concrete instance (exact rational arithmetic) on
  which closed numeric examples are evaluated.
* `std::string` is a `String`, scanned as its list of characters; every
  character stands for one `char`.  The character classes are those of the C
  locale.
* `std::vector` is a `List`; a stack `std::vector` keeps its `back()` at the
  head of the list.
* `int` is `Int`.  Where the code computes with `int` on input-sized data the
  source has no defined behaviour outside the range of `int`: the variable
  index accumulator of `tokenize` wraps to 32 bits in the embedding, and the
  builds that do otherwise there are the family `Build` (`tokenizeB`,
  `textFits`); the size products of the mesh builder are defined only inside
  the range of `int`.
* A function returning `bool` and writing `*err` returns `Except String _`.
-/

namespace ObjectiveFunction

/-! ## Data model (`ObjectiveFunction.h`) -/

/-- The token kinds, `enum class TokType`. -/
inductive TokType where
  | Number
  | Var
  | Op
  | Func
  | LParen
  | RParen
  | Comma
deriving DecidableEq, Repr

/-- The unary operations of the binder table (the lambdas stored in `fn1`). -/
inductive UnaryFn where
  | sin
  | cos
  | tan
  | asin
  | acos
  | atan
  | exp
  | log
  | log10
  | sqrt
  | abs
  | floor
  | ceil
deriving DecidableEq, Repr

/-- The binary operations of the binder table (the lambdas stored in `fn2`). -/
inductive BinaryFn where
  | min
  | max
  | pow
deriving DecidableEq, Repr

/-- The operations on `double` that the code uses. -/
structure DoubleOps (D : Type) where
  /-- The literal `0.0`. -/
  zero : D
  /-- The literal `3.1415926535897932384626433832795`. -/
  piLit : D
  /-- The literal `2.7182818284590452353602874713527`. -/
  eLit : D
  /-- The value `std::numeric_limits<double>::quiet_NaN()`. -/
  nan : D
  /-- The call `std::stod` on a string; `none` when it throws. -/
  stod : List Char → Option D
  /-- On the empty string `std::stod` throws `std::invalid_argument`. -/
  stod_nil : stod [] = none
  add : D → D → D
  sub : D → D → D
  mul : D → D → D
  div : D → D → D
  /-- The call `std::pow`. -/
  pow : D → D → D
  /-- The comparison `a < b`. -/
  lt : D → D → Bool
  /-- The library functions `std::sin` .. `std::ceil`. -/
  unary : UnaryFn → D → D

/-- The record `struct Token`: one structure with a field for every kind. -/
structure Token (D : Type) where
  type : TokType
  number : D
  varIndex : Int
  op : Char
  precedence : Int
  rightAssoc : Bool
  funcName : String
  funcArity : Int
  fn1 : Option UnaryFn
  fn2 : Option BinaryFn
deriving DecidableEq

/-- A value-initialised token `Token{}`: the default member initialisers. -/
def Token.init {D : Type} (ops : DoubleOps D) : Token D :=
  { type := TokType.Number, number := ops.zero, varIndex := -1, op := Char.ofNat 0,
    precedence := 0, rightAssoc := false, funcName := "", funcArity := 1,
    fn1 := none, fn2 := none }

/-- The aggregate `Token{ty}`: the given type, every other field default. -/
def Token.ofType {D : Type} (ops : DoubleOps D) (ty : TokType) : Token D :=
  { Token.init ops with type := ty }

/-- A `Number` token as the tokenizer builds it. -/
def Token.mkNumber {D : Type} (ops : DoubleOps D) (v : D) : Token D :=
  { Token.init ops with type := TokType.Number, number := v }

/-- A `Var` token as the tokenizer builds it. -/
def Token.mkVar {D : Type} (ops : DoubleOps D) (idx : Int) : Token D :=
  { Token.init ops with type := TokType.Var, varIndex := idx }

/-- A `Func` token as the tokenizer builds it. -/
def Token.mkFunc {D : Type} (ops : DoubleOps D) (name : String) : Token D :=
  { Token.init ops with type := TokType.Func, funcName := name }

/-- The lambda `makeOp` of `tokenize` (the flag `unaryMinus` has no effect). -/
def makeOp {D : Type} (ops : DoubleOps D) (op : Char) : Token D :=
  if op = '+' ∨ op = '-' then
    { Token.init ops with type := TokType.Op, op := op, precedence := 1, rightAssoc := false }
  else if op = '*' ∨ op = '/' then
    { Token.init ops with type := TokType.Op, op := op, precedence := 2, rightAssoc := false }
  else if op = '^' then
    { Token.init ops with type := TokType.Op, op := op, precedence := 3, rightAssoc := true }
  else
    { Token.init ops with type := TokType.Op, op := op, precedence := 0, rightAssoc := false }

/-! ## Parser: `shuntingYardToRPN` -/

/-- The `Comma` branch: pop the stack to the output until a `LParen` is on top
(which stays).  Returns whether one was found, the stack and the output. -/
def popToLParenKeep {D : Type} :
    List (Token D) → List (Token D) → Bool × List (Token D) × List (Token D)
  | [], rpn => (false, [], rpn)
  | top :: rest, rpn =>
    if top.type = TokType.LParen then (true, top :: rest, rpn)
    else popToLParenKeep rest (rpn ++ [top])

/-- The `Op` branch: pop operators that bind at least as tightly as `t`. -/
def popOperators {D : Type} (t : Token D) :
    List (Token D) → List (Token D) → List (Token D) × List (Token D)
  | [], rpn => ([], rpn)
  | top :: rest, rpn =>
    if top.type ≠ TokType.Op then (top :: rest, rpn)
    else if (!t.rightAssoc && decide (t.precedence ≤ top.precedence)) ||
        (t.rightAssoc && decide (t.precedence < top.precedence)) then
      popOperators t rest (rpn ++ [top])
    else (top :: rest, rpn)

/-- The `RParen` branch: pop the stack to the output until a `LParen` is found,
which is discarded. -/
def popToLParenDrop {D : Type} :
    List (Token D) → List (Token D) → Bool × List (Token D) × List (Token D)
  | [], rpn => (false, [], rpn)
  | top :: rest, rpn =>
    if top.type = TokType.LParen then (true, rest, rpn)
    else popToLParenDrop rest (rpn ++ [top])

/-- One iteration of the `for` loop of `shuntingYardToRPN` on token `t`, from the
operator stack and the output so far. -/
def shuntStep {D : Type} (t : Token D) (stack rpn : List (Token D)) :
    Except String (List (Token D) × List (Token D)) :=
  if t.type = TokType.Number ∨ t.type = TokType.Var then
    Except.ok (stack, rpn ++ [t])
  else if t.type = TokType.Func then
    Except.ok (t :: stack, rpn)
  else if t.type = TokType.Comma then
    match popToLParenKeep stack rpn with
    | (false, _, _) =>
      Except.error "Misplaced comma or missing parentheses in function arguments."
    | (true, stack1, rpn1) => Except.ok (stack1, rpn1)
  else if t.type = TokType.Op then
    match popOperators t stack rpn with
    | (stack1, rpn1) => Except.ok (t :: stack1, rpn1)
  else if t.type = TokType.LParen then
    Except.ok (t :: stack, rpn)
  else if t.type = TokType.RParen then
    match popToLParenDrop stack rpn with
    | (false, _, _) => Except.error "Mismatched parentheses."
    | (true, stack1, rpn1) =>
      match stack1 with
      | top :: rest =>
        if top.type = TokType.Func then Except.ok (rest, rpn1 ++ [top])
        else Except.ok (top :: rest, rpn1)
      | [] => Except.ok ([], rpn1)
  else
    Except.ok (stack, rpn)

/-- The `for` loop of `shuntingYardToRPN` over the input tokens. -/
def shuntLoop {D : Type} :
    List (Token D) → List (Token D) → List (Token D) →
      Except String (List (Token D) × List (Token D))
  | [], stack, rpn => Except.ok (stack, rpn)
  | t :: ts, stack, rpn =>
    match shuntStep t stack rpn with
    | Except.error m => Except.error m
    | Except.ok (stack1, rpn1) => shuntLoop ts stack1 rpn1

/-- The final `while` loop of `shuntingYardToRPN`: flush the stack. -/
def shuntDrain {D : Type} : List (Token D) → List (Token D) → Except String (List (Token D))
  | [], rpn => Except.ok rpn
  | top :: rest, rpn =>
    if top.type = TokType.LParen ∨ top.type = TokType.RParen then
      Except.error "Mismatched parentheses at end."
    else shuntDrain rest (rpn ++ [top])

/-- The function `ObjectiveFunction::shuntingYardToRPN`. -/
def shuntingYardToRPN {D : Type} (input : List (Token D)) : Except String (List (Token D)) :=
  match shuntLoop input [] [] with
  | Except.error m => Except.error m
  | Except.ok (stack, rpn) => shuntDrain stack rpn

/-! ## Tokenizer: `tokenize` -/

/-- The test `std::isdigit` in the C locale. -/
def isDigit (c : Char) : Bool := decide (48 ≤ c.toNat) && decide (c.toNat ≤ 57)

/-- The test `std::isalpha` in the C locale. -/
def isAlpha (c : Char) : Bool :=
  (decide (65 ≤ c.toNat) && decide (c.toNat ≤ 90)) ||
    (decide (97 ≤ c.toNat) && decide (c.toNat ≤ 122))

/-- The test `std::isspace` in the C locale: space, `\t \n \v \f \r`. -/
def isSpace (c : Char) : Bool :=
  decide (c.toNat = 32) || (decide (9 ≤ c.toNat) && decide (c.toNat ≤ 13))

/-- The static helper `isIdentChar`. -/
def isIdentChar (c : Char) : Bool := isAlpha c || isDigit c || decide (c = '_')

/-- The loop `while(j<s.size() && isdigit(s[j])) j++`, on the text from `j` on:
the number of characters it consumes. -/
def scanDigits : List Char → Nat
  | [] => 0
  | c :: cs => if isDigit c then scanDigits cs + 1 else 0

/-- The number-scanning loop of `tokenize` (lines 79-91), on the text from `j`
on with the current `seenDot`: the number of characters it consumes. -/
def scanNumber : List Char → Bool → Nat
  | [], _ => 0
  | cj :: cs, seenDot =>
    if isDigit cj then scanNumber cs seenDot + 1
    else if cj = '.' ∧ seenDot = false then scanNumber cs true + 1
    else if cj = 'e' ∨ cj = 'E' then
      match cs with
      | [] => 1
      | c2 :: cs2 =>
        if c2 = '+' ∨ c2 = '-' then 1 + (1 + scanDigits cs2) else 1 + scanDigits cs
    else 0

/-- The loop `while(j<s.size() && isIdentChar(s[j])) j++`: the number of
characters it consumes. -/
def scanIdent : List Char → Nat
  | [] => 0
  | c :: cs => if isIdentChar c then scanIdent cs + 1 else 0

/-- Arithmetic of a 32-bit `int` that wraps: the value reduced to
`[-2^31, 2^31)`.  It is the identity on the range of `int`; outside it the
source has no defined behaviour, and the wrapped value is what the compiled
multiplication and addition leave in the register. -/
def wrapInt32 (v : Int) : Int := (v + 2147483648) % 4294967296 - 2147483648

/-- The index loop of `tokenize` (lines 147-150) over `id[1..]`, from the
accumulator `idx`: `none` when a non-digit clears `ok`, else the final `idx`.
Where `idx*10 + digit` stays inside `int` (`indexFits`) this is the value the
source defines; where it does not, the signed overflow is undefined in the
source and the accumulator is taken to wrap. -/
def parseIndex : List Char → Int → Option Int
  | [], idx => some idx
  | c :: cs, idx =>
    if isDigit c then parseIndex cs (wrapInt32 (wrapInt32 (idx * 10) + ((c.toNat : Int) - 48)))
    else none

/-- The outcome of one iteration of the main loop of `tokenize`. -/
inductive LexStep (D : Type) where
  | next (i : Nat) (expectValue : Bool) (out : List (Token D))
  | fail (msg : String)

/-- The identifier branch of `tokenize` (lines 126-168) for the identifier `id`
that ends at position `j`.  The test `idx<0 || idx>=dim` is carried out as
written, on the wrapped accumulator.  Only an overflow can make `idx<0` true, so
a compiler may remove that test: on an identifier that overflows the
accumulator (`identFits` false) this branch is one build among others, which
`lexIdentB` describes. -/
def lexIdent {D : Type} (ops : DoubleOps D) (dim : Int) (id : List Char) (j : Nat)
    (out : List (Token D)) : LexStep D :=
  if id = ['p', 'i'] ∨ id = ['P', 'I'] then
    LexStep.next j false (out ++ [Token.mkNumber ops ops.piLit])
  else if id = ['e'] then
    LexStep.next j false (out ++ [Token.mkNumber ops ops.eLit])
  else
    match (if 2 ≤ id.length ∧ (id.head? = some 'x' ∨ id.head? = some 'X')
        then parseIndex id.tail 0 else none) with
    | some idx =>
      if idx < 0 ∨ idx ≥ dim then
        LexStep.fail ("Variable " ++ String.mk id ++ " out of range for dimension " ++
          toString dim ++ ".")
      else LexStep.next j false (out ++ [Token.mkVar ops idx])
    | none => LexStep.next j true (out ++ [Token.mkFunc ops (String.mk id)])

/-- One iteration of the main loop of `tokenize` at position `i < s.size()`. -/
def tokenizeIter {D : Type} (ops : DoubleOps D) (s : List Char) (dim : Int) (i : Nat)
    (expectValue : Bool) (out : List (Token D)) : LexStep D :=
  match s.drop i with
  | [] => LexStep.next i expectValue out
  | c :: rest =>
    if isSpace c then LexStep.next (i + 1) expectValue out
    else if c = '(' then LexStep.next (i + 1) true (out ++ [Token.ofType ops TokType.LParen])
    else if c = ')' then LexStep.next (i + 1) false (out ++ [Token.ofType ops TokType.RParen])
    else if c = ',' then LexStep.next (i + 1) true (out ++ [Token.ofType ops TokType.Comma])
    else if isDigit c ∨ c = '.' then
      let j := i + scanNumber (c :: rest) (decide (c = '.'))
      match ops.stod ((c :: rest).take (j - i)) with
      | none => LexStep.fail "Invalid number token."
      | some val => LexStep.next j false (out ++ [Token.mkNumber ops val])
    else if c = '+' ∨ c = '-' ∨ c = '*' ∨ c = '/' ∨ c = '^' then
      if c = '-' ∧ expectValue = true then
        LexStep.next (i + 1) true (out ++ [Token.mkNumber ops ops.zero, makeOp ops '-'])
      else LexStep.next (i + 1) true (out ++ [makeOp ops c])
    else if isAlpha c ∨ c = '_' then
      let j := i + scanIdent (c :: rest)
      lexIdent ops dim ((c :: rest).take (j - i)) j out
    else LexStep.fail ("Unexpected character '" ++ String.singleton c ++ "'.")

/-- The main loop `while(i<s.size())` of `tokenize`, run for at most `fuel`
iterations; `none` when the iterations are used up before the loop ends. -/
def tokenizeLoop {D : Type} (ops : DoubleOps D) (s : List Char) (dim : Int) :
    Nat → Nat → Bool → List (Token D) → Option (Except String (List (Token D)))
  | 0, i, _, out => if i < s.length then none else some (Except.ok out)
  | fuel + 1, i, expectValue, out =>
    if i < s.length then
      match tokenizeIter ops s dim i expectValue out with
      | LexStep.fail m => some (Except.error m)
      | LexStep.next i1 ev1 out1 => tokenizeLoop ops s dim fuel i1 ev1 out1
    else some (Except.ok out)

/-- The function `ObjectiveFunction::tokenize`.  Every iteration that does not
return consumes at least one character, so `s.size()` iterations are enough and
the last alternative is never taken (`tokenizeLoop_total`, `tokenize_spec`). -/
def tokenize {D : Type} (ops : DoubleOps D) (s : List Char) (dim : Int) :
    Except String (List (Token D)) :=
  match tokenizeLoop ops s dim s.length 0 true [] with
  | some r => r
  | none => Except.error "tokenize: iteration bound exceeded"

/-! ## Function binder: `bindFunctions` -/

/-- The local record `FnDef`. -/
structure FnDef where
  arity : Int
  fn1 : Option UnaryFn
  fn2 : Option BinaryFn
deriving DecidableEq

/-- The table `fns` of `bindFunctions`. -/
def fns : List (String × FnDef) :=
  [("sin", ⟨1, some UnaryFn.sin, none⟩),
   ("cos", ⟨1, some UnaryFn.cos, none⟩),
   ("tan", ⟨1, some UnaryFn.tan, none⟩),
   ("asin", ⟨1, some UnaryFn.asin, none⟩),
   ("acos", ⟨1, some UnaryFn.acos, none⟩),
   ("atan", ⟨1, some UnaryFn.atan, none⟩),
   ("exp", ⟨1, some UnaryFn.exp, none⟩),
   ("log", ⟨1, some UnaryFn.log, none⟩),
   ("log10", ⟨1, some UnaryFn.log10, none⟩),
   ("sqrt", ⟨1, some UnaryFn.sqrt, none⟩),
   ("abs", ⟨1, some UnaryFn.abs, none⟩),
   ("floor", ⟨1, some UnaryFn.floor, none⟩),
   ("ceil", ⟨1, some UnaryFn.ceil, none⟩),
   ("min", ⟨2, none, some BinaryFn.min⟩),
   ("max", ⟨2, none, some BinaryFn.max⟩),
   ("pow", ⟨2, none, some BinaryFn.pow⟩)]

/-- The lookup `fns.find(name)`. -/
def findFn (name : String) : Option FnDef :=
  (fns.find? (fun e => decide (e.1 = name))).map (fun e => e.2)

/-- The function `ObjectiveFunction::bindFunctions`. -/
def bindFunctions {D : Type} : List (Token D) → Except String (List (Token D))
  | [] => Except.ok []
  | t :: ts =>
    if t.type ≠ TokType.Func then
      match bindFunctions ts with
      | Except.error m => Except.error m
      | Except.ok ts1 => Except.ok (t :: ts1)
    else
      match findFn t.funcName with
      | none => Except.error ("Unknown function '" ++ t.funcName ++ "'.")
      | some d =>
        match bindFunctions ts with
        | Except.error m => Except.error m
        | Except.ok ts1 =>
          Except.ok ({ t with funcArity := d.arity, fn1 := d.fn1, fn2 := d.fn2 } :: ts1)

/-! ## Evaluator: `evalRPN` -/

/-- The lambda bodies of the binary table entries. -/
def applyFn2 {D : Type} (ops : DoubleOps D) (f : BinaryFn) (a b : D) : D :=
  match f with
  | BinaryFn.min => if ops.lt a b = true then a else b
  | BinaryFn.max => if ops.lt b a = true then a else b
  | BinaryFn.pow => ops.pow a b

/-- The ways `evalRPN` leaves its loop without a computed value: the five
`return quiet_NaN()` statements (an operand stack too short, the `default` of
the operator switch, an arity other than 1 or 2, a token type that is not
executable, a final stack size other than 1), and an unchecked read `x[i]`
outside the vector (undefined behaviour in the source). -/
inductive EvalExit where
  | underflow
  | unknownOp
  | badArity
  | badType
  | finalSize
  | outOfBounds
deriving DecidableEq, Repr

/-- One iteration of the loop of `evalRPN` on token `t` with value stack `st`. -/
def evalStep {D : Type} (ops : DoubleOps D) (x : List D) (t : Token D) (st : List D) :
    Except EvalExit (List D) :=
  if t.type = TokType.Number then Except.ok (t.number :: st)
  else if t.type = TokType.Var then
    if t.varIndex < 0 then Except.error EvalExit.outOfBounds
    else
      match x[t.varIndex.toNat]? with
      | some v => Except.ok (v :: st)
      | none => Except.error EvalExit.outOfBounds
  else if t.type = TokType.Op then
    match st with
    | b :: a :: st1 =>
      if t.op = '+' then Except.ok (ops.add a b :: st1)
      else if t.op = '-' then Except.ok (ops.sub a b :: st1)
      else if t.op = '*' then Except.ok (ops.mul a b :: st1)
      else if t.op = '/' then Except.ok (ops.div a b :: st1)
      else if t.op = '^' then Except.ok (ops.pow a b :: st1)
      else Except.error EvalExit.unknownOp
    | _ => Except.error EvalExit.underflow
  else if t.type = TokType.Func then
    if t.funcArity = 1 then
      match st with
      | a :: st1 =>
        match t.fn1 with
        | some f => Except.ok (ops.unary f a :: st1)
        | none => Except.ok (ops.nan :: st1)
      | [] => Except.error EvalExit.underflow
    else if t.funcArity = 2 then
      match st with
      | b :: a :: st1 =>
        match t.fn2 with
        | some f => Except.ok (applyFn2 ops f a b :: st1)
        | none => Except.ok (ops.nan :: st1)
      | _ => Except.error EvalExit.underflow
    else Except.error EvalExit.badArity
  else Except.error EvalExit.badType

/-- The loop of `evalRPN` over the program, from value stack `st`. -/
def evalLoop {D : Type} (ops : DoubleOps D) (x : List D) :
    List (Token D) → List D → Except EvalExit (List D)
  | [], st => Except.ok st
  | t :: ts, st =>
    match evalStep ops x t st with
    | Except.error e => Except.error e
    | Except.ok st1 => evalLoop ops x ts st1

/-- The body of `evalRPN` with its exits kept apart: the value left on the
stack, or the exit taken. -/
def evalRun {D : Type} (ops : DoubleOps D) (rpn : List (Token D)) (x : List D) :
    Except EvalExit D :=
  match evalLoop ops x rpn [] with
  | Except.error e => Except.error e
  | Except.ok [v] => Except.ok v
  | Except.ok _ => Except.error EvalExit.finalSize

/-- The function `ObjectiveFunction::evalRPN`: every sentinel exit returns the
quiet NaN.  (An out-of-bounds read has no defined result; it is given the NaN
too, and the theorems that need it show that it does not occur.) -/
def evalRPN {D : Type} (ops : DoubleOps D) (rpn : List (Token D)) (x : List D) : D :=
  match evalRun ops rpn x with
  | Except.ok v => v
  | Except.error _ => ops.nan

end ObjectiveFunction

/-- The data members of `class ObjectiveFunction`. -/
structure ObjectiveFunction (D : Type) where
  dim_ : Int
  expr_ : String
  rpn_ : List (ObjectiveFunction.Token D)
deriving DecidableEq

deriving instance DecidableEq for Except

namespace ObjectiveFunction

/-- The default-constructed object: `dim_{0}`, empty text, empty program. -/
def new (D : Type) : ObjectiveFunction D := { dim_ := 0, expr_ := "", rpn_ := [] }

/-- The function `ObjectiveFunction::setExpression`: the object after the call,
and `ok` for `true` or the message written to `*errorMsg` for `false`. -/
def setExpression {D : Type} (ops : DoubleOps D) (_self : ObjectiveFunction D)
    (expr : String) (dimension : Int) : ObjectiveFunction D × Except String Unit :=
  let self1 : ObjectiveFunction D := { dim_ := dimension, expr_ := expr, rpn_ := [] }
  if dimension ≤ 0 then (self1, Except.error "Dimension must be >= 1.")
  else
    match tokenize ops expr.data dimension with
    | Except.error m => (self1, Except.error m)
    | Except.ok toks =>
      match shuntingYardToRPN toks with
      | Except.error m => (self1, Except.error m)
      | Except.ok rpn =>
        match bindFunctions rpn with
        | Except.error m => (self1, Except.error m)
        | Except.ok rpn1 => ({ self1 with rpn_ := rpn1 }, Except.ok ())

/-- The function `ObjectiveFunction::evaluate`.  The cast
`static_cast<int>(x.size())` is the identity on vectors of fewer than `2^31`
elements, the only ones considered. -/
def evaluate {D : Type} (ops : DoubleOps D) (self : ObjectiveFunction D) (x : List D) : D :=
  if (x.length : Int) ≠ self.dim_ then ops.nan else evalRPN ops self.rpn_ x

/-- The accessor `dimension()`. -/
def dimension {D : Type} (self : ObjectiveFunction D) : Int := self.dim_

/-- The accessor `expression()`. -/
def expression {D : Type} (self : ObjectiveFunction D) : String := self.expr_

end ObjectiveFunction

/-! ## A concrete arithmetic: exact extended rationals

`ERat` interprets the double operations without rounding: finite values are
rationals, with the two infinities and a NaN.  It agrees with IEEE-754 binary64
wherever every operand and result is exactly representable (in particular on
integers of magnitude below `2^53`); it has no signed zero, and a result that is
not rational in general (a transcendental function, a non-integer power) is
given as `nan`.  The closed numeric examples below are evaluated on it. -/

/-- Exact extended rationals. -/
inductive ERat where
  | fin (q : ℚ)
  | posInf
  | negInf
  | nan
deriving DecidableEq

namespace ERat

/-- An infinity with the sign of `q` (`nan` for zero). -/
def infOfSign (q : ℚ) : ERat :=
  if 0 < q then posInf else if q < 0 then negInf else nan

/-- Negation. -/
def neg : ERat → ERat
  | fin q => fin (-q)
  | posInf => negInf
  | negInf => posInf
  | nan => nan

/-- Addition: `inf + (-inf)` is NaN. -/
def add : ERat → ERat → ERat
  | fin a, fin b => fin (a + b)
  | nan, _ => nan
  | _, nan => nan
  | posInf, negInf => nan
  | negInf, posInf => nan
  | posInf, _ => posInf
  | negInf, _ => negInf
  | fin _, posInf => posInf
  | fin _, negInf => negInf

/-- Subtraction. -/
def sub (a b : ERat) : ERat := add a (neg b)

/-- Multiplication: `0 * inf` is NaN. -/
def mul : ERat → ERat → ERat
  | fin a, fin b => fin (a * b)
  | nan, _ => nan
  | _, nan => nan
  | fin a, posInf => infOfSign a
  | fin a, negInf => infOfSign (-a)
  | posInf, fin b => infOfSign b
  | negInf, fin b => infOfSign (-b)
  | posInf, posInf => posInf
  | negInf, negInf => posInf
  | posInf, negInf => negInf
  | negInf, posInf => negInf

/-- Division: a non-zero value over zero is an infinity, `0/0` and `inf/inf`
are NaN. -/
def div : ERat → ERat → ERat
  | fin a, fin b => if b = 0 then infOfSign a else fin (a / b)
  | nan, _ => nan
  | _, nan => nan
  | fin _, posInf => fin 0
  | fin _, negInf => fin 0
  | posInf, fin b => if b < 0 then negInf else posInf
  | negInf, fin b => if b < 0 then posInf else negInf
  | posInf, posInf => nan
  | posInf, negInf => nan
  | negInf, posInf => nan
  | negInf, negInf => nan

/-- A natural power by repeated multiplication. -/
def npow (a : ℚ) : Nat → ℚ
  | 0 => 1
  | n + 1 => a * npow a n

/-- Powers with a finite base and an integer exponent; every other case is
outside the exact fragment. -/
def pow : ERat → ERat → ERat
  | fin a, fin b =>
    if b.den = 1 then
      if 0 ≤ b.num then fin (npow a b.num.toNat)
      else if a = 0 then posInf
      else fin (1 / npow a (-b.num).toNat)
    else nan
  | _, _ => nan

/-- The comparison `a < b`; false whenever a NaN is involved. -/
def lt : ERat → ERat → Bool
  | fin a, fin b => decide (a < b)
  | negInf, fin _ => true
  | negInf, posInf => true
  | fin _, posInf => true
  | _, _ => false

/-- The unary functions that stay rational: `abs`, `floor`, `ceil`. -/
def unary : ObjectiveFunction.UnaryFn → ERat → ERat
  | ObjectiveFunction.UnaryFn.abs, fin a => fin (if a < 0 then -a else a)
  | ObjectiveFunction.UnaryFn.abs, posInf => posInf
  | ObjectiveFunction.UnaryFn.abs, negInf => posInf
  | ObjectiveFunction.UnaryFn.floor, fin a => fin (Int.floor a)
  | ObjectiveFunction.UnaryFn.floor, posInf => posInf
  | ObjectiveFunction.UnaryFn.floor, negInf => negInf
  | ObjectiveFunction.UnaryFn.ceil, fin a => fin (Int.ceil a)
  | ObjectiveFunction.UnaryFn.ceil, posInf => posInf
  | ObjectiveFunction.UnaryFn.ceil, negInf => negInf
  | _, _ => nan

/-- The value of a string of decimal digits, from the accumulator `acc`. -/
def digitsValue : List Char → Nat → Nat
  | [], acc => acc
  | c :: cs, acc => digitsValue cs (acc * 10 + (c.toNat - 48))

/-- The exponent part of a decimal literal, read after the mantissa: the value
of `e`/`E`, an optional sign and at least one digit; `0` when the text does not
continue that way (the characters are then not part of the number). -/
def exponentValue : List Char → Int
  | [] => 0
  | c :: cs =>
    if c = 'e' ∨ c = 'E' then
      match cs with
      | [] => 0
      | c2 :: cs2 =>
        if c2 = '+' then
          (if 0 < ObjectiveFunction.scanDigits cs2
            then (digitsValue (cs2.take (ObjectiveFunction.scanDigits cs2)) 0 : Int) else 0)
        else if c2 = '-' then
          (if 0 < ObjectiveFunction.scanDigits cs2
            then -(digitsValue (cs2.take (ObjectiveFunction.scanDigits cs2)) 0 : Int) else 0)
        else
          (digitsValue (cs.take (ObjectiveFunction.scanDigits cs)) 0 : Int)
    else 0

/-- The value `m * 10^e` as a rational. -/
def scale10 (m : Nat) (e : Int) : ℚ :=
  if 0 ≤ e then (m : ℚ) * npow 10 e.toNat else (m : ℚ) / npow 10 (-e).toNat

/-- The call `std::stod` on the texts that `tokenize` passes to it (no leading
blank or sign, decimal notation): the longest leading part of the form
digits, optional `.` and digits, optional exponent is converted, exactly; the
call throws (`none`) when that part has no digit.  (The range error that
`std::stod` raises beyond the binary64 range is not modelled.) -/
def stod (cs : List Char) : Option ERat :=
  let n1 := ObjectiveFunction.scanDigits cs
  let intDigits := cs.take n1
  let rest1 := cs.drop n1
  match rest1 with
  | '.' :: rest2 =>
    let n2 := ObjectiveFunction.scanDigits rest2
    if n1 + n2 = 0 then none
    else
      some (fin (scale10 (digitsValue (intDigits ++ rest2.take n2) 0)
        (exponentValue (rest2.drop n2) - (n2 : Int))))
  | _ =>
    if n1 = 0 then none
    else some (fin (scale10 (digitsValue intDigits 0) (exponentValue rest1)))

end ERat

/-- The double operations interpreted on `ERat`. -/
def exactOps : ObjectiveFunction.DoubleOps ERat :=
  { zero := ERat.fin 0,
    piLit := ERat.fin (31415926535897932384626433832795 / 10000000000000000000000000000000),
    eLit := ERat.fin (27182818284590452353602874713527 / 10000000000000000000000000000000),
    nan := ERat.nan,
    stod := ERat.stod,
    stod_nil := rfl,
    add := ERat.add,
    sub := ERat.sub,
    mul := ERat.mul,
    div := ERat.div,
    pow := ERat.pow,
    lt := ERat.lt,
    unary := ERat.unary }

/-! ## Expression trees (the reference semantics of the claims) -/

namespace ObjectiveFunction

/-- The five binary operators. -/
inductive BinOp where
  | add
  | sub
  | mul
  | div
  | pow
deriving DecidableEq, Repr

/-- The character of an operator. -/
def BinOp.sym : BinOp → Char
  | BinOp.add => '+'
  | BinOp.sub => '-'
  | BinOp.mul => '*'
  | BinOp.div => '/'
  | BinOp.pow => '^'

/-- The operation an operator denotes on doubles. -/
def BinOp.apply {D : Type} (ops : DoubleOps D) : BinOp → D → D → D
  | BinOp.add => ops.add
  | BinOp.sub => ops.sub
  | BinOp.mul => ops.mul
  | BinOp.div => ops.div
  | BinOp.pow => ops.pow

/-- The operand of an expression: a numeric literal or a variable. -/
inductive Leaf (D : Type) where
  | number (v : D)
  | var (idx : Nat)

/-- The token of an operand. -/
def Leaf.token {D : Type} (ops : DoubleOps D) : Leaf D → Token D
  | Leaf.number v => Token.mkNumber ops v
  | Leaf.var idx => Token.mkVar ops (idx : Int)

/-- An expression tree over operands and the five binary operators. -/
inductive ExprTree (D : Type) where
  | leaf (l : Leaf D)
  | node (l : ExprTree D) (op : BinOp) (r : ExprTree D)

/-- The fully parenthesised token sequence of a tree: a leaf is its token, an
internal node is `LParen, left, Op, right, RParen`. -/
def ExprTree.render {D : Type} (ops : DoubleOps D) : ExprTree D → List (Token D)
  | ExprTree.leaf l => [l.token ops]
  | ExprTree.node l op r =>
    [Token.ofType ops TokType.LParen] ++ l.render ops ++ [makeOp ops op.sym] ++
      r.render ops ++ [Token.ofType ops TokType.RParen]

/-- The post-order token sequence of a tree: left, right, operator. -/
def ExprTree.postOrder {D : Type} (ops : DoubleOps D) : ExprTree D → List (Token D)
  | ExprTree.leaf l => [l.token ops]
  | ExprTree.node l op r => l.postOrder ops ++ r.postOrder ops ++ [makeOp ops op.sym]

/-- A stack whose top, if any, is not a waiting function name. -/
def TopNotFunc {D : Type} (stack : List (Token D)) : Prop :=
  ∀ top ∈ stack.head?, top.type ≠ TokType.Func

/-- The value of an operand at the point `x`: a literal is itself, a variable
`i` is `x[i]`. -/
def Leaf.value {D : Type} (ops : DoubleOps D) (x : List D) : Leaf D → D
  | Leaf.number v => v
  | Leaf.var idx => x[idx]?.getD ops.nan

/-- The value of a tree at the point `x`: `node l op r` is `value l op value r`,
the left subtree being the first operand. -/
def ExprTree.value {D : Type} (ops : DoubleOps D) (x : List D) : ExprTree D → D
  | ExprTree.leaf l => l.value ops x
  | ExprTree.node l op r => op.apply ops (l.value ops x) (r.value ops x)

/-- Every variable of the tree has an index below `n`. -/
def ExprTree.VarsBelow {D : Type} (n : Nat) : ExprTree D → Prop
  | ExprTree.leaf (Leaf.number _) => True
  | ExprTree.leaf (Leaf.var idx) => idx < n
  | ExprTree.node l _ r => l.VarsBelow n ∧ r.VarsBelow n

/-- The token sequence `operand (operator operand)*`: a first operand followed
by operator/operand pairs, the operators as the tokenizer builds them. -/
def seqTokens {D : Type} (ops : DoubleOps D) (first : Leaf D) :
    List (BinOp × Leaf D) → List (Token D)
  | [] => [first.token ops]
  | (op, l) :: rest => first.token ops :: makeOp ops op.sym :: seqTokens ops l rest

/-- The conventional grammar, highest level: `Power ::= operand | operand ^ Power`
(`^` binds tightest and associates to the right). -/
inductive ParsesPower {D : Type} (ops : DoubleOps D) : List (Token D) → ExprTree D → Prop where
  | operand (l : Leaf D) : ParsesPower ops [l.token ops] (ExprTree.leaf l)
  | pow (l : Leaf D) (ts : List (Token D)) (t : ExprTree D) :
      ParsesPower ops ts t →
      ParsesPower ops (l.token ops :: makeOp ops '^' :: ts)
        (ExprTree.node (ExprTree.leaf l) BinOp.pow t)

/-- The conventional grammar, middle level:
`Term ::= Power | Term * Power | Term / Power` (left-associative). -/
inductive ParsesTerm {D : Type} (ops : DoubleOps D) : List (Token D) → ExprTree D → Prop where
  | power (ts : List (Token D)) (t : ExprTree D) : ParsesPower ops ts t → ParsesTerm ops ts t
  | mul (ts1 ts2 : List (Token D)) (t1 t2 : ExprTree D) :
      ParsesTerm ops ts1 t1 → ParsesPower ops ts2 t2 →
      ParsesTerm ops (ts1 ++ makeOp ops '*' :: ts2) (ExprTree.node t1 BinOp.mul t2)
  | div (ts1 ts2 : List (Token D)) (t1 t2 : ExprTree D) :
      ParsesTerm ops ts1 t1 → ParsesPower ops ts2 t2 →
      ParsesTerm ops (ts1 ++ makeOp ops '/' :: ts2) (ExprTree.node t1 BinOp.div t2)

/-- The conventional grammar, lowest level:
`Expr ::= Term | Expr + Term | Expr - Term` (left-associative). -/
inductive ParsesExpr {D : Type} (ops : DoubleOps D) : List (Token D) → ExprTree D → Prop where
  | term (ts : List (Token D)) (t : ExprTree D) : ParsesTerm ops ts t → ParsesExpr ops ts t
  | add (ts1 ts2 : List (Token D)) (t1 t2 : ExprTree D) :
      ParsesExpr ops ts1 t1 → ParsesTerm ops ts2 t2 →
      ParsesExpr ops (ts1 ++ makeOp ops '+' :: ts2) (ExprTree.node t1 BinOp.add t2)
  | sub (ts1 ts2 : List (Token D)) (t1 t2 : ExprTree D) :
      ParsesExpr ops ts1 t1 → ParsesTerm ops ts2 t2 →
      ParsesExpr ops (ts1 ++ makeOp ops '-' :: ts2) (ExprTree.node t1 BinOp.sub t2)

/-- The test of the `Op` branch of `shuntingYardToRPN`: the incoming operator
`t` pops the operator `top`. -/
def popsTop {D : Type} (t top : Token D) : Bool :=
  (!t.rightAssoc && decide (t.precedence ≤ top.precedence)) ||
    (t.rightAssoc && decide (t.precedence < top.precedence))

/-- A stack whose top, if it is an operator, has precedence at most `limit`. -/
def TopAtMost {D : Type} (limit : Int) (stack : List (Token D)) : Prop :=
  ∀ top ∈ stack.head?, top.type = TokType.Op → top.precedence ≤ limit

/-- A stack segment made of operators of precedence at least `k`. -/
def OpsAtLeast {D : Type} (k : Int) (pending : List (Token D)) : Prop :=
  ∀ p ∈ pending, p.type = TokType.Op ∧ k ≤ p.precedence

/-- The tokens `a ^ b ^ ... ^` of a started power chain. -/
def chainTokens {D : Type} (ops : DoubleOps D) : List (Leaf D) → List (Token D)
  | [] => []
  | l :: ls => l.token ops :: makeOp ops '^' :: chainTokens ops ls

/-- The effect of the parser loop on a phrase `ts` whose tree has the
post-order `post`, started on a stack whose top is not a function name and, if
an operator, has precedence at most `a`: the loop consumes the phrase without
failing, leaves a segment of pending operators of precedence at least `k` on top
of the untouched stack, and the output followed by the pending operators (top
first) is the old output followed by `post`. -/
def ShuntsTo {D : Type} (a k : Int) (ts post : List (Token D)) : Prop :=
  ∀ (rest stack rpn : List (Token D)), TopAtMost a stack → TopNotFunc stack →
    ∃ pending rpn1, shuntLoop (ts ++ rest) stack rpn = shuntLoop rest (pending ++ stack) rpn1 ∧
      rpn1 ++ pending = rpn ++ post ∧ OpsAtLeast k pending

/-! ### Expressions with parentheses and function calls -/

/-- The table name of a unary function. -/
def UnaryFn.name : UnaryFn → String
  | UnaryFn.sin => "sin"
  | UnaryFn.cos => "cos"
  | UnaryFn.tan => "tan"
  | UnaryFn.asin => "asin"
  | UnaryFn.acos => "acos"
  | UnaryFn.atan => "atan"
  | UnaryFn.exp => "exp"
  | UnaryFn.log => "log"
  | UnaryFn.log10 => "log10"
  | UnaryFn.sqrt => "sqrt"
  | UnaryFn.abs => "abs"
  | UnaryFn.floor => "floor"
  | UnaryFn.ceil => "ceil"

/-- The table name of a binary function. -/
def BinaryFn.name : BinaryFn → String
  | BinaryFn.min => "min"
  | BinaryFn.max => "max"
  | BinaryFn.pow => "pow"

/-- A `Func` token after `bindFunctions` has attached a table entry to it. -/
def Token.bound {D : Type} (t : Token D) (d : FnDef) : Token D :=
  { t with funcArity := d.arity, fn1 := d.fn1, fn2 := d.fn2 }

/-- An expression with operands, binary operators, one-argument calls of the
unary functions and two-argument calls of the binary functions. -/
inductive CallTree (D : Type) where
  | leaf (l : Leaf D)
  | node (l : CallTree D) (op : BinOp) (r : CallTree D)
  | call1 (f : UnaryFn) (arg : CallTree D)
  | call2 (f : BinaryFn) (arg1 arg2 : CallTree D)

/-- The post-order token sequence of an expression, function names unbound:
arguments first, then the function. -/
def CallTree.postOrder {D : Type} (ops : DoubleOps D) : CallTree D → List (Token D)
  | CallTree.leaf l => [l.token ops]
  | CallTree.node l op r => l.postOrder ops ++ r.postOrder ops ++ [makeOp ops op.sym]
  | CallTree.call1 f arg => arg.postOrder ops ++ [Token.mkFunc ops f.name]
  | CallTree.call2 f arg1 arg2 =>
    arg1.postOrder ops ++ arg2.postOrder ops ++ [Token.mkFunc ops f.name]

/-- The post-order token sequence of an expression with every function name
bound to its table entry. -/
def CallTree.program {D : Type} (ops : DoubleOps D) : CallTree D → List (Token D)
  | CallTree.leaf l => [l.token ops]
  | CallTree.node l op r => l.program ops ++ r.program ops ++ [makeOp ops op.sym]
  | CallTree.call1 f arg =>
    arg.program ops ++ [(Token.mkFunc ops f.name).bound ⟨1, some f, none⟩]
  | CallTree.call2 f arg1 arg2 =>
    arg1.program ops ++ arg2.program ops ++ [(Token.mkFunc ops f.name).bound ⟨2, none, some f⟩]

/-- The value of an expression at the point `x`. -/
def CallTree.value {D : Type} (ops : DoubleOps D) (x : List D) : CallTree D → D
  | CallTree.leaf l => l.value ops x
  | CallTree.node l op r => op.apply ops (l.value ops x) (r.value ops x)
  | CallTree.call1 f arg => ops.unary f (arg.value ops x)
  | CallTree.call2 f arg1 arg2 => applyFn2 ops f (arg1.value ops x) (arg2.value ops x)

/-- The operands of an expression, left to right. -/
def CallTree.leaves {D : Type} : CallTree D → List (Leaf D)
  | CallTree.leaf l => [l]
  | CallTree.node l _ r => l.leaves ++ r.leaves
  | CallTree.call1 _ arg => arg.leaves
  | CallTree.call2 _ arg1 arg2 => arg1.leaves ++ arg2.leaves

/-- The levels of the expression grammar. -/
inductive Level where
  | expr
  | term
  | power
  | primary
deriving DecidableEq, Repr

/-- The grammar of well-formed infix token sequences, with the tree each one
denotes:

* `Primary ::= operand | ( Expr ) | f ( Expr ) | g ( Expr , Expr )` for the
  unary table functions `f` and the binary table functions `g`;
* `Power ::= Primary | Primary ^ Power`;
* `Term ::= Power | Term * Power | Term / Power`;
* `Expr ::= Term | Expr + Term | Expr - Term`. -/
inductive Derives {D : Type} (ops : DoubleOps D) :
    Level → List (Token D) → CallTree D → Prop where
  | operand (l : Leaf D) : Derives ops Level.primary [l.token ops] (CallTree.leaf l)
  | group (ts : List (Token D)) (t : CallTree D) :
      Derives ops Level.expr ts t →
      Derives ops Level.primary
        (Token.ofType ops TokType.LParen :: (ts ++ [Token.ofType ops TokType.RParen])) t
  | call1 (f : UnaryFn) (ts : List (Token D)) (t : CallTree D) :
      Derives ops Level.expr ts t →
      Derives ops Level.primary
        (Token.mkFunc ops f.name :: Token.ofType ops TokType.LParen ::
          (ts ++ [Token.ofType ops TokType.RParen]))
        (CallTree.call1 f t)
  | call2 (f : BinaryFn) (ts1 ts2 : List (Token D)) (t1 t2 : CallTree D) :
      Derives ops Level.expr ts1 t1 → Derives ops Level.expr ts2 t2 →
      Derives ops Level.primary
        (Token.mkFunc ops f.name :: Token.ofType ops TokType.LParen ::
          (ts1 ++ Token.ofType ops TokType.Comma ::
            (ts2 ++ [Token.ofType ops TokType.RParen])))
        (CallTree.call2 f t1 t2)
  | primary (ts : List (Token D)) (t : CallTree D) :
      Derives ops Level.primary ts t → Derives ops Level.power ts t
  | pow (ts1 ts2 : List (Token D)) (t1 t2 : CallTree D) :
      Derives ops Level.primary ts1 t1 → Derives ops Level.power ts2 t2 →
      Derives ops Level.power (ts1 ++ makeOp ops '^' :: ts2) (CallTree.node t1 BinOp.pow t2)
  | power (ts : List (Token D)) (t : CallTree D) :
      Derives ops Level.power ts t → Derives ops Level.term ts t
  | mul (ts1 ts2 : List (Token D)) (t1 t2 : CallTree D) :
      Derives ops Level.term ts1 t1 → Derives ops Level.power ts2 t2 →
      Derives ops Level.term (ts1 ++ makeOp ops '*' :: ts2) (CallTree.node t1 BinOp.mul t2)
  | div (ts1 ts2 : List (Token D)) (t1 t2 : CallTree D) :
      Derives ops Level.term ts1 t1 → Derives ops Level.power ts2 t2 →
      Derives ops Level.term (ts1 ++ makeOp ops '/' :: ts2) (CallTree.node t1 BinOp.div t2)
  | term (ts : List (Token D)) (t : CallTree D) :
      Derives ops Level.term ts t → Derives ops Level.expr ts t
  | add (ts1 ts2 : List (Token D)) (t1 t2 : CallTree D) :
      Derives ops Level.expr ts1 t1 → Derives ops Level.term ts2 t2 →
      Derives ops Level.expr (ts1 ++ makeOp ops '+' :: ts2) (CallTree.node t1 BinOp.add t2)
  | sub (ts1 ts2 : List (Token D)) (t1 t2 : CallTree D) :
      Derives ops Level.expr ts1 t1 → Derives ops Level.term ts2 t2 →
      Derives ops Level.expr (ts1 ++ makeOp ops '-' :: ts2) (CallTree.node t1 BinOp.sub t2)

/-- The highest precedence a stack-top operator may have under a phrase of the
level without being popped by the operators of the phrase. -/
def Level.limit : Level → Int
  | Level.expr => 0
  | Level.term => 1
  | Level.power => 3
  | Level.primary => 3

/-- The lowest precedence of an operator that a phrase of the level leaves
pending (a primary leaves none). -/
def Level.floor : Level → Int
  | Level.expr => 1
  | Level.term => 2
  | Level.power => 3
  | Level.primary => 4

/-- The tokens that `tokenize` can emit for dimension `dim`: the three
punctuation tokens, a number, an operator of one of the five characters, a
variable with an index in `[0, dim)`, a function name. -/
inductive Lexed {D : Type} (ops : DoubleOps D) (dim : Int) : Token D → Prop where
  | lparen : Lexed ops dim (Token.ofType ops TokType.LParen)
  | rparen : Lexed ops dim (Token.ofType ops TokType.RParen)
  | comma : Lexed ops dim (Token.ofType ops TokType.Comma)
  | number (v : D) : Lexed ops dim (Token.mkNumber ops v)
  | op (c : Char) : c = '+' ∨ c = '-' ∨ c = '*' ∨ c = '/' ∨ c = '^' →
      Lexed ops dim (makeOp ops c)
  | var (idx : Int) : 0 ≤ idx → idx < dim → Lexed ops dim (Token.mkVar ops idx)
  | func (name : String) : Lexed ops dim (Token.mkFunc ops name)

/-- Every variable of the expression has an index below `n`. -/
def CallTree.VarsBelow {D : Type} (n : Nat) (t : CallTree D) : Prop :=
  ∀ idx : Nat, Leaf.var idx ∈ t.leaves → idx < n

/-! ### Parentheses, commas and token kinds (reference notions of the claims) -/

/-- The number of `LParen` tokens on the operator stack: the parentheses that
are open. -/
def countLParen {D : Type} : List (Token D) → Nat
  | [] => 0
  | t :: ts => if t.type = TokType.LParen then countLParen ts + 1 else countLParen ts

/-- The outcome of reading the parentheses and commas of a token sequence left
to right: the depth reached at the end, or the first offence, a `RParen` with
no open `LParen` or a `Comma` with no open `LParen`. -/
inductive ScanResult where
  | depth (n : Nat)
  | closeWithoutOpen
  | commaOutside
deriving DecidableEq, Repr

/-- Read the parentheses and commas of a token sequence from parenthesis depth
`d`: `LParen` opens, `RParen` closes the innermost open parenthesis, a `Comma`
needs an open parenthesis; every other token is skipped. -/
def syntaxScan {D : Type} : Nat → List (Token D) → ScanResult
  | d, [] => ScanResult.depth d
  | d, t :: ts =>
    if t.type = TokType.LParen then syntaxScan (d + 1) ts
    else if t.type = TokType.RParen then
      if d = 0 then ScanResult.closeWithoutOpen else syntaxScan (d - 1) ts
    else if t.type = TokType.Comma then
      if d = 0 then ScanResult.commaOutside else syntaxScan d ts
    else syntaxScan d ts

/-- A token that may wait on the operator stack: a function name, an operator
or an opening parenthesis. -/
def Token.StackKind {D : Type} (t : Token D) : Prop :=
  t.type = TokType.Func ∨ t.type = TokType.Op ∨ t.type = TokType.LParen

/-- A token of a postfix sequence: a number, a variable, an operator or a
function. -/
def Token.PostfixKind {D : Type} (t : Token D) : Prop :=
  t.type = TokType.Number ∨ t.type = TokType.Var ∨ t.type = TokType.Op ∨
    t.type = TokType.Func

/-! ### The function table (reference notions of the claims) -/

/-- The thirteen unary function names. -/
def unaryNames : List String :=
  ["sin", "cos", "tan", "asin", "acos", "atan", "exp", "log", "log10", "sqrt", "abs",
    "floor", "ceil"]

/-- The three binary function names. -/
def binaryNames : List String := ["min", "max", "pow"]

/-- The sixteen names of the function table. -/
def tableNames : List String := unaryNames ++ binaryNames

/-- What the binder makes of one token: a token that is not a `Func` stays as
it is, a `Func` token gets the arity and the operations of its table entry. -/
def BoundAs {D : Type} (t t1 : Token D) : Prop :=
  (t.type ≠ TokType.Func ∧ t1 = t) ∨
    (t.type = TokType.Func ∧ ∃ d, findFn t.funcName = some d ∧ t1 = t.bound d)
/-- The frame of the binder for one token, by the two groups of table names: a
token that is not a `Func` is unchanged; a `Func` token with a unary name gets
arity 1 and the unary operation of that name; a `Func` token with a binary name
gets arity 2 and the binary operation of that name; nothing else of the token
changes. -/
def BoundPerTable {D : Type} (t t1 : Token D) : Prop :=
  (t.type ≠ TokType.Func → t1 = t) ∧
    (t.type = TokType.Func → t.funcName ∈ unaryNames →
      ∃ f : UnaryFn, f.name = t.funcName ∧ t1 = t.bound ⟨1, some f, none⟩ ∧
        t1.funcArity = 1 ∧ t1.fn1 = some f) ∧
    (t.type = TokType.Func → t.funcName ∈ binaryNames →
      ∃ f : BinaryFn, f.name = t.funcName ∧ t1 = t.bound ⟨2, none, some f⟩ ∧
        t1.funcArity = 2 ∧ t1.fn2 = some f)

/-- One of the five operator characters. -/
def IsOpSymbol (c : Char) : Prop := c = '+' ∨ c = '-' ∨ c = '*' ∨ c = '/' ∨ c = '^'

/-- A directly executable token: a number, a variable, an operator with one of
the five symbols, or a function with arity 1 and a unary operation set or arity
2 and a binary operation set. -/
def Token.Executable {D : Type} (t : Token D) : Prop :=
  t.type = TokType.Number ∨ t.type = TokType.Var ∨
    (t.type = TokType.Op ∧ IsOpSymbol t.op) ∨
    (t.type = TokType.Func ∧
      ((t.funcArity = 1 ∧ ∃ f, t.fn1 = some f) ∨ (t.funcArity = 2 ∧ ∃ f, t.fn2 = some f)))

/-- A token of a program as far as the stack discipline goes: a number, a
variable, an operator with one of the five symbols, or a function of arity 1 or
2 (with or without an operation attached). -/
def Token.Runnable {D : Type} (t : Token D) : Prop :=
  t.type = TokType.Number ∨ t.type = TokType.Var ∨
    (t.type = TokType.Op ∧ IsOpSymbol t.op) ∨
    (t.type = TokType.Func ∧ (t.funcArity = 1 ∨ t.funcArity = 2))

/-- A token whose variable index, if it is a variable, is inside a vector of
length `n`. -/
def Token.VarInside {D : Type} (n : Nat) (t : Token D) : Prop :=
  t.type = TokType.Var → 0 ≤ t.varIndex ∧ t.varIndex.toNat < n

/-- The stack-depth discipline of a postfix program, from depth `d`: a Number or
Var adds one; an Op or an arity-2 Func needs depth at least 2 and removes one;
an arity-1 Func needs depth at least 1 and keeps the depth.  `none` when a
requirement fails, else the final depth. -/
def depthRun {D : Type} : List (Token D) → Nat → Option Nat
  | [], d => some d
  | t :: ts, d =>
    if t.type = TokType.Number ∨ t.type = TokType.Var then depthRun ts (d + 1)
    else if t.type = TokType.Op ∨ (t.type = TokType.Func ∧ t.funcArity = 2) then
      if 2 ≤ d then depthRun ts (d - 1) else none
    else if t.type = TokType.Func ∧ t.funcArity = 1 then
      if 1 ≤ d then depthRun ts d else none
    else none
/-- The evaluator follows the stack-depth discipline on the program `prog` and
the vector `x`: it returns a value, the one value left on its stack, exactly
when no requirement of the discipline fails and the final depth is 1; it takes
the underflow exit when a requirement fails and the final-size exit when the
final depth is not 1, and returns the NaN sentinel in both cases. -/
def DepthOutcome {D : Type} (ops : DoubleOps D) (prog : List (Token D)) (x : List D) : Prop :=
  ((∃ v, evalRun ops prog x = Except.ok v) ↔ depthRun prog 0 = some 1) ∧
    (∀ v, evalRun ops prog x = Except.ok v →
      evalLoop ops x prog [] = Except.ok [v] ∧ evalRPN ops prog x = v) ∧
    (depthRun prog 0 = none →
      evalRun ops prog x = Except.error EvalExit.underflow ∧ evalRPN ops prog x = ops.nan) ∧
    (∀ n, depthRun prog 0 = some n → n ≠ 1 →
      evalRun ops prog x = Except.error EvalExit.finalSize ∧ evalRPN ops prog x = ops.nan)

/-! ### The main loop of the tokenizer (reference notions of the claims) -/

/-- The characters on which no branch of the main loop of `tokenize` applies:
not white space, not a parenthesis or a comma, not the start of a number, not an
operator, not the start of an identifier. -/
def isOtherChar (c : Char) : Bool :=
  !(isSpace c || decide (c = '(') || decide (c = ')') || decide (c = ',') ||
    isDigit c || decide (c = '.') ||
    decide (c = '+') || decide (c = '-') || decide (c = '*') || decide (c = '/') ||
    decide (c = '^') || isAlpha c || decide (c = '_'))

/-- The states `(i, expectValue, out)` in which the main loop of `tokenize` on
the text `s` tests its condition: the initial state, and the state after every
iteration that does not return. -/
inductive LexReach {D : Type} (ops : DoubleOps D) (s : List Char) (dim : Int) :
    Nat → Bool → List (Token D) → Prop where
  | start : LexReach ops s dim 0 true []
  | step (i : Nat) (ev : Bool) (out : List (Token D)) (i1 : Nat) (ev1 : Bool)
      (out1 : List (Token D)) : LexReach ops s dim i ev out → i < s.length →
      tokenizeIter ops s dim i ev out = LexStep.next i1 ev1 out1 →
      LexReach ops s dim i1 ev1 out1

/-- The value of `expectValue` as a function of the tokens emitted so far: true
when there is none, or when the last one is a `LParen`, a `Comma`, an operator or
a function name. -/
def valueExpectedAfter {D : Type} (out : List (Token D)) : Bool :=
  match out.getLast? with
  | none => true
  | some t =>
    decide (t.type = TokType.LParen) || decide (t.type = TokType.Comma) ||
      decide (t.type = TokType.Op) || decide (t.type = TokType.Func)

/-- The positions that the specification gives for a unary minus: the first
token, or directly after a `LParen`, a `Comma` or an operator. -/
def unaryPositionInSpec {D : Type} (out : List (Token D)) : Bool :=
  match out.getLast? with
  | none => true
  | some t =>
    decide (t.type = TokType.LParen) || decide (t.type = TokType.Comma) ||
      decide (t.type = TokType.Op)

deriving instance DecidableEq for LexStep

/-! ### Balanced parentheses by counting (reference notions of the claims) -/

/-- The number of tokens of type `ty` in a token sequence. -/
def countType {D : Type} (ty : TokType) (ts : List (Token D)) : Nat :=
  ts.countP (fun t => decide (t.type = ty))

/-- Balanced parentheses: every prefix has at least as many `LParen` as
`RParen`, and the totals are equal. -/
def ParensBalanced {D : Type} (ts : List (Token D)) : Prop :=
  (∀ pre suf : List (Token D), ts = pre ++ suf →
      countType TokType.RParen pre ≤ countType TokType.LParen pre) ∧
    countType TokType.LParen ts = countType TokType.RParen ts

/-- Every `Comma` stands at parenthesis depth at least 1: before it, more
`LParen` than `RParen` have been read. -/
def CommasInParens {D : Type} (ts : List (Token D)) : Prop :=
  ∀ (pre : List (Token D)) (t : Token D) (suf : List (Token D)), ts = pre ++ t :: suf →
    t.type = TokType.Comma →
    countType TokType.RParen pre + 1 ≤ countType TokType.LParen pre

/-! ### Iteration counts of the loops (reference notions of the claims) -/

/-- The number of times the body of the `while` loop of the `Comma` branch is
entered on the stack: once per popped token, and once for the `LParen` that ends
it. -/
def popToLParenKeepIters {D : Type} : List (Token D) → Nat
  | [] => 0
  | top :: rest => if top.type = TokType.LParen then 1 else popToLParenKeepIters rest + 1

/-- The number of times the body of the `while` loop of the `Op` branch is
entered: once per popped operator, and once for the token that ends it. -/
def popOperatorsIters {D : Type} (t : Token D) : List (Token D) → Nat
  | [] => 0
  | top :: rest =>
    if top.type ≠ TokType.Op then 1
    else if (!t.rightAssoc && decide (t.precedence ≤ top.precedence)) ||
        (t.rightAssoc && decide (t.precedence < top.precedence)) then
      popOperatorsIters t rest + 1
    else 1

/-- The number of times the body of the `while` loop of the `RParen` branch is
entered: once per popped token, and once for the `LParen` that ends it. -/
def popToLParenDropIters {D : Type} : List (Token D) → Nat
  | [] => 0
  | top :: rest => if top.type = TokType.LParen then 1 else popToLParenDropIters rest + 1

/-- The inner-loop iterations of one iteration of the `for` loop of
`shuntingYardToRPN` on token `t` with the given stack. -/
def shuntStepIters {D : Type} (t : Token D) (stack : List (Token D)) : Nat :=
  if t.type = TokType.Number ∨ t.type = TokType.Var then 0
  else if t.type = TokType.Func then 0
  else if t.type = TokType.Comma then popToLParenKeepIters stack
  else if t.type = TokType.Op then popOperatorsIters t stack
  else if t.type = TokType.LParen then 0
  else if t.type = TokType.RParen then popToLParenDropIters stack
  else 0

/-- The iterations of the `for` loop of `shuntingYardToRPN` together with those
of its inner loops, up to the end of the input or to the failing token. -/
def shuntLoopIters {D : Type} : List (Token D) → List (Token D) → List (Token D) → Nat
  | [], _, _ => 0
  | t :: ts, stack, rpn =>
    1 + shuntStepIters t stack +
      (match shuntStep t stack rpn with
        | Except.error _ => 0
        | Except.ok (stack1, rpn1) => shuntLoopIters ts stack1 rpn1)

/-- The number of times the body of the final `while` loop of
`shuntingYardToRPN` is entered. -/
def shuntDrainIters {D : Type} : List (Token D) → Nat
  | [] => 0
  | top :: rest =>
    if top.type = TokType.LParen ∨ top.type = TokType.RParen then 1
    else shuntDrainIters rest + 1

/-- All loop iterations of one call of `shuntingYardToRPN`. -/
def shuntingYardIters {D : Type} (input : List (Token D)) : Nat :=
  shuntLoopIters input [] [] +
    (match shuntLoop input [] [] with
      | Except.error _ => 0
      | Except.ok (stack, _) => shuntDrainIters stack)

/-- The iterations of the `for` loop of `bindFunctions`, up to the end of the
sequence or to the unknown name. -/
def bindFunctionsIters {D : Type} : List (Token D) → Nat
  | [] => 0
  | t :: ts =>
    if t.type ≠ TokType.Func then 1 + bindFunctionsIters ts
    else
      match findFn t.funcName with
      | none => 1
      | some _ => 1 + bindFunctionsIters ts

/-- The iterations of the loop of `evalRPN`, up to the end of the program or to
the token at which it returns. -/
def evalLoopIters {D : Type} (ops : DoubleOps D) (x : List D) : List (Token D) → List D → Nat
  | [], _ => 0
  | t :: ts, st =>
    match evalStep ops x t st with
    | Except.error _ => 1
    | Except.ok st1 => 1 + evalLoopIters ops x ts st1

/-! ### The tokens that the parser keeps (reference notions of the claims) -/

/-- A token that belongs in a postfix sequence: a number, a variable, an
operator or a function name (not a parenthesis or a comma). -/
def Token.isKept {D : Type} (t : Token D) : Bool :=
  decide (t.type = TokType.Number) || decide (t.type = TokType.Var) ||
    decide (t.type = TokType.Op) || decide (t.type = TokType.Func)

/-- An operand token: a number or a variable. -/
def Token.isOperand {D : Type} (t : Token D) : Bool :=
  decide (t.type = TokType.Number) || decide (t.type = TokType.Var)

/-! ### Numeric literals (reference notions of the claims) -/

/-- A numeric literal as `tokenize` reads one: it starts with a digit, the
number scanner consumes all of it, and it ends in a digit or a decimal point (so
that no exponent marker or exponent sign is left open at its end). -/
def isNumeral (cs : List Char) : Bool :=
  match cs with
  | [] => false
  | c :: _ =>
    isDigit c && decide (scanNumber cs false = cs.length) &&
      (match cs.getLast? with
        | some l => isDigit l || decide (l = '.')
        | none => false)

/-! ### Tokens without their numbers (reference notions of the claims) -/

/-- A token with its `number` field blanked: what the parser, the binder and the
stack discipline of the evaluator see of it. -/
def Token.shape {D : Type} (t : Token D) : Token Unit :=
  { type := t.type, number := (), varIndex := t.varIndex, op := t.op,
    precedence := t.precedence, rightAssoc := t.rightAssoc, funcName := t.funcName,
    funcArity := t.funcArity, fn1 := t.fn1, fn2 := t.fn2 }

/-- Whether `std::stod` of the arithmetic `ops` accepts every number text that
the number scanner cuts out of the text `s`, from whichever digit it starts. -/
def numeralsAccepted {D : Type} (ops : DoubleOps D) (s : List Char) : Bool :=
  (List.range s.length).all (fun i =>
    match s.drop i with
    | [] => true
    | c :: rest =>
      !isDigit c || (ops.stod ((c :: rest).take (scanNumber (c :: rest) false))).isSome)

/-! ### Signed overflow in the index loop (undefined behaviour of the source)

The index loop of `tokenize` computes `idx = idx*10 + (id[k]-'0')` in `int`
without an overflow test.  Where a value leaves the range of `int` the source
has no defined behaviour, and builds differ: `tokenize` above is the build whose
accumulator wraps and that keeps the test `idx<0`; an optimising compiler may
drop that test, which no computation without overflow can make true.  The
definitions below say where the source is defined and describe a build by what
it does where it is not. -/

/-- Whether the index loop (lines 147-150) on the characters `id[1..]`, from the
accumulator `idx`, stays inside `int`: each value `idx*10 + digit` it computes
is at most `INT_MAX`.  The loop stops at the first character that is no
digit. -/
def indexFits : List Char → Int → Bool
  | [], _ => true
  | c :: cs, idx =>
    if isDigit c then
      decide (idx * 10 + ((c.toNat : Int) - 48) ≤ 2147483647) &&
        indexFits cs (idx * 10 + ((c.toNat : Int) - 48))
    else true

/-- Whether the identifier branch of `tokenize` on the identifier `id` computes
no `int` that overflows: the index loop runs on an `x` or `X` followed by at
least one character. -/
def identFits (id : List Char) : Bool :=
  if 2 ≤ id.length ∧ (id.head? = some 'x' ∨ id.head? = some 'X') then indexFits id.tail 0
  else true

/-- Whether the source defines the behaviour of `tokenize` on the text `s`: no
identifier that starts at a position of `s` overflows the index accumulator. -/
def textFits (s : List Char) : Bool :=
  (List.range s.length).all (fun i =>
    match s.drop i with
    | [] => true
    | c :: rest =>
      !(isAlpha c || decide (c = '_')) || identFits ((c :: rest).take (scanIdent (c :: rest))))

/-- What the identifier branch of a build does on an identifier whose index
accumulator overflows: it fails with the out-of-range diagnostic, emits a
variable with some index, or takes the identifier for a function name. -/
inductive OverflowOutcome where
  | reject
  | asVariable (idx : Int)
  | asFunction
deriving DecidableEq, Repr

/-- A build of the program, as far as it differs from the source: its outcome
on an identifier `id` whose index accumulator overflows, at dimension `dim`. -/
structure Build where
  onOverflow : Int → List Char → OverflowOutcome

/-- The build without optimisation: the accumulator wraps to 32 bits and the
test `idx<0 || idx>=dim` is carried out as written. -/
def Build.plain : Build :=
  { onOverflow := fun dim id =>
      match parseIndex id.tail 0 with
      | some idx => if idx < 0 ∨ idx ≥ dim then OverflowOutcome.reject
        else OverflowOutcome.asVariable idx
      | none => OverflowOutcome.asFunction }

/-- The optimised build: the accumulator wraps to 32 bits, and the test `idx<0`
is removed, so that only `idx>=dim` is tested. -/
def Build.optimised : Build :=
  { onOverflow := fun dim id =>
      match parseIndex id.tail 0 with
      | some idx => if idx ≥ dim then OverflowOutcome.reject else OverflowOutcome.asVariable idx
      | none => OverflowOutcome.asFunction }

/-- The identifier branch of `tokenize` in the build `b`: the branch of the
source where the source defines it, the outcome of the build where the index
accumulator overflows. -/
def lexIdentB {D : Type} (b : Build) (ops : DoubleOps D) (dim : Int) (id : List Char) (j : Nat)
    (out : List (Token D)) : LexStep D :=
  if identFits id = true then lexIdent ops dim id j out
  else
    match b.onOverflow dim id with
    | OverflowOutcome.reject =>
      LexStep.fail ("Variable " ++ String.mk id ++ " out of range for dimension " ++
        toString dim ++ ".")
    | OverflowOutcome.asVariable idx => LexStep.next j false (out ++ [Token.mkVar ops idx])
    | OverflowOutcome.asFunction => LexStep.next j true (out ++ [Token.mkFunc ops (String.mk id)])

/-- One iteration of the main loop of `tokenize` in the build `b`: `tokenizeIter`
with the identifier branch of the build. -/
def tokenizeIterB {D : Type} (b : Build) (ops : DoubleOps D) (s : List Char) (dim : Int)
    (i : Nat) (expectValue : Bool) (out : List (Token D)) : LexStep D :=
  match s.drop i with
  | [] => LexStep.next i expectValue out
  | c :: rest =>
    if isSpace c then LexStep.next (i + 1) expectValue out
    else if c = '(' then LexStep.next (i + 1) true (out ++ [Token.ofType ops TokType.LParen])
    else if c = ')' then LexStep.next (i + 1) false (out ++ [Token.ofType ops TokType.RParen])
    else if c = ',' then LexStep.next (i + 1) true (out ++ [Token.ofType ops TokType.Comma])
    else if isDigit c ∨ c = '.' then
      let j := i + scanNumber (c :: rest) (decide (c = '.'))
      match ops.stod ((c :: rest).take (j - i)) with
      | none => LexStep.fail "Invalid number token."
      | some val => LexStep.next j false (out ++ [Token.mkNumber ops val])
    else if c = '+' ∨ c = '-' ∨ c = '*' ∨ c = '/' ∨ c = '^' then
      if c = '-' ∧ expectValue = true then
        LexStep.next (i + 1) true (out ++ [Token.mkNumber ops ops.zero, makeOp ops '-'])
      else LexStep.next (i + 1) true (out ++ [makeOp ops c])
    else if isAlpha c ∨ c = '_' then
      let j := i + scanIdent (c :: rest)
      lexIdentB b ops dim ((c :: rest).take (j - i)) j out
    else LexStep.fail ("Unexpected character '" ++ String.singleton c ++ "'.")

/-- The main loop of `tokenize` in the build `b`, run for at most `fuel`
iterations. -/
def tokenizeLoopB {D : Type} (b : Build) (ops : DoubleOps D) (s : List Char) (dim : Int) :
    Nat → Nat → Bool → List (Token D) → Option (Except String (List (Token D)))
  | 0, i, _, out => if i < s.length then none else some (Except.ok out)
  | fuel + 1, i, expectValue, out =>
    if i < s.length then
      match tokenizeIterB b ops s dim i expectValue out with
      | LexStep.fail m => some (Except.error m)
      | LexStep.next i1 ev1 out1 => tokenizeLoopB b ops s dim fuel i1 ev1 out1
    else some (Except.ok out)

/-- The function `tokenize` in the build `b`; `s.size()` iterations are enough
(`tokenizeB_spec`). -/
def tokenizeB {D : Type} (b : Build) (ops : DoubleOps D) (s : List Char) (dim : Int) :
    Except String (List (Token D)) :=
  match tokenizeLoopB b ops s dim s.length 0 true [] with
  | some r => r
  | none => Except.error "tokenize: iteration bound exceeded"

/-- The function `setExpression` in the build `b`. -/
def setExpressionB {D : Type} (b : Build) (ops : DoubleOps D) (_self : ObjectiveFunction D)
    (expr : String) (dimension : Int) : ObjectiveFunction D × Except String Unit :=
  let self1 : ObjectiveFunction D := { dim_ := dimension, expr_ := expr, rpn_ := [] }
  if dimension ≤ 0 then (self1, Except.error "Dimension must be >= 1.")
  else
    match tokenizeB b ops expr.data dimension with
    | Except.error m => (self1, Except.error m)
    | Except.ok toks =>
      match shuntingYardToRPN toks with
      | Except.error m => (self1, Except.error m)
      | Except.ok rpn =>
        match bindFunctions rpn with
        | Except.error m => (self1, Except.error m)
        | Except.ok rpn1 => ({ self1 with rpn_ := rpn1 }, Except.ok ())

/-! ### The loops with their iterations counted

Each function below is the embedded function with a counter added: it returns
the result of the embedded function (`shuntingYardCounted_eq` and the like)
together with the number of times a loop body was entered. -/

/-- The `Comma` branch `popToLParenKeep` with the number of times the body of
its `while` loop is entered. -/
def popToLParenKeepCounted {D : Type} :
    List (Token D) → List (Token D) → (Bool × List (Token D) × List (Token D)) × Nat
  | [], rpn => ((false, [], rpn), 0)
  | top :: rest, rpn =>
    if top.type = TokType.LParen then ((true, top :: rest, rpn), 1)
    else
      ((popToLParenKeepCounted rest (rpn ++ [top])).1,
        (popToLParenKeepCounted rest (rpn ++ [top])).2 + 1)

/-- The `Op` branch `popOperators` with the number of times the body of its
`while` loop is entered. -/
def popOperatorsCounted {D : Type} (t : Token D) :
    List (Token D) → List (Token D) → (List (Token D) × List (Token D)) × Nat
  | [], rpn => (([], rpn), 0)
  | top :: rest, rpn =>
    if top.type ≠ TokType.Op then ((top :: rest, rpn), 1)
    else if (!t.rightAssoc && decide (t.precedence ≤ top.precedence)) ||
        (t.rightAssoc && decide (t.precedence < top.precedence)) then
      ((popOperatorsCounted t rest (rpn ++ [top])).1,
        (popOperatorsCounted t rest (rpn ++ [top])).2 + 1)
    else ((top :: rest, rpn), 1)

/-- The `RParen` branch `popToLParenDrop` with the number of times the body of
its `while` loop is entered. -/
def popToLParenDropCounted {D : Type} :
    List (Token D) → List (Token D) → (Bool × List (Token D) × List (Token D)) × Nat
  | [], rpn => ((false, [], rpn), 0)
  | top :: rest, rpn =>
    if top.type = TokType.LParen then ((true, rest, rpn), 1)
    else
      ((popToLParenDropCounted rest (rpn ++ [top])).1,
        (popToLParenDropCounted rest (rpn ++ [top])).2 + 1)

/-- One iteration `shuntStep` of the `for` loop of `shuntingYardToRPN` with the
number of iterations of its inner loop. -/
def shuntStepCounted {D : Type} (t : Token D) (stack rpn : List (Token D)) :
    Except String (List (Token D) × List (Token D)) × Nat :=
  if t.type = TokType.Number ∨ t.type = TokType.Var then
    (Except.ok (stack, rpn ++ [t]), 0)
  else if t.type = TokType.Func then
    (Except.ok (t :: stack, rpn), 0)
  else if t.type = TokType.Comma then
    match popToLParenKeepCounted stack rpn with
    | ((false, _, _), n) =>
      (Except.error "Misplaced comma or missing parentheses in function arguments.", n)
    | ((true, stack1, rpn1), n) => (Except.ok (stack1, rpn1), n)
  else if t.type = TokType.Op then
    match popOperatorsCounted t stack rpn with
    | ((stack1, rpn1), n) => (Except.ok (t :: stack1, rpn1), n)
  else if t.type = TokType.LParen then
    (Except.ok (t :: stack, rpn), 0)
  else if t.type = TokType.RParen then
    match popToLParenDropCounted stack rpn with
    | ((false, _, _), n) => (Except.error "Mismatched parentheses.", n)
    | ((true, stack1, rpn1), n) =>
      match stack1 with
      | top :: rest =>
        if top.type = TokType.Func then (Except.ok (rest, rpn1 ++ [top]), n)
        else (Except.ok (top :: rest, rpn1), n)
      | [] => (Except.ok ([], rpn1), n)
  else
    (Except.ok (stack, rpn), 0)

/-- The `for` loop `shuntLoop` with the number of its iterations and of those
of the inner loops. -/
def shuntLoopCounted {D : Type} :
    List (Token D) → List (Token D) → List (Token D) →
      Except String (List (Token D) × List (Token D)) × Nat
  | [], stack, rpn => (Except.ok (stack, rpn), 0)
  | t :: ts, stack, rpn =>
    match shuntStepCounted t stack rpn with
    | (Except.error m, n) => (Except.error m, n + 1)
    | (Except.ok (stack1, rpn1), n) =>
      ((shuntLoopCounted ts stack1 rpn1).1, (shuntLoopCounted ts stack1 rpn1).2 + n + 1)

/-- The final `while` loop `shuntDrain` with the number of times its body is
entered. -/
def shuntDrainCounted {D : Type} :
    List (Token D) → List (Token D) → Except String (List (Token D)) × Nat
  | [], rpn => (Except.ok rpn, 0)
  | top :: rest, rpn =>
    if top.type = TokType.LParen ∨ top.type = TokType.RParen then
      (Except.error "Mismatched parentheses at end.", 1)
    else ((shuntDrainCounted rest (rpn ++ [top])).1, (shuntDrainCounted rest (rpn ++ [top])).2 + 1)

/-- The function `shuntingYardToRPN` with the number of iterations of all its
loops. -/
def shuntingYardCounted {D : Type} (input : List (Token D)) :
    Except String (List (Token D)) × Nat :=
  match shuntLoopCounted input [] [] with
  | (Except.error m, n) => (Except.error m, n)
  | (Except.ok (stack, rpn), n) =>
    ((shuntDrainCounted stack rpn).1, n + (shuntDrainCounted stack rpn).2)

/-- The function `bindFunctions` with the number of iterations of its loop. -/
def bindFunctionsCounted {D : Type} : List (Token D) → Except String (List (Token D)) × Nat
  | [] => (Except.ok [], 0)
  | t :: ts =>
    if t.type ≠ TokType.Func then
      match bindFunctionsCounted ts with
      | (Except.error m, n) => (Except.error m, n + 1)
      | (Except.ok ts1, n) => (Except.ok (t :: ts1), n + 1)
    else
      match findFn t.funcName with
      | none => (Except.error ("Unknown function '" ++ t.funcName ++ "'."), 1)
      | some d =>
        match bindFunctionsCounted ts with
        | (Except.error m, n) => (Except.error m, n + 1)
        | (Except.ok ts1, n) =>
          (Except.ok ({ t with funcArity := d.arity, fn1 := d.fn1, fn2 := d.fn2 } :: ts1), n + 1)

/-- The loop `evalLoop` of `evalRPN` with the number of its iterations: the
number of tokens on which `evalStep` is run. -/
def evalLoopCounted {D : Type} (ops : DoubleOps D) (x : List D) :
    List (Token D) → List D → Except EvalExit (List D) × Nat
  | [], st => (Except.ok st, 0)
  | t :: ts, st =>
    match evalStep ops x t st with
    | Except.error e => (Except.error e, 1)
    | Except.ok st1 => ((evalLoopCounted ops x ts st1).1, (evalLoopCounted ops x ts st1).2 + 1)

end ObjectiveFunction

/-! ## The mesh builder: `SurfaceWidget::buildMeshCPU`

The first pass of `buildMeshCPU` (lines 293-314 of `SurfaceWidget.cpp`) stores
one height per grid point.  The heights are values of `ERat`, which holds every
double; the pass only classifies, compares and selects them, so no rounding is
involved, and `1e12` is the integer `10^12`.  The sizes of the vertex and index
vectors are computed in `int`; a product that leaves the range of `int` is
undefined behaviour. -/

namespace SurfaceWidget

/-- The test `std::isfinite`. -/
def isFinite : ERat → Bool
  | ERat.fin _ => true
  | _ => false

/-- The literal `1e12`. -/
def heightLimit : ℚ := 1000000000000

/-- The treatment of one sampled value `z = obj_.evaluate(x)` (lines 304-307):
`if(!std::isfinite(z)) z = 0.0;` and then
`if(std::fabs(z) > 1e12) z = (z>0?1e12:-1e12);`. -/
def tameHeight (z : ERat) : ERat :=
  let z1 := if isFinite z = false then ERat.fin 0 else z
  if ERat.lt (ERat.fin heightLimit) (ERat.unary ObjectiveFunction.UnaryFn.abs z1) = true then
    (if ERat.lt (ERat.fin 0) z1 = true then ERat.fin heightLimit else ERat.fin (-heightLimit))
  else z1

/-- The vector `zs` after the two nested loops over `j` and `i` (lines 293-314)
on a grid of `N` by `N` points, in the order of the index `j*N+i`; `sample j i`
is the value that `obj_.evaluate` returns at the grid point. -/
def sampledHeights (sample : Nat → Nat → ERat) (N : Nat) : List ERat :=
  (List.range N).flatMap (fun j => (List.range N).map (fun i => tameHeight (sample j i)))

/-- The running minimum and maximum `zMin`, `zMax` after the first pass (lines
289-291 and 311-312), over the stored heights in the order of the loops: they
start at `+infinity` and `-infinity`, and each height `z` is taken by
`if(z<zMin) zMin=z; if(z>zMax) zMax=z;`. -/
def trackRange (zs : List ERat) : ERat × ERat :=
  zs.foldl
    (fun p z => (if ERat.lt z p.1 = true then z else p.1, if ERat.lt p.2 z = true then z else p.2))
    (ERat.posInf, ERat.negInf)

/-- The pair `zMin`, `zMax` after the reset of lines 316-318:
`if(!std::isfinite(zMin) || !std::isfinite(zMax) || zMax==zMin){ zMin = 0.0; zMax = 1.0; }`
(on finite values `==` is equality of the values). -/
def heightRange (zs : List ERat) : ERat × ERat :=
  let p := trackRange zs
  if isFinite p.1 = false ∨ isFinite p.2 = false ∨ p.2 = p.1 then (ERat.fin 0, ERat.fin 1)
  else p

/-- The divisor `zRange = zMax - zMin` of line 323, which is also the divisor
`(zMax - zMin)` of line 339. -/
def zRange (zs : List ERat) : ERat :=
  ERat.sub (heightRange zs).2 (heightRange zs).1

/-- Whether a value of an `int` expression is in the range of `int`. -/
def inInt (v : Int) : Bool := decide (-2147483648 ≤ v) && decide (v ≤ 2147483647)

/-- The six indices that the index loop appends for the cell `(j, i)` (lines
360-367): the triangles `i0 i2 i1` and `i1 i2 i3`. -/
def cellIndices (N j i : Nat) : List Nat :=
  [j * N + i, (j + 1) * N + i, j * N + (i + 1),
    j * N + (i + 1), (j + 1) * N + i, (j + 1) * N + (i + 1)]

/-- The vector `indices_` after the two nested loops over `j` and `i` below
`N-1` (lines 357-369). -/
def gridIndices (N : Nat) : List Nat :=
  (List.range (N - 1)).flatMap (fun j => (List.range (N - 1)).flatMap (fun i => cellIndices N j i))

/-- The vector `vertices_` as far as its slots go: `resize(N*N)` makes `N*N`
default-constructed slots, and the second pass (lines 326-353) assigns the slot
`j*N+i` the vertex of the grid point `(j, i)`; a slot holds the grid point whose
vertex it was assigned. -/
def gridVertices (N : Nat) : List (Option (Nat × Nat)) :=
  (List.range N).foldl
    (fun vs j => (List.range N).foldl (fun vs1 i => vs1.set (j * N + i) (some (j, i))) vs)
    (List.replicate (N * N) none)

/-- The members `vertices_` and `indices_`, as far as sizes and indices go. -/
structure Mesh where
  vertices : List (Option (Nat × Nat))
  indices : List Nat
deriving DecidableEq

/-- The function `buildMeshCPU` as far as the sizes of the mesh go, for the grid
size `gridN_`.  The products `N*N` and `(N-1)*(N-1)*6` are computed in `int`;
when one of them leaves the range of `int` the behaviour is undefined, and the
result is `none`. -/
def buildMeshCPU (gridN : Int) : Option Mesh :=
  if gridN < 3 then some { vertices := [], indices := [] }
  else if inInt (gridN * gridN) && inInt ((gridN - 1) * (gridN - 1)) &&
      inInt ((gridN - 1) * (gridN - 1) * 6) then
    some { vertices := gridVertices gridN.toNat, indices := gridIndices gridN.toNat }
  else none

end SurfaceWidget

/-! ## The preset catalog: `MainWindow::populatePresets`

The entries of the catalog that are given as a string literal, in the order of
the source, each with its name, its expression text and its declared dimension
(the sampling bounds of an entry are left out).  Selecting one of them passes
its text and its dimension to `setExpression` (`onPresetChanged`, `onApply`). -/

namespace MainWindow

/-- The fields `name`, `expr` and `dim` of `struct Preset`. -/
structure Preset where
  name : String
  expr : String
  dim : Int
deriving DecidableEq

/-- The analytic presets added by `populatePresets`. -/
def analyticPresets : List Preset :=
  [
    ⟨"rastrigin",
      "20 + (x0^2 - 10*cos(2*pi*x0)) + (x1^2 - 10*cos(2*pi*x1))", 2⟩,
    ⟨"rosenbrock",
      "(1 - x0)^2 + 100*(x1 - x0^2)^2", 2⟩,
    ⟨"ackley",
      "-20*exp(-0.2*sqrt(0.5*(x0^2+x1^2))) - exp(0.5*(cos(2*pi*x0)+cos(2*pi*x1))) + 20 + e", 2⟩,
    ⟨"sphere",
      "x0^2 + x1^2", 2⟩,
    ⟨"griewank",
      "1 + (x0^2 + x1^2)/4000 - cos(x0)*cos(x1/sqrt(2))", 2⟩,
    ⟨"levy",
      "(sin(3*pi*x0))^2 + (x0-1)^2*(1 + (sin(3*pi*x1))^2) + (x1-1)^2*(1 + (sin(2*pi*x1))^2)", 2⟩,
    ⟨"bohachevsky1",
      "x0^2 + 2*x1^2 - 0.3*cos(3*pi*x0) - 0.4*cos(4*pi*x1) + 0.7", 2⟩,
    ⟨"bohachevsky2",
      "x0^2 + 2*x1^2 - 0.3*cos(3*pi*x0)*cos(4*pi*x1) + 0.3", 2⟩,
    ⟨"bohachevsky3",
      "x0^2 + 2*x1^2 - 0.3*cos(3*pi*x0 + 4*pi*x1) + 0.3", 2⟩,
    ⟨"branin",
      "(x1 - (5.1/(4*pi^2))*x0^2 + (5/pi)*x0 - 6)^2 + 10*(1 - 1/(8*pi))*cos(x0) + 10", 2⟩,
    ⟨"camel",
      "((4 - 2.1*x0^2 + (x0^4)/3)*x0^2) + (x0*x1) + ((-4 + 4*x1^2)*x1^2)", 2⟩,
    ⟨"cigar",
      "x0^2 + 1000000*x1^2", 2⟩,
    ⟨"cosinemixture",
      "x0^2 + x1^2 - 0.1*(cos(5*pi*x0) + cos(5*pi*x1))", 2⟩,
    ⟨"differentpowers",
      "(abs(x0))^2 + (abs(x1))^3", 2⟩,
    ⟨"easom",
      "-cos(x0)*cos(x1)*exp(-((x0-pi)^2 + (x1-pi)^2))", 2⟩,
    ⟨"ellipsoidal",
      "x0^2 + 1000000*x1^2", 2⟩,
    ⟨"equalmaxima",
      "(sin(5*pi*x0))^6", 2⟩,
    ⟨"expotential",
      "-exp(-0.5*(x0^2+x1^2))", 2⟩,
    ⟨"goldstein",
      "(1 + (x0 + x1 + 1)^2*(19 - 14*x0 + 3*x0^2 - 14*x1 + 6*x0*x1 + 3*x1^2)) * (30 + (2*x0 - 3*x1)^2*(18 - 32*x0 + 12*x0^2 + 48*x1 - 36*x0*x1 + 27*x1^2))", 2⟩,
    ⟨"griewankrosenbrock",
      "(pow(100*(x0^2 - x1)^2 + (x0-1)^2,2)/4000) - cos(100*(x0^2 - x1)^2 + (x0-1)^2) + 1", 2⟩,
    ⟨"shubert",
      "(cos(2*x0 + 1) + 2*cos(3*x0 + 2) + 3*cos(4*x0 + 3) + 4*cos(5*x0 + 4) + 5*cos(6*x0 + 5)) * (cos(2*x1 + 1) + 2*cos(3*x1 + 2) + 3*cos(4*x1 + 3) + 4*cos(5*x1 + 4) + 5*cos(6*x1 + 5))", 2⟩,
    ⟨"stepellipsoidal",
      "floor(x0+0.5)^2 + 1000000*floor(x1+0.5)^2", 2⟩,
    ⟨"himmelblau",
      "(x0^2 + x1 - 11)^2 + (x0 + x1^2 - 7)^2", 2⟩,
    ⟨"michalewicz",
      "-(sin(x0) * (sin(1*x0^2/pi))^20 + sin(x1) * (sin(2*x1^2/pi))^20)", 2⟩,
    ⟨"schaffer",
      "0.5 + ((sin(x0^2 - x1^2))^2 - 0.5) / (1 + 0.001*(x0^2 + x1^2))^2", 2⟩,
    ⟨"schwefel",
      "837.9658 - (x0*sin(sqrt(abs(x0))) + x1*sin(sqrt(abs(x1))))", 2⟩,
    ⟨"zakharov",
      "x0^2 + x1^2 + (0.5*(1*x0 + 2*x1))^2 + (0.5*(1*x0 + 2*x1))^4", 2⟩]

/-- What selecting a preset does with the compiler: `setExpression` on its text
and dimension; the result, and whether the stored program keeps the stack-depth
discipline and ends with one value. -/
def presetCompiles (p : Preset) : Bool :=
  decide ((ObjectiveFunction.setExpression exactOps (ObjectiveFunction.new ERat) p.expr p.dim).2 =
      Except.ok ()) &&
    decide (ObjectiveFunction.depthRun
      (ObjectiveFunction.setExpression exactOps (ObjectiveFunction.new ERat) p.expr p.dim).1.rpn_
      0 = some 1)

end MainWindow

/-! # Theorems -/

namespace ObjectiveFunction

/-! ## Token kinds -/

@[simp] theorem type_mkNumber {D : Type} (ops : DoubleOps D) (v : D) :
    (Token.mkNumber ops v).type = TokType.Number := rfl

@[simp] theorem type_mkVar {D : Type} (ops : DoubleOps D) (i : Int) :
    (Token.mkVar ops i).type = TokType.Var := rfl

@[simp] theorem type_mkFunc {D : Type} (ops : DoubleOps D) (n : String) :
    (Token.mkFunc ops n).type = TokType.Func := rfl

@[simp] theorem type_ofType {D : Type} (ops : DoubleOps D) (ty : TokType) :
    (Token.ofType ops ty).type = ty := rfl

@[simp] theorem type_makeOp {D : Type} (ops : DoubleOps D) (c : Char) :
    (makeOp ops c).type = TokType.Op := by
  unfold makeOp
  split_ifs <;> rfl

@[simp] theorem op_makeOp {D : Type} (ops : DoubleOps D) (c : Char) :
    (makeOp ops c).op = c := by
  unfold makeOp
  split_ifs <;> rfl

theorem type_leaf_token {D : Type} (ops : DoubleOps D) (l : Leaf D) :
    (l.token ops).type = TokType.Number ∨ (l.token ops).type = TokType.Var := by
  cases l
  · exact Or.inl rfl
  · exact Or.inr rfl

/-! ## The parser on single tokens -/

theorem shuntStep_operand {D : Type} (t : Token D) (stack rpn : List (Token D))
    (h : t.type = TokType.Number ∨ t.type = TokType.Var) :
    shuntStep t stack rpn = Except.ok (stack, rpn ++ [t]) := by
  unfold shuntStep
  rw [if_pos h]

theorem shuntStep_lparen {D : Type} (t : Token D) (stack rpn : List (Token D))
    (h : t.type = TokType.LParen) :
    shuntStep t stack rpn = Except.ok (t :: stack, rpn) := by
  unfold shuntStep
  simp [h]

theorem shuntStep_op {D : Type} (t : Token D) (stack rpn : List (Token D))
    (h : t.type = TokType.Op) :
    shuntStep t stack rpn =
      Except.ok (t :: (popOperators t stack rpn).1, (popOperators t stack rpn).2) := by
  unfold shuntStep
  simp [h]

theorem shuntLoop_append {D : Type} (xs ys : List (Token D)) (stack rpn : List (Token D)) :
    shuntLoop (xs ++ ys) stack rpn =
      match shuntLoop xs stack rpn with
      | Except.error m => Except.error m
      | Except.ok (stack1, rpn1) => shuntLoop ys stack1 rpn1 := by
  induction xs generalizing stack rpn with
  | nil => rfl
  | cons t ts ih =>
    simp only [List.cons_append, shuntLoop]
    cases h : shuntStep t stack rpn with
    | error m => rfl
    | ok p =>
      obtain ⟨s1, r1⟩ := p
      exact ih s1 r1

theorem shuntLoop_render {D : Type} (ops : DoubleOps D) (t : ExprTree D) :
    ∀ (rest stack rpn : List (Token D)), TopNotFunc stack →
      shuntLoop (t.render ops ++ rest) stack rpn =
        shuntLoop rest stack (rpn ++ t.postOrder ops) := by
  induction t with
  | leaf l =>
    intro rest stack rpn _
    simp only [ExprTree.render, ExprTree.postOrder, List.singleton_append, shuntLoop,
      shuntStep_operand _ _ _ (type_leaf_token ops l)]
    rfl
  | node l op r ihl ihr =>
    intro rest stack rpn hs
    have hl : TopNotFunc (Token.ofType ops TokType.LParen :: stack) := by
      intro top htop
      simp only [List.head?_cons, Option.mem_def, Option.some.injEq] at htop
      subst htop
      simp
    have hr : TopNotFunc (makeOp ops op.sym :: Token.ofType ops TokType.LParen :: stack) := by
      intro top htop
      simp only [List.head?_cons, Option.mem_def, Option.some.injEq] at htop
      subst htop
      simp
    have hpop : ∀ out : List (Token D),
        popOperators (makeOp ops op.sym) (Token.ofType ops TokType.LParen :: stack) out =
          (Token.ofType ops TokType.LParen :: stack, out) := by
      intro out
      simp [popOperators]
    have hclose : ∀ out : List (Token D),
        shuntStep (Token.ofType ops TokType.RParen)
          (makeOp ops op.sym :: Token.ofType ops TokType.LParen :: stack) out =
          Except.ok (stack, out ++ [makeOp ops op.sym]) := by
      intro out
      unfold shuntStep
      simp only [type_ofType, popToLParenDrop, type_makeOp]
      simp only [reduceCtorEq, or_self, if_false, if_true]
      cases stack with
      | nil => rfl
      | cons top rest1 =>
        have : top.type ≠ TokType.Func := hs top (by simp)
        simp [this]
    simp only [ExprTree.render, ExprTree.postOrder, List.append_assoc, List.singleton_append,
      List.cons_append, List.nil_append]
    rw [shuntLoop, shuntStep_lparen _ _ _ (type_ofType ops _)]
    simp only []
    rw [ihl _ _ _ hl, shuntLoop, shuntStep_op _ _ _ (type_makeOp ops _), hpop]
    simp only []
    rw [ihr _ _ _ hr, shuntLoop, hclose]
    simp only [List.append_assoc]

/-- C1: for every expression tree over Number/Variable leaves and the binary
operators `+ - * / ^`, `shuntingYardToRPN` applied to the fully parenthesised
token sequence of the tree succeeds and returns exactly the post-order token
sequence of the tree. -/
theorem shuntingYard_fully_parenthesised {D : Type} (ops : DoubleOps D) (t : ExprTree D) :
    shuntingYardToRPN (t.render ops) = Except.ok (t.postOrder ops) := by
  have h := shuntLoop_render ops t [] [] [] (by intro top htop; simp at htop)
  simp only [List.append_nil, List.nil_append, shuntLoop] at h
  simp only [shuntingYardToRPN, h, shuntDrain]

/-! ## The evaluator on post-order programs -/

theorem evalLoop_append {D : Type} (ops : DoubleOps D) (x : List D)
    (ps qs : List (Token D)) (st : List D) :
    evalLoop ops x (ps ++ qs) st =
      match evalLoop ops x ps st with
      | Except.error e => Except.error e
      | Except.ok st1 => evalLoop ops x qs st1 := by
  induction ps generalizing st with
  | nil => rfl
  | cons t ts ih =>
    simp only [List.cons_append, evalLoop]
    cases h : evalStep ops x t st with
    | error e => rfl
    | ok st1 => exact ih st1

theorem evalStep_mkNumber {D : Type} (ops : DoubleOps D) (x : List D) (v : D) (st : List D) :
    evalStep ops x (Token.mkNumber ops v) st = Except.ok (v :: st) := by
  simp [evalStep, Token.mkNumber]

theorem evalStep_mkVar {D : Type} (ops : DoubleOps D) (x : List D) (i : Nat) (st : List D)
    (h : i < x.length) :
    evalStep ops x (Token.mkVar ops (i : Int)) st =
      Except.ok (x[i]?.getD ops.nan :: st) := by
  have hv : x[i]? = some x[i] := List.getElem?_eq_getElem h
  simp [evalStep, Token.mkVar, hv]

theorem evalStep_makeOp {D : Type} (ops : DoubleOps D) (x : List D) (op : BinOp)
    (a b : D) (st : List D) :
    evalStep ops x (makeOp ops op.sym) (b :: a :: st) =
      Except.ok (op.apply ops a b :: st) := by
  cases op <;> simp [evalStep, makeOp, BinOp.sym, BinOp.apply, Token.init]

theorem evalLoop_postOrder {D : Type} (ops : DoubleOps D) (x : List D) (t : ExprTree D)
    (h : t.VarsBelow x.length) :
    ∀ (rest : List (Token D)) (st : List D),
      evalLoop ops x (t.postOrder ops ++ rest) st =
        evalLoop ops x rest (t.value ops x :: st) := by
  induction t with
  | leaf l =>
    intro rest st
    cases l with
    | number v =>
      simp only [ExprTree.postOrder, Leaf.token, List.singleton_append, evalLoop,
        evalStep_mkNumber, ExprTree.value, Leaf.value]
      rfl
    | var idx =>
      simp only [ExprTree.postOrder, Leaf.token, List.singleton_append, evalLoop,
        evalStep_mkVar ops x idx st h, ExprTree.value, Leaf.value]
      rfl
  | node l op r ihl ihr =>
    intro rest st
    simp only [ExprTree.postOrder, List.append_assoc, List.singleton_append]
    rw [ihl h.1, ihr h.2, evalLoop, evalStep_makeOp]
    simp only [ExprTree.value]

/-- C3: for every expression tree over Number leaves, Variable leaves with index
below `n` and the five binary operators, and every vector `x` of length `n`, the
evaluator run on the post-order token sequence of the tree leaves its loop
through no sentinel exit and returns the recursively defined value of the tree
(`node l op r` is `value l op value r`, the left subtree first). -/
theorem evalRPN_postOrder {D : Type} (ops : DoubleOps D) (t : ExprTree D) (n : Nat)
    (x : List D) (hx : x.length = n) (hv : t.VarsBelow n) :
    evalRun ops (t.postOrder ops) x = Except.ok (t.value ops x) ∧
      evalRPN ops (t.postOrder ops) x = t.value ops x := by
  subst hx
  have h := evalLoop_postOrder ops x t hv [] []
  simp only [List.append_nil, evalLoop] at h
  have hrun : evalRun ops (t.postOrder ops) x = Except.ok (t.value ops x) := by
    simp only [evalRun, h]
  exact ⟨hrun, by simp only [evalRPN, hrun]⟩

/-! ## The parser on operator sequences without parentheses -/

theorem popOperators_keep {D : Type} (t : Token D) (stack rpn : List (Token D))
    (h : ∀ top ∈ stack.head?, top.type = TokType.Op → popsTop t top = false) :
    popOperators t stack rpn = (stack, rpn) := by
  cases stack with
  | nil => rfl
  | cons top rest =>
    unfold popOperators
    by_cases hty : top.type = TokType.Op
    · have hp := h top (by simp) hty
      unfold popsTop at hp
      simp [hty, hp]
    · simp [hty]

theorem popOperators_all {D : Type} (t : Token D) (pending stack rpn : List (Token D))
    (h : ∀ p ∈ pending, p.type = TokType.Op ∧ popsTop t p = true) :
    popOperators t (pending ++ stack) rpn = popOperators t stack (rpn ++ pending) := by
  induction pending generalizing rpn with
  | nil => simp
  | cons p ps ih =>
    have hp := h p (by simp)
    have hpop := hp.2
    unfold popsTop at hpop
    rw [List.cons_append, popOperators]
    simp only [hp.1, ne_eq, not_true_eq_false, if_false, hpop, if_true]
    rw [ih _ (fun q hq => h q (List.mem_cons_of_mem _ hq))]
    simp

theorem shuntDrain_ops {D : Type} (pending rpn : List (Token D))
    (h : ∀ p ∈ pending, p.type = TokType.Op) :
    shuntDrain pending rpn = Except.ok (rpn ++ pending) := by
  induction pending generalizing rpn with
  | nil => simp [shuntDrain]
  | cons p ps ih =>
    have hp := h p (by simp)
    rw [shuntDrain]
    simp only [hp, reduceCtorEq, or_self, if_false]
    rw [ih _ (fun q hq => h q (List.mem_cons_of_mem _ hq))]
    simp

theorem topAtMost_mono {D : Type} {a b : Int} (hab : a ≤ b) {stack : List (Token D)}
    (h : TopAtMost a stack) : TopAtMost b stack :=
  fun top htop hty => le_trans (h top htop hty) hab

theorem topAtMost_cons {D : Type} (limit : Int) (top : Token D) (stack : List (Token D))
    (h : top.precedence ≤ limit) : TopAtMost limit (top :: stack) := by
  intro t ht _
  simp only [List.head?_cons, Option.mem_def, Option.some.injEq] at ht
  subst ht
  exact h

theorem opsAtLeast_mono {D : Type} {a b : Int} (hab : a ≤ b) {pending : List (Token D)}
    (h : OpsAtLeast b pending) : OpsAtLeast a pending :=
  fun p hp => ⟨(h p hp).1, le_trans hab (h p hp).2⟩

theorem opsAtLeast_append_singleton {D : Type} (k : Int) (pending : List (Token D))
    (o : Token D) (h : OpsAtLeast k pending) (ho : o.type = TokType.Op)
    (hk : k ≤ o.precedence) : OpsAtLeast k (pending ++ [o]) := by
  intro p hp
  rcases List.mem_append.mp hp with hp | hp
  · exact h p hp
  · simp only [List.mem_singleton] at hp
    subst hp
    exact ⟨ho, hk⟩

/-- An incoming operator that is popped by nothing it finds on a stack `stack`
and pops every pending operator: the stack segment goes to the output. -/
theorem shuntStep_flush {D : Type} (o : Token D) (pending stack rpn : List (Token D))
    (ho : o.type = TokType.Op)
    (hall : ∀ p ∈ pending, p.type = TokType.Op ∧ popsTop o p = true)
    (hkeep : ∀ top ∈ stack.head?, top.type = TokType.Op → popsTop o top = false) :
    shuntStep o (pending ++ stack) rpn = Except.ok (o :: stack, rpn ++ pending) := by
  rw [shuntStep_op _ _ _ ho, popOperators_all _ _ _ _ hall, popOperators_keep _ _ _ hkeep]

theorem shuntLoop_cons_ok {D : Type} (t : Token D) (ts stack rpn stack1 rpn1 : List (Token D))
    (h : shuntStep t stack rpn = Except.ok (stack1, rpn1)) :
    shuntLoop (t :: ts) stack rpn = shuntLoop ts stack1 rpn1 := by
  rw [shuntLoop, h]

theorem shuntLoop_cons_operand {D : Type} (t : Token D) (ts stack rpn : List (Token D))
    (h : t.type = TokType.Number ∨ t.type = TokType.Var) :
    shuntLoop (t :: ts) stack rpn = shuntLoop ts stack (rpn ++ [t]) :=
  shuntLoop_cons_ok _ _ _ _ _ _ (shuntStep_operand _ _ _ h)

theorem topNotFunc_cons {D : Type} (top : Token D) (stack : List (Token D))
    (h : top.type ≠ TokType.Func) : TopNotFunc (top :: stack) := by
  intro t ht
  simp only [List.head?_cons, Option.mem_def, Option.some.injEq] at ht
  subst ht
  exact h

theorem topAtMost_cons_notOp {D : Type} (limit : Int) (top : Token D) (stack : List (Token D))
    (h : top.type ≠ TokType.Op) : TopAtMost limit (top :: stack) := by
  intro t ht hty
  simp only [List.head?_cons, Option.mem_def, Option.some.injEq] at ht
  subst ht
  exact absurd hty h

theorem shuntsTo_weaken {D : Type} {a b k m : Int} (hab : a ≤ b)
    (hkm : k ≤ m) {ts post : List (Token D)} (h : ShuntsTo b m ts post) :
    ShuntsTo a k ts post := by
  intro rest stack rpn hs hf
  obtain ⟨pending, rpn1, hrun, hout, hpend⟩ := h rest stack rpn (topAtMost_mono hab hs) hf
  exact ⟨pending, rpn1, hrun, hout, opsAtLeast_mono hkm hpend⟩

/-- A single operand is sent to the output and leaves nothing pending. -/
theorem shuntsTo_operand {D : Type} (a k : Int) (t : Token D)
    (h : t.type = TokType.Number ∨ t.type = TokType.Var) : ShuntsTo a k [t] [t] := by
  intro rest stack rpn _ _
  refine ⟨[], rpn ++ [t], ?_, by simp, by intro p hp; simp at hp⟩
  rw [List.singleton_append, shuntLoop_cons_operand _ _ _ _ h, List.nil_append]

/-- A binary operator `o` between two phrases: `o` pops everything the left
phrase left pending (precedence at least `k1`), nothing of the stack below
(precedence at most `a`), and waits on the stack while the right phrase is
read. -/
theorem shuntsTo_binary {D : Type} (o : Token D) (a b k k1 m : Int)
    (ho : o.type = TokType.Op)
    (hall : ∀ p : Token D, k1 ≤ p.precedence → popsTop o p = true)
    (hkeep : ∀ top : Token D, top.precedence ≤ a → popsTop o top = false)
    (hob : o.precedence ≤ b) (hko : k ≤ o.precedence) (hkm : k ≤ m)
    {ts1 ts2 post1 post2 : List (Token D)}
    (h1 : ShuntsTo a k1 ts1 post1) (h2 : ShuntsTo b m ts2 post2) :
    ShuntsTo a k (ts1 ++ o :: ts2) (post1 ++ post2 ++ [o]) := by
  intro rest stack rpn hs hf
  obtain ⟨pending1, rpn1, hrun1, hout1, hpend1⟩ := h1 (o :: (ts2 ++ rest)) stack rpn hs hf
  have hflush := shuntStep_flush o pending1 stack rpn1 ho
    (fun p hp => ⟨(hpend1 p hp).1, hall p (hpend1 p hp).2⟩)
    (fun top htop hty => hkeep top (hs top htop hty))
  obtain ⟨pending2, rpn2, hrun2, hout2, hpend2⟩ :=
    h2 rest (o :: stack) (rpn1 ++ pending1) (topAtMost_cons _ _ _ hob)
      (topNotFunc_cons _ _ (by rw [ho]; decide))
  refine ⟨pending2 ++ [o], rpn2, ?_, ?_, ?_⟩
  · rw [List.append_assoc, List.cons_append, hrun1, shuntLoop_cons_ok _ _ _ _ _ _ hflush, hrun2,
      List.append_assoc, List.singleton_append]
  · rw [← List.append_assoc, hout2, hout1]
    simp
  · exact opsAtLeast_append_singleton k _ _ (opsAtLeast_mono hkm hpend2) ho hko

/-- The operators `+ - * /` (left-associative, precedence `k`) pop every
operator of precedence at least `k` and none of lower precedence. -/
theorem popsTop_leftAssoc {D : Type} (o : Token D) (k : Int) (hassoc : o.rightAssoc = false)
    (hprec : o.precedence = k) :
    (∀ p : Token D, k ≤ p.precedence → popsTop o p = true) ∧
      (∀ top : Token D, top.precedence ≤ k - 1 → popsTop o top = false) := by
  constructor
  · intro p hp
    simp only [popsTop, hassoc, hprec]
    simpa using hp
  · intro top htop
    simp only [popsTop, hassoc, hprec]
    simp
    omega

/-- The operator `^` (right-associative, precedence 3) pops only operators of
precedence above 3. -/
theorem popsTop_pow {D : Type} (ops : DoubleOps D) :
    (∀ p : Token D, 4 ≤ p.precedence → popsTop (makeOp ops '^') p = true) ∧
      (∀ top : Token D, top.precedence ≤ 3 → popsTop (makeOp ops '^') top = false) := by
  constructor
  · intro p hp
    simp only [popsTop, makeOp]
    simp
    omega
  · intro top htop
    simp only [popsTop, makeOp]
    simp
    omega

theorem shuntsTo_pow {D : Type} (ops : DoubleOps D) {ts1 ts2 post1 post2 : List (Token D)}
    (h1 : ShuntsTo 3 4 ts1 post1) (h2 : ShuntsTo 3 3 ts2 post2) :
    ShuntsTo 3 3 (ts1 ++ makeOp ops '^' :: ts2) (post1 ++ post2 ++ [makeOp ops '^']) :=
  shuntsTo_binary (makeOp ops '^') 3 3 3 4 3 (type_makeOp ops _) (popsTop_pow ops).1
    (popsTop_pow ops).2 (by simp [makeOp]) (by simp [makeOp]) (le_refl _) h1 h2

theorem shuntsTo_mulDiv {D : Type} (ops : DoubleOps D) (c : Char) (hc : c = '*' ∨ c = '/')
    {ts1 ts2 post1 post2 : List (Token D)}
    (h1 : ShuntsTo 1 2 ts1 post1) (h2 : ShuntsTo 3 3 ts2 post2) :
    ShuntsTo 1 2 (ts1 ++ makeOp ops c :: ts2) (post1 ++ post2 ++ [makeOp ops c]) := by
  have hassoc : (makeOp ops c).rightAssoc = false := by rcases hc with h | h <;> subst h <;> rfl
  have hprec : (makeOp ops c).precedence = 2 := by rcases hc with h | h <;> subst h <;> rfl
  exact shuntsTo_binary (makeOp ops c) 1 3 2 2 3 (type_makeOp ops _)
    (popsTop_leftAssoc _ 2 hassoc hprec).1 (popsTop_leftAssoc _ 2 hassoc hprec).2
    (by rw [hprec]; norm_num) (by rw [hprec]) (by norm_num) h1 h2

theorem shuntsTo_addSub {D : Type} (ops : DoubleOps D) (c : Char) (hc : c = '+' ∨ c = '-')
    {ts1 ts2 post1 post2 : List (Token D)}
    (h1 : ShuntsTo 0 1 ts1 post1) (h2 : ShuntsTo 1 2 ts2 post2) :
    ShuntsTo 0 1 (ts1 ++ makeOp ops c :: ts2) (post1 ++ post2 ++ [makeOp ops c]) := by
  have hassoc : (makeOp ops c).rightAssoc = false := by rcases hc with h | h <;> subst h <;> rfl
  have hprec : (makeOp ops c).precedence = 1 := by rcases hc with h | h <;> subst h <;> rfl
  exact shuntsTo_binary (makeOp ops c) 0 1 1 1 2 (type_makeOp ops _)
    (popsTop_leftAssoc _ 1 hassoc hprec).1 (popsTop_leftAssoc _ 1 hassoc hprec).2
    (by rw [hprec]) (by rw [hprec]) (by norm_num) h1 h2

theorem shuntLoop_power {D : Type} (ops : DoubleOps D) {ts : List (Token D)} {t : ExprTree D}
    (h : ParsesPower ops ts t) : ShuntsTo 3 3 ts (t.postOrder ops) := by
  induction h with
  | operand l => exact shuntsTo_operand 3 3 _ (type_leaf_token ops l)
  | pow l ts t _ ih =>
    exact shuntsTo_pow ops (shuntsTo_operand 3 4 _ (type_leaf_token ops l)) ih

theorem shuntLoop_term {D : Type} (ops : DoubleOps D) {ts : List (Token D)} {t : ExprTree D}
    (h : ParsesTerm ops ts t) : ShuntsTo 1 2 ts (t.postOrder ops) := by
  induction h with
  | power ts t hp => exact shuntsTo_weaken (by norm_num) (by norm_num) (shuntLoop_power ops hp)
  | mul ts1 ts2 t1 t2 _ hp ih =>
    exact shuntsTo_mulDiv ops '*' (Or.inl rfl) ih (shuntLoop_power ops hp)
  | div ts1 ts2 t1 t2 _ hp ih =>
    exact shuntsTo_mulDiv ops '/' (Or.inr rfl) ih (shuntLoop_power ops hp)

theorem shuntLoop_expr {D : Type} (ops : DoubleOps D) {ts : List (Token D)} {t : ExprTree D}
    (h : ParsesExpr ops ts t) : ShuntsTo 0 1 ts (t.postOrder ops) := by
  induction h with
  | term ts t ht => exact shuntsTo_weaken (by norm_num) (by norm_num) (shuntLoop_term ops ht)
  | add ts1 ts2 t1 t2 _ ht ih =>
    exact shuntsTo_addSub ops '+' (Or.inl rfl) ih (shuntLoop_term ops ht)
  | sub ts1 ts2 t1 t2 _ ht ih =>
    exact shuntsTo_addSub ops '-' (Or.inr rfl) ih (shuntLoop_term ops ht)

/-- A phrase that the loop consumes from the empty stack is converted to its
post-order. -/
theorem shuntingYard_of_shuntsTo {D : Type} {a k : Int} {ts post : List (Token D)}
    (h : ShuntsTo a k ts post) : shuntingYardToRPN ts = Except.ok post := by
  obtain ⟨pending, rpn1, hrun, hout, hpend⟩ :=
    h [] [] [] (by intro top htop; simp at htop) (by intro top htop; simp at htop)
  simp only [List.append_nil, List.nil_append, shuntLoop] at hrun hout
  simp only [shuntingYardToRPN, hrun]
  rw [shuntDrain_ops _ _ (fun p hp => (hpend p hp).1), hout]

/-- Every token sequence derived by the grammar is converted to the post-order
of its tree. -/
theorem shuntingYard_of_parsesExpr {D : Type} (ops : DoubleOps D) {ts : List (Token D)}
    {t : ExprTree D} (h : ParsesExpr ops ts t) :
    shuntingYardToRPN ts = Except.ok (t.postOrder ops) :=
  shuntingYard_of_shuntsTo (shuntLoop_expr ops h)

/-! ## Every operator sequence has a parse -/

theorem chainTokens_append {D : Type} (ops : DoubleOps D) (chain : List (Leaf D)) (l : Leaf D) :
    chainTokens ops (chain ++ [l]) = chainTokens ops chain ++ [l.token ops, makeOp ops '^'] := by
  induction chain with
  | nil => rfl
  | cons c cs ih => simp [chainTokens, ih]

theorem parsesPower_chain {D : Type} (ops : DoubleOps D) (chain : List (Leaf D)) (l : Leaf D) :
    ∃ t, ParsesPower ops (chainTokens ops chain ++ [l.token ops]) t := by
  induction chain with
  | nil => exact ⟨_, ParsesPower.operand l⟩
  | cons c cs ih =>
    obtain ⟨t, ht⟩ := ih
    exact ⟨_, ParsesPower.pow c _ t ht⟩

theorem exists_parse_aux {D : Type} (ops : DoubleOps D) (rest : List (BinOp × Leaf D)) :
    ∀ (l : Leaf D) (preE preT : List (Token D)) (chain : List (Leaf D)),
      (∀ ts t, ParsesPower ops ts t → ∃ t1, ParsesTerm ops (preT ++ ts) t1) →
      (∀ ts t, ParsesTerm ops ts t → ∃ t1, ParsesExpr ops (preE ++ ts) t1) →
      ∃ t,
        ParsesExpr ops (preE ++ (preT ++ (chainTokens ops chain ++ seqTokens ops l rest))) t := by
  induction rest with
  | nil =>
    intro l preE preT chain hT hE
    obtain ⟨p, hp⟩ := parsesPower_chain ops chain l
    obtain ⟨t1, ht1⟩ := hT _ _ hp
    exact hE _ _ ht1
  | cons hd rest ih =>
    intro l preE preT chain hT hE
    obtain ⟨op, l1⟩ := hd
    obtain ⟨p, hp⟩ := parsesPower_chain ops chain l
    obtain ⟨t1, ht1⟩ := hT _ _ hp
    obtain ⟨e1, he1⟩ := hE _ _ ht1
    have hTnil : ∀ ts t, ParsesPower ops ts t → ∃ t2, ParsesTerm ops ([] ++ ts) t2 :=
      fun ts t h => ⟨t, ParsesTerm.power ts t h⟩
    cases op with
    | pow =>
      have h := ih l1 preE preT (chain ++ [l]) hT hE
      simpa [chainTokens_append, seqTokens, BinOp.sym] using h
    | mul =>
      have h := ih l1 preE (preT ++ (chainTokens ops chain ++ [l.token ops]) ++ [makeOp ops '*'])
        [] (fun ts t h => ⟨_, by simpa using ParsesTerm.mul _ ts t1 t ht1 h⟩) hE
      simpa [chainTokens, seqTokens, BinOp.sym] using h
    | div =>
      have h := ih l1 preE (preT ++ (chainTokens ops chain ++ [l.token ops]) ++ [makeOp ops '/'])
        [] (fun ts t h => ⟨_, by simpa using ParsesTerm.div _ ts t1 t ht1 h⟩) hE
      simpa [chainTokens, seqTokens, BinOp.sym] using h
    | add =>
      have h := ih l1
        (preE ++ (preT ++ (chainTokens ops chain ++ [l.token ops])) ++ [makeOp ops '+']) [] []
        hTnil (fun ts t h => ⟨_, by simpa using ParsesExpr.add _ ts e1 t he1 h⟩)
      simpa [chainTokens, seqTokens, BinOp.sym] using h
    | sub =>
      have h := ih l1
        (preE ++ (preT ++ (chainTokens ops chain ++ [l.token ops])) ++ [makeOp ops '-']) [] []
        hTnil (fun ts t h => ⟨_, by simpa using ParsesExpr.sub _ ts e1 t he1 h⟩)
      simpa [chainTokens, seqTokens, BinOp.sym] using h

theorem exists_parse {D : Type} (ops : DoubleOps D) (first : Leaf D)
    (rest : List (BinOp × Leaf D)) : ∃ t, ParsesExpr ops (seqTokens ops first rest) t := by
  have h := exists_parse_aux ops rest first [] [] []
    (fun ts t h => ⟨t, ParsesTerm.power ts t h⟩) (fun ts t h => ⟨t, ParsesExpr.term ts t h⟩)
  simpa [chainTokens] using h

/-- C2: for every token sequence `operand (operator operand)*` (operands are
Number/Variable tokens, operators carry the precedence and associativity the
tokenizer gives them), the conventional grammar (`+ -` lowest and
left-associative, `* /` next and left-associative, `^` highest and
right-associative) parses the sequence, and `shuntingYardToRPN` succeeds on it
and returns the post-order of the parse tree. -/
theorem shuntingYard_conventional_precedence {D : Type} (ops : DoubleOps D) (first : Leaf D)
    (rest : List (BinOp × Leaf D)) :
    (∃ t, ParsesExpr ops (seqTokens ops first rest) t) ∧
      ∀ t, ParsesExpr ops (seqTokens ops first rest) t →
        shuntingYardToRPN (seqTokens ops first rest) = Except.ok (t.postOrder ops) :=
  ⟨exists_parse ops first rest, fun _ h => shuntingYard_of_parsesExpr ops h⟩

/-! ## Witnesses for the general parser and evaluator theorems -/

/-- The sequence `2 + 3 * 4` parses as `2 + (3 * 4)` and is converted to
`2 3 4 * +`. -/
theorem shuntingYard_conventional_precedence_witness :
    ParsesExpr exactOps
        (seqTokens exactOps (Leaf.number (ERat.fin 2))
          [(BinOp.add, Leaf.number (ERat.fin 3)), (BinOp.mul, Leaf.number (ERat.fin 4))])
        (ExprTree.node (ExprTree.leaf (Leaf.number (ERat.fin 2))) BinOp.add
          (ExprTree.node (ExprTree.leaf (Leaf.number (ERat.fin 3))) BinOp.mul
            (ExprTree.leaf (Leaf.number (ERat.fin 4))))) ∧
      shuntingYardToRPN
          (seqTokens exactOps (Leaf.number (ERat.fin 2))
            [(BinOp.add, Leaf.number (ERat.fin 3)), (BinOp.mul, Leaf.number (ERat.fin 4))]) =
        Except.ok
          [Token.mkNumber exactOps (ERat.fin 2), Token.mkNumber exactOps (ERat.fin 3),
            Token.mkNumber exactOps (ERat.fin 4), makeOp exactOps '*', makeOp exactOps '+'] :=
  have h : ParsesExpr exactOps
      (seqTokens exactOps (Leaf.number (ERat.fin 2))
        [(BinOp.add, Leaf.number (ERat.fin 3)), (BinOp.mul, Leaf.number (ERat.fin 4))])
      (ExprTree.node (ExprTree.leaf (Leaf.number (ERat.fin 2))) BinOp.add
        (ExprTree.node (ExprTree.leaf (Leaf.number (ERat.fin 3))) BinOp.mul
          (ExprTree.leaf (Leaf.number (ERat.fin 4))))) :=
    ParsesExpr.add _ _ _ _
      (ParsesExpr.term _ _ (ParsesTerm.power _ _ (ParsesPower.operand _)))
      (ParsesTerm.mul _ _ _ _ (ParsesTerm.power _ _ (ParsesPower.operand _))
        (ParsesPower.operand _))
  ⟨h, (shuntingYard_conventional_precedence exactOps _ _).2 _ h⟩

/-- The program `x0 2 ^` at the point `[3]` evaluates to `3^2 = 9` through no
sentinel exit. -/
theorem evalRPN_postOrder_witness :
    [ERat.fin 3].length = 1 ∧
      (ExprTree.node (ExprTree.leaf (Leaf.var 0)) BinOp.pow
        (ExprTree.leaf (Leaf.number (ERat.fin 2)))).VarsBelow 1 ∧
      evalRun exactOps
          [Token.mkVar exactOps 0, Token.mkNumber exactOps (ERat.fin 2), makeOp exactOps '^']
          [ERat.fin 3] =
        Except.ok (ERat.pow (ERat.fin 3) (ERat.fin 2)) ∧
      evalRPN exactOps
          [Token.mkVar exactOps 0, Token.mkNumber exactOps (ERat.fin 2), makeOp exactOps '^']
          [ERat.fin 3] =
        ERat.pow (ERat.fin 3) (ERat.fin 2) :=
  ⟨rfl, ⟨Nat.zero_lt_one, trivial⟩,
    evalRPN_postOrder exactOps
      (ExprTree.node (ExprTree.leaf (Leaf.var 0)) BinOp.pow
        (ExprTree.leaf (Leaf.number (ERat.fin 2)))) 1 [ERat.fin 3] rfl
      ⟨Nat.zero_lt_one, trivial⟩⟩

/-! ## Closed expressions through the whole pipeline -/

set_option maxRecDepth 10000 in
theorem setExpression_sumSquares {D : Type} (ops : DoubleOps D) (self : ObjectiveFunction D)
    (two : D) (h2 : ops.stod ['2'] = some two) :
    setExpression ops self "x0^2+x1^2" 2 =
      (⟨2, "x0^2+x1^2",
        [Token.mkVar ops 0, Token.mkNumber ops two, makeOp ops '^', Token.mkVar ops 1,
          Token.mkNumber ops two, makeOp ops '^', makeOp ops '+']⟩, Except.ok ()) := by
  have htok : tokenize ops "x0^2+x1^2".data 2 = Except.ok
      [Token.mkVar ops 0, makeOp ops '^', Token.mkNumber ops two, makeOp ops '+',
        Token.mkVar ops 1, makeOp ops '^', Token.mkNumber ops two] := by
    simp [tokenize, tokenizeLoop, tokenizeIter, lexIdent, isSpace, isDigit, isAlpha,
      isIdentChar, scanIdent, scanNumber, scanDigits, parseIndex, wrapInt32, h2]
  simp only [setExpression, htok]
  rfl

/-- C4: `setExpression("x0^2+x1^2", 2)` succeeds and `evaluate([a, b])` returns
`pow(a,2) + pow(b,2)` for every `a`, `b` (where `2` is the double that
`std::stod` gives for the text `2`); in exact arithmetic `evaluate([3,4])` is
`25`. -/
theorem setExpression_sum_of_squares {D : Type} (ops : DoubleOps D)
    (self : ObjectiveFunction D) (two : D) (h2 : ops.stod ['2'] = some two) :
    (setExpression ops self "x0^2+x1^2" 2).2 = Except.ok () ∧
      (∀ a b : D, evaluate ops (setExpression ops self "x0^2+x1^2" 2).1 [a, b] =
        ops.add (ops.pow a two) (ops.pow b two)) ∧
      evaluate exactOps (setExpression exactOps (new ERat) "x0^2+x1^2" 2).1
        [ERat.fin 3, ERat.fin 4] = ERat.fin 25 := by
  refine ⟨?_, ?_, by decide!⟩
  · rw [setExpression_sumSquares ops self two h2]
  · intro a b
    rw [setExpression_sumSquares ops self two h2]
    rfl

/-- The exact arithmetic reads the text `2` as the number two, and on it the
compiled sum of squares evaluates as stated. -/
theorem setExpression_sum_of_squares_witness :
    exactOps.stod ['2'] = some (ERat.fin 2) ∧
      ((setExpression exactOps (new ERat) "x0^2+x1^2" 2).2 = Except.ok () ∧
        (∀ a b : ERat,
          evaluate exactOps (setExpression exactOps (new ERat) "x0^2+x1^2" 2).1 [a, b] =
            exactOps.add (exactOps.pow a (ERat.fin 2)) (exactOps.pow b (ERat.fin 2))) ∧
        evaluate exactOps (setExpression exactOps (new ERat) "x0^2+x1^2" 2).1
          [ERat.fin 3, ERat.fin 4] = ERat.fin 25) :=
  ⟨by decide!, setExpression_sum_of_squares exactOps (new ERat) (ERat.fin 2) (by decide!)⟩

/-- C5: equal-precedence operators associate by their associativity flag: the
token sequence `a op b op c` is converted to `a b c op op` when `op` is `^`
and to `a b op c op` when `op` is one of `+ - * /`; in exact arithmetic
`2^3^2` evaluates to `512` and `2-3-1` to `-2`. -/
theorem shuntingYard_equal_precedence {D : Type} (ops : DoubleOps D) (a b c : D) (op : BinOp) :
    shuntingYardToRPN
        [Token.mkNumber ops a, makeOp ops op.sym, Token.mkNumber ops b, makeOp ops op.sym,
          Token.mkNumber ops c] =
      Except.ok
        (if op = BinOp.pow then
          [Token.mkNumber ops a, Token.mkNumber ops b, Token.mkNumber ops c,
            makeOp ops op.sym, makeOp ops op.sym]
        else
          [Token.mkNumber ops a, Token.mkNumber ops b, makeOp ops op.sym,
            Token.mkNumber ops c, makeOp ops op.sym]) ∧
      evaluate exactOps (setExpression exactOps (new ERat) "2^3^2" 1).1 [ERat.fin 0] =
        ERat.fin 512 ∧
      evaluate exactOps (setExpression exactOps (new ERat) "2-3-1" 1).1 [ERat.fin 0] =
        ERat.fin (-2) := by
  refine ⟨?_, by decide!, by decide!⟩
  cases op <;> rfl

/-- C6 (the code at the failing input): `setExpression("3 - -2", 1)` succeeds
with the program `3 0 - 2 -`, so `evaluate([0])` is `(3 - 0) - 2 = 1`, not
`5`: the zero injected for the unary minus is taken by the binary minus before
it. -/
theorem setExpression_minus_after_minus :
    setExpression exactOps (new ERat) "3 - -2" 1 =
        (⟨1, "3 - -2",
          [Token.mkNumber exactOps (ERat.fin 3), Token.mkNumber exactOps (ERat.fin 0),
            makeOp exactOps '-', Token.mkNumber exactOps (ERat.fin 2), makeOp exactOps '-']⟩,
          Except.ok ()) ∧
      evaluate exactOps (setExpression exactOps (new ERat) "3 - -2" 1).1 [ERat.fin 0] =
        ERat.fin 1 ∧
      ERat.fin 1 ≠ ERat.fin 5 := by
  decide!

set_option maxRecDepth 10000 in
theorem setExpression_negVar {D : Type} (ops : DoubleOps D) (self : ObjectiveFunction D) :
    setExpression ops self "-x0" 1 =
      (⟨1, "-x0", [Token.mkNumber ops ops.zero, Token.mkVar ops 0, makeOp ops '-']⟩,
        Except.ok ()) := by
  have htok : tokenize ops "-x0".data 1 = Except.ok
      [Token.mkNumber ops ops.zero, makeOp ops '-', Token.mkVar ops 0] := by
    simp [tokenize, tokenizeLoop, tokenizeIter, lexIdent, isSpace, isDigit, isAlpha,
      isIdentChar, scanIdent, scanNumber, scanDigits, parseIndex, wrapInt32]
  simp only [setExpression, htok]
  rfl

/-- C7: `setExpression("-x0", 1)` succeeds with the program
`[Number 0, Variable 0, Operator -]`, and `evaluate([v])` is `0 - v` for every
`v`; in exact arithmetic `evaluate([5])` is `-5`. -/
theorem setExpression_unary_minus {D : Type} (ops : DoubleOps D) (self : ObjectiveFunction D) :
    (setExpression ops self "-x0" 1).2 = Except.ok () ∧
      (setExpression ops self "-x0" 1).1.rpn_ =
        [Token.mkNumber ops ops.zero, Token.mkVar ops 0, makeOp ops '-'] ∧
      (∀ v : D, evaluate ops (setExpression ops self "-x0" 1).1 [v] = ops.sub ops.zero v) ∧
      evaluate exactOps (setExpression exactOps (new ERat) "-x0" 1).1 [ERat.fin 5] =
        ERat.fin (-5) := by
  refine ⟨?_, ?_, ?_, by decide!⟩
  · rw [setExpression_negVar ops self]
  · rw [setExpression_negVar ops self]
  · intro v
    rw [setExpression_negVar ops self]
    rfl

/-! ## Failure of `setExpression` and the stored program -/

theorem evaluate_empty_program {D : Type} (ops : DoubleOps D) (self : ObjectiveFunction D)
    (h : self.rpn_ = []) (x : List D) : evaluate ops self x = ops.nan := by
  unfold evaluate
  split_ifs
  · rfl
  · rw [h]
    rfl

theorem setExpression_error_state {D : Type} (ops : DoubleOps D) (self : ObjectiveFunction D)
    (expr : String) (dimension : Int) (m : String)
    (h : (setExpression ops self expr dimension).2 = Except.error m) :
    (setExpression ops self expr dimension).1 = ⟨dimension, expr, []⟩ := by
  unfold setExpression at h ⊢
  simp only at h ⊢
  split_ifs at h ⊢
  · rfl
  · cases htok : tokenize ops expr.data dimension with
    | error m1 => rfl
    | ok toks =>
      rw [htok] at h
      simp only at h ⊢
      cases hsy : shuntingYardToRPN toks with
      | error m2 => rfl
      | ok rpn =>
        rw [hsy] at h
        simp only at h ⊢
        cases hb : bindFunctions rpn with
        | error m3 => rfl
        | ok rpn1 =>
          rw [hb] at h
          simp at h

/-- C8 (counterexample): after the successful `setExpression("1", 1)` the
failing `setExpression("(", 1)` does not retain the program: `evaluate([0])`
was `1` before the failed call and is the NaN sentinel after it, and
`expression()` is the rejected text. -/
theorem setExpression_failure_discards_program :
    (setExpression exactOps (new ERat) "1" 1).2 = Except.ok () ∧
      (setExpression exactOps (setExpression exactOps (new ERat) "1" 1).1 "(" 1).2 =
        Except.error "Mismatched parentheses at end." ∧
      evaluate exactOps (setExpression exactOps (new ERat) "1" 1).1 [ERat.fin 0] = ERat.fin 1 ∧
      evaluate exactOps
          (setExpression exactOps (setExpression exactOps (new ERat) "1" 1).1 "(" 1).1
          [ERat.fin 0] = ERat.nan ∧
      ERat.fin 1 ≠ ERat.nan ∧
      expression (setExpression exactOps (new ERat) "1" 1).1 = "1" ∧
      expression (setExpression exactOps (setExpression exactOps (new ERat) "1" 1).1 "(" 1).1 =
        "(" := by
  decide!

/-- C8 (amended): a prior compiled program is not retained when compilation
fails: whatever the object held, after a `setExpression(e2, d2)` that fails the
object holds the empty program, so `evaluate` returns the NaN sentinel on every
input vector, and `dimension()` and `expression()` are those of the failed
call. -/
theorem setExpression_failure_resets {D : Type} (ops : DoubleOps D)
    (self : ObjectiveFunction D) (e2 : String) (d2 : Int) (m : String)
    (h : (setExpression ops self e2 d2).2 = Except.error m) :
    (setExpression ops self e2 d2).1.rpn_ = [] ∧
      (∀ x : List D, evaluate ops (setExpression ops self e2 d2).1 x = ops.nan) ∧
      dimension (setExpression ops self e2 d2).1 = d2 ∧
      expression (setExpression ops self e2 d2).1 = e2 := by
  have hst := setExpression_error_state ops self e2 d2 m h
  refine ⟨by rw [hst], ?_, by rw [hst]; rfl, by rw [hst]; rfl⟩
  intro x
  exact evaluate_empty_program ops _ (by rw [hst]) x

/-- The failing call `setExpression("(", 1)` on the object that holds the
program of `"1"`. -/
theorem setExpression_failure_resets_witness :
    (setExpression exactOps (setExpression exactOps (new ERat) "1" 1).1 "(" 1).2 =
        Except.error "Mismatched parentheses at end." ∧
      ((setExpression exactOps (setExpression exactOps (new ERat) "1" 1).1 "(" 1).1.rpn_ = [] ∧
        (∀ x : List ERat,
          evaluate exactOps
            (setExpression exactOps (setExpression exactOps (new ERat) "1" 1).1 "(" 1).1 x =
              exactOps.nan) ∧
        dimension (setExpression exactOps (setExpression exactOps (new ERat) "1" 1).1 "(" 1).1 =
          1 ∧
        expression (setExpression exactOps (setExpression exactOps (new ERat) "1" 1).1 "(" 1).1 =
          "(") :=
  ⟨by decide!,
    setExpression_failure_resets exactOps (setExpression exactOps (new ERat) "1" 1).1 "(" 1
      "Mismatched parentheses at end." (by decide!)⟩

/-! ## Variable indices that fit a 32-bit `int` -/

theorem wrapInt32_of_small (v : Int) (h0 : 0 ≤ v) (h1 : v < 2147483648) : wrapInt32 v = v := by
  unfold wrapInt32
  omega

theorem digitsValue_ge (ds : List Char) (acc : Nat) : acc ≤ ERat.digitsValue ds acc := by
  induction ds generalizing acc with
  | nil => exact le_refl _
  | cons d ds ih =>
    have := ih (acc * 10 + (d.toNat - 48))
    simp only [ERat.digitsValue]
    omega

/-- Without overflow the index loop returns the decimal value of the digits. -/
theorem parseIndex_of_small (ds : List Char) :
    ∀ acc : Nat, (∀ d ∈ ds, isDigit d = true) → ERat.digitsValue ds acc < 2147483648 →
      parseIndex ds (acc : Int) = some ((ERat.digitsValue ds acc : Nat) : Int) := by
  induction ds with
  | nil =>
    intro acc _ _
    rfl
  | cons d ds ih =>
    intro acc hd hlt
    have hdig : isDigit d = true := hd d (by simp)
    have h48 : 48 ≤ d.toNat := by
      simp only [isDigit, Bool.and_eq_true, decide_eq_true_eq] at hdig
      exact hdig.1
    simp only [ERat.digitsValue] at hlt ⊢
    have hge := digitsValue_ge ds (acc * 10 + (d.toNat - 48))
    have hstep : wrapInt32 (wrapInt32 ((acc : Int) * 10) + ((d.toNat : Int) - 48)) =
        ((acc * 10 + (d.toNat - 48) : Nat) : Int) := by
      rw [wrapInt32_of_small ((acc : Int) * 10) (by omega) (by omega),
        wrapInt32_of_small _ (by omega) (by omega)]
      omega
    rw [parseIndex, if_pos hdig, hstep]
    exact ih _ (fun e he => hd e (List.mem_cons_of_mem _ he)) hlt

theorem scanIdent_digits (ds : List Char) (h : ∀ d ∈ ds, isDigit d = true) :
    scanIdent ds = ds.length := by
  induction ds with
  | nil => rfl
  | cons d ds ih =>
    have hd : isIdentChar d = true := by simp [isIdentChar, h d (by simp)]
    simp [scanIdent, hd, ih (fun e he => h e (List.mem_cons_of_mem _ he))]

/-- The claim of C10 where the index fits an `int`: for every dimension
`d >= 1` and every identifier `x`/`X` followed by one or more decimal digits
whose value `k` satisfies `d <= k < 2^31`, `tokenize` fails with
`Variable <identifier> out of range for dimension <d>.` -/
theorem tokenize_variable_out_of_range {D : Type} (ops : DoubleOps D) (c : Char)
    (digits : List Char) (dim : Int) (hc : c = 'x' ∨ c = 'X') (hne : digits ≠ [])
    (hdig : ∀ d ∈ digits, isDigit d = true) (hk : dim ≤ (ERat.digitsValue digits 0 : Nat))
    (hlt : ERat.digitsValue digits 0 < 2147483648) :
    tokenize ops (c :: digits) dim =
      Except.error ("Variable " ++ String.mk (c :: digits) ++ " out of range for dimension " ++
        toString dim ++ ".") := by
  have hidx := parseIndex_of_small digits 0 hdig hlt
  simp only [Nat.cast_zero] at hidx
  have hlen : 2 ≤ (c :: digits).length := by
    cases digits with
    | nil => exact absurd rfl hne
    | cons d ds => simp
  have hlex : lexIdent ops dim (c :: digits) (digits.length + 1) ([] : List (Token D)) =
      LexStep.fail ("Variable " ++ String.mk (c :: digits) ++ " out of range for dimension " ++
        toString dim ++ ".") := by
    unfold lexIdent
    have h1 : ¬ (c :: digits = ['p', 'i'] ∨ c :: digits = ['P', 'I']) := by
      rcases hc with h | h <;> subst h <;> simp
    have h2 : ¬ (c :: digits = ['e']) := by
      rcases hc with h | h <;> subst h <;> simp
    have h3 : 2 ≤ (c :: digits).length ∧
        ((c :: digits).head? = some 'x' ∨ (c :: digits).head? = some 'X') := by
      refine ⟨hlen, ?_⟩
      rcases hc with h | h <;> subst h <;> simp
    rw [if_neg h1, if_neg h2, if_pos h3, List.tail_cons, hidx]
    simp only
    rw [if_pos (Or.inr hk)]
  have hiter : tokenizeIter ops (c :: digits) dim 0 true ([] : List (Token D)) =
      LexStep.fail ("Variable " ++ String.mk (c :: digits) ++ " out of range for dimension " ++
        toString dim ++ ".") := by
    have hscan : scanIdent (c :: digits) = digits.length + 1 := by
      have hcid : isIdentChar c = true := by
        rcases hc with h | h <;> subst h <;> decide
      simp [scanIdent, hcid, scanIdent_digits digits hdig]
    rcases hc with h | h <;> subst h <;>
      simp [tokenizeIter, isSpace, isDigit, isAlpha, hscan, hlex]
  unfold tokenize
  simp only [List.length_cons, tokenizeLoop, Nat.zero_lt_succ, if_true, hiter]

/-! ## The variable index accumulator -/

set_option maxRecDepth 100000 in
/-- C10 (the code at the failing input): the identifier `x4294967296` names the
index `2^32 >= 1`, yet `setExpression("x4294967296", 1)` succeeds and stores
the program `[Variable 0]`: the 32-bit accumulator wraps to `0`, which passes
the range test.  The in-range example `setExpression("x5", 1)` fails with the
documented message. -/
theorem setExpression_index_wraps {D : Type} (ops : DoubleOps D) (self : ObjectiveFunction D) :
    setExpression ops self "x4294967296" 1 =
        (⟨1, "x4294967296", [Token.mkVar ops 0]⟩, Except.ok ()) ∧
      (∀ v : D, evaluate ops (setExpression ops self "x4294967296" 1).1 [v] = v) ∧
      (setExpression ops self "x5" 1).2 =
        Except.error "Variable x5 out of range for dimension 1." := by
  have htok : tokenize ops "x4294967296".data 1 = Except.ok [Token.mkVar ops 0] := by
    simp [tokenize, tokenizeLoop, tokenizeIter, lexIdent, isSpace, isDigit, isAlpha,
      isIdentChar, scanIdent, scanNumber, scanDigits, parseIndex, wrapInt32]
  have htok5 : tokenize (D := D) ops "x5".data 1 =
      Except.error "Variable x5 out of range for dimension 1." := by
    simp [tokenize, tokenizeLoop, tokenizeIter, lexIdent, isSpace, isDigit, isAlpha,
      isIdentChar, scanIdent, scanNumber, scanDigits, parseIndex, wrapInt32]
    rfl
  have hset : setExpression ops self "x4294967296" 1 =
      (⟨1, "x4294967296", [Token.mkVar ops 0]⟩, Except.ok ()) := by
    simp only [setExpression, htok]
    rfl
  refine ⟨hset, ?_, ?_⟩
  · intro v
    rw [hset]
    rfl
  · simp only [setExpression, htok5]
    rfl

/-! ## The parser on expressions with parentheses and function calls -/

theorem popToLParenDrop_pending {D : Type} (pending stack rpn : List (Token D)) (lp : Token D)
    (hlp : lp.type = TokType.LParen) (h : ∀ p ∈ pending, p.type = TokType.Op) :
    popToLParenDrop (pending ++ lp :: stack) rpn = (true, stack, rpn ++ pending) := by
  induction pending generalizing rpn with
  | nil => simp [popToLParenDrop, hlp]
  | cons p ps ih =>
    have hp := h p (by simp)
    rw [List.cons_append, popToLParenDrop]
    simp only [hp, reduceCtorEq, if_false]
    rw [ih _ (fun q hq => h q (List.mem_cons_of_mem _ hq))]
    simp

theorem popToLParenKeep_pending {D : Type} (pending stack rpn : List (Token D)) (lp : Token D)
    (hlp : lp.type = TokType.LParen) (h : ∀ p ∈ pending, p.type = TokType.Op) :
    popToLParenKeep (pending ++ lp :: stack) rpn = (true, lp :: stack, rpn ++ pending) := by
  induction pending generalizing rpn with
  | nil => simp [popToLParenKeep, hlp]
  | cons p ps ih =>
    have hp := h p (by simp)
    rw [List.cons_append, popToLParenKeep]
    simp only [hp, reduceCtorEq, if_false]
    rw [ih _ (fun q hq => h q (List.mem_cons_of_mem _ hq))]
    simp

theorem shuntStep_func {D : Type} (t : Token D) (stack rpn : List (Token D))
    (h : t.type = TokType.Func) :
    shuntStep t stack rpn = Except.ok (t :: stack, rpn) := by
  unfold shuntStep
  simp [h]

theorem shuntStep_comma {D : Type} (t : Token D) (stack rpn : List (Token D))
    (h : t.type = TokType.Comma) :
    shuntStep t stack rpn =
      match popToLParenKeep stack rpn with
      | (false, _, _) =>
        Except.error "Misplaced comma or missing parentheses in function arguments."
      | (true, stack1, rpn1) => Except.ok (stack1, rpn1) := by
  unfold shuntStep
  simp [h]

theorem shuntStep_rparen {D : Type} (t : Token D) (stack rpn : List (Token D))
    (h : t.type = TokType.RParen) :
    shuntStep t stack rpn =
      match popToLParenDrop stack rpn with
      | (false, _, _) => Except.error "Mismatched parentheses."
      | (true, stack1, rpn1) =>
        match stack1 with
        | top :: rest =>
          if top.type = TokType.Func then Except.ok (rest, rpn1 ++ [top])
          else Except.ok (top :: rest, rpn1)
        | [] => Except.ok ([], rpn1) := by
  unfold shuntStep
  simp [h]

/-- A closing parenthesis over pending operators and its opening parenthesis,
with no function name below: the operators go to the output. -/
theorem shuntStep_close_group {D : Type} (ops : DoubleOps D)
    (pending stack rpn : List (Token D)) (h : ∀ p ∈ pending, p.type = TokType.Op)
    (hf : TopNotFunc stack) :
    shuntStep (Token.ofType ops TokType.RParen)
        (pending ++ Token.ofType ops TokType.LParen :: stack) rpn =
      Except.ok (stack, rpn ++ pending) := by
  rw [shuntStep_rparen _ _ _ (type_ofType ops _),
    popToLParenDrop_pending _ _ _ _ (type_ofType ops _) h]
  cases stack with
  | nil => rfl
  | cons top rest =>
    have : top.type ≠ TokType.Func := hf top (by simp)
    simp [this]

/-- A closing parenthesis over pending operators, the opening parenthesis and
the function name `f`: the operators and then `f` go to the output. -/
theorem shuntStep_close_call {D : Type} (ops : DoubleOps D)
    (pending stack rpn : List (Token D)) (f : Token D) (h : ∀ p ∈ pending, p.type = TokType.Op)
    (hf : f.type = TokType.Func) :
    shuntStep (Token.ofType ops TokType.RParen)
        (pending ++ Token.ofType ops TokType.LParen :: f :: stack) rpn =
      Except.ok (stack, rpn ++ pending ++ [f]) := by
  rw [shuntStep_rparen _ _ _ (type_ofType ops _),
    popToLParenDrop_pending _ _ _ _ (type_ofType ops _) h]
  simp [hf]

theorem shuntStep_comma_pending {D : Type} (ops : DoubleOps D)
    (pending stack rpn : List (Token D)) (h : ∀ p ∈ pending, p.type = TokType.Op) :
    shuntStep (Token.ofType ops TokType.Comma)
        (pending ++ Token.ofType ops TokType.LParen :: stack) rpn =
      Except.ok (Token.ofType ops TokType.LParen :: stack, rpn ++ pending) := by
  rw [shuntStep_comma _ _ _ (type_ofType ops _),
    popToLParenKeep_pending _ _ _ _ (type_ofType ops _) h]

theorem topAtMost_lparen {D : Type} (ops : DoubleOps D) (a : Int) (stack : List (Token D)) :
    TopAtMost a (Token.ofType ops TokType.LParen :: stack) :=
  topAtMost_cons_notOp a _ _ (by simp)

theorem topNotFunc_lparen {D : Type} (ops : DoubleOps D) (stack : List (Token D)) :
    TopNotFunc (Token.ofType ops TokType.LParen :: stack) :=
  topNotFunc_cons _ _ (by simp)

theorem shuntsTo_group {D : Type} (ops : DoubleOps D) (a k : Int) {ts post : List (Token D)}
    (h : ShuntsTo 0 1 ts post) :
    ShuntsTo a k
      (Token.ofType ops TokType.LParen :: (ts ++ [Token.ofType ops TokType.RParen])) post := by
  intro rest stack rpn _ hf
  obtain ⟨pending, rpn1, hrun, hout, hpend⟩ :=
    h (Token.ofType ops TokType.RParen :: rest) (Token.ofType ops TokType.LParen :: stack) rpn
      (topAtMost_lparen ops 0 stack) (topNotFunc_lparen ops stack)
  refine ⟨[], rpn1 ++ pending, ?_, by rw [hout]; simp, by intro p hp; simp at hp⟩
  rw [List.cons_append, shuntLoop_cons_ok _ _ _ _ _ _ (shuntStep_lparen _ _ _ (type_ofType ops _)),
    List.append_assoc, List.singleton_append, hrun,
    shuntLoop_cons_ok _ _ _ _ _ _
      (shuntStep_close_group ops pending stack rpn1 (fun p hp => (hpend p hp).1) hf),
    List.nil_append]

theorem shuntsTo_call1 {D : Type} (ops : DoubleOps D) (a k : Int) (name : String)
    {ts post : List (Token D)} (h : ShuntsTo 0 1 ts post) :
    ShuntsTo a k
      (Token.mkFunc ops name :: Token.ofType ops TokType.LParen ::
        (ts ++ [Token.ofType ops TokType.RParen]))
      (post ++ [Token.mkFunc ops name]) := by
  intro rest stack rpn _ _
  obtain ⟨pending, rpn1, hrun, hout, hpend⟩ :=
    h (Token.ofType ops TokType.RParen :: rest)
      (Token.ofType ops TokType.LParen :: Token.mkFunc ops name :: stack) rpn
      (topAtMost_lparen ops 0 _) (topNotFunc_lparen ops _)
  refine ⟨[], rpn1 ++ pending ++ [Token.mkFunc ops name], ?_, by rw [hout]; simp,
    by intro p hp; simp at hp⟩
  rw [List.cons_append, List.cons_append,
    shuntLoop_cons_ok _ _ _ _ _ _ (shuntStep_func _ _ _ (type_mkFunc ops _)),
    shuntLoop_cons_ok _ _ _ _ _ _ (shuntStep_lparen _ _ _ (type_ofType ops _)),
    List.append_assoc, List.singleton_append, hrun,
    shuntLoop_cons_ok _ _ _ _ _ _
      (shuntStep_close_call ops pending stack rpn1 _ (fun p hp => (hpend p hp).1)
        (type_mkFunc ops _)),
    List.nil_append]

theorem shuntsTo_call2 {D : Type} (ops : DoubleOps D) (a k : Int) (name : String)
    {ts1 ts2 post1 post2 : List (Token D)} (h1 : ShuntsTo 0 1 ts1 post1)
    (h2 : ShuntsTo 0 1 ts2 post2) :
    ShuntsTo a k
      (Token.mkFunc ops name :: Token.ofType ops TokType.LParen ::
        (ts1 ++ Token.ofType ops TokType.Comma ::
          (ts2 ++ [Token.ofType ops TokType.RParen])))
      (post1 ++ post2 ++ [Token.mkFunc ops name]) := by
  intro rest stack rpn _ _
  obtain ⟨pending1, rpn1, hrun1, hout1, hpend1⟩ :=
    h1 (Token.ofType ops TokType.Comma :: (ts2 ++ Token.ofType ops TokType.RParen :: rest))
      (Token.ofType ops TokType.LParen :: Token.mkFunc ops name :: stack) rpn
      (topAtMost_lparen ops 0 _) (topNotFunc_lparen ops _)
  obtain ⟨pending2, rpn2, hrun2, hout2, hpend2⟩ :=
    h2 (Token.ofType ops TokType.RParen :: rest)
      (Token.ofType ops TokType.LParen :: Token.mkFunc ops name :: stack) (rpn1 ++ pending1)
      (topAtMost_lparen ops 0 _) (topNotFunc_lparen ops _)
  refine ⟨[], rpn2 ++ pending2 ++ [Token.mkFunc ops name], ?_, by rw [hout2, hout1]; simp,
    by intro p hp; simp at hp⟩
  rw [List.cons_append, List.cons_append,
    shuntLoop_cons_ok _ _ _ _ _ _ (shuntStep_func _ _ _ (type_mkFunc ops _)),
    shuntLoop_cons_ok _ _ _ _ _ _ (shuntStep_lparen _ _ _ (type_ofType ops _)),
    List.append_assoc, List.cons_append, List.append_assoc, List.singleton_append, hrun1,
    shuntLoop_cons_ok _ _ _ _ _ _
      (shuntStep_comma_pending ops pending1 _ rpn1 (fun p hp => (hpend1 p hp).1)),
    hrun2,
    shuntLoop_cons_ok _ _ _ _ _ _
      (shuntStep_close_call ops pending2 stack rpn2 _ (fun p hp => (hpend2 p hp).1)
        (type_mkFunc ops _)),
    List.nil_append]

/-- The parser loop on every phrase of the expression grammar. -/
theorem shuntLoop_derives {D : Type} (ops : DoubleOps D) {lv : Level} {ts : List (Token D)}
    {t : CallTree D} (h : Derives ops lv ts t) :
    ShuntsTo lv.limit lv.floor ts (t.postOrder ops) := by
  induction h with
  | operand l => exact shuntsTo_operand _ _ _ (type_leaf_token ops l)
  | group ts t _ ih => exact shuntsTo_group ops _ _ ih
  | call1 f ts t _ ih => exact shuntsTo_call1 ops _ _ f.name ih
  | call2 f ts1 ts2 t1 t2 _ _ ih1 ih2 => exact shuntsTo_call2 ops _ _ f.name ih1 ih2
  | primary ts t _ ih => exact shuntsTo_weaken (le_refl _) (by decide) ih
  | pow ts1 ts2 t1 t2 _ _ ih1 ih2 => exact shuntsTo_pow ops ih1 ih2
  | power ts t _ ih => exact shuntsTo_weaken (by decide) (by decide) ih
  | mul ts1 ts2 t1 t2 _ _ ih1 ih2 => exact shuntsTo_mulDiv ops '*' (Or.inl rfl) ih1 ih2
  | div ts1 ts2 t1 t2 _ _ ih1 ih2 => exact shuntsTo_mulDiv ops '/' (Or.inr rfl) ih1 ih2
  | term ts t _ ih => exact shuntsTo_weaken (by decide) (by decide) ih
  | add ts1 ts2 t1 t2 _ _ ih1 ih2 => exact shuntsTo_addSub ops '+' (Or.inl rfl) ih1 ih2
  | sub ts1 ts2 t1 t2 _ _ ih1 ih2 => exact shuntsTo_addSub ops '-' (Or.inr rfl) ih1 ih2

/-- The parser converts every well-formed infix token sequence to the
post-order of the expression it denotes. -/
theorem shuntingYard_of_derives {D : Type} (ops : DoubleOps D) {ts : List (Token D)}
    {t : CallTree D} (h : Derives ops Level.expr ts t) :
    shuntingYardToRPN ts = Except.ok (t.postOrder ops) :=
  shuntingYard_of_shuntsTo (shuntLoop_derives ops h)

/-! ## Termination of the tokenizer loop -/

theorem scanIdent_pos (c : Char) (rest : List Char) (h : isAlpha c = true ∨ c = '_') :
    1 ≤ scanIdent (c :: rest) := by
  have hid : isIdentChar c = true := by
    rcases h with h | h
    · simp [isIdentChar, h]
    · simp [isIdentChar, h]
  simp [scanIdent, hid]

theorem lexIdent_next {D : Type} (ops : DoubleOps D) (dim : Int) (id : List Char) (j : Nat)
    (out : List (Token D)) (i1 : Nat) (ev1 : Bool) (out1 : List (Token D))
    (h : lexIdent ops dim id j out = LexStep.next i1 ev1 out1) : i1 = j := by
  unfold lexIdent at h
  by_cases h1 : id = ['p', 'i'] ∨ id = ['P', 'I']
  · rw [if_pos h1] at h
    cases h
    rfl
  · rw [if_neg h1] at h
    by_cases h2 : id = ['e']
    · rw [if_pos h2] at h
      cases h
      rfl
    · rw [if_neg h2] at h
      generalize (if 2 ≤ id.length ∧ (id.head? = some 'x' ∨ id.head? = some 'X')
        then parseIndex id.tail 0 else none) = r at h
      cases r with
      | none =>
        cases h
        rfl
      | some idx =>
        simp only at h
        split_ifs at h with h3
        cases h
        rfl

/-- Every iteration of the main loop of `tokenize` that does not return moves
the scan position forward. -/
theorem tokenizeIter_progress {D : Type} (ops : DoubleOps D) (s : List Char) (dim : Int)
    (i : Nat) (ev : Bool) (out : List (Token D)) (i1 : Nat) (ev1 : Bool)
    (out1 : List (Token D)) (hi : i < s.length)
    (h : tokenizeIter ops s dim i ev out = LexStep.next i1 ev1 out1) : i < i1 := by
  unfold tokenizeIter at h
  split at h
  · rename_i hdrop
    have := List.drop_eq_nil_iff.mp hdrop
    omega
  · rename_i c rest _
    split_ifs at h with h1 h2 h3 h4 h5 h6 h7 h8
    · cases h
      omega
    · cases h
      omega
    · cases h
      omega
    · cases h
      omega
    · simp only at h
      by_cases hd : isDigit c = true
      · have hscan : scanNumber (c :: rest) (decide (c = '.')) =
            scanNumber rest (decide (c = '.')) + 1 := by
          simp [scanNumber, hd]
        split at h
        · cases h
        · cases h
          omega
      · have hdot : c = '.' := by
          rcases h5 with h5 | h5
          · exact absurd h5 hd
          · exact h5
        subst hdot
        have hscan : scanNumber ('.' :: rest) (decide ('.' = '.')) = 0 := by
          simp [scanNumber, isDigit]
        rw [hscan] at h
        simp only [Nat.add_zero, Nat.sub_self, List.take_zero, ops.stod_nil] at h
        cases h
    · cases h
      omega
    · cases h
      omega
    · have hj := lexIdent_next ops dim _ _ out i1 ev1 out1 h
      have hpos := scanIdent_pos c rest (by
        rcases h8 with h8 | h8
        · exact Or.inl h8
        · exact Or.inr h8)
      omega

/-- The main loop of `tokenize` ends within `s.size() - i` iterations. -/
theorem tokenizeLoop_total {D : Type} (ops : DoubleOps D) (s : List Char) (dim : Int)
    (fuel : Nat) :
    ∀ (i : Nat) (ev : Bool) (out : List (Token D)), s.length - i ≤ fuel →
      ∃ r, tokenizeLoop ops s dim fuel i ev out = some r := by
  induction fuel with
  | zero =>
    intro i ev out hfuel
    have hi : ¬ i < s.length := by omega
    exact ⟨Except.ok out, by simp [tokenizeLoop, hi]⟩
  | succ fuel ih =>
    intro i ev out hfuel
    unfold tokenizeLoop
    by_cases hi : i < s.length
    · rw [if_pos hi]
      cases hstep : tokenizeIter ops s dim i ev out with
      | fail m => exact ⟨Except.error m, rfl⟩
      | next i1 ev1 out1 =>
        have := tokenizeIter_progress ops s dim i ev out i1 ev1 out1 hi hstep
        exact ih i1 ev1 out1 (by omega)
    · rw [if_neg hi]
      exact ⟨Except.ok out, rfl⟩

/-- The result of `tokenize` is the result of its loop: the iteration bound is
never reached. -/
theorem tokenize_spec {D : Type} (ops : DoubleOps D) (s : List Char) (dim : Int) :
    tokenizeLoop ops s dim s.length 0 true [] = some (tokenize ops s dim) := by
  obtain ⟨r, hr⟩ := tokenizeLoop_total ops s dim s.length 0 true [] (by omega)
  simp only [tokenize, hr]

/-! ## The tokens that the tokenizer emits -/

theorem lexIdent_lexed {D : Type} (ops : DoubleOps D) (dim : Int) (id : List Char) (j : Nat)
    (out : List (Token D)) (i1 : Nat) (ev1 : Bool) (out1 : List (Token D))
    (h : lexIdent ops dim id j out = LexStep.next i1 ev1 out1)
    (hout : ∀ t ∈ out, Lexed ops dim t) : ∀ t ∈ out1, Lexed ops dim t := by
  have hsnoc : ∀ tok : Token D, Lexed ops dim tok →
      ∀ t ∈ out ++ [tok], Lexed ops dim t := by
    intro tok htok t ht
    rcases List.mem_append.mp ht with ht | ht
    · exact hout t ht
    · rw [List.mem_singleton.mp ht]
      exact htok
  unfold lexIdent at h
  by_cases h1 : id = ['p', 'i'] ∨ id = ['P', 'I']
  · rw [if_pos h1] at h
    cases h
    exact hsnoc _ (Lexed.number _)
  · rw [if_neg h1] at h
    by_cases h2 : id = ['e']
    · rw [if_pos h2] at h
      cases h
      exact hsnoc _ (Lexed.number _)
    · rw [if_neg h2] at h
      generalize (if 2 ≤ id.length ∧ (id.head? = some 'x' ∨ id.head? = some 'X')
        then parseIndex id.tail 0 else none) = r at h
      cases r with
      | none =>
        cases h
        exact hsnoc _ (Lexed.func _)
      | some idx =>
        simp only at h
        split_ifs at h with h3
        cases h
        exact hsnoc _ (Lexed.var idx (by omega) (by omega))

theorem tokenizeIter_lexed {D : Type} (ops : DoubleOps D) (s : List Char) (dim : Int) (i : Nat)
    (ev : Bool) (out : List (Token D)) (i1 : Nat) (ev1 : Bool) (out1 : List (Token D))
    (h : tokenizeIter ops s dim i ev out = LexStep.next i1 ev1 out1)
    (hout : ∀ t ∈ out, Lexed ops dim t) : ∀ t ∈ out1, Lexed ops dim t := by
  have hsnoc : ∀ tok : Token D, Lexed ops dim tok →
      ∀ t ∈ out ++ [tok], Lexed ops dim t := by
    intro tok htok t ht
    rcases List.mem_append.mp ht with ht | ht
    · exact hout t ht
    · rw [List.mem_singleton.mp ht]
      exact htok
  unfold tokenizeIter at h
  split at h
  · cases h
    exact hout
  · rename_i c rest _
    split_ifs at h with h1 h2 h3 h4 h5 h6 h7 h8
    · cases h
      exact hout
    · cases h
      exact hsnoc _ Lexed.lparen
    · cases h
      exact hsnoc _ Lexed.rparen
    · cases h
      exact hsnoc _ Lexed.comma
    · simp only at h
      split at h
      · cases h
      · cases h
        exact hsnoc _ (Lexed.number _)
    · cases h
      intro t ht
      rcases List.mem_append.mp ht with ht | ht
      · exact hout t ht
      · simp only [List.mem_cons, List.mem_singleton, List.not_mem_nil, or_false] at ht
        rcases ht with ht | ht
        · rw [ht]
          exact Lexed.number _
        · rw [ht]
          exact Lexed.op _ (Or.inr (Or.inl rfl))
    · cases h
      exact hsnoc _ (Lexed.op _ h6)
    · exact lexIdent_lexed ops dim _ _ out i1 ev1 out1 h hout

theorem tokenizeLoop_lexed {D : Type} (ops : DoubleOps D) (s : List Char) (dim : Int)
    (fuel : Nat) :
    ∀ (i : Nat) (ev : Bool) (out ts : List (Token D)),
      tokenizeLoop ops s dim fuel i ev out = some (Except.ok ts) →
      (∀ t ∈ out, Lexed ops dim t) → ∀ t ∈ ts, Lexed ops dim t := by
  induction fuel with
  | zero =>
    intro i ev out ts h hout
    unfold tokenizeLoop at h
    split_ifs at h
    cases h
    exact hout
  | succ fuel ih =>
    intro i ev out ts h hout
    unfold tokenizeLoop at h
    split_ifs at h
    · split at h
      · cases h
      · rename_i i1 ev1 out1 hstep
        exact ih i1 ev1 out1 ts h (tokenizeIter_lexed ops s dim i ev out i1 ev1 out1 hstep hout)
    · cases h
      exact hout

/-- Every token of a successful `tokenize` is one the tokenizer can emit; in
particular every variable index is in `[0, dim)`. -/
theorem tokenize_lexed {D : Type} (ops : DoubleOps D) (s : List Char) (dim : Int)
    (ts : List (Token D)) (h : tokenize ops s dim = Except.ok ts) :
    ∀ t ∈ ts, Lexed ops dim t := by
  unfold tokenize at h
  split at h
  · rename_i r hr
    subst h
    exact tokenizeLoop_lexed ops s dim s.length 0 true [] ts hr (by intro t ht; simp at ht)
  · cases h

theorem lexed_var_range {D : Type} (ops : DoubleOps D) (dim : Int) (t : Token D)
    (h : Lexed ops dim t) (hty : t.type = TokType.Var) : 0 ≤ t.varIndex ∧ t.varIndex < dim := by
  cases h with
  | var idx h0 h1 => exact ⟨h0, h1⟩
  | lparen => simp at hty
  | rparen => simp at hty
  | comma => simp at hty
  | number v => simp at hty
  | op c _ => simp at hty
  | func name => simp at hty

/-! ## Binding and evaluating the post-order of an expression -/

theorem bindFunctions_append {D : Type} (xs ys xs1 ys1 : List (Token D))
    (hx : bindFunctions xs = Except.ok xs1) (hy : bindFunctions ys = Except.ok ys1) :
    bindFunctions (xs ++ ys) = Except.ok (xs1 ++ ys1) := by
  induction xs generalizing xs1 with
  | nil =>
    simp only [bindFunctions, Except.ok.injEq] at hx
    subst hx
    simpa using hy
  | cons t ts ih =>
    rw [bindFunctions] at hx
    rw [List.cons_append, bindFunctions]
    split_ifs at hx ⊢ with hty
    · cases hts : bindFunctions ts with
      | error m => rw [hts] at hx; cases hx
      | ok ts1 =>
        rw [hts] at hx
        simp only [Except.ok.injEq] at hx
        subst hx
        rw [ih ts1 hts]
        rfl
    · cases hf : findFn t.funcName with
      | none => rw [hf] at hx; cases hx
      | some d =>
        rw [hf] at hx
        simp only at hx ⊢
        cases hts : bindFunctions ts with
        | error m => rw [hts] at hx; cases hx
        | ok ts1 =>
          rw [hts] at hx
          simp only [Except.ok.injEq] at hx
          subst hx
          rw [ih ts1 hts]
          rfl

theorem bindFunctions_notFunc {D : Type} (t : Token D) (h : t.type ≠ TokType.Func) :
    bindFunctions [t] = Except.ok [t] := by
  simp [bindFunctions, h]

theorem findFn_unary (f : UnaryFn) : findFn f.name = some ⟨1, some f, none⟩ := by
  cases f <;> decide

theorem findFn_binary (f : BinaryFn) : findFn f.name = some ⟨2, none, some f⟩ := by
  cases f <;> decide

theorem bindFunctions_unary {D : Type} (ops : DoubleOps D) (f : UnaryFn) :
    bindFunctions [Token.mkFunc ops f.name] =
      Except.ok [(Token.mkFunc ops f.name).bound ⟨1, some f, none⟩] := by
  have hf : findFn (Token.mkFunc ops f.name).funcName = some ⟨1, some f, none⟩ := findFn_unary f
  simp only [bindFunctions, type_mkFunc, ne_eq, not_true_eq_false, if_false, hf]
  rfl

theorem bindFunctions_binary {D : Type} (ops : DoubleOps D) (f : BinaryFn) :
    bindFunctions [Token.mkFunc ops f.name] =
      Except.ok [(Token.mkFunc ops f.name).bound ⟨2, none, some f⟩] := by
  have hf : findFn (Token.mkFunc ops f.name).funcName = some ⟨2, none, some f⟩ :=
    findFn_binary f
  simp only [bindFunctions, type_mkFunc, ne_eq, not_true_eq_false, if_false, hf]
  rfl

/-- The binder succeeds on the post-order of an expression and attaches to
every function its table entry. -/
theorem bindFunctions_postOrder {D : Type} (ops : DoubleOps D) (t : CallTree D) :
    bindFunctions (t.postOrder ops) = Except.ok (t.program ops) := by
  induction t with
  | leaf l =>
    exact bindFunctions_notFunc _ (by rcases type_leaf_token ops l with h | h <;> simp [h])
  | node l op r ihl ihr =>
    exact bindFunctions_append _ _ _ _ (bindFunctions_append _ _ _ _ ihl ihr)
      (bindFunctions_notFunc _ (by simp))
  | call1 f arg ih => exact bindFunctions_append _ _ _ _ ih (bindFunctions_unary ops f)
  | call2 f arg1 arg2 ih1 ih2 =>
    exact bindFunctions_append _ _ _ _ (bindFunctions_append _ _ _ _ ih1 ih2)
      (bindFunctions_binary ops f)

theorem evalStep_bound_unary {D : Type} (ops : DoubleOps D) (x : List D) (f : UnaryFn)
    (a : D) (st : List D) :
    evalStep ops x ((Token.mkFunc ops f.name).bound ⟨1, some f, none⟩) (a :: st) =
      Except.ok (ops.unary f a :: st) := by
  simp [evalStep, Token.bound, Token.mkFunc]

theorem evalStep_bound_binary {D : Type} (ops : DoubleOps D) (x : List D) (f : BinaryFn)
    (a b : D) (st : List D) :
    evalStep ops x ((Token.mkFunc ops f.name).bound ⟨2, none, some f⟩) (b :: a :: st) =
      Except.ok (applyFn2 ops f a b :: st) := by
  simp [evalStep, Token.bound, Token.mkFunc]

theorem evalLoop_cons_ok {D : Type} (ops : DoubleOps D) (x : List D) (t : Token D)
    (ts : List (Token D)) (st st1 : List D) (h : evalStep ops x t st = Except.ok st1) :
    evalLoop ops x (t :: ts) st = evalLoop ops x ts st1 := by
  rw [evalLoop, h]

theorem evalLoop_program {D : Type} (ops : DoubleOps D) (x : List D) (t : CallTree D)
    (h : t.VarsBelow x.length) :
    ∀ (rest : List (Token D)) (st : List D),
      evalLoop ops x (t.program ops ++ rest) st =
        evalLoop ops x rest (t.value ops x :: st) := by
  induction t with
  | leaf l =>
    intro rest st
    cases l with
    | number v =>
      exact evalLoop_cons_ok ops x _ _ _ _ (evalStep_mkNumber ops x v st)
    | var idx =>
      exact evalLoop_cons_ok ops x _ _ _ _
        (evalStep_mkVar ops x idx st (h idx (by simp [CallTree.leaves])))
  | node l op r ihl ihr =>
    intro rest st
    have hl : l.VarsBelow x.length := fun idx hi => h idx (by simp [CallTree.leaves, hi])
    have hr : r.VarsBelow x.length := fun idx hi => h idx (by simp [CallTree.leaves, hi])
    simp only [CallTree.program, List.append_assoc, List.singleton_append]
    rw [ihl hl, ihr hr, evalLoop_cons_ok ops x _ _ _ _ (evalStep_makeOp ops x op _ _ st)]
    rfl
  | call1 f arg ih =>
    intro rest st
    have ha : arg.VarsBelow x.length := fun idx hi => h idx (by simpa [CallTree.leaves] using hi)
    simp only [CallTree.program, List.append_assoc, List.singleton_append]
    rw [ih ha, evalLoop_cons_ok ops x _ _ _ _ (evalStep_bound_unary ops x f _ st)]
    rfl
  | call2 f arg1 arg2 ih1 ih2 =>
    intro rest st
    have h1 : arg1.VarsBelow x.length := fun idx hi => h idx (by simp [CallTree.leaves, hi])
    have h2 : arg2.VarsBelow x.length := fun idx hi => h idx (by simp [CallTree.leaves, hi])
    simp only [CallTree.program, List.append_assoc, List.singleton_append]
    rw [ih1 h1, ih2 h2, evalLoop_cons_ok ops x _ _ _ _ (evalStep_bound_binary ops x f _ _ st)]
    rfl

/-- The evaluator on the bound program of an expression whose variables are
all inside the vector: no sentinel exit, the value of the expression. -/
theorem evalRun_program {D : Type} (ops : DoubleOps D) (x : List D) (t : CallTree D)
    (h : t.VarsBelow x.length) : evalRun ops (t.program ops) x = Except.ok (t.value ops x) := by
  have hl := evalLoop_program ops x t h [] []
  simp only [List.append_nil, evalLoop] at hl
  simp only [evalRun, hl]

theorem derives_leaves {D : Type} (ops : DoubleOps D) {lv : Level} {ts : List (Token D)}
    {t : CallTree D} (h : Derives ops lv ts t) : ∀ l ∈ t.leaves, l.token ops ∈ ts := by
  induction h with
  | operand l =>
    intro l1 hl
    simp only [CallTree.leaves, List.mem_singleton] at hl
    subst hl
    simp
  | group ts t _ ih => intro l hl; simp [ih l hl]
  | call1 f ts t _ ih => intro l hl; simp [ih l (by simpa [CallTree.leaves] using hl)]
  | call2 f ts1 ts2 t1 t2 _ _ ih1 ih2 =>
    intro l hl
    simp only [CallTree.leaves, List.mem_append] at hl
    rcases hl with hl | hl
    · simp [ih1 l hl]
    · simp [ih2 l hl]
  | primary ts t _ ih => exact ih
  | power ts t _ ih => exact ih
  | term ts t _ ih => exact ih
  | pow ts1 ts2 t1 t2 _ _ ih1 ih2 =>
    intro l hl
    simp only [CallTree.leaves, List.mem_append] at hl
    rcases hl with hl | hl
    · simp [ih1 l hl]
    · simp [ih2 l hl]
  | mul ts1 ts2 t1 t2 _ _ ih1 ih2 =>
    intro l hl
    simp only [CallTree.leaves, List.mem_append] at hl
    rcases hl with hl | hl
    · simp [ih1 l hl]
    · simp [ih2 l hl]
  | div ts1 ts2 t1 t2 _ _ ih1 ih2 =>
    intro l hl
    simp only [CallTree.leaves, List.mem_append] at hl
    rcases hl with hl | hl
    · simp [ih1 l hl]
    · simp [ih2 l hl]
  | add ts1 ts2 t1 t2 _ _ ih1 ih2 =>
    intro l hl
    simp only [CallTree.leaves, List.mem_append] at hl
    rcases hl with hl | hl
    · simp [ih1 l hl]
    · simp [ih2 l hl]
  | sub ts1 ts2 t1 t2 _ _ ih1 ih2 =>
    intro l hl
    simp only [CallTree.leaves, List.mem_append] at hl
    rcases hl with hl | hl
    · simp [ih1 l hl]
    · simp [ih2 l hl]

/-- The variables of an expression whose tokens came out of `tokenize` for
dimension `dim` are all below `dim`. -/
theorem derives_varsBelow {D : Type} (ops : DoubleOps D) {lv : Level} {ts : List (Token D)}
    {t : CallTree D} (h : Derives ops lv ts t) (dim : Int)
    (hlex : ∀ tok ∈ ts, Lexed ops dim tok) : t.VarsBelow dim.toNat := by
  intro idx hidx
  have hmem := derives_leaves ops h _ hidx
  have hr := lexed_var_range ops dim _ (hlex _ hmem) rfl
  simp only [Leaf.token, Token.mkVar] at hr
  omega

/-! ## Well-formedness of compiled programs -/

theorem setExpression_of_derives {D : Type} (ops : DoubleOps D) (self : ObjectiveFunction D)
    (expr : String) (dim : Int) (ts : List (Token D)) (t : CallTree D) (hdim : 1 ≤ dim)
    (htok : tokenize ops expr.data dim = Except.ok ts) (hder : Derives ops Level.expr ts t) :
    setExpression ops self expr dim = (⟨dim, expr, t.program ops⟩, Except.ok ()) := by
  have hnot : ¬ dim ≤ 0 := by omega
  simp only [setExpression, if_neg hnot, htok, shuntingYard_of_derives ops hder,
    bindFunctions_postOrder]

/-- C9 (counterexample): `setExpression("1 2", 1)` and `setExpression("+", 1)`
both return true, yet on the vector `[0]` of length 1 the evaluator ends the
first program with two values on its stack and meets a stack underflow in the
second: both take a structural sentinel exit. -/
theorem compiled_program_not_wellformed :
    (setExpression exactOps (new ERat) "1 2" 1).2 = Except.ok () ∧
      evalRun exactOps (setExpression exactOps (new ERat) "1 2" 1).1.rpn_ [ERat.fin 0] =
        Except.error EvalExit.finalSize ∧
      (setExpression exactOps (new ERat) "+" 1).2 = Except.ok () ∧
      evalRun exactOps (setExpression exactOps (new ERat) "+" 1).1.rpn_ [ERat.fin 0] =
        Except.error EvalExit.underflow := by
  decide!

/-! ## Binary functions through the whole pipeline -/

set_option maxRecDepth 10000 in
theorem setExpression_binaryCall {D : Type} (ops : DoubleOps D) (self : ObjectiveFunction D)
    (f : BinaryFn) :
    setExpression ops self (f.name ++ "(x0, x1)") 2 =
      (⟨2, f.name ++ "(x0, x1)",
        [Token.mkVar ops 0, Token.mkVar ops 1,
          (Token.mkFunc ops f.name).bound ⟨2, none, some f⟩]⟩, Except.ok ()) := by
  have htok : tokenize ops (f.name ++ "(x0, x1)").data 2 = Except.ok
      [Token.mkFunc ops f.name, Token.ofType ops TokType.LParen, Token.mkVar ops 0,
        Token.ofType ops TokType.Comma, Token.mkVar ops 1, Token.ofType ops TokType.RParen] := by
    cases f <;>
    simp [BinaryFn.name, tokenize, tokenizeLoop, tokenizeIter, lexIdent, isSpace, isDigit,
      isAlpha, isIdentChar, scanIdent, scanNumber, scanDigits, parseIndex, wrapInt32]
  simp only [setExpression, htok]
  cases f <;> rfl

/-- C11: for every binary function name `f` in `min`, `max`, `pow`,
`setExpression("f(x0, x1)", 2)` succeeds and `evaluate([a, b])` applies `f`
with `a` as first and `b` as second argument: `min` is `(a<b)?a:b`, `max` is
`(a>b)?a:b`, `pow` is `std::pow(a,b)`; on finite exact values `min` and `max`
are the smaller and the larger, `pow(x0,2)` at `[3]` is `9` and
`min(x0, x1)` at `[5,2]` is `2`. -/
theorem setExpression_binary_functions {D : Type} (ops : DoubleOps D)
    (self : ObjectiveFunction D) (f : BinaryFn) :
    (setExpression ops self (f.name ++ "(x0, x1)") 2).2 = Except.ok () ∧
      (∀ a b : D, evaluate ops (setExpression ops self (f.name ++ "(x0, x1)") 2).1 [a, b] =
        applyFn2 ops f a b) ∧
      (∀ a b : D, applyFn2 ops BinaryFn.min a b = if ops.lt a b = true then a else b) ∧
      (∀ a b : D, applyFn2 ops BinaryFn.max a b = if ops.lt b a = true then a else b) ∧
      (∀ a b : D, applyFn2 ops BinaryFn.pow a b = ops.pow a b) ∧
      (∀ p q : ℚ, applyFn2 exactOps BinaryFn.min (ERat.fin p) (ERat.fin q) =
        ERat.fin (min p q)) ∧
      (∀ p q : ℚ, applyFn2 exactOps BinaryFn.max (ERat.fin p) (ERat.fin q) =
        ERat.fin (max p q)) ∧
      evaluate exactOps (setExpression exactOps (new ERat) "pow(x0,2)" 1).1 [ERat.fin 3] =
        ERat.fin 9 ∧
      evaluate exactOps (setExpression exactOps (new ERat) "min(x0, x1)" 2).1
        [ERat.fin 5, ERat.fin 2] = ERat.fin 2 := by
  refine ⟨?_, ?_, fun _ _ => rfl, fun _ _ => rfl, fun _ _ => rfl, ?_, ?_, by decide!,
    by decide!⟩
  · rw [setExpression_binaryCall ops self f]
  · intro a b
    rw [setExpression_binaryCall ops self f]
    rfl
  · intro p q
    simp only [applyFn2, exactOps, ERat.lt, decide_eq_true_eq]
    split_ifs with h
    · rw [min_eq_left (le_of_lt h)]
    · rw [min_eq_right (not_lt.mp h)]
  · intro p q
    simp only [applyFn2, exactOps, ERat.lt, decide_eq_true_eq]
    split_ifs with h
    · rw [max_eq_left (le_of_lt h)]
    · rw [max_eq_right (not_lt.mp h)]

/-! ## The length test of `evaluate` -/

theorem setExpression_dim {D : Type} (ops : DoubleOps D) (self : ObjectiveFunction D)
    (expr : String) (dimension : Int) :
    (setExpression ops self expr dimension).1.dim_ = dimension := by
  unfold setExpression
  simp only
  split_ifs
  · rfl
  · cases tokenize ops expr.data dimension with
    | error m => rfl
    | ok toks =>
      simp only
      cases shuntingYardToRPN toks with
      | error m => rfl
      | ok rpn =>
        simp only
        cases bindFunctions rpn with
        | error m => rfl
        | ok rpn1 => rfl

/-- C12: if the vector passed to `evaluate` has a length different from the
dimension given to the last `setExpression` call (successful or not),
`evaluate` returns the quiet-NaN sentinel, and it does so whatever program is
stored: the program is not executed and no variable is read. -/
theorem evaluate_dimension_mismatch {D : Type} (ops : DoubleOps D)
    (self : ObjectiveFunction D) (expr : String) (dimension : Int) (x : List D)
    (h : (x.length : Int) ≠ dimension) :
    evaluate ops (setExpression ops self expr dimension).1 x = ops.nan ∧
      ∀ rpn : List (Token D),
        evaluate ops { (setExpression ops self expr dimension).1 with rpn_ := rpn } x =
          ops.nan := by
  have hd := setExpression_dim ops self expr dimension
  constructor
  · unfold evaluate
    rw [hd, if_pos h]
  · intro rpn
    unfold evaluate
    simp only [hd, if_pos h]

/-- The program of `x0` for dimension 1 on the vector `[3, 4]` of length 2. -/
theorem evaluate_dimension_mismatch_witness :
    (([ERat.fin 3, ERat.fin 4].length : Nat) : Int) ≠ 1 ∧
      (evaluate exactOps (setExpression exactOps (new ERat) "x0" 1).1
          [ERat.fin 3, ERat.fin 4] = exactOps.nan ∧
        ∀ rpn : List (Token ERat),
          evaluate exactOps { (setExpression exactOps (new ERat) "x0" 1).1 with rpn_ := rpn }
            [ERat.fin 3, ERat.fin 4] = exactOps.nan) :=
  ⟨by decide,
    evaluate_dimension_mismatch exactOps (new ERat) "x0" 1 [ERat.fin 3, ERat.fin 4]
      (by decide)⟩
/-! ## What the parser moves: an invariant of stack and output -/

theorem popToLParenKeep_inv {D : Type} (PS PO : Token D → Prop)
    (hmove : ∀ t, PS t → t.type ≠ TokType.LParen → PO t) (stack : List (Token D)) :
    ∀ rpn : List (Token D), (∀ t ∈ stack, PS t) → (∀ t ∈ rpn, PO t) →
      (∀ t ∈ (popToLParenKeep stack rpn).2.1, PS t) ∧
        (∀ t ∈ (popToLParenKeep stack rpn).2.2, PO t) := by
  induction stack with
  | nil => intro rpn hs hr; exact ⟨by simp [popToLParenKeep], by simpa [popToLParenKeep] using hr⟩
  | cons top rest ih =>
    intro rpn hs hr
    rw [popToLParenKeep]
    split_ifs with h
    · exact ⟨hs, hr⟩
    · apply ih
      · exact fun t ht => hs t (List.mem_cons_of_mem _ ht)
      · intro t ht
        rcases List.mem_append.mp ht with ht | ht
        · exact hr t ht
        · rw [List.mem_singleton.mp ht]
          exact hmove top (hs top (by simp)) h

theorem popToLParenDrop_inv {D : Type} (PS PO : Token D → Prop)
    (hmove : ∀ t, PS t → t.type ≠ TokType.LParen → PO t) (stack : List (Token D)) :
    ∀ rpn : List (Token D), (∀ t ∈ stack, PS t) → (∀ t ∈ rpn, PO t) →
      (∀ t ∈ (popToLParenDrop stack rpn).2.1, PS t) ∧
        (∀ t ∈ (popToLParenDrop stack rpn).2.2, PO t) := by
  induction stack with
  | nil => intro rpn hs hr; exact ⟨by simp [popToLParenDrop], by simpa [popToLParenDrop] using hr⟩
  | cons top rest ih =>
    intro rpn hs hr
    rw [popToLParenDrop]
    split_ifs with h
    · exact ⟨fun t ht => hs t (List.mem_cons_of_mem _ ht), hr⟩
    · apply ih
      · exact fun t ht => hs t (List.mem_cons_of_mem _ ht)
      · intro t ht
        rcases List.mem_append.mp ht with ht | ht
        · exact hr t ht
        · rw [List.mem_singleton.mp ht]
          exact hmove top (hs top (by simp)) h

theorem popOperators_inv {D : Type} (PS PO : Token D → Prop)
    (hmove : ∀ t, PS t → t.type ≠ TokType.LParen → PO t) (o : Token D)
    (stack : List (Token D)) :
    ∀ rpn : List (Token D), (∀ t ∈ stack, PS t) → (∀ t ∈ rpn, PO t) →
      (∀ t ∈ (popOperators o stack rpn).1, PS t) ∧
        (∀ t ∈ (popOperators o stack rpn).2, PO t) := by
  induction stack with
  | nil => intro rpn hs hr; exact ⟨by simp [popOperators], by simpa [popOperators] using hr⟩
  | cons top rest ih =>
    intro rpn hs hr
    rw [popOperators]
    split_ifs with h1 h2
    · exact ⟨hs, hr⟩
    · apply ih
      · exact fun t ht => hs t (List.mem_cons_of_mem _ ht)
      · intro t ht
        rcases List.mem_append.mp ht with ht | ht
        · exact hr t ht
        · rw [List.mem_singleton.mp ht]
          have hop : top.type = TokType.Op := not_not.mp h1
          exact hmove top (hs top (by simp)) (by rw [hop]; decide)
    · exact ⟨hs, hr⟩

/-- One parser iteration keeps: every stack token satisfies `PS`, every output
token satisfies `PO`, when the incoming token satisfies `PO` if it is an
operand and `PS` if it is pushed, and a stack token that is not an opening
parenthesis may move to the output. -/
theorem shuntStep_inv {D : Type} (PS PO : Token D → Prop)
    (hmove : ∀ t, PS t → t.type ≠ TokType.LParen → PO t) (t : Token D)
    (stack rpn stack1 rpn1 : List (Token D))
    (hPO : t.type = TokType.Number ∨ t.type = TokType.Var → PO t)
    (hPS : t.StackKind → PS t)
    (h : shuntStep t stack rpn = Except.ok (stack1, rpn1))
    (hs : ∀ u ∈ stack, PS u) (hr : ∀ u ∈ rpn, PO u) :
    (∀ u ∈ stack1, PS u) ∧ (∀ u ∈ rpn1, PO u) := by
  have hsnoc : ∀ (out : List (Token D)) (v : Token D), (∀ u ∈ out, PO u) → PO v →
      ∀ u ∈ out ++ [v], PO u := by
    intro out v ho hv u hu
    rcases List.mem_append.mp hu with hu | hu
    · exact ho u hu
    · rw [List.mem_singleton.mp hu]
      exact hv
  have hcons : ∀ (st : List (Token D)) (v : Token D), (∀ u ∈ st, PS u) → PS v →
      ∀ u ∈ v :: st, PS u := by
    intro st v ho hv u hu
    rcases List.mem_cons.mp hu with hu | hu
    · rw [hu]
      exact hv
    · exact ho u hu
  unfold shuntStep at h
  by_cases h1 : t.type = TokType.Number ∨ t.type = TokType.Var
  · rw [if_pos h1] at h
    cases h
    exact ⟨hs, hsnoc _ _ hr (hPO h1)⟩
  · rw [if_neg h1] at h
    by_cases h2 : t.type = TokType.Func
    · rw [if_pos h2] at h
      cases h
      exact ⟨hcons _ _ hs (hPS (Or.inl h2)), hr⟩
    · rw [if_neg h2] at h
      by_cases h3 : t.type = TokType.Comma
      · rw [if_pos h3] at h
        have hinv := popToLParenKeep_inv PS PO hmove stack rpn hs hr
        rcases hp : popToLParenKeep stack rpn with ⟨found, s2, r2⟩
        rw [hp] at h hinv
        cases found with
        | false => cases h
        | true =>
          cases h
          exact hinv
      · rw [if_neg h3] at h
        by_cases h4 : t.type = TokType.Op
        · rw [if_pos h4] at h
          have hinv := popOperators_inv PS PO hmove t stack rpn hs hr
          rcases hp : popOperators t stack rpn with ⟨s2, r2⟩
          rw [hp] at h hinv
          cases h
          exact ⟨hcons _ _ hinv.1 (hPS (Or.inr (Or.inl h4))), hinv.2⟩
        · rw [if_neg h4] at h
          by_cases h5 : t.type = TokType.LParen
          · rw [if_pos h5] at h
            cases h
            exact ⟨hcons _ _ hs (hPS (Or.inr (Or.inr h5))), hr⟩
          · rw [if_neg h5] at h
            by_cases h6 : t.type = TokType.RParen
            · rw [if_pos h6] at h
              have hinv := popToLParenDrop_inv PS PO hmove stack rpn hs hr
              rcases hp : popToLParenDrop stack rpn with ⟨found, s2, r2⟩
              rw [hp] at h hinv
              cases found with
              | false => cases h
              | true =>
                simp only at h hinv
                cases s2 with
                | nil =>
                  cases h
                  exact hinv
                | cons top rest =>
                  simp only at h
                  split_ifs at h with h7
                  · cases h
                    refine ⟨fun u hu => hinv.1 u (List.mem_cons_of_mem _ hu), ?_⟩
                    exact hsnoc _ _ hinv.2
                      (hmove top (hinv.1 top (by simp)) (by rw [h7]; decide))
                  · cases h
                    exact hinv
            · rw [if_neg h6] at h
              cases h
              exact ⟨hs, hr⟩

theorem shuntLoop_inv {D : Type} (PS PO : Token D → Prop)
    (hmove : ∀ t, PS t → t.type ≠ TokType.LParen → PO t) (ts : List (Token D)) :
    ∀ (stack rpn stack1 rpn1 : List (Token D)),
      (∀ t ∈ ts, (t.type = TokType.Number ∨ t.type = TokType.Var → PO t) ∧
        (t.StackKind → PS t)) →
      shuntLoop ts stack rpn = Except.ok (stack1, rpn1) →
      (∀ u ∈ stack, PS u) → (∀ u ∈ rpn, PO u) →
      (∀ u ∈ stack1, PS u) ∧ (∀ u ∈ rpn1, PO u) := by
  induction ts with
  | nil =>
    intro stack rpn stack1 rpn1 _ h hs hr
    simp only [shuntLoop, Except.ok.injEq, Prod.mk.injEq] at h
    rw [← h.1, ← h.2]
    exact ⟨hs, hr⟩
  | cons t ts ih =>
    intro stack rpn stack1 rpn1 hin h hs hr
    rw [shuntLoop] at h
    cases hstep : shuntStep t stack rpn with
    | error m => rw [hstep] at h; cases h
    | ok p =>
      obtain ⟨s2, r2⟩ := p
      rw [hstep] at h
      have hinv := shuntStep_inv PS PO hmove t stack rpn s2 r2 (hin t (by simp)).1
        (hin t (by simp)).2 hstep hs hr
      exact ih s2 r2 stack1 rpn1 (fun u hu => hin u (List.mem_cons_of_mem _ hu)) h
        hinv.1 hinv.2

theorem shuntDrain_inv {D : Type} (PS PO : Token D → Prop)
    (hmove : ∀ t, PS t → t.type ≠ TokType.LParen → PO t) (stack : List (Token D)) :
    ∀ (rpn out : List (Token D)), shuntDrain stack rpn = Except.ok out →
      (∀ u ∈ stack, PS u) → (∀ u ∈ rpn, PO u) → ∀ u ∈ out, PO u := by
  induction stack with
  | nil =>
    intro rpn out h _ hr
    simp only [shuntDrain, Except.ok.injEq] at h
    rw [← h]
    exact hr
  | cons top rest ih =>
    intro rpn out h hs hr
    rw [shuntDrain] at h
    split_ifs at h with h1
    apply ih _ out h (fun u hu => hs u (List.mem_cons_of_mem _ hu))
    intro u hu
    rcases List.mem_append.mp hu with hu | hu
    · exact hr u hu
    · rw [List.mem_singleton.mp hu]
      exact hmove top (hs top (by simp)) (fun hl => h1 (Or.inl hl))

/-- An invariant of the parser: when every operand of the input satisfies `PO`,
every pushed token of the input satisfies `PS`, and a stack token other than an
opening parenthesis may move to the output, every token of the output satisfies
`PO`. -/
theorem shuntingYard_inv {D : Type} (PS PO : Token D → Prop)
    (hmove : ∀ t, PS t → t.type ≠ TokType.LParen → PO t) (ts out : List (Token D))
    (hin : ∀ t ∈ ts, (t.type = TokType.Number ∨ t.type = TokType.Var → PO t) ∧
      (t.StackKind → PS t))
    (h : shuntingYardToRPN ts = Except.ok out) : ∀ u ∈ out, PO u := by
  unfold shuntingYardToRPN at h
  cases hloop : shuntLoop ts [] [] with
  | error m => rw [hloop] at h; cases h
  | ok p =>
    obtain ⟨s1, r1⟩ := p
    rw [hloop] at h
    have hinv := shuntLoop_inv PS PO hmove ts [] [] s1 r1 hin hloop
      (by intro u hu; simp at hu) (by intro u hu; simp at hu)
    exact shuntDrain_inv PS PO hmove s1 r1 out h hinv.1 hinv.2

/-- Every token of the output of the parser is a token of its input. -/
theorem shuntingYard_mem {D : Type} (ts out : List (Token D))
    (h : shuntingYardToRPN ts = Except.ok out) : ∀ u ∈ out, u ∈ ts :=
  shuntingYard_inv (fun t => t ∈ ts) (fun t => t ∈ ts) (fun _ ht _ => ht) ts out
    (fun _ ht => ⟨fun _ => ht, fun _ => ht⟩) h

/-- The tokens of the output of the parser are numbers, variables, operators
and function names. -/
theorem shuntingYard_postfixKind {D : Type} (ts out : List (Token D))
    (h : shuntingYardToRPN ts = Except.ok out) : ∀ u ∈ out, u.PostfixKind := by
  refine shuntingYard_inv (fun t => t.StackKind) (fun t => t.PostfixKind) ?_ ts out ?_ h
  · intro t hs hl
    rcases hs with hs | hs | hs
    · exact Or.inr (Or.inr (Or.inr hs))
    · exact Or.inr (Or.inr (Or.inl hs))
    · exact absurd hs hl
  · intro t _
    refine ⟨fun ht => ?_, fun ht => ht⟩
    rcases ht with ht | ht
    · exact Or.inl ht
    · exact Or.inr (Or.inl ht)

/-- C19: for every input token sequence, well-formed or not, on which
`shuntingYardToRPN` succeeds, the output contains only Number, Var, Op and Func
tokens: no LParen, RParen or Comma reaches the output. -/
theorem shuntingYard_output_kinds {D : Type} (ts out : List (Token D))
    (h : shuntingYardToRPN ts = Except.ok out) :
    ∀ u ∈ out, (u.type = TokType.Number ∨ u.type = TokType.Var ∨ u.type = TokType.Op ∨
        u.type = TokType.Func) ∧
      u.type ≠ TokType.LParen ∧ u.type ≠ TokType.RParen ∧ u.type ≠ TokType.Comma := by
  have hk := shuntingYard_postfixKind ts out h
  intro u hu
  have hu1 := hk u hu
  refine ⟨hu1, ?_, ?_, ?_⟩ <;>
  · intro hc
    rcases hu1 with h1 | h1 | h1 | h1 <;> rw [hc] at h1 <;> cases h1
/-! ## Parentheses and commas: when the parser fails -/

theorem popOperators_count {D : Type} (o : Token D) (stack : List (Token D)) :
    ∀ rpn : List (Token D), countLParen (popOperators o stack rpn).1 = countLParen stack := by
  induction stack with
  | nil => intro rpn; rfl
  | cons top rest ih =>
    intro rpn
    rw [popOperators]
    split_ifs with h1 h2
    · rfl
    · have hop : top.type = TokType.Op := not_not.mp h1
      rw [ih, countLParen, if_neg (by rw [hop]; decide)]
    · rfl

theorem popToLParenDrop_closed {D : Type} (stack : List (Token D)) :
    ∀ rpn : List (Token D), countLParen stack = 0 → (popToLParenDrop stack rpn).1 = false := by
  induction stack with
  | nil => intro rpn _; rfl
  | cons top rest ih =>
    intro rpn h
    rw [countLParen] at h
    split_ifs at h with h1
    rw [popToLParenDrop, if_neg h1]
    exact ih _ h

theorem popToLParenDrop_open {D : Type} (stack : List (Token D)) :
    ∀ (rpn : List (Token D)) (n : Nat), countLParen stack = n + 1 →
      (popToLParenDrop stack rpn).1 = true ∧
        countLParen (popToLParenDrop stack rpn).2.1 = n := by
  induction stack with
  | nil => intro rpn n h; simp [countLParen] at h
  | cons top rest ih =>
    intro rpn n h
    rw [countLParen] at h
    rw [popToLParenDrop]
    split_ifs at h ⊢ with h1
    · exact ⟨rfl, by simpa using h⟩
    · exact ih _ n h

theorem popToLParenKeep_closed {D : Type} (stack : List (Token D)) :
    ∀ rpn : List (Token D), countLParen stack = 0 → (popToLParenKeep stack rpn).1 = false := by
  induction stack with
  | nil => intro rpn _; rfl
  | cons top rest ih =>
    intro rpn h
    rw [countLParen] at h
    split_ifs at h with h1
    rw [popToLParenKeep, if_neg h1]
    exact ih _ h

theorem popToLParenKeep_open {D : Type} (stack : List (Token D)) :
    ∀ (rpn : List (Token D)), countLParen stack ≠ 0 →
      (popToLParenKeep stack rpn).1 = true ∧
        countLParen (popToLParenKeep stack rpn).2.1 = countLParen stack := by
  induction stack with
  | nil => intro rpn h; simp [countLParen] at h
  | cons top rest ih =>
    intro rpn h
    rw [popToLParenKeep]
    split_ifs with h1
    · exact ⟨rfl, rfl⟩
    · rw [countLParen, if_neg h1] at h ⊢
      exact ih _ h

/-- The messages of the two failures inside the parser loop. -/
theorem shuntStep_scan {D : Type} (t : Token D) (stack rpn : List (Token D)) :
    (t.type = TokType.RParen → countLParen stack = 0 →
        shuntStep t stack rpn = Except.error "Mismatched parentheses.") ∧
      (t.type = TokType.Comma → countLParen stack = 0 →
        shuntStep t stack rpn =
          Except.error "Misplaced comma or missing parentheses in function arguments.") ∧
      (∀ n, t.type = TokType.RParen → countLParen stack = n + 1 →
        ∃ stack1 rpn1, shuntStep t stack rpn = Except.ok (stack1, rpn1) ∧
          countLParen stack1 = n) ∧
      (t.type = TokType.Comma → countLParen stack ≠ 0 →
        ∃ stack1 rpn1, shuntStep t stack rpn = Except.ok (stack1, rpn1) ∧
          countLParen stack1 = countLParen stack) ∧
      (t.type = TokType.LParen →
        ∃ stack1 rpn1, shuntStep t stack rpn = Except.ok (stack1, rpn1) ∧
          countLParen stack1 = countLParen stack + 1) ∧
      (t.type ≠ TokType.LParen → t.type ≠ TokType.RParen → t.type ≠ TokType.Comma →
        ∃ stack1 rpn1, shuntStep t stack rpn = Except.ok (stack1, rpn1) ∧
          countLParen stack1 = countLParen stack) := by
  refine ⟨?_, ?_, ?_, ?_, ?_, ?_⟩
  · intro ht hc
    have hp := popToLParenDrop_closed stack rpn hc
    rcases hq : popToLParenDrop stack rpn with ⟨found, s2, r2⟩
    rw [hq] at hp
    simp only at hp
    subst hp
    rw [shuntStep_rparen _ _ _ ht, hq]
  · intro ht hc
    have hp := popToLParenKeep_closed stack rpn hc
    rcases hq : popToLParenKeep stack rpn with ⟨found, s2, r2⟩
    rw [hq] at hp
    simp only at hp
    subst hp
    rw [shuntStep_comma _ _ _ ht, hq]
  · intro n ht hc
    have hp := popToLParenDrop_open stack rpn n hc
    rcases hq : popToLParenDrop stack rpn with ⟨found, s2, r2⟩
    rw [hq] at hp
    simp only at hp
    obtain ⟨hfound, hcount⟩ := hp
    subst hfound
    rw [shuntStep_rparen _ _ _ ht, hq]
    cases s2 with
    | nil => exact ⟨[], r2, rfl, hcount⟩
    | cons top rest =>
      simp only
      split_ifs with h7
      · refine ⟨rest, r2 ++ [top], rfl, ?_⟩
        rw [countLParen, if_neg (by rw [h7]; decide)] at hcount
        exact hcount
      · exact ⟨top :: rest, r2, rfl, hcount⟩
  · intro ht hc
    have hp := popToLParenKeep_open stack rpn hc
    rcases hq : popToLParenKeep stack rpn with ⟨found, s2, r2⟩
    rw [hq] at hp
    simp only at hp
    obtain ⟨hfound, hcount⟩ := hp
    subst hfound
    rw [shuntStep_comma _ _ _ ht, hq]
    exact ⟨s2, r2, rfl, hcount⟩
  · intro ht
    exact ⟨t :: stack, rpn, shuntStep_lparen _ _ _ ht, by rw [countLParen, if_pos ht]⟩
  · intro h1 h2 h3
    by_cases ho : t.type = TokType.Number ∨ t.type = TokType.Var
    · exact ⟨stack, rpn ++ [t], shuntStep_operand _ _ _ ho, rfl⟩
    · by_cases hf : t.type = TokType.Func
      · exact ⟨t :: stack, rpn, shuntStep_func _ _ _ hf, by rw [countLParen, if_neg h1]⟩
      · have hop : t.type = TokType.Op := by
          cases hty : t.type <;> simp_all
        refine ⟨_, _, shuntStep_op _ _ _ hop, ?_⟩
        rw [countLParen, if_neg h1, popOperators_count]

/-- The parser loop follows the scan of parentheses and commas: it fails with
the message of the first offence, and otherwise ends with as many opening
parentheses on the stack as the scan leaves open. -/
theorem shuntLoop_scan {D : Type} (ts : List (Token D)) :
    ∀ (stack rpn : List (Token D)),
      (syntaxScan (countLParen stack) ts = ScanResult.closeWithoutOpen →
        shuntLoop ts stack rpn = Except.error "Mismatched parentheses.") ∧
      (syntaxScan (countLParen stack) ts = ScanResult.commaOutside →
        shuntLoop ts stack rpn =
          Except.error "Misplaced comma or missing parentheses in function arguments.") ∧
      (∀ n, syntaxScan (countLParen stack) ts = ScanResult.depth n →
        ∃ stack1 rpn1, shuntLoop ts stack rpn = Except.ok (stack1, rpn1) ∧
          countLParen stack1 = n) := by
  induction ts with
  | nil =>
    intro stack rpn
    refine ⟨fun h => by simp [syntaxScan] at h, ⟨fun h => by simp [syntaxScan] at h, ?_⟩⟩
    intro n h
    simp only [syntaxScan, ScanResult.depth.injEq] at h
    exact ⟨stack, rpn, rfl, h⟩
  | cons t ts ih =>
    intro stack rpn
    obtain ⟨hs1, hs2, hs3, hs4, hs5, hs6⟩ := shuntStep_scan t stack rpn
    have hnext : ∀ (stack1 rpn1 : List (Token D)) (d : Nat),
        shuntStep t stack rpn = Except.ok (stack1, rpn1) → countLParen stack1 = d →
        (syntaxScan d ts = ScanResult.closeWithoutOpen →
          shuntLoop (t :: ts) stack rpn = Except.error "Mismatched parentheses.") ∧
        (syntaxScan d ts = ScanResult.commaOutside →
          shuntLoop (t :: ts) stack rpn =
            Except.error "Misplaced comma or missing parentheses in function arguments.") ∧
        (∀ n, syntaxScan d ts = ScanResult.depth n →
          ∃ stack2 rpn2, shuntLoop (t :: ts) stack rpn = Except.ok (stack2, rpn2) ∧
            countLParen stack2 = n) := by
      intro stack1 rpn1 d hstep hd
      subst hd
      rw [shuntLoop_cons_ok _ _ _ _ _ _ hstep]
      exact ih stack1 rpn1
    rw [syntaxScan]
    by_cases h1 : t.type = TokType.LParen
    · rw [if_pos h1]
      obtain ⟨s1, r1, hstep, hc⟩ := hs5 h1
      exact hnext s1 r1 _ hstep hc
    · rw [if_neg h1]
      by_cases h2 : t.type = TokType.RParen
      · rw [if_pos h2]
        by_cases hd : countLParen stack = 0
        · rw [if_pos hd]
          refine ⟨fun _ => ?_, ⟨fun h => (by cases h), fun n h => (by cases h)⟩⟩
          rw [shuntLoop, hs1 h2 hd]
        · rw [if_neg hd]
          obtain ⟨s1, r1, hstep, hc⟩ := hs3 (countLParen stack - 1) h2 (by omega)
          exact hnext s1 r1 _ hstep hc
      · rw [if_neg h2]
        by_cases h3 : t.type = TokType.Comma
        · rw [if_pos h3]
          by_cases hd : countLParen stack = 0
          · rw [if_pos hd]
            refine ⟨fun h => (by cases h), ⟨fun _ => ?_, fun n h => (by cases h)⟩⟩
            rw [shuntLoop, hs2 h3 hd]
          · rw [if_neg hd]
            obtain ⟨s1, r1, hstep, hc⟩ := hs4 h3 hd
            exact hnext s1 r1 _ hstep hc
        · rw [if_neg h3]
          obtain ⟨s1, r1, hstep, hc⟩ := hs6 h1 h2 h3
          exact hnext s1 r1 _ hstep hc

theorem shuntDrain_open {D : Type} (stack : List (Token D)) :
    ∀ rpn : List (Token D), countLParen stack ≠ 0 →
      shuntDrain stack rpn = Except.error "Mismatched parentheses at end." := by
  induction stack with
  | nil => intro rpn h; simp [countLParen] at h
  | cons top rest ih =>
    intro rpn h
    rw [shuntDrain]
    split_ifs with h1
    · rfl
    · rw [countLParen, if_neg (fun hl => h1 (Or.inl hl))] at h
      exact ih _ h

/-- The result of the parser when the scan of parentheses and commas finds an
offence or leaves a parenthesis open. -/
theorem shuntingYard_scan_fail {D : Type} (ts : List (Token D)) :
    (syntaxScan 0 ts = ScanResult.closeWithoutOpen →
        shuntingYardToRPN ts = Except.error "Mismatched parentheses.") ∧
      (syntaxScan 0 ts = ScanResult.commaOutside →
        shuntingYardToRPN ts =
          Except.error "Misplaced comma or missing parentheses in function arguments.") ∧
      (∀ n, syntaxScan 0 ts = ScanResult.depth (n + 1) →
        shuntingYardToRPN ts = Except.error "Mismatched parentheses at end.") := by
  obtain ⟨h1, h2, h3⟩ := shuntLoop_scan ts [] []
  refine ⟨?_, ?_, ?_⟩
  · intro h
    simp only [shuntingYardToRPN, h1 h]
  · intro h
    simp only [shuntingYardToRPN, h2 h]
  · intro n h
    obtain ⟨s1, r1, hloop, hc⟩ := h3 (n + 1) h
    simp only [shuntingYardToRPN, hloop]
    exact shuntDrain_open s1 r1 (by omega)
theorem syntaxScan_noComma {D : Type} (ts : List (Token D))
    (h : ∀ t ∈ ts, t.type ≠ TokType.Comma) :
    ∀ d : Nat, syntaxScan d ts ≠ ScanResult.commaOutside := by
  induction ts with
  | nil => intro d hc; simp [syntaxScan] at hc
  | cons t ts ih =>
    intro d
    have ht := h t (by simp)
    have ih1 := ih (fun u hu => h u (List.mem_cons_of_mem _ hu))
    rw [syntaxScan]
    split_ifs with h1 h2 h3
    · exact ih1 _
    · intro hc; cases hc
    · exact ih1 _
    · exact ih1 _

theorem syntaxScan_append {D : Type} (pre rest : List (Token D)) :
    ∀ d n : Nat, syntaxScan d pre = ScanResult.depth n →
      syntaxScan d (pre ++ rest) = syntaxScan n rest := by
  induction pre with
  | nil =>
    intro d n h
    simp only [syntaxScan, ScanResult.depth.injEq] at h
    rw [List.nil_append, h]
  | cons t ts ih =>
    intro d n h
    rw [syntaxScan] at h
    rw [List.cons_append, syntaxScan]
    split_ifs at h ⊢ with h1 h2 h3 h4 h5
    · exact ih _ n h
    · exact ih _ n h
    · exact ih _ n h
    · exact ih _ n h

/-- C14: for every token sequence that contains no Comma and whose parentheses
are unbalanced, `shuntingYardToRPN` fails with a mismatched-parentheses
diagnostic: with `Mismatched parentheses.` when some RParen has no earlier
unmatched LParen, and with `Mismatched parentheses at end.` when some LParen is
never closed; `setExpression("(1+2", 1)` fails the second way. -/
theorem shuntingYard_unbalanced_parentheses {D : Type} (ts : List (Token D))
    (hno : ∀ t ∈ ts, t.type ≠ TokType.Comma) (hunb : syntaxScan 0 ts ≠ ScanResult.depth 0) :
    ((syntaxScan 0 ts = ScanResult.closeWithoutOpen ∧
          shuntingYardToRPN ts = Except.error "Mismatched parentheses.") ∨
        ((∃ n, syntaxScan 0 ts = ScanResult.depth (n + 1)) ∧
          shuntingYardToRPN ts = Except.error "Mismatched parentheses at end.")) ∧
      (setExpression exactOps (new ERat) "(1+2" 1).2 =
        Except.error "Mismatched parentheses at end." := by
  refine ⟨?_, by decide!⟩
  obtain ⟨h1, _, h3⟩ := shuntingYard_scan_fail ts
  cases hscan : syntaxScan 0 ts with
  | closeWithoutOpen => exact Or.inl ⟨rfl, h1 hscan⟩
  | commaOutside => exact absurd hscan (syntaxScan_noComma ts hno 0)
  | depth n =>
    cases n with
    | zero => exact absurd hscan hunb
    | succ m => exact Or.inr ⟨⟨m, rfl⟩, h3 m hscan⟩

/-- The tokens of `(1+2`: no comma, one parenthesis left open. -/
theorem shuntingYard_unbalanced_parentheses_witness :
    (∀ t ∈ [Token.ofType exactOps TokType.LParen, Token.mkNumber exactOps (ERat.fin 1),
          makeOp exactOps '+', Token.mkNumber exactOps (ERat.fin 2)],
        t.type ≠ TokType.Comma) ∧
      syntaxScan 0 [Token.ofType exactOps TokType.LParen, Token.mkNumber exactOps (ERat.fin 1),
          makeOp exactOps '+', Token.mkNumber exactOps (ERat.fin 2)] ≠ ScanResult.depth 0 ∧
      shuntingYardToRPN [Token.ofType exactOps TokType.LParen,
          Token.mkNumber exactOps (ERat.fin 1), makeOp exactOps '+',
          Token.mkNumber exactOps (ERat.fin 2)] =
        Except.error "Mismatched parentheses at end." :=
  ⟨by decide, by decide,
    ((shuntingYard_unbalanced_parentheses
      [Token.ofType exactOps TokType.LParen, Token.mkNumber exactOps (ERat.fin 1),
        makeOp exactOps '+', Token.mkNumber exactOps (ERat.fin 2)]
      (by decide) (by decide)).1.elim (fun h => absurd h.1 (by decide)) (fun h => h.2))⟩

/-- C15: for every token sequence in which a Comma occurs while no LParen is
open (all earlier tokens are accepted and leave parenthesis depth 0),
`shuntingYardToRPN` fails with the misplaced-comma diagnostic;
`setExpression("1,,2", 1)` fails this way. -/
theorem shuntingYard_comma_outside {D : Type} (pre post : List (Token D)) (c : Token D)
    (hc : c.type = TokType.Comma) (hpre : syntaxScan 0 pre = ScanResult.depth 0) :
    shuntingYardToRPN (pre ++ c :: post) =
        Except.error "Misplaced comma or missing parentheses in function arguments." ∧
      (setExpression exactOps (new ERat) "1,,2" 1).2 =
        Except.error "Misplaced comma or missing parentheses in function arguments." := by
  refine ⟨?_, by decide!⟩
  apply (shuntingYard_scan_fail (pre ++ c :: post)).2.1
  rw [syntaxScan_append pre (c :: post) 0 0 hpre, syntaxScan]
  simp [hc]

/-- The tokens of `1,,2`: the first comma follows the accepted token `1` at
depth 0. -/
theorem shuntingYard_comma_outside_witness :
    (Token.ofType exactOps TokType.Comma).type = TokType.Comma ∧
      syntaxScan 0 [Token.mkNumber exactOps (ERat.fin 1)] = ScanResult.depth 0 ∧
      shuntingYardToRPN
          ([Token.mkNumber exactOps (ERat.fin 1)] ++ Token.ofType exactOps TokType.Comma ::
            [Token.ofType exactOps TokType.Comma, Token.mkNumber exactOps (ERat.fin 2)]) =
        Except.error "Misplaced comma or missing parentheses in function arguments." :=
  ⟨rfl, by decide,
    (shuntingYard_comma_outside [Token.mkNumber exactOps (ERat.fin 1)]
      [Token.ofType exactOps TokType.Comma, Token.mkNumber exactOps (ERat.fin 2)]
      (Token.ofType exactOps TokType.Comma) rfl (by decide)).1⟩

/-- The tokens of the ill-formed text `1(2,+)`, which the parser accepts. -/
theorem shuntingYard_output_kinds_witness :
    shuntingYardToRPN
        [Token.mkNumber exactOps (ERat.fin 1), Token.ofType exactOps TokType.LParen,
          Token.mkNumber exactOps (ERat.fin 2), Token.ofType exactOps TokType.Comma,
          makeOp exactOps '+', Token.ofType exactOps TokType.RParen] =
        Except.ok [Token.mkNumber exactOps (ERat.fin 1), Token.mkNumber exactOps (ERat.fin 2),
          makeOp exactOps '+'] ∧
      ∀ u ∈ [Token.mkNumber exactOps (ERat.fin 1), Token.mkNumber exactOps (ERat.fin 2),
          makeOp exactOps '+'],
        (u.type = TokType.Number ∨ u.type = TokType.Var ∨ u.type = TokType.Op ∨
            u.type = TokType.Func) ∧
          u.type ≠ TokType.LParen ∧ u.type ≠ TokType.RParen ∧ u.type ≠ TokType.Comma :=
  ⟨by decide!,
    shuntingYard_output_kinds
      [Token.mkNumber exactOps (ERat.fin 1), Token.ofType exactOps TokType.LParen,
        Token.mkNumber exactOps (ERat.fin 2), Token.ofType exactOps TokType.Comma,
        makeOp exactOps '+', Token.ofType exactOps TokType.RParen]
      [Token.mkNumber exactOps (ERat.fin 1), Token.mkNumber exactOps (ERat.fin 2),
        makeOp exactOps '+']
      (by decide!)⟩

/-! ## The function table and the binder -/

theorem findFn_eq_none_iff (name : String) : findFn name = none ↔ name ∉ tableNames := by
  simp only [findFn, fns, Option.map_eq_none', List.find?_eq_none, tableNames, unaryNames,
    binaryNames]
  simp
  tauto

theorem findFn_of_unaryNames (name : String) (h : name ∈ unaryNames) :
    ∃ f : UnaryFn, f.name = name ∧ findFn name = some ⟨1, some f, none⟩ := by
  simp only [unaryNames, List.mem_cons, List.mem_singleton, List.not_mem_nil, or_false] at h
  rcases h with h | h | h | h | h | h | h | h | h | h | h | h | h <;> subst h
  · exact ⟨UnaryFn.sin, rfl, by decide⟩
  · exact ⟨UnaryFn.cos, rfl, by decide⟩
  · exact ⟨UnaryFn.tan, rfl, by decide⟩
  · exact ⟨UnaryFn.asin, rfl, by decide⟩
  · exact ⟨UnaryFn.acos, rfl, by decide⟩
  · exact ⟨UnaryFn.atan, rfl, by decide⟩
  · exact ⟨UnaryFn.exp, rfl, by decide⟩
  · exact ⟨UnaryFn.log, rfl, by decide⟩
  · exact ⟨UnaryFn.log10, rfl, by decide⟩
  · exact ⟨UnaryFn.sqrt, rfl, by decide⟩
  · exact ⟨UnaryFn.abs, rfl, by decide⟩
  · exact ⟨UnaryFn.floor, rfl, by decide⟩
  · exact ⟨UnaryFn.ceil, rfl, by decide⟩

theorem findFn_of_binaryNames (name : String) (h : name ∈ binaryNames) :
    ∃ f : BinaryFn, f.name = name ∧ findFn name = some ⟨2, none, some f⟩ := by
  simp only [binaryNames, List.mem_cons, List.mem_singleton, List.not_mem_nil, or_false] at h
  rcases h with h | h | h <;> subst h
  · exact ⟨BinaryFn.min, rfl, by decide⟩
  · exact ⟨BinaryFn.max, rfl, by decide⟩
  · exact ⟨BinaryFn.pow, rfl, by decide⟩

/-- Every table entry is a unary entry (arity 1, unary operation set) or a
binary entry (arity 2, binary operation set). -/
theorem findFn_some (name : String) (d : FnDef) (h : findFn name = some d) :
    (name ∈ unaryNames ∧ ∃ f : UnaryFn, d = ⟨1, some f, none⟩) ∨
      (name ∈ binaryNames ∧ ∃ f : BinaryFn, d = ⟨2, none, some f⟩) := by
  have hmem : name ∈ tableNames := by
    by_contra hc
    rw [(findFn_eq_none_iff name).mpr hc] at h
    cases h
  rcases List.mem_append.mp hmem with hu | hb
  · obtain ⟨f, _, hf⟩ := findFn_of_unaryNames name hu
    rw [hf] at h
    exact Or.inl ⟨hu, f, (Option.some.inj h).symm⟩
  · obtain ⟨f, _, hf⟩ := findFn_of_binaryNames name hb
    rw [hf] at h
    exact Or.inr ⟨hb, f, (Option.some.inj h).symm⟩

/-- The binder on a sequence that starts with a token that is not a `Func`. -/
theorem bindFunctions_cons_other {D : Type} (t : Token D) (ts : List (Token D))
    (h : t.type ≠ TokType.Func) :
    bindFunctions (t :: ts) =
      match bindFunctions ts with
      | Except.error m => Except.error m
      | Except.ok ts1 => Except.ok (t :: ts1) := by
  rw [bindFunctions, if_pos h]

/-- The binder on a sequence that starts with a `Func` token. -/
theorem bindFunctions_cons_func {D : Type} (t : Token D) (ts : List (Token D))
    (h : t.type = TokType.Func) :
    bindFunctions (t :: ts) =
      match findFn t.funcName with
      | none => Except.error ("Unknown function '" ++ t.funcName ++ "'.")
      | some d =>
        match bindFunctions ts with
        | Except.error m => Except.error m
        | Except.ok ts1 => Except.ok (t.bound d :: ts1) := by
  rw [bindFunctions, if_neg (not_not.mpr h)]
  rfl

/-- On success the binder treats the tokens one by one, in order. -/
theorem bindFunctions_forall₂ {D : Type} (ts : List (Token D)) :
    ∀ out : List (Token D), bindFunctions ts = Except.ok out → List.Forall₂ BoundAs ts out := by
  induction ts with
  | nil =>
    intro out h
    simp only [bindFunctions, Except.ok.injEq] at h
    subst h
    exact List.Forall₂.nil
  | cons t ts ih =>
    intro out h
    by_cases hty : t.type = TokType.Func
    · rw [bindFunctions_cons_func t ts hty] at h
      cases hf : findFn t.funcName with
      | none => rw [hf] at h; cases h
      | some d =>
        rw [hf] at h
        simp only at h
        cases hts : bindFunctions ts with
        | error m => rw [hts] at h; cases h
        | ok ts1 =>
          rw [hts] at h
          simp only [Except.ok.injEq] at h
          subst h
          exact List.Forall₂.cons (Or.inr ⟨hty, d, hf, rfl⟩) (ih ts1 hts)
    · rw [bindFunctions_cons_other t ts hty] at h
      cases hts : bindFunctions ts with
      | error m => rw [hts] at h; cases h
      | ok ts1 =>
        rw [hts] at h
        simp only [Except.ok.injEq] at h
        subst h
        exact List.Forall₂.cons (Or.inl ⟨hty, rfl⟩) (ih ts1 hts)

/-- The binder succeeds when every function name is in the table. -/
theorem bindFunctions_ok_of_names {D : Type} (ts : List (Token D))
    (h : ∀ t ∈ ts, t.type = TokType.Func → t.funcName ∈ tableNames) :
    ∃ out, bindFunctions ts = Except.ok out := by
  induction ts with
  | nil => exact ⟨[], rfl⟩
  | cons t ts ih =>
    obtain ⟨ts1, hts⟩ := ih (fun u hu => h u (List.mem_cons_of_mem _ hu))
    by_cases hty : t.type = TokType.Func
    · rw [bindFunctions_cons_func t ts hty]
      cases hf : findFn t.funcName with
      | none => exact absurd (h t (by simp) hty) ((findFn_eq_none_iff _).mp hf)
      | some d =>
        simp only [hts]
        exact ⟨_, rfl⟩
    · rw [bindFunctions_cons_other t ts hty, hts]
      exact ⟨_, rfl⟩

/-- The binder fails at the first function name that is not in the table, with
the message that names it. -/
theorem bindFunctions_first_unknown {D : Type} (pre : List (Token D)) (t : Token D)
    (post : List (Token D))
    (hpre : ∀ u ∈ pre, u.type = TokType.Func → u.funcName ∈ tableNames)
    (hty : t.type = TokType.Func) (hname : t.funcName ∉ tableNames) :
    bindFunctions (pre ++ t :: post) =
      Except.error ("Unknown function '" ++ t.funcName ++ "'.") := by
  induction pre with
  | nil =>
    rw [List.nil_append, bindFunctions_cons_func t post hty,
      (findFn_eq_none_iff _).mpr hname]
  | cons u us ih =>
    have ih1 := ih (fun v hv => hpre v (List.mem_cons_of_mem _ hv))
    rw [List.cons_append]
    by_cases hu : u.type = TokType.Func
    · rw [bindFunctions_cons_func u _ hu]
      cases hf : findFn u.funcName with
      | none => exact absurd (hpre u (by simp) hu) ((findFn_eq_none_iff _).mp hf)
      | some d =>
        simp only [ih1]
    · rw [bindFunctions_cons_other u _ hu, ih1]

/-- A sequence with a function name outside the table splits at the first such
token. -/
theorem exists_first_unknown {D : Type} (ts : List (Token D))
    (h : ¬ ∀ t ∈ ts, t.type = TokType.Func → t.funcName ∈ tableNames) :
    ∃ pre t post, ts = pre ++ t :: post ∧
      (∀ u ∈ pre, u.type = TokType.Func → u.funcName ∈ tableNames) ∧
      t.type = TokType.Func ∧ t.funcName ∉ tableNames := by
  induction ts with
  | nil => exact absurd (by intro t ht; simp at ht) h
  | cons t ts ih =>
    by_cases ht : t.type = TokType.Func → t.funcName ∈ tableNames
    · have hrest : ¬ ∀ u ∈ ts, u.type = TokType.Func → u.funcName ∈ tableNames := by
        intro hall
        apply h
        intro u hu
        rcases List.mem_cons.mp hu with hu | hu
        · rw [hu]
          exact ht
        · exact hall u hu
      obtain ⟨pre, u, post, hsplit, hpre, hty, hname⟩ := ih hrest
      refine ⟨t :: pre, u, post, by rw [hsplit, List.cons_append], ?_, hty, hname⟩
      intro v hv
      rcases List.mem_cons.mp hv with hv | hv
      · rw [hv]
        exact ht
      · exact hpre v hv
    · push_neg at ht
      exact ⟨[], t, ts, rfl, by intro u hu; simp at hu, ht.1, ht.2⟩

/-- C16: `bindFunctions` succeeds if and only if the name of every Func token of
the postfix sequence is one of the 16 table names (case-sensitive: `Sin` is
none of them); otherwise it fails with `Unknown function '<name>'.` naming the
first such token in postfix order; `setExpression("foo(x0)", 1)` fails with
`Unknown function 'foo'.` -/
theorem bindFunctions_succeeds_iff {D : Type} (ts : List (Token D)) :
    ((∃ out, bindFunctions ts = Except.ok out) ↔
        ∀ t ∈ ts, t.type = TokType.Func → t.funcName ∈ tableNames) ∧
      (∀ (pre : List (Token D)) (t : Token D) (post : List (Token D)),
        ts = pre ++ t :: post →
        (∀ u ∈ pre, u.type = TokType.Func → u.funcName ∈ tableNames) →
        t.type = TokType.Func → t.funcName ∉ tableNames →
        bindFunctions ts = Except.error ("Unknown function '" ++ t.funcName ++ "'.")) ∧
      tableNames =
        ["sin", "cos", "tan", "asin", "acos", "atan", "exp", "log", "log10", "sqrt", "abs",
          "floor", "ceil", "min", "max", "pow"] ∧
      "Sin" ∉ tableNames ∧
      (setExpression exactOps (new ERat) "foo(x0)" 1).2 =
        Except.error "Unknown function 'foo'." := by
  refine ⟨⟨?_, bindFunctions_ok_of_names ts⟩, ?_, rfl, by decide, by decide!⟩
  · rintro ⟨out, hout⟩
    by_contra hc
    obtain ⟨pre, t, post, hsplit, hpre, hty, hname⟩ := exists_first_unknown ts hc
    rw [hsplit, bindFunctions_first_unknown pre t post hpre hty hname] at hout
    cases hout
  · intro pre t post hsplit hpre hty hname
    rw [hsplit]
    exact bindFunctions_first_unknown pre t post hpre hty hname

/-- The postfix sequence `x0 abs foo bar`: the binder stops at `foo`, the first
name outside the table. -/
theorem bindFunctions_succeeds_iff_witness :
    bindFunctions
        [Token.mkVar exactOps 0, Token.mkFunc exactOps "abs", Token.mkFunc exactOps "foo",
          Token.mkFunc exactOps "bar"] =
      Except.error "Unknown function 'foo'." :=
  (bindFunctions_succeeds_iff
    [Token.mkVar exactOps 0, Token.mkFunc exactOps "abs", Token.mkFunc exactOps "foo",
      Token.mkFunc exactOps "bar"]).2.1
    [Token.mkVar exactOps 0, Token.mkFunc exactOps "abs"] (Token.mkFunc exactOps "foo")
    [Token.mkFunc exactOps "bar"] rfl (by decide) rfl (by decide)
theorem boundPerTable_of_boundAs {D : Type} (t t1 : Token D) (h : BoundAs t t1) :
    BoundPerTable t t1 := by
  rcases h with ⟨hty, heq⟩ | ⟨hty, d, hd, heq⟩
  · exact ⟨fun _ => heq, fun h1 => absurd h1 hty, fun h1 => absurd h1 hty⟩
  · refine ⟨fun h1 => absurd hty h1, ?_, ?_⟩
    · intro _ hname
      obtain ⟨f, hf, hfind⟩ := findFn_of_unaryNames _ hname
      rw [hfind] at hd
      have hdd := Option.some.inj hd
      subst hdd
      exact ⟨f, hf, heq, by rw [heq]; rfl, by rw [heq]; rfl⟩
    · intro _ hname
      obtain ⟨f, hf, hfind⟩ := findFn_of_binaryNames _ hname
      rw [hfind] at hd
      have hdd := Option.some.inj hd
      subst hdd
      exact ⟨f, hf, heq, by rw [heq]; rfl, by rw [heq]; rfl⟩

/-- C17: on success `bindFunctions` leaves the length and the order of the
sequence; token by token, it sets `funcArity` to 1 and attaches the unary
operation of the name to every Func token named `sin, cos, tan, asin, acos,
atan, exp, log, log10, sqrt, abs, floor` or `ceil`, sets `funcArity` to 2 and
attaches the binary operation of the name to every Func token named `min, max`
or `pow`, and leaves every other token (Number, Var, Op) unchanged. -/
theorem bindFunctions_frame {D : Type} (ts out : List (Token D))
    (h : bindFunctions ts = Except.ok out) :
    out.length = ts.length ∧ List.Forall₂ BoundPerTable ts out ∧
      unaryNames = ["sin", "cos", "tan", "asin", "acos", "atan", "exp", "log", "log10",
        "sqrt", "abs", "floor", "ceil"] ∧
      binaryNames = ["min", "max", "pow"] := by
  have hall := bindFunctions_forall₂ ts out h
  exact ⟨hall.length_eq.symm, hall.imp boundPerTable_of_boundAs, rfl, rfl⟩

/-- The postfix sequence `x0 sin 2 pow +`. -/
theorem bindFunctions_frame_witness :
    bindFunctions
        [Token.mkVar exactOps 0, Token.mkFunc exactOps "sin",
          Token.mkNumber exactOps (ERat.fin 2), Token.mkFunc exactOps "pow",
          makeOp exactOps '+'] =
      Except.ok
        [Token.mkVar exactOps 0, (Token.mkFunc exactOps "sin").bound ⟨1, some UnaryFn.sin, none⟩,
          Token.mkNumber exactOps (ERat.fin 2),
          (Token.mkFunc exactOps "pow").bound ⟨2, none, some BinaryFn.pow⟩,
          makeOp exactOps '+'] ∧
      List.Forall₂ BoundPerTable
        [Token.mkVar exactOps 0, Token.mkFunc exactOps "sin",
          Token.mkNumber exactOps (ERat.fin 2), Token.mkFunc exactOps "pow",
          makeOp exactOps '+']
        [Token.mkVar exactOps 0, (Token.mkFunc exactOps "sin").bound ⟨1, some UnaryFn.sin, none⟩,
          Token.mkNumber exactOps (ERat.fin 2),
          (Token.mkFunc exactOps "pow").bound ⟨2, none, some BinaryFn.pow⟩,
          makeOp exactOps '+'] :=
  ⟨by decide!,
    (bindFunctions_frame
      [Token.mkVar exactOps 0, Token.mkFunc exactOps "sin",
        Token.mkNumber exactOps (ERat.fin 2), Token.mkFunc exactOps "pow",
        makeOp exactOps '+']
      [Token.mkVar exactOps 0, (Token.mkFunc exactOps "sin").bound ⟨1, some UnaryFn.sin, none⟩,
        Token.mkNumber exactOps (ERat.fin 2),
        (Token.mkFunc exactOps "pow").bound ⟨2, none, some BinaryFn.pow⟩,
        makeOp exactOps '+']
      (by decide!)).2.1⟩
/-! ## The stored program after a successful `setExpression` -/

/-- A successful `setExpression` ran the three stages and stored the result of
the last. -/
theorem setExpression_ok_inv {D : Type} (ops : DoubleOps D) (self : ObjectiveFunction D)
    (expr : String) (dimension : Int)
    (h : (setExpression ops self expr dimension).2 = Except.ok ()) :
    ∃ toks rpn rpn1, 1 ≤ dimension ∧ tokenize ops expr.data dimension = Except.ok toks ∧
      shuntingYardToRPN toks = Except.ok rpn ∧ bindFunctions rpn = Except.ok rpn1 ∧
      setExpression ops self expr dimension = (⟨dimension, expr, rpn1⟩, Except.ok ()) := by
  unfold setExpression at h ⊢
  simp only at h ⊢
  by_cases hd : dimension ≤ 0
  · rw [if_pos hd] at h
    cases h
  · rw [if_neg hd] at h ⊢
    cases htok : tokenize ops expr.data dimension with
    | error m => rw [htok] at h; cases h
    | ok toks =>
      rw [htok] at h
      simp only at h ⊢
      cases hsy : shuntingYardToRPN toks with
      | error m => rw [hsy] at h; cases h
      | ok rpn =>
        rw [hsy] at h
        simp only at h ⊢
        cases hb : bindFunctions rpn with
        | error m => rw [hb] at h; cases h
        | ok rpn1 =>
          exact ⟨toks, rpn, rpn1, by omega, rfl, hsy, hb, rfl⟩

theorem forall₂_mem_right {α β : Type} {R : α → β → Prop} {l1 : List α} {l2 : List β}
    (h : List.Forall₂ R l1 l2) : ∀ b ∈ l2, ∃ a ∈ l1, R a b := by
  induction h with
  | nil => intro b hb; simp at hb
  | cons hab _ ih =>
    intro b hb
    rcases List.mem_cons.mp hb with hb | hb
    · subst hb
      exact ⟨_, List.mem_cons_self _ _, hab⟩
    · obtain ⟨a, ha, hr⟩ := ih b hb
      exact ⟨a, List.mem_cons_of_mem _ ha, hr⟩

/-- A token that the tokenizer emits, that the parser sends to the output and
that the binder has treated is directly executable, and its variable index, if
any, is in `[0, dim)`. -/
theorem executable_of_lexed_bound {D : Type} (ops : DoubleOps D) (dim : Int) (t t1 : Token D)
    (hlex : Lexed ops dim t) (hkind : t.PostfixKind) (hb : BoundAs t t1) :
    t1.Executable ∧ (t1.type = TokType.Var → 0 ≤ t1.varIndex ∧ t1.varIndex < dim) := by
  rcases hb with ⟨hty, heq⟩ | ⟨hty, d, hd, heq⟩
  · subst heq
    cases hlex with
    | lparen => rcases hkind with h | h | h | h <;> simp at h
    | rparen => rcases hkind with h | h | h | h <;> simp at h
    | comma => rcases hkind with h | h | h | h <;> simp at h
    | number v => exact ⟨Or.inl rfl, fun h => by simp at h⟩
    | op c hc =>
      exact ⟨Or.inr (Or.inr (Or.inl ⟨type_makeOp ops c, by rw [op_makeOp]; exact hc⟩)),
        fun h => by simp at h⟩
    | var idx h0 h1 => exact ⟨Or.inr (Or.inl rfl), fun _ => ⟨h0, h1⟩⟩
    | func name => exact absurd rfl hty
  · subst heq
    have hty1 : (t.bound d).type = TokType.Func := hty
    refine ⟨Or.inr (Or.inr (Or.inr ⟨hty1, ?_⟩)), fun h => by rw [hty1] at h; cases h⟩
    rcases findFn_some _ d hd with ⟨_, f, hf⟩ | ⟨_, f, hf⟩
    · subst hf
      exact Or.inl ⟨rfl, f, rfl⟩
    · subst hf
      exact Or.inr ⟨rfl, f, rfl⟩

/-- Every token of the program stored by a successful `setExpression` is
directly executable and every variable index in it is in `[0, dimension)`. -/
theorem setExpression_program_tokens {D : Type} (ops : DoubleOps D)
    (self : ObjectiveFunction D) (expr : String) (dimension : Int)
    (h : (setExpression ops self expr dimension).2 = Except.ok ()) :
    ∀ t ∈ (setExpression ops self expr dimension).1.rpn_,
      t.Executable ∧ (t.type = TokType.Var → 0 ≤ t.varIndex ∧ t.varIndex < dimension) := by
  obtain ⟨toks, rpn, rpn1, _, htok, hsy, hb, hset⟩ := setExpression_ok_inv ops self expr dimension h
  rw [hset]
  intro t1 ht1
  obtain ⟨t, ht, hbound⟩ := forall₂_mem_right (bindFunctions_forall₂ rpn rpn1 hb) t1 ht1
  exact executable_of_lexed_bound ops dimension t t1
    (tokenize_lexed ops _ dimension toks htok t (shuntingYard_mem toks rpn hsy t ht))
    (shuntingYard_postfixKind toks rpn hsy t ht) hbound

theorem runnable_of_executable {D : Type} (t : Token D) (h : t.Executable) : t.Runnable := by
  rcases h with h | h | h | ⟨h, h1 | h1⟩
  · exact Or.inl h
  · exact Or.inr (Or.inl h)
  · exact Or.inr (Or.inr (Or.inl h))
  · exact Or.inr (Or.inr (Or.inr ⟨h, Or.inl h1.1⟩))
  · exact Or.inr (Or.inr (Or.inr ⟨h, Or.inr h1.1⟩))

/-! ## The exits of the evaluator -/

/-- One evaluator iteration on a runnable token whose variable is inside the
vector follows the stack-depth discipline: it fails, with a stack underflow,
exactly when the discipline needs more operands than the stack has, and
otherwise leaves a stack of the depth the discipline gives. -/
theorem evalStep_depth {D : Type} (ops : DoubleOps D) (x : List D) (t : Token D) (st : List D)
    (hr : t.Runnable) (hv : t.VarInside x.length) :
    (depthRun [t] st.length = none → evalStep ops x t st = Except.error EvalExit.underflow) ∧
      (∀ n, depthRun [t] st.length = some n →
        ∃ st1, evalStep ops x t st = Except.ok st1 ∧ st1.length = n) := by
  rcases hr with hty | hty | ⟨hty, hsym⟩ | ⟨hty, har⟩
  · simp only [depthRun, hty, true_or, if_true, evalStep]
    exact ⟨fun h => (by cases h), fun n h => ⟨_, rfl, by simpa using Option.some.inj h⟩⟩
  · obtain ⟨h0, h1⟩ := hv hty
    have hget : x[t.varIndex.toNat]? = some x[t.varIndex.toNat] := List.getElem?_eq_getElem h1
    have hneg : ¬ t.varIndex < 0 := by omega
    simp only [depthRun, hty, or_true, if_true, evalStep, reduceCtorEq, if_false, hneg, hget]
    exact ⟨fun h => (by cases h), fun n h => ⟨_, rfl, by simpa using Option.some.inj h⟩⟩
  · simp only [depthRun, hty, reduceCtorEq, or_self, if_false, true_or, if_true, evalStep]
    match st with
    | [] => exact ⟨fun _ => rfl, fun n h => by simp at h⟩
    | [a] => exact ⟨fun _ => rfl, fun n h => by simp at h⟩
    | b :: a :: st1 =>
      refine ⟨fun h => (by simp at h), fun n h => ?_⟩
      simp only [List.length_cons, Nat.le_add_left, if_true, Option.some.injEq] at h
      rcases hsym with hs | hs | hs | hs | hs <;>
      · simp only [hs]
        exact ⟨_, by simp; rfl, by simp at h ⊢; omega⟩
  · rcases har with har | har
    · have h2 : ¬ t.funcArity = 2 := by omega
      simp only [depthRun, hty, reduceCtorEq, or_self, if_false, h2, and_false, har, and_self,
        if_true, evalStep]
      match st with
      | [] => exact ⟨fun _ => rfl, fun n h => by simp at h⟩
      | a :: st1 =>
        refine ⟨fun h => (by simp at h), fun n h => ?_⟩
        simp only [List.length_cons, Nat.le_add_left, if_true, Option.some.injEq] at h
        cases t.fn1 with
        | none => exact ⟨_, rfl, by simpa using h⟩
        | some f => exact ⟨_, rfl, by simpa using h⟩
    · have h1 : ¬ t.funcArity = 1 := by omega
      simp only [depthRun, hty, reduceCtorEq, or_self, if_false, har, and_self, or_true,
        if_true, evalStep, h1]
      match st with
      | [] => exact ⟨fun _ => rfl, fun n h => by simp at h⟩
      | [a] => exact ⟨fun _ => rfl, fun n h => by simp at h⟩
      | b :: a :: st1 =>
        refine ⟨fun h => (by simp at h), fun n h => ?_⟩
        simp only [List.length_cons, Nat.le_add_left, if_true, Option.some.injEq] at h
        cases t.fn2 with
        | none => exact ⟨_, rfl, by simp at h ⊢; omega⟩
        | some f => exact ⟨_, rfl, by simp at h ⊢; omega⟩
theorem depthRun_cons {D : Type} (t : Token D) (ts : List (Token D)) (d : Nat) :
    depthRun (t :: ts) d =
      match depthRun [t] d with
      | none => none
      | some d1 => depthRun ts d1 := by
  simp only [depthRun]
  split_ifs <;> rfl

theorem evalLoop_depth {D : Type} (ops : DoubleOps D) (x : List D) (prog : List (Token D)) :
    ∀ st : List D, (∀ t ∈ prog, t.Runnable) → (∀ t ∈ prog, t.VarInside x.length) →
      (depthRun prog st.length = none →
        evalLoop ops x prog st = Except.error EvalExit.underflow) ∧
      (∀ n, depthRun prog st.length = some n →
        ∃ st1, evalLoop ops x prog st = Except.ok st1 ∧ st1.length = n) := by
  induction prog with
  | nil =>
    intro st _ _
    refine ⟨fun h => (by simp [depthRun] at h), fun n h => ⟨st, rfl, ?_⟩⟩
    simpa [depthRun] using h
  | cons t ts ih =>
    intro st hr hv
    obtain ⟨hnone, hsome⟩ := evalStep_depth ops x t st (hr t (by simp)) (hv t (by simp))
    rw [depthRun_cons]
    cases hd : depthRun [t] st.length with
    | none =>
      refine ⟨fun _ => ?_, fun n h => (by cases h)⟩
      rw [evalLoop, hnone hd]
    | some d1 =>
      obtain ⟨st1, hstep, hlen⟩ := hsome d1 hd
      subst hlen
      rw [evalLoop_cons_ok ops x t ts st st1 hstep]
      exact ih st1 (fun u hu => hr u (List.mem_cons_of_mem _ hu))
        (fun u hu => hv u (List.mem_cons_of_mem _ hu))

/-- The evaluator follows the stack-depth discipline on every sequence of
runnable tokens whose variables are inside the vector. -/
theorem depthOutcome_of_runnable {D : Type} (ops : DoubleOps D) (prog : List (Token D))
    (x : List D) (hr : ∀ t ∈ prog, t.Runnable) (hv : ∀ t ∈ prog, t.VarInside x.length) :
    DepthOutcome ops prog x := by
  obtain ⟨hnone, hsome⟩ := evalLoop_depth ops x prog [] hr hv
  simp only [List.length_nil] at hnone hsome
  have hcases : (depthRun prog 0 = none ∧
        evalRun ops prog x = Except.error EvalExit.underflow) ∨
      (∃ v, depthRun prog 0 = some 1 ∧ evalLoop ops x prog [] = Except.ok [v] ∧
        evalRun ops prog x = Except.ok v) ∨
      (∃ n, n ≠ 1 ∧ depthRun prog 0 = some n ∧
        evalRun ops prog x = Except.error EvalExit.finalSize) := by
    cases hd : depthRun prog 0 with
    | none =>
      refine Or.inl ⟨rfl, ?_⟩
      simp only [evalRun, hnone hd]
    | some n =>
      obtain ⟨st1, hloop, hlen⟩ := hsome n hd
      match st1, hlen with
      | [], hlen =>
        refine Or.inr (Or.inr ⟨n, by simp at hlen; omega, rfl, ?_⟩)
        simp only [evalRun, hloop]
      | [v], hlen =>
        simp only [List.length_singleton] at hlen
        subst hlen
        refine Or.inr (Or.inl ⟨v, rfl, hloop, ?_⟩)
        simp only [evalRun, hloop]
      | a :: b :: st2, hlen =>
        refine Or.inr (Or.inr ⟨n, by simp at hlen; omega, rfl, ?_⟩)
        simp only [evalRun, hloop]
  rcases hcases with ⟨hd, hrun⟩ | ⟨v, hd, hloop, hrun⟩ | ⟨n, hn, hd, hrun⟩
  · refine ⟨⟨?_, ?_⟩, ?_, ?_, ?_⟩
    · rintro ⟨v, hv1⟩
      rw [hrun] at hv1
      cases hv1
    · intro h
      rw [hd] at h
      cases h
    · intro v hv1
      rw [hrun] at hv1
      cases hv1
    · intro _
      exact ⟨hrun, by simp only [evalRPN, hrun]⟩
    · intro n h
      rw [hd] at h
      cases h
  · refine ⟨⟨fun _ => hd, fun _ => ⟨v, hrun⟩⟩, ?_, ?_, ?_⟩
    · intro w hw
      rw [hrun] at hw
      cases hw
      exact ⟨hloop, by simp only [evalRPN, hrun]⟩
    · intro h
      rw [hd] at h
      cases h
    · intro n h hn
      rw [hd] at h
      cases h
      exact absurd rfl hn
  · refine ⟨⟨?_, ?_⟩, ?_, ?_, ?_⟩
    · rintro ⟨v, hv1⟩
      rw [hrun] at hv1
      cases hv1
    · intro h
      rw [hd] at h
      cases h
      exact absurd rfl hn
    · intro v hv1
      rw [hrun] at hv1
      cases hv1
    · intro h
      rw [hd] at h
      cases h
    · intro m _ _
      exact ⟨hrun, by simp only [evalRPN, hrun]⟩

/-- The program stored by a successful `setExpression` consists of runnable
tokens whose variables are inside every vector of the length of the
dimension. -/
theorem setExpression_program_runnable {D : Type} (ops : DoubleOps D)
    (self : ObjectiveFunction D) (expr : String) (dimension : Int)
    (h : (setExpression ops self expr dimension).2 = Except.ok ()) (x : List D)
    (hx : (x.length : Int) = dimension) :
    (∀ t ∈ (setExpression ops self expr dimension).1.rpn_, t.Runnable) ∧
      (∀ t ∈ (setExpression ops self expr dimension).1.rpn_, t.VarInside x.length) := by
  have htok := setExpression_program_tokens ops self expr dimension h
  refine ⟨fun t ht => runnable_of_executable t (htok t ht).1, fun t ht hty => ?_⟩
  have := (htok t ht).2 hty
  omega

/-- The only exits an evaluator iteration can take on a runnable token are the
stack underflow and the read outside the vector. -/
theorem evalStep_exit {D : Type} (ops : DoubleOps D) (x : List D) (t : Token D) (st : List D)
    (hr : t.Runnable) (e : EvalExit) (h : evalStep ops x t st = Except.error e) :
    e = EvalExit.underflow ∨ e = EvalExit.outOfBounds := by
  unfold evalStep at h
  rcases hr with hty | hty | ⟨hty, hsym⟩ | ⟨hty, har⟩
  · simp [hty] at h
  · simp only [hty, reduceCtorEq, if_false, if_true] at h
    split_ifs at h
    · cases h
      exact Or.inr rfl
    · split at h
      · cases h
      · cases h
        exact Or.inr rfl
  · simp only [hty, reduceCtorEq, if_false, if_true] at h
    split at h
    · rcases hsym with hs | hs | hs | hs | hs <;> simp [hs] at h
    · cases h
      exact Or.inl rfl
  · simp only [hty, reduceCtorEq, if_false, if_true] at h
    rcases har with har | har
    · rw [if_pos har] at h
      split at h
      · split at h <;> cases h
      · cases h
        exact Or.inl rfl
    · have h1 : ¬ t.funcArity = 1 := by omega
      rw [if_neg h1, if_pos har] at h
      split at h
      · split at h <;> cases h
      · cases h
        exact Or.inl rfl

theorem evalLoop_exit {D : Type} (ops : DoubleOps D) (x : List D) (prog : List (Token D)) :
    ∀ (st : List D) (e : EvalExit), (∀ t ∈ prog, t.Runnable) →
      evalLoop ops x prog st = Except.error e →
      e = EvalExit.underflow ∨ e = EvalExit.outOfBounds := by
  induction prog with
  | nil => intro st e _ h; cases h
  | cons t ts ih =>
    intro st e hr h
    rw [evalLoop] at h
    cases hstep : evalStep ops x t st with
    | error e1 =>
      rw [hstep] at h
      cases h
      exact evalStep_exit ops x t st (hr t (by simp)) e hstep
    | ok st1 =>
      rw [hstep] at h
      exact ih st1 e (fun u hu => hr u (List.mem_cons_of_mem _ hu)) h

/-- On a sequence of runnable tokens the evaluator takes none of the exits for
an unknown operator symbol, an arity other than 1 or 2, or a token type that is
not executable. -/
theorem evalRun_exit {D : Type} (ops : DoubleOps D) (x : List D) (prog : List (Token D))
    (hr : ∀ t ∈ prog, t.Runnable) :
    evalRun ops prog x ≠ Except.error EvalExit.unknownOp ∧
      evalRun ops prog x ≠ Except.error EvalExit.badArity ∧
      evalRun ops prog x ≠ Except.error EvalExit.badType := by
  have hexit : ∀ e, evalRun ops prog x = Except.error e →
      e = EvalExit.underflow ∨ e = EvalExit.outOfBounds ∨ e = EvalExit.finalSize := by
    intro e h
    unfold evalRun at h
    cases hloop : evalLoop ops x prog [] with
    | error e1 =>
      rw [hloop] at h
      cases h
      rcases evalLoop_exit ops x prog [] e hr hloop with h1 | h1
      · exact Or.inl h1
      · exact Or.inr (Or.inl h1)
    | ok st =>
      rw [hloop] at h
      match st, h with
      | [], h => cases h; exact Or.inr (Or.inr rfl)
      | [v], h => cases h
      | a :: b :: st2, h => cases h; exact Or.inr (Or.inr rfl)
  refine ⟨fun h => ?_, fun h => ?_, fun h => ?_⟩ <;>
  · rcases hexit _ h with h1 | h1 | h1 <;> cases h1

/-- The operation attached to an executable function token is the one the
evaluator applies. -/
theorem evalStep_executable_func {D : Type} (ops : DoubleOps D) (x : List D) (t : Token D)
    (he : t.Executable) (hty : t.type = TokType.Func) (a b : D) (st : List D) :
    (t.funcArity = 1 ∧ ∃ f, t.fn1 = some f ∧
        evalStep ops x t (a :: st) = Except.ok (ops.unary f a :: st)) ∨
      (t.funcArity = 2 ∧ ∃ f, t.fn2 = some f ∧
        evalStep ops x t (b :: a :: st) = Except.ok (applyFn2 ops f a b :: st)) := by
  rcases he with h | h | ⟨h, _⟩ | ⟨_, ⟨har, f, hf⟩ | ⟨har, f, hf⟩⟩
  · rw [hty] at h; cases h
  · rw [hty] at h; cases h
  · rw [hty] at h; cases h
  · exact Or.inl ⟨har, f, hf, by simp [evalStep, hty, har, hf]⟩
  · exact Or.inr ⟨har, f, hf, by simp [evalStep, hty, har, hf]⟩

/-- C18: a compiled program is directly executable: after every successful
`setExpression` the stored program contains only Number, Var, Op and Func
tokens, every Op symbol is one of `+ - * / ^`, and every Func token has arity 1
with a unary operation set or arity 2 with a binary operation set; hence, on
every vector, the evaluator takes none of its exits for an unknown token type,
an unknown operator symbol or an arity other than 1 or 2, and on every Func
token it applies the attached operation, never the missing-pointer
alternative. -/
theorem compiled_program_executable {D : Type} (ops : DoubleOps D)
    (self : ObjectiveFunction D) (expr : String) (dimension : Int)
    (h : (setExpression ops self expr dimension).2 = Except.ok ()) :
    (∀ t ∈ (setExpression ops self expr dimension).1.rpn_,
        t.Executable ∧ t.type ≠ TokType.LParen ∧ t.type ≠ TokType.RParen ∧
          t.type ≠ TokType.Comma) ∧
      (∀ x : List D,
        evalRun ops (setExpression ops self expr dimension).1.rpn_ x ≠
            Except.error EvalExit.unknownOp ∧
          evalRun ops (setExpression ops self expr dimension).1.rpn_ x ≠
            Except.error EvalExit.badArity ∧
          evalRun ops (setExpression ops self expr dimension).1.rpn_ x ≠
            Except.error EvalExit.badType) ∧
      (∀ t ∈ (setExpression ops self expr dimension).1.rpn_, t.type = TokType.Func →
        ∀ (x : List D) (a b : D) (st : List D),
          (t.funcArity = 1 ∧ ∃ f, t.fn1 = some f ∧
              evalStep ops x t (a :: st) = Except.ok (ops.unary f a :: st)) ∨
            (t.funcArity = 2 ∧ ∃ f, t.fn2 = some f ∧
              evalStep ops x t (b :: a :: st) = Except.ok (applyFn2 ops f a b :: st))) := by
  have htok := setExpression_program_tokens ops self expr dimension h
  refine ⟨?_, ?_, ?_⟩
  · intro t ht
    have he := (htok t ht).1
    refine ⟨he, ?_, ?_, ?_⟩ <;>
    · intro hc
      rcases he with h1 | h1 | ⟨h1, _⟩ | ⟨h1, _⟩ <;> rw [hc] at h1 <;> cases h1
  · intro x
    exact evalRun_exit ops x _ (fun t ht => runnable_of_executable t (htok t ht).1)
  · intro t ht hty x a b st
    exact evalStep_executable_func ops x t (htok t ht).1 hty a b st

/-- The text `sin(x0)+max(1,2)` for dimension 1. -/
theorem compiled_program_executable_witness :
    (setExpression exactOps (new ERat) "sin(x0)+max(1,2)" 1).2 = Except.ok () ∧
      ∀ t ∈ (setExpression exactOps (new ERat) "sin(x0)+max(1,2)" 1).1.rpn_,
        t.Executable ∧ t.type ≠ TokType.LParen ∧ t.type ≠ TokType.RParen ∧
          t.type ≠ TokType.Comma :=
  ⟨by decide!,
    (compiled_program_executable exactOps (new ERat) "sin(x0)+max(1,2)" 1 (by decide!)).1⟩

/-! ## The operator table of the tokenizer -/

theorem makeOp_table {D : Type} (ops : DoubleOps D) (c : Char)
    (hc : c = '+' ∨ c = '-' ∨ c = '*' ∨ c = '/' ∨ c = '^') :
    (((makeOp ops c).op = '+' ∨ (makeOp ops c).op = '-') ∧ (makeOp ops c).precedence = 1 ∧
        (makeOp ops c).rightAssoc = false) ∨
      (((makeOp ops c).op = '*' ∨ (makeOp ops c).op = '/') ∧ (makeOp ops c).precedence = 2 ∧
        (makeOp ops c).rightAssoc = false) ∨
      ((makeOp ops c).op = '^' ∧ (makeOp ops c).precedence = 3 ∧
        (makeOp ops c).rightAssoc = true) := by
  rcases hc with h | h | h | h | h <;> subst h
  · exact Or.inl ⟨Or.inl rfl, rfl, rfl⟩
  · exact Or.inl ⟨Or.inr rfl, rfl, rfl⟩
  · exact Or.inr (Or.inl ⟨Or.inl rfl, rfl, rfl⟩)
  · exact Or.inr (Or.inl ⟨Or.inr rfl, rfl, rfl⟩)
  · exact Or.inr (Or.inr ⟨rfl, rfl, rfl⟩)

/-- C24: every Op token produced by `tokenize` carries the fixed table entry of
its symbol: `+` and `-` have precedence 1 and are left-associative, `*` and `/`
have precedence 2 and are left-associative, `^` has precedence 3 and is
right-associative; the `-` emitted for a unary minus is the same token as a
binary `-`. -/
theorem tokenize_operator_table {D : Type} (ops : DoubleOps D) (s : List Char) (dim : Int)
    (ts : List (Token D)) (h : tokenize ops s dim = Except.ok ts) :
    (∀ t ∈ ts, t.type = TokType.Op →
        ((t.op = '+' ∨ t.op = '-') ∧ t.precedence = 1 ∧ t.rightAssoc = false) ∨
          ((t.op = '*' ∨ t.op = '/') ∧ t.precedence = 2 ∧ t.rightAssoc = false) ∨
          (t.op = '^' ∧ t.precedence = 3 ∧ t.rightAssoc = true)) ∧
      (∀ (i : Nat) (out : List (Token D)) (rest : List Char), s.drop i = '-' :: rest →
        tokenizeIter ops s dim i true out =
            LexStep.next (i + 1) true (out ++ [Token.mkNumber ops ops.zero, makeOp ops '-']) ∧
          tokenizeIter ops s dim i false out =
            LexStep.next (i + 1) true (out ++ [makeOp ops '-'])) ∧
      (makeOp ops '-').precedence = 1 ∧ (makeOp ops '-').rightAssoc = false := by
  refine ⟨?_, ?_, rfl, rfl⟩
  · intro t ht hty
    have hlex := tokenize_lexed ops s dim ts h t ht
    cases hlex with
    | op c hc => exact makeOp_table ops c hc
    | lparen => simp at hty
    | rparen => simp at hty
    | comma => simp at hty
    | number v => simp at hty
    | var idx _ _ => simp at hty
    | func name => simp at hty
  · intro i out rest hdrop
    constructor <;> simp [tokenizeIter, hdrop, isSpace, isDigit]

set_option maxRecDepth 10000 in
/-- The text `2^3*-1`: its operators are `^`, `*` and the `-` of a unary
minus. -/
theorem tokenize_operator_table_witness :
    tokenize exactOps "2^3*-1".data 1 = Except.ok
        [Token.mkNumber exactOps (ERat.fin 2), makeOp exactOps '^',
          Token.mkNumber exactOps (ERat.fin 3), makeOp exactOps '*',
          Token.mkNumber exactOps (ERat.fin 0), makeOp exactOps '-',
          Token.mkNumber exactOps (ERat.fin 1)] ∧
      ∀ t ∈ [Token.mkNumber exactOps (ERat.fin 2), makeOp exactOps '^',
          Token.mkNumber exactOps (ERat.fin 3), makeOp exactOps '*',
          Token.mkNumber exactOps (ERat.fin 0), makeOp exactOps '-',
          Token.mkNumber exactOps (ERat.fin 1)], t.type = TokType.Op →
        ((t.op = '+' ∨ t.op = '-') ∧ t.precedence = 1 ∧ t.rightAssoc = false) ∨
          ((t.op = '*' ∨ t.op = '/') ∧ t.precedence = 2 ∧ t.rightAssoc = false) ∨
          (t.op = '^' ∧ t.precedence = 3 ∧ t.rightAssoc = true) :=
  ⟨by decide!,
    (tokenize_operator_table exactOps "2^3*-1".data 1
      [Token.mkNumber exactOps (ERat.fin 2), makeOp exactOps '^',
        Token.mkNumber exactOps (ERat.fin 3), makeOp exactOps '*',
        Token.mkNumber exactOps (ERat.fin 0), makeOp exactOps '-',
        Token.mkNumber exactOps (ERat.fin 1)] (by decide!)).1⟩

/-! ## The order of the stages in `setExpression` -/

/-- C29: the message reported by a failing `setExpression` with dimension
`>= 1` is that of the earliest failing stage in the order tokenizer, parser,
binder: the message of `tokenize` when it fails, whatever else is wrong with the
text; the message of `shuntingYardToRPN` when `tokenize` succeeds and the parser
fails, even when unknown function names are present; the message of
`bindFunctions` only when both earlier stages succeed.  `"foo(1"` reports
mismatched parentheses, not an unknown function, and `"foo(#"` the unexpected
character. -/
theorem setExpression_first_failure {D : Type} (ops : DoubleOps D)
    (self : ObjectiveFunction D) (expr : String) (dimension : Int) (hdim : 1 ≤ dimension) :
    (∀ m, tokenize ops expr.data dimension = Except.error m →
        (setExpression ops self expr dimension).2 = Except.error m) ∧
      (∀ toks m, tokenize ops expr.data dimension = Except.ok toks →
        shuntingYardToRPN toks = Except.error m →
        (setExpression ops self expr dimension).2 = Except.error m) ∧
      (∀ toks rpn m, tokenize ops expr.data dimension = Except.ok toks →
        shuntingYardToRPN toks = Except.ok rpn → bindFunctions rpn = Except.error m →
        (setExpression ops self expr dimension).2 = Except.error m) ∧
      (setExpression exactOps (new ERat) "foo(1" 1).2 =
        Except.error "Mismatched parentheses at end." ∧
      (setExpression exactOps (new ERat) "foo(#" 1).2 =
        Except.error "Unexpected character '#'." := by
  have hnot : ¬ dimension ≤ 0 := by omega
  refine ⟨?_, ?_, ?_, by decide!, by decide!⟩
  · intro m h
    simp only [setExpression, if_neg hnot, h]
  · intro toks m h1 h2
    simp only [setExpression, if_neg hnot, h1, h2]
  · intro toks rpn m h1 h2 h3
    simp only [setExpression, if_neg hnot, h1, h2, h3]

/-- The text `foo(1` for dimension 1: the tokenizer succeeds, the parser fails,
and its message is reported although `foo` is no table name. -/
theorem setExpression_first_failure_witness :
    (1 : Int) ≤ 1 ∧
      tokenize exactOps "foo(1".data 1 = Except.ok
        [Token.mkFunc exactOps "foo", Token.ofType exactOps TokType.LParen,
          Token.mkNumber exactOps (ERat.fin 1)] ∧
      shuntingYardToRPN
          [Token.mkFunc exactOps "foo", Token.ofType exactOps TokType.LParen,
            Token.mkNumber exactOps (ERat.fin 1)] =
        Except.error "Mismatched parentheses at end." ∧
      (setExpression exactOps (new ERat) "foo(1" 1).2 =
        Except.error "Mismatched parentheses at end." :=
  ⟨by decide, by decide!, by decide!,
    (setExpression_first_failure exactOps (new ERat) "foo(1" 1 (by decide)).2.1
      [Token.mkFunc exactOps "foo", Token.ofType exactOps TokType.LParen,
        Token.mkNumber exactOps (ERat.fin 1)]
      "Mismatched parentheses at end." (by decide!) (by decide!)⟩

/-! ## The constants `pi`, `PI` and `e` -/

set_option maxRecDepth 10000 in
/-- C25: the identifiers `pi`, `PI` and `e` are lexed, for every dimension, as
one Number token that holds the constant `π` (for `pi` and `PI`) or `e`: the
identifier branch returns that token for them whatever the dimension, an
iteration of the main loop that stands on one of them (followed by the end of
the text or by a character that is no identifier character) appends exactly that
token, and the texts `pi`, `PI` and `e` tokenize to it.  So
`setExpression("1+pi", 1)` succeeds and `evaluate` returns `1 + π` at every
point. -/
theorem tokenize_constants {D : Type} (ops : DoubleOps D) (dim : Int) (one : D)
    (hone : ops.stod ['1'] = some one) :
    (∀ (id : List Char), id ∈ [['p', 'i'], ['P', 'I'], ['e']] →
      ∀ (s : List Char) (i : Nat) (ev : Bool) (out : List (Token D)) (rest : List Char),
        s.drop i = id ++ rest → (∀ c ∈ rest.head?, isIdentChar c = false) →
        lexIdent ops dim id (i + id.length) out =
            LexStep.next (i + id.length) false
              (out ++ [Token.mkNumber ops (if id = ['e'] then ops.eLit else ops.piLit)]) ∧
          tokenizeIter ops s dim i ev out =
            LexStep.next (i + id.length) false
              (out ++ [Token.mkNumber ops (if id = ['e'] then ops.eLit else ops.piLit)]) ∧
          (Token.mkNumber ops (if id = ['e'] then ops.eLit else ops.piLit)).type =
            TokType.Number) ∧
      tokenize ops "pi".data dim = Except.ok [Token.mkNumber ops ops.piLit] ∧
      tokenize ops "PI".data dim = Except.ok [Token.mkNumber ops ops.piLit] ∧
      tokenize ops "e".data dim = Except.ok [Token.mkNumber ops ops.eLit] ∧
      (setExpression ops (new D) "1+pi" 1).2 = Except.ok () ∧
      ∀ v : D, evaluate ops (setExpression ops (new D) "1+pi" 1).1 [v] =
        ops.add one ops.piLit := by
  have h2 : ops.stod ['1'] = some one := hone
  have htok : tokenize ops "1+pi".data 1 =
      Except.ok [Token.mkNumber ops one, makeOp ops '+', Token.mkNumber ops ops.piLit] := by
    simp [tokenize, tokenizeLoop, tokenizeIter, lexIdent, isSpace, isDigit, isAlpha,
      isIdentChar, scanIdent, scanNumber, scanDigits, h2]
  have hset : setExpression ops (new D) "1+pi" 1 =
      ({ dim_ := 1, expr_ := "1+pi",
         rpn_ := [Token.mkNumber ops one, Token.mkNumber ops ops.piLit, makeOp ops '+'] },
        Except.ok ()) := by
    simp only [setExpression, htok]
    rfl
  refine ⟨?_, ?_, ?_, ?_, ?_, ?_⟩
  · intro id hid s i ev out rest hdrop hrest
    have hrest1 : scanIdent rest = 0 := by
      cases rest with
      | nil => rfl
      | cons c r =>
        have := hrest c (by simp)
        simp [scanIdent, this]
    simp only [List.mem_cons, List.mem_singleton, List.not_mem_nil, or_false] at hid
    rcases hid with h | h | h <;> subst h
    · refine ⟨by simp [lexIdent], ?_, rfl⟩
      simp [tokenizeIter, hdrop, lexIdent, isSpace, isDigit, isAlpha, isIdentChar, scanIdent,
        hrest1]
    · refine ⟨by simp [lexIdent], ?_, rfl⟩
      simp [tokenizeIter, hdrop, lexIdent, isSpace, isDigit, isAlpha, isIdentChar, scanIdent,
        hrest1]
    · refine ⟨by simp [lexIdent], ?_, rfl⟩
      simp [tokenizeIter, hdrop, lexIdent, isSpace, isDigit, isAlpha, isIdentChar, scanIdent,
        hrest1]
  · simp [tokenize, tokenizeLoop, tokenizeIter, lexIdent, isSpace, isDigit, isAlpha,
      isIdentChar, scanIdent]
  · simp [tokenize, tokenizeLoop, tokenizeIter, lexIdent, isSpace, isDigit, isAlpha,
      isIdentChar, scanIdent]
  · simp [tokenize, tokenizeLoop, tokenizeIter, lexIdent, isSpace, isDigit, isAlpha,
      isIdentChar, scanIdent]
  · rw [hset]
  · intro v
    rw [hset]
    rfl

/-- The exact arithmetic at dimension 1: `1+pi` evaluates to the sum of `1` and
the constant at the points `0` and `5`. -/
theorem tokenize_constants_witness :
    exactOps.stod ['1'] = some (ERat.fin 1) ∧
      (setExpression exactOps (new ERat) "1+pi" 1).2 = Except.ok () ∧
      evaluate exactOps (setExpression exactOps (new ERat) "1+pi" 1).1 [ERat.fin 0] =
        exactOps.add (ERat.fin 1) exactOps.piLit ∧
      evaluate exactOps (setExpression exactOps (new ERat) "1+pi" 1).1 [ERat.fin 5] =
        exactOps.add (ERat.fin 1) exactOps.piLit :=
  ⟨by decide!, (tokenize_constants exactOps 1 (ERat.fin 1) (by decide!)).2.2.2.2.1,
    (tokenize_constants exactOps 1 (ERat.fin 1) (by decide!)).2.2.2.2.2 (ERat.fin 0),
    (tokenize_constants exactOps 1 (ERat.fin 1) (by decide!)).2.2.2.2.2 (ERat.fin 5)⟩

/-! ## Division by zero -/

set_option maxRecDepth 10000 in
/-- C27: `setExpression("1/x0", 1)` succeeds, and at every point `[v]` the
evaluator leaves its loop through none of the sentinel exits: the value is the
quotient `1 / v` of the double arithmetic, also for `v = 0`.  In the exact
arithmetic the value at `[0]` is the positive infinity. -/
theorem evaluate_division_by_zero {D : Type} (ops : DoubleOps D) (one : D)
    (hone : ops.stod ['1'] = some one) :
    (setExpression ops (new D) "1/x0" 1).2 = Except.ok () ∧
      (∀ v : D, evalRun ops (setExpression ops (new D) "1/x0" 1).1.rpn_ [v] =
        Except.ok (ops.div one v)) ∧
      (∀ v : D, evaluate ops (setExpression ops (new D) "1/x0" 1).1 [v] = ops.div one v) ∧
      evaluate ops (setExpression ops (new D) "1/x0" 1).1 [ops.zero] = ops.div one ops.zero ∧
      evaluate exactOps (setExpression exactOps (new ERat) "1/x0" 1).1 [ERat.fin 0] =
        ERat.posInf := by
  have h2 : ops.stod ['1'] = some one := hone
  have htok : tokenize ops "1/x0".data 1 =
      Except.ok [Token.mkNumber ops one, makeOp ops '/', Token.mkVar ops 0] := by
    simp [tokenize, tokenizeLoop, tokenizeIter, lexIdent, isSpace, isDigit, isAlpha,
      isIdentChar, scanIdent, scanNumber, scanDigits, parseIndex, wrapInt32, h2]
  have hset : setExpression ops (new D) "1/x0" 1 =
      ({ dim_ := 1, expr_ := "1/x0",
         rpn_ := [Token.mkNumber ops one, Token.mkVar ops 0, makeOp ops '/'] },
        Except.ok ()) := by
    simp only [setExpression, htok]
    rfl
  refine ⟨by rw [hset], ?_, ?_, ?_, by decide!⟩
  · intro v
    rw [hset]
    rfl
  · intro v
    rw [hset]
    rfl
  · rw [hset]
    rfl

/-- The exact arithmetic: `1/x0` at `[0]` is the positive infinity. -/
theorem evaluate_division_by_zero_witness :
    exactOps.stod ['1'] = some (ERat.fin 1) ∧
      evaluate exactOps (setExpression exactOps (new ERat) "1/x0" 1).1 [ERat.fin 0] =
        exactOps.div (ERat.fin 1) (ERat.fin 0) ∧
      exactOps.div (ERat.fin 1) (ERat.fin 0) = ERat.posInf :=
  ⟨by decide!,
    (evaluate_division_by_zero exactOps (ERat.fin 1) (by decide!)).2.2.1 (ERat.fin 0),
    by decide!⟩

/-! ## A number with an exponent marker and no exponent digits -/

set_option maxRecDepth 10000 in
/-- C23: the number scanner takes `1e` and `1e+` as one number text and hands it
whole to `std::stod`; `tokenize` fails with the invalid-number message exactly
when the conversion throws.  `std::stod` converts the longest valid prefix `1`
and does not throw, so both texts are accepted as the number `1`:
`setExpression("1e", 1)` succeeds and evaluates to `1`. -/
theorem tokenize_dangling_exponent :
    (∀ {D : Type} (ops : DoubleOps D) (dim : Int),
      (tokenize ops "1e".data dim = Except.error "Invalid number token." ↔
          ops.stod ['1', 'e'] = none) ∧
        (tokenize ops "1e+".data dim = Except.error "Invalid number token." ↔
          ops.stod ['1', 'e', '+'] = none)) ∧
      tokenize exactOps "1e".data 1 = Except.ok [Token.mkNumber exactOps (ERat.fin 1)] ∧
      tokenize exactOps "1e+".data 1 = Except.ok [Token.mkNumber exactOps (ERat.fin 1)] ∧
      (setExpression exactOps (new ERat) "1e" 1).2 = Except.ok () ∧
      (setExpression exactOps (new ERat) "1e+" 1).2 = Except.ok () ∧
      evaluate exactOps (setExpression exactOps (new ERat) "1e" 1).1 [ERat.fin 0] =
        ERat.fin 1 := by
  refine ⟨?_, by decide!, by decide!, by decide!, by decide!, by decide!⟩
  intro D ops dim
  constructor
  · cases h : ops.stod ['1', 'e'] <;>
      simp [tokenize, tokenizeLoop, tokenizeIter, isSpace, isDigit, scanNumber, scanDigits, h]
  · cases h : ops.stod ['1', 'e', '+'] <;>
      simp [tokenize, tokenizeLoop, tokenizeIter, isSpace, isDigit, scanNumber, scanDigits, h]

/-! ## The states of the main loop of the tokenizer -/

theorem tokenizeLoop_fuel {D : Type} (ops : DoubleOps D) (s : List Char) (dim : Int)
    (fuel1 : Nat) :
    ∀ (fuel2 i : Nat) (ev : Bool) (out : List (Token D)), s.length - i ≤ fuel1 →
      s.length - i ≤ fuel2 →
      tokenizeLoop ops s dim fuel1 i ev out = tokenizeLoop ops s dim fuel2 i ev out := by
  induction fuel1 with
  | zero =>
    intro fuel2 i ev out h1 _
    have hi : ¬ i < s.length := by omega
    cases fuel2 <;> simp [tokenizeLoop, hi]
  | succ n ih =>
    intro fuel2 i ev out h1 h2
    by_cases hi : i < s.length
    · cases fuel2 with
      | zero => omega
      | succ m =>
        simp only [tokenizeLoop, if_pos hi]
        cases hstep : tokenizeIter ops s dim i ev out with
        | fail msg => rfl
        | next i1 ev1 out1 =>
          have hlt := tokenizeIter_progress ops s dim i ev out i1 ev1 out1 hi hstep
          exact ih m i1 ev1 out1 (by omega) (by omega)
    · cases fuel2 <;> simp [tokenizeLoop, hi]

/-- From every state of the main loop, the rest of the run gives the result of
`tokenize`. -/
theorem tokenizeLoop_reach {D : Type} (ops : DoubleOps D) (s : List Char) (dim : Int)
    (i : Nat) (ev : Bool) (out : List (Token D)) (h : LexReach ops s dim i ev out) :
    tokenizeLoop ops s dim (s.length - i) i ev out = some (tokenize ops s dim) := by
  induction h with
  | start => exact tokenize_spec ops s dim
  | step i ev out i1 ev1 out1 _ hi hstep ih =>
    have hlt := tokenizeIter_progress ops s dim i ev out i1 ev1 out1 hi hstep
    obtain ⟨n, hn⟩ : ∃ n, s.length - i = n + 1 := ⟨s.length - i - 1, by omega⟩
    rw [hn] at ih
    simp only [tokenizeLoop, if_pos hi, hstep] at ih
    rw [← ih]
    exact tokenizeLoop_fuel ops s dim _ _ i1 ev1 out1 (by omega) (by omega)

/-- A run that ends normally ends in a state of the main loop at the end of the
text. -/
theorem tokenizeLoop_ok_reach {D : Type} (ops : DoubleOps D) (s : List Char) (dim : Int)
    (ts : List (Token D)) (fuel : Nat) :
    ∀ (i : Nat) (ev : Bool) (out : List (Token D)), LexReach ops s dim i ev out →
      tokenizeLoop ops s dim fuel i ev out = some (Except.ok ts) →
      ∃ i1 ev1, LexReach ops s dim i1 ev1 ts ∧ s.length ≤ i1 := by
  induction fuel with
  | zero =>
    intro i ev out hr h
    by_cases hi : i < s.length
    · simp [tokenizeLoop, hi] at h
    · simp only [tokenizeLoop, if_neg hi, Option.some.injEq, Except.ok.injEq] at h
      subst h
      exact ⟨i, ev, hr, by omega⟩
  | succ n ih =>
    intro i ev out hr h
    by_cases hi : i < s.length
    · simp only [tokenizeLoop, if_pos hi] at h
      cases hstep : tokenizeIter ops s dim i ev out with
      | fail msg => simp [hstep] at h
      | next i1 ev1 out1 =>
        simp only [hstep] at h
        exact ih i1 ev1 out1 (LexReach.step i ev out i1 ev1 out1 hr hi hstep) h
    · simp only [tokenizeLoop, if_neg hi, Option.some.injEq, Except.ok.injEq] at h
      subst h
      exact ⟨i, ev, hr, by omega⟩

theorem tokenize_ok_reach {D : Type} (ops : DoubleOps D) (s : List Char) (dim : Int)
    (ts : List (Token D)) (h : tokenize ops s dim = Except.ok ts) :
    ∃ i ev, LexReach ops s dim i ev ts ∧ s.length ≤ i := by
  have h1 := tokenize_spec ops s dim
  rw [h] at h1
  exact tokenizeLoop_ok_reach ops s dim ts s.length 0 true [] LexReach.start h1

theorem valueExpectedAfter_concat {D : Type} (out : List (Token D)) (t : Token D) :
    valueExpectedAfter (out ++ [t]) =
      (decide (t.type = TokType.LParen) || decide (t.type = TokType.Comma) ||
        decide (t.type = TokType.Op) || decide (t.type = TokType.Func)) := by
  simp [valueExpectedAfter]

theorem valueExpectedAfter_concat2 {D : Type} (out : List (Token D)) (t1 t : Token D) :
    valueExpectedAfter (out ++ [t1, t]) =
      (decide (t.type = TokType.LParen) || decide (t.type = TokType.Comma) ||
        decide (t.type = TokType.Op) || decide (t.type = TokType.Func)) := by
  have : out ++ [t1, t] = (out ++ [t1]) ++ [t] := by simp
  rw [this, valueExpectedAfter_concat]

theorem lexIdent_expect {D : Type} (ops : DoubleOps D) (dim : Int) (id : List Char) (j : Nat)
    (out : List (Token D)) (i1 : Nat) (ev1 : Bool) (out1 : List (Token D))
    (h : lexIdent ops dim id j out = LexStep.next i1 ev1 out1) :
    ev1 = valueExpectedAfter out1 := by
  unfold lexIdent at h
  by_cases h1 : id = ['p', 'i'] ∨ id = ['P', 'I']
  · rw [if_pos h1] at h
    cases h
    rw [valueExpectedAfter_concat]
    rfl
  · rw [if_neg h1] at h
    by_cases h2 : id = ['e']
    · rw [if_pos h2] at h
      cases h
      rw [valueExpectedAfter_concat]
      rfl
    · rw [if_neg h2] at h
      generalize (if 2 ≤ id.length ∧ (id.head? = some 'x' ∨ id.head? = some 'X')
        then parseIndex id.tail 0 else none) = r at h
      cases r with
      | none =>
        cases h
        rw [valueExpectedAfter_concat]
        rfl
      | some idx =>
        simp only at h
        split_ifs at h with h3
        cases h
        rw [valueExpectedAfter_concat]
        rfl

theorem tokenizeIter_expect {D : Type} (ops : DoubleOps D) (s : List Char) (dim : Int)
    (i : Nat) (ev : Bool) (out : List (Token D)) (i1 : Nat) (ev1 : Bool)
    (out1 : List (Token D)) (hev : ev = valueExpectedAfter out)
    (h : tokenizeIter ops s dim i ev out = LexStep.next i1 ev1 out1) :
    ev1 = valueExpectedAfter out1 := by
  unfold tokenizeIter at h
  split at h
  · cases h
    exact hev
  · rename_i c rest _
    split_ifs at h with h1 h2 h3 h4 h5 h6 h7 h8
    · cases h
      exact hev
    · cases h
      rw [valueExpectedAfter_concat]
      rfl
    · cases h
      rw [valueExpectedAfter_concat]
      rfl
    · cases h
      rw [valueExpectedAfter_concat]
      rfl
    · simp only at h
      split at h
      · cases h
      · cases h
        rw [valueExpectedAfter_concat]
        rfl
    · cases h
      rw [valueExpectedAfter_concat2]
      rfl
    · cases h
      rw [valueExpectedAfter_concat]
      rcases h6 with h | h | h | h | h <;> subst h <;> rfl
    · exact lexIdent_expect ops dim _ _ out i1 ev1 out1 h

theorem lexReach_expect {D : Type} (ops : DoubleOps D) (s : List Char) (dim : Int)
    (i : Nat) (ev : Bool) (out : List (Token D)) (h : LexReach ops s dim i ev out) :
    ev = valueExpectedAfter out := by
  induction h with
  | start => rfl
  | step i ev out i1 ev1 out1 _ _ hstep ih =>
    exact tokenizeIter_expect ops s dim i ev out i1 ev1 out1 ih hstep

/-! ## The characters that an iteration of the tokenizer consumes -/

theorem isOtherChar_of_digit (c : Char) (h : isDigit c = true) : isOtherChar c = false := by
  simp [isOtherChar, h]

theorem isOtherChar_of_ident (c : Char) (h : isIdentChar c = true) : isOtherChar c = false := by
  simp only [isIdentChar, Bool.or_eq_true, decide_eq_true_eq] at h
  rcases h with (h | h) | h
  · simp [isOtherChar, h]
  · simp [isOtherChar, h]
  · simp [isOtherChar, h]

theorem scanDigits_consumed (l : List Char) :
    ∀ c ∈ l.take (scanDigits l), isOtherChar c = false := by
  induction l with
  | nil => simp
  | cons a l ih =>
    intro c hc
    by_cases ha : isDigit a = true
    · simp only [scanDigits, if_pos ha, List.take_succ_cons, List.mem_cons] at hc
      rcases hc with hc | hc
      · rw [hc]
        exact isOtherChar_of_digit a ha
      · exact ih c hc
    · simp [scanDigits, ha] at hc

theorem scanIdent_consumed (l : List Char) :
    ∀ c ∈ l.take (scanIdent l), isOtherChar c = false := by
  induction l with
  | nil => simp
  | cons a l ih =>
    intro c hc
    by_cases ha : isIdentChar a = true
    · simp only [scanIdent, if_pos ha, List.take_succ_cons, List.mem_cons] at hc
      rcases hc with hc | hc
      · rw [hc]
        exact isOtherChar_of_ident a ha
      · exact ih c hc
    · simp [scanIdent, ha] at hc

theorem scanNumber_consumed (l : List Char) :
    ∀ (seenDot : Bool), ∀ c ∈ l.take (scanNumber l seenDot), isOtherChar c = false := by
  induction l with
  | nil => simp
  | cons a l ih =>
    intro seenDot c hc
    unfold scanNumber at hc
    by_cases h1 : isDigit a = true
    · rw [if_pos h1] at hc
      simp only [List.take_succ_cons, List.mem_cons] at hc
      rcases hc with hc | hc
      · rw [hc]
        exact isOtherChar_of_digit a h1
      · exact ih seenDot c hc
    · rw [if_neg h1] at hc
      by_cases h2 : a = '.' ∧ seenDot = false
      · rw [if_pos h2] at hc
        simp only [List.take_succ_cons, List.mem_cons] at hc
        rcases hc with hc | hc
        · rw [hc, h2.1]
          rfl
        · exact ih true c hc
      · rw [if_neg h2] at hc
        by_cases h3 : a = 'e' ∨ a = 'E'
        · rw [if_pos h3] at hc
          have ha : isOtherChar a = false := by
            rcases h3 with h3 | h3 <;> subst h3 <;> rfl
          cases l with
          | nil =>
            simp only [List.take_succ_cons, List.take_zero, List.mem_singleton] at hc
            rw [hc]
            exact ha
          | cons c2 cs2 =>
            simp only at hc
            by_cases h4 : c2 = '+' ∨ c2 = '-'
            · rw [if_pos h4] at hc
              have hc2 : isOtherChar c2 = false := by
                rcases h4 with h4 | h4 <;> subst h4 <;> rfl
              rw [Nat.add_comm 1 (1 + scanDigits cs2), Nat.add_comm 1 (scanDigits cs2)] at hc
              simp only [List.take_succ_cons, List.mem_cons] at hc
              rcases hc with hc | hc | hc
              · rw [hc]
                exact ha
              · rw [hc]
                exact hc2
              · exact scanDigits_consumed cs2 c hc
            · rw [if_neg h4] at hc
              rw [Nat.add_comm 1 (scanDigits (c2 :: cs2))] at hc
              simp only [List.take_succ_cons, List.mem_cons] at hc
              rcases hc with hc | hc
              · rw [hc]
                exact ha
              · exact scanDigits_consumed (c2 :: cs2) c hc
        · rw [if_neg h3] at hc
          simp at hc

/-- An iteration that does not return moves over characters that have a branch
of their own. -/
theorem tokenizeIter_consumed {D : Type} (ops : DoubleOps D) (s : List Char) (dim : Int)
    (i : Nat) (ev : Bool) (out : List (Token D)) (i1 : Nat) (ev1 : Bool)
    (out1 : List (Token D))
    (h : tokenizeIter ops s dim i ev out = LexStep.next i1 ev1 out1) :
    ∀ c ∈ (s.drop i).take (i1 - i), isOtherChar c = false := by
  unfold tokenizeIter at h
  split at h
  · rename_i hdrop
    rw [hdrop]
    simp
  · rename_i c rest hdrop
    rw [hdrop]
    have hone : ∀ n, n = i + 1 → isOtherChar c = false →
        ∀ a ∈ (c :: rest).take (n - i), isOtherChar a = false := by
      intro n hn hc a ha
      have : n - i = 1 := by omega
      rw [this] at ha
      simp only [List.take_succ_cons, List.take_zero, List.mem_singleton] at ha
      rw [ha]
      exact hc
    split_ifs at h with h1 h2 h3 h4 h5 h6 h7 h8
    · cases h
      exact hone _ rfl (by simp [isOtherChar, h1])
    · cases h
      exact hone _ rfl (by simp [isOtherChar, h2])
    · cases h
      exact hone _ rfl (by simp [isOtherChar, h3])
    · cases h
      exact hone _ rfl (by simp [isOtherChar, h4])
    · simp only at h
      split at h
      · cases h
      · cases h
        rw [Nat.add_sub_cancel_left]
        exact scanNumber_consumed (c :: rest) _
    · cases h
      exact hone _ rfl (by rw [h7.1]; rfl)
    · cases h
      exact hone _ rfl (by rcases h6 with h | h | h | h | h <;> subst h <;> rfl)
    · have hj := lexIdent_next ops dim _ _ out i1 ev1 out1 h
      rw [hj, Nat.add_sub_cancel_left]
      exact scanIdent_consumed (c :: rest)

theorem tokenizeLoop_consumed {D : Type} (ops : DoubleOps D) (s : List Char) (dim : Int)
    (ts : List (Token D)) (fuel : Nat) :
    ∀ (i : Nat) (ev : Bool) (out : List (Token D)),
      tokenizeLoop ops s dim fuel i ev out = some (Except.ok ts) →
      ∀ c ∈ s.drop i, isOtherChar c = false := by
  induction fuel with
  | zero =>
    intro i ev out h
    by_cases hi : i < s.length
    · simp [tokenizeLoop, hi] at h
    · rw [List.drop_eq_nil_iff.mpr (by omega)]
      simp
  | succ n ih =>
    intro i ev out h
    by_cases hi : i < s.length
    · simp only [tokenizeLoop, if_pos hi] at h
      cases hstep : tokenizeIter ops s dim i ev out with
      | fail msg => simp [hstep] at h
      | next i1 ev1 out1 =>
        simp only [hstep] at h
        have hlt := tokenizeIter_progress ops s dim i ev out i1 ev1 out1 hi hstep
        have h1 := tokenizeIter_consumed ops s dim i ev out i1 ev1 out1 hstep
        have h2 := ih i1 ev1 out1 h
        intro c hc
        rw [← List.take_append_drop (i1 - i) (s.drop i), List.drop_drop] at hc
        rcases List.mem_append.mp hc with hc | hc
        · exact h1 c hc
        · have : i + (i1 - i) = i1 := by omega
          rw [this] at hc
          exact h2 c hc
    · rw [List.drop_eq_nil_iff.mpr (by omega)]
      simp

/-- A text with a character that has no branch of its own is not tokenized. -/
theorem tokenize_other_fails {D : Type} (ops : DoubleOps D) (s : List Char) (dim : Int)
    (c : Char) (hc : isOtherChar c = true) (hmem : c ∈ s) :
    ∃ m, tokenize ops s dim = Except.error m := by
  cases hres : tokenize ops s dim with
  | error m => exact ⟨m, rfl⟩
  | ok ts =>
    have h1 := tokenize_spec ops s dim
    rw [hres] at h1
    have := tokenizeLoop_consumed ops s dim ts s.length 0 true [] h1 c (by simpa using hmem)
    rw [hc] at this
    cases this

theorem tokenizeIter_other {D : Type} (ops : DoubleOps D) (s : List Char) (dim : Int)
    (i : Nat) (ev : Bool) (out : List (Token D)) (c : Char) (rest : List Char)
    (hdrop : s.drop i = c :: rest) (hc : isOtherChar c = true) :
    tokenizeIter ops s dim i ev out =
      LexStep.fail ("Unexpected character '" ++ String.singleton c ++ "'.") := by
  simp only [isOtherChar, Bool.not_eq_true', Bool.or_eq_false_iff, decide_eq_false_iff_not] at hc
  obtain ⟨⟨⟨⟨⟨⟨⟨⟨⟨⟨⟨⟨h1, h2⟩, h3⟩, h4⟩, h5⟩, h6⟩, h7⟩, h8⟩, h9⟩, h10⟩, h11⟩, h12⟩, h13⟩ := hc
  simp [tokenizeIter, hdrop, h1, h2, h3, h4, h5, h6, h7, h8, h9, h10, h11, h12, h13]

theorem tokenize_of_reach_fail {D : Type} (ops : DoubleOps D) (s : List Char) (dim : Int)
    (i : Nat) (ev : Bool) (out : List (Token D)) (m : String)
    (hr : LexReach ops s dim i ev out) (hi : i < s.length)
    (h : tokenizeIter ops s dim i ev out = LexStep.fail m) :
    tokenize ops s dim = Except.error m := by
  have h1 := tokenizeLoop_reach ops s dim i ev out hr
  obtain ⟨n, hn⟩ : ∃ n, s.length - i = n + 1 := ⟨s.length - i - 1, by omega⟩
  rw [hn] at h1
  simp only [tokenizeLoop, if_pos hi, h, Option.some.injEq] at h1
  exact h1.symm

theorem lt_length_of_drop {α : Type} (s : List α) (i : Nat) (c : α) (rest : List α)
    (h : s.drop i = c :: rest) : i < s.length := by
  by_contra hi
  rw [List.drop_eq_nil_iff.mpr (by omega)] at h
  cases h

/-! ## Unary and binary minus -/

/-- C21 (as the specification states it, refuted): after a function name the
flag `expectValue` is set too, so a `-` that follows a function name is lexed as
`Number(0), Op(-)` although the token before it is no `LParen`, `Comma` or
operator.  In `sin-1` the main loop stands on the `-` with the tokens `[sin]`,
a position that is not among those of the specification, and emits the two
tokens. -/
theorem tokenize_minus_after_function :
    LexReach exactOps "sin-1".data 1 3 true [Token.mkFunc exactOps "sin"] ∧
      "sin-1".data.drop 3 = '-' :: ['1'] ∧
      unaryPositionInSpec [Token.mkFunc exactOps "sin"] = false ∧
      tokenizeIter exactOps "sin-1".data 1 3 true [Token.mkFunc exactOps "sin"] =
        LexStep.next 4 true
          [Token.mkFunc exactOps "sin", Token.mkNumber exactOps (ERat.fin 0),
            makeOp exactOps '-'] ∧
      tokenize exactOps "sin-1".data 1 = Except.ok
        [Token.mkFunc exactOps "sin", Token.mkNumber exactOps (ERat.fin 0),
          makeOp exactOps '-', Token.mkNumber exactOps (ERat.fin 1)] :=
  ⟨LexReach.step 0 true [] 3 true _ LexReach.start (by decide) (by decide!),
    by decide, by decide, by decide!, by decide!⟩

/-- C21 (amended): in every state of the main loop of `tokenize` that stands on
a `-`, the flag `expectValue` is true exactly when no token has been emitted or
the last emitted token is a `LParen`, a `Comma`, an operator or a function name;
the iteration emits `Number(0), Op(-)` in that case and the single `Op(-)` in
every other, and goes on behind the `-` with the flag set. -/
theorem tokenize_minus {D : Type} (ops : DoubleOps D) (s : List Char) (dim : Int)
    (i : Nat) (ev : Bool) (out : List (Token D)) (rest : List Char)
    (hr : LexReach ops s dim i ev out) (hdrop : s.drop i = '-' :: rest) :
    ev = valueExpectedAfter out ∧
      tokenizeIter ops s dim i ev out =
        LexStep.next (i + 1) true
          (out ++ (if valueExpectedAfter out = true
            then [Token.mkNumber ops ops.zero, makeOp ops '-'] else [makeOp ops '-'])) := by
  have hev := lexReach_expect ops s dim i ev out hr
  refine ⟨hev, ?_⟩
  subst hev
  by_cases h : valueExpectedAfter out = true
  · simp [tokenizeIter, hdrop, isSpace, isDigit, h]
  · simp [tokenizeIter, hdrop, isSpace, isDigit, h]

/-- The texts `1-2` and `sin-1`: the `-` after the number `1` is binary, the `-` after
the function name `sin` is unary. -/
theorem tokenize_minus_witness :
    (LexReach exactOps "1-2".data 1 1 false [Token.mkNumber exactOps (ERat.fin 1)] ∧
        "1-2".data.drop 1 = '-' :: ['2'] ∧
        tokenizeIter exactOps "1-2".data 1 1 false [Token.mkNumber exactOps (ERat.fin 1)] =
          LexStep.next 2 true [Token.mkNumber exactOps (ERat.fin 1), makeOp exactOps '-']) ∧
      (LexReach exactOps "sin-1".data 1 3 true [Token.mkFunc exactOps "sin"] ∧
        "sin-1".data.drop 3 = '-' :: ['1'] ∧
        tokenizeIter exactOps "sin-1".data 1 3 true [Token.mkFunc exactOps "sin"] =
          LexStep.next 4 true
            [Token.mkFunc exactOps "sin", Token.mkNumber exactOps (ERat.fin 0),
              makeOp exactOps '-']) :=
  ⟨⟨LexReach.step 0 true [] 1 false _ LexReach.start (by decide) (by decide!), by decide,
      (tokenize_minus exactOps "1-2".data 1 1 false [Token.mkNumber exactOps (ERat.fin 1)] ['2']
        (LexReach.step 0 true [] 1 false _ LexReach.start (by decide) (by decide!))
        (by decide)).2⟩,
    ⟨LexReach.step 0 true [] 3 true _ LexReach.start (by decide) (by decide!), by decide,
      (tokenize_minus exactOps "sin-1".data 1 3 true [Token.mkFunc exactOps "sin"] ['1']
        (LexReach.step 0 true [] 3 true _ LexReach.start (by decide) (by decide!))
        (by decide)).2⟩⟩

/-! ## Characters without a branch -/

/-- C22 (as the specification states it, refuted): the diagnostic names the
character only.  The texts `#` and `1+#` have the offending character at the
positions 0 and 2 and fail with the same message, so no position can be read off
the message. -/
theorem unexpected_character_no_position :
    tokenize exactOps "#".data 1 = Except.error "Unexpected character '#'." ∧
      tokenize exactOps "1+#".data 1 = Except.error "Unexpected character '#'." ∧
      ¬ ∃ position : String → Nat,
        ∀ (s : List Char) (i : Nat) (ev : Bool) (out : List (Token ERat)) (c : Char)
          (rest : List Char) (m : String),
          LexReach exactOps s 1 i ev out → s.drop i = c :: rest → isOtherChar c = true →
          tokenize exactOps s 1 = Except.error m → position m = i := by
  refine ⟨by decide!, by decide!, ?_⟩
  rintro ⟨position, h⟩
  have h0 := h "#".data 0 true [] '#' [] "Unexpected character '#'." LexReach.start
    (by decide) (by decide) (by decide!)
  have h2 := h "1+#".data 2 true
    [Token.mkNumber exactOps (ERat.fin 1), makeOp exactOps '+'] '#' []
    "Unexpected character '#'."
    (LexReach.step 1 false [Token.mkNumber exactOps (ERat.fin 1)] 2 true _
      (LexReach.step 0 true [] 1 false _ LexReach.start (by decide) (by decide!))
      (by decide) (by decide!))
    (by decide) (by decide) (by decide!)
  exact absurd (h0.symm.trans h2) (by decide)

/-- C22 (amended): a character `c` that is not white space, a parenthesis, a
comma, a digit, `.`, one of `+ - * / ^`, a letter or `_` makes the iteration
that stands on it return with the message `Unexpected character 'c'.`, which
names the character and no position; `tokenize` fails with that message whenever
its main loop arrives at such a character, and no text that contains one is
tokenized. -/
theorem tokenize_unexpected_character {D : Type} (ops : DoubleOps D) (s : List Char)
    (dim : Int) (c : Char) (hc : isOtherChar c = true) :
    (∀ (i : Nat) (ev : Bool) (out : List (Token D)) (rest : List Char),
        s.drop i = c :: rest →
        tokenizeIter ops s dim i ev out =
          LexStep.fail ("Unexpected character '" ++ String.singleton c ++ "'.")) ∧
      (∀ (i : Nat) (ev : Bool) (out : List (Token D)) (rest : List Char),
        LexReach ops s dim i ev out → s.drop i = c :: rest →
        tokenize ops s dim =
          Except.error ("Unexpected character '" ++ String.singleton c ++ "'.")) ∧
      (c ∈ s → ∃ m, tokenize ops s dim = Except.error m) := by
  refine ⟨?_, ?_, ?_⟩
  · intro i ev out rest hdrop
    exact tokenizeIter_other ops s dim i ev out c rest hdrop hc
  · intro i ev out rest hr hdrop
    exact tokenize_of_reach_fail ops s dim i ev out _ hr
      (lt_length_of_drop s i c rest hdrop)
      (tokenizeIter_other ops s dim i ev out c rest hdrop hc)
  · intro hmem
    exact tokenize_other_fails ops s dim c hc hmem

/-- The text `1+#`: the main loop arrives at `#` after two tokens and `tokenize`
fails with the message that names `#`. -/
theorem tokenize_unexpected_character_witness :
    isOtherChar '#' = true ∧
      tokenize exactOps "1+#".data 1 = Except.error "Unexpected character '#'." :=
  ⟨by decide,
    (tokenize_unexpected_character exactOps "1+#".data 1 '#' (by decide)).2.1 2 true
      [Token.mkNumber exactOps (ERat.fin 1), makeOp exactOps '+'] []
      (LexReach.step 1 false [Token.mkNumber exactOps (ERat.fin 1)] 2 true _
        (LexReach.step 0 true [] 1 false _ LexReach.start (by decide) (by decide!))
        (by decide) (by decide!))
      (by decide)⟩

/-! ## The parser succeeds exactly on balanced parentheses and enclosed commas -/

theorem countType_nil {D : Type} (ty : TokType) : countType ty ([] : List (Token D)) = 0 := rfl

theorem countType_cons_eq {D : Type} (ty : TokType) (a : Token D) (l : List (Token D))
    (h : a.type = ty) : countType ty (a :: l) = countType ty l + 1 := by
  simp [countType, h]

theorem countType_cons_ne {D : Type} (ty : TokType) (a : Token D) (l : List (Token D))
    (h : a.type ≠ ty) : countType ty (a :: l) = countType ty l := by
  simp [countType, h]

theorem forall_initial_cons {α : Type} (a : α) (ts : List α) (P : List α → Prop) :
    (∀ pre suf, a :: ts = pre ++ suf → P pre) ↔
      P [] ∧ ∀ pre suf, ts = pre ++ suf → P (a :: pre) := by
  constructor
  · intro h
    exact ⟨h [] (a :: ts) rfl, fun pre suf e => h (a :: pre) suf (by rw [e]; rfl)⟩
  · rintro ⟨h0, h1⟩ pre suf e
    cases pre with
    | nil => exact h0
    | cons b pre1 =>
      simp only [List.cons_append, List.cons.injEq] at e
      obtain ⟨rfl, e⟩ := e
      exact h1 pre1 suf e

theorem forall_split_cons {α : Type} (a : α) (ts : List α) (Q : List α → α → Prop) :
    (∀ pre t suf, a :: ts = pre ++ t :: suf → Q pre t) ↔
      Q [] a ∧ ∀ pre t suf, ts = pre ++ t :: suf → Q (a :: pre) t := by
  constructor
  · intro h
    exact ⟨h [] a ts rfl, fun pre t suf e => h (a :: pre) t suf (by rw [e]; rfl)⟩
  · rintro ⟨h0, h1⟩ pre t suf e
    cases pre with
    | nil =>
      simp only [List.nil_append, List.cons.injEq] at e
      obtain ⟨rfl, _⟩ := e
      exact h0
    | cons b pre1 =>
      simp only [List.cons_append, List.cons.injEq] at e
      obtain ⟨rfl, e⟩ := e
      exact h1 pre1 t suf e

/-- The scan of parentheses and commas from depth `d` ends at depth `n` exactly
when no prefix closes more than `d` parentheses beyond those it opens, every
comma has an open parenthesis, and the counts add up. -/
theorem syntaxScan_iff_counts {D : Type} (ts : List (Token D)) :
    ∀ d n : Nat, syntaxScan d ts = ScanResult.depth n ↔
      (∀ pre suf : List (Token D), ts = pre ++ suf →
          countType TokType.RParen pre ≤ d + countType TokType.LParen pre) ∧
        (∀ (pre : List (Token D)) (t : Token D) (suf : List (Token D)),
          ts = pre ++ t :: suf → t.type = TokType.Comma →
          countType TokType.RParen pre + 1 ≤ d + countType TokType.LParen pre) ∧
        n + countType TokType.RParen ts = d + countType TokType.LParen ts := by
  induction ts with
  | nil =>
    intro d n
    simp only [syntaxScan, ScanResult.depth.injEq, countType_nil, Nat.add_zero]
    constructor
    · intro h
      refine ⟨?_, ?_, h.symm⟩
      · intro pre suf e
        have : pre = [] := (List.append_eq_nil.mp e.symm).1
        subst this
        simp [countType_nil]
      · intro pre t suf e
        exact absurd e.symm (by simp)
    · rintro ⟨_, _, h⟩
      exact h.symm
  | cons a ts ih =>
    intro d n
    rw [forall_initial_cons a ts
        (fun pre => countType TokType.RParen pre ≤ d + countType TokType.LParen pre),
      forall_split_cons a ts
        (fun pre t => t.type = TokType.Comma →
          countType TokType.RParen pre + 1 ≤ d + countType TokType.LParen pre)]
    simp only [countType_nil]
    by_cases h1 : a.type = TokType.LParen
    · have hL : ∀ l : List (Token D),
          countType TokType.LParen (a :: l) = countType TokType.LParen l + 1 :=
        fun l => countType_cons_eq _ a l h1
      have hR : ∀ l : List (Token D),
          countType TokType.RParen (a :: l) = countType TokType.RParen l :=
        fun l => countType_cons_ne _ a l (by rw [h1]; decide)
      have hC : a.type ≠ TokType.Comma := by rw [h1]; decide
      simp only [syntaxScan, if_pos h1, hL, hR]
      rw [ih (d + 1) n]
      constructor
      · rintro ⟨p1, p2, p3⟩
        refine ⟨⟨by omega, fun pre suf e => ?_⟩,
          ⟨fun hc => absurd hc hC, fun pre t suf e ht => ?_⟩, by omega⟩
        · have := p1 pre suf e
          omega
        · have := p2 pre t suf e ht
          omega
      · rintro ⟨⟨_, p1⟩, ⟨_, p2⟩, p3⟩
        refine ⟨fun pre suf e => ?_, fun pre t suf e ht => ?_, by omega⟩
        · have := p1 pre suf e
          omega
        · have := p2 pre t suf e ht
          omega
    · have hL : ∀ l : List (Token D),
          countType TokType.LParen (a :: l) = countType TokType.LParen l :=
        fun l => countType_cons_ne _ a l h1
      by_cases h2 : a.type = TokType.RParen
      · have hR : ∀ l : List (Token D),
            countType TokType.RParen (a :: l) = countType TokType.RParen l + 1 :=
          fun l => countType_cons_eq _ a l h2
        have hC : a.type ≠ TokType.Comma := by rw [h2]; decide
        simp only [syntaxScan, if_neg h1, if_pos h2, hL, hR]
        by_cases hd : d = 0
        · rw [if_pos hd]
          constructor
          · intro h
            cases h
          · rintro ⟨⟨_, p1⟩, _, _⟩
            have := p1 [] ts rfl
            simp only [countType_nil] at this
            omega
        · rw [if_neg hd, ih (d - 1) n]
          constructor
          · rintro ⟨p1, p2, p3⟩
            refine ⟨⟨by omega, fun pre suf e => ?_⟩,
              ⟨fun hc => absurd hc hC, fun pre t suf e ht => ?_⟩, by omega⟩
            · have := p1 pre suf e
              omega
            · have := p2 pre t suf e ht
              omega
          · rintro ⟨⟨_, p1⟩, ⟨_, p2⟩, p3⟩
            refine ⟨fun pre suf e => ?_, fun pre t suf e ht => ?_, by omega⟩
            · have := p1 pre suf e
              omega
            · have := p2 pre t suf e ht
              omega
      · have hR : ∀ l : List (Token D),
            countType TokType.RParen (a :: l) = countType TokType.RParen l :=
          fun l => countType_cons_ne _ a l h2
        have hrec : syntaxScan d (a :: ts) =
            if a.type = TokType.Comma ∧ d = 0 then ScanResult.commaOutside
            else syntaxScan d ts := by
          by_cases h3 : a.type = TokType.Comma
          · by_cases hd : d = 0
            · simp [syntaxScan, h1, h2, h3, hd]
            · simp [syntaxScan, h1, h2, h3, hd]
          · simp [syntaxScan, h1, h2, h3]
        simp only [hrec, hL, hR]
        by_cases h3 : a.type = TokType.Comma ∧ d = 0
        · rw [if_pos h3]
          constructor
          · intro h
            cases h
          · rintro ⟨_, ⟨p0, _⟩, _⟩
            have := p0 h3.1
            omega
        · rw [if_neg h3, ih d n]
          constructor
          · rintro ⟨p1, p2, p3⟩
            refine ⟨⟨by omega, fun pre suf e => p1 pre suf e⟩,
              ⟨fun hc => ?_, fun pre t suf e ht => p2 pre t suf e ht⟩, p3⟩
            have : d ≠ 0 := fun hd => h3 ⟨hc, hd⟩
            omega
          · rintro ⟨⟨_, p1⟩, ⟨_, p2⟩, p3⟩
            exact ⟨p1, p2, p3⟩

theorem syntaxScan_zero_iff {D : Type} (ts : List (Token D)) :
    syntaxScan 0 ts = ScanResult.depth 0 ↔ ParensBalanced ts ∧ CommasInParens ts := by
  rw [syntaxScan_iff_counts ts 0 0]
  simp only [ParensBalanced, CommasInParens, Nat.zero_add]
  constructor
  · rintro ⟨p1, p2, p3⟩
    exact ⟨⟨p1, p3.symm⟩, p2⟩
  · rintro ⟨⟨p1, p3⟩, p2⟩
    exact ⟨p1, p2, p3.symm⟩

/-- The final loop succeeds on a stack of operators and function names. -/
theorem shuntDrain_closed {D : Type} (stack : List (Token D)) :
    ∀ rpn : List (Token D), (∀ u ∈ stack, u.StackKind) → countLParen stack = 0 →
      ∃ out, shuntDrain stack rpn = Except.ok out := by
  induction stack with
  | nil =>
    intro rpn _ _
    exact ⟨rpn, rfl⟩
  | cons top rest ih =>
    intro rpn hs hc
    have hk := hs top (List.mem_cons_self _ _)
    have hL : top.type ≠ TokType.LParen := by
      intro h
      simp [countLParen, h] at hc
    have hR : top.type ≠ TokType.RParen := by
      rcases hk with h | h | h
      · rw [h]; decide
      · rw [h]; decide
      · exact absurd h hL
    have hc1 : countLParen rest = 0 := by
      simpa [countLParen, hL] using hc
    have hno : ¬ (top.type = TokType.LParen ∨ top.type = TokType.RParen) := by
      rintro (h | h)
      · exact hL h
      · exact hR h
    simp only [shuntDrain, if_neg hno]
    exact ih _ (fun u hu => hs u (List.mem_cons_of_mem _ hu)) hc1

theorem shuntingYard_ok_iff_scan {D : Type} (ts : List (Token D)) :
    (∃ out, shuntingYardToRPN ts = Except.ok out) ↔ syntaxScan 0 ts = ScanResult.depth 0 := by
  constructor
  · rintro ⟨out, h⟩
    have hf := shuntingYard_scan_fail ts
    cases hscan : syntaxScan 0 ts with
    | closeWithoutOpen =>
      rw [hf.1 hscan] at h
      cases h
    | commaOutside =>
      rw [hf.2.1 hscan] at h
      cases h
    | depth n =>
      cases n with
      | zero => rfl
      | succ m =>
        rw [hf.2.2 m hscan] at h
        cases h
  · intro hscan
    obtain ⟨stack1, rpn1, hloop, hcount⟩ := (shuntLoop_scan ts [] []).2.2 0 hscan
    have hinv := shuntLoop_inv (fun t : Token D => t.StackKind) (fun _ => True)
      (fun _ _ _ => trivial) ts [] [] stack1 rpn1
      (fun t _ => ⟨fun _ => trivial, fun h => h⟩) hloop
      (by simp) (by simp)
    obtain ⟨out, hout⟩ := shuntDrain_closed stack1 rpn1 hinv.1 hcount
    exact ⟨out, by simp only [shuntingYardToRPN, hloop, hout]⟩

/-- C28: `shuntingYardToRPN` succeeds if and only if the parentheses of the
input are balanced (every prefix has at least as many `LParen` as `RParen`, and
the totals are equal) and every `Comma` stands at parenthesis depth at least 1;
equivalently, if and only if the scan of parentheses and commas ends at depth 0.
Nothing else makes it fail: two numbers in a row, a lone operator and a function
with too many arguments are accepted. -/
theorem shuntingYard_succeeds_iff {D : Type} (ts : List (Token D)) :
    ((∃ out, shuntingYardToRPN ts = Except.ok out) ↔
        ParensBalanced ts ∧ CommasInParens ts) ∧
      ((∃ out, shuntingYardToRPN ts = Except.ok out) ↔
        syntaxScan 0 ts = ScanResult.depth 0) ∧
      shuntingYardToRPN
          [Token.mkNumber exactOps (ERat.fin 1), Token.mkNumber exactOps (ERat.fin 2)] =
        Except.ok [Token.mkNumber exactOps (ERat.fin 1), Token.mkNumber exactOps (ERat.fin 2)] ∧
      shuntingYardToRPN [makeOp exactOps '+'] = Except.ok [makeOp exactOps '+'] ∧
      shuntingYardToRPN
          [Token.mkFunc exactOps "sin", Token.ofType exactOps TokType.LParen,
            Token.mkNumber exactOps (ERat.fin 1), Token.ofType exactOps TokType.Comma,
            Token.mkNumber exactOps (ERat.fin 2), Token.ofType exactOps TokType.RParen] =
        Except.ok [Token.mkNumber exactOps (ERat.fin 1), Token.mkNumber exactOps (ERat.fin 2),
          Token.mkFunc exactOps "sin"] := by
  refine ⟨?_, shuntingYard_ok_iff_scan ts, by decide!, by decide!, by decide!⟩
  rw [shuntingYard_ok_iff_scan ts]
  exact syntaxScan_zero_iff ts

/-- The tokens of `max(1,2)`: the scan ends at depth 0 and the parser
succeeds; with the closing parenthesis left out it ends at depth 1 and the
parser fails. -/
theorem shuntingYard_succeeds_iff_witness :
    syntaxScan 0
        [Token.mkFunc exactOps "max", Token.ofType exactOps TokType.LParen,
          Token.mkNumber exactOps (ERat.fin 1), Token.ofType exactOps TokType.Comma,
          Token.mkNumber exactOps (ERat.fin 2), Token.ofType exactOps TokType.RParen] =
        ScanResult.depth 0 ∧
      (∃ out, shuntingYardToRPN
        [Token.mkFunc exactOps "max", Token.ofType exactOps TokType.LParen,
          Token.mkNumber exactOps (ERat.fin 1), Token.ofType exactOps TokType.Comma,
          Token.mkNumber exactOps (ERat.fin 2), Token.ofType exactOps TokType.RParen] =
          Except.ok out) ∧
      ¬ ∃ out, shuntingYardToRPN
        [Token.mkFunc exactOps "max", Token.ofType exactOps TokType.LParen,
          Token.mkNumber exactOps (ERat.fin 1), Token.ofType exactOps TokType.Comma,
          Token.mkNumber exactOps (ERat.fin 2)] = Except.ok out :=
  ⟨by decide!,
    (shuntingYard_succeeds_iff
      [Token.mkFunc exactOps "max", Token.ofType exactOps TokType.LParen,
        Token.mkNumber exactOps (ERat.fin 1), Token.ofType exactOps TokType.Comma,
        Token.mkNumber exactOps (ERat.fin 2),
        Token.ofType exactOps TokType.RParen]).2.1.mpr (by decide!),
    fun h => absurd ((shuntingYard_succeeds_iff
      [Token.mkFunc exactOps "max", Token.ofType exactOps TokType.LParen,
        Token.mkNumber exactOps (ERat.fin 1), Token.ofType exactOps TokType.Comma,
        Token.mkNumber exactOps (ERat.fin 2)]).2.1.mp h) (by decide!)⟩

/-! ## Termination: the loops are bounded by their input -/

theorem popToLParenKeep_iters {D : Type} (stack : List (Token D)) :
    ∀ rpn : List (Token D),
      popToLParenKeepIters stack + (popToLParenKeep stack rpn).2.1.length ≤ stack.length + 1 ∧
        popToLParenKeepIters stack ≤ stack.length := by
  induction stack with
  | nil =>
    intro rpn
    simp [popToLParenKeepIters, popToLParenKeep]
  | cons top rest ih =>
    intro rpn
    by_cases h : top.type = TokType.LParen
    · simp only [popToLParenKeepIters, popToLParenKeep, if_pos h, List.length_cons]
      omega
    · have := ih (rpn ++ [top])
      simp only [popToLParenKeepIters, popToLParenKeep, if_neg h, List.length_cons]
      omega

theorem popToLParenDrop_iters {D : Type} (stack : List (Token D)) :
    ∀ rpn : List (Token D),
      popToLParenDropIters stack + (popToLParenDrop stack rpn).2.1.length ≤ stack.length ∧
        popToLParenDropIters stack ≤ stack.length := by
  induction stack with
  | nil =>
    intro rpn
    simp [popToLParenDropIters, popToLParenDrop]
  | cons top rest ih =>
    intro rpn
    by_cases h : top.type = TokType.LParen
    · simp only [popToLParenDropIters, popToLParenDrop, if_pos h, List.length_cons]
      omega
    · have := ih (rpn ++ [top])
      simp only [popToLParenDropIters, popToLParenDrop, if_neg h, List.length_cons]
      omega

theorem popOperators_iters {D : Type} (t : Token D) (stack : List (Token D)) :
    ∀ rpn : List (Token D),
      popOperatorsIters t stack + (popOperators t stack rpn).1.length ≤ stack.length + 1 ∧
        popOperatorsIters t stack ≤ stack.length := by
  induction stack with
  | nil =>
    intro rpn
    simp [popOperatorsIters, popOperators]
  | cons top rest ih =>
    intro rpn
    by_cases h : top.type ≠ TokType.Op
    · simp only [popOperatorsIters, popOperators, if_pos h, List.length_cons]
      omega
    · by_cases h2 : ((!t.rightAssoc && decide (t.precedence ≤ top.precedence)) ||
          (t.rightAssoc && decide (t.precedence < top.precedence))) = true
      · have := ih (rpn ++ [top])
        simp only [popOperatorsIters, popOperators, if_neg h, if_pos h2, List.length_cons]
        omega
      · simp only [popOperatorsIters, popOperators, if_neg h, if_neg h2, List.length_cons]
        omega

/-- One iteration of the parser loop: its inner loops run at most once per
stack token, and what they run is paid for by the tokens that leave the
stack. -/
theorem shuntStep_iters {D : Type} (t : Token D) (stack rpn : List (Token D)) :
    shuntStepIters t stack ≤ stack.length ∧
      ∀ stack1 rpn1, shuntStep t stack rpn = Except.ok (stack1, rpn1) →
        shuntStepIters t stack + stack1.length ≤ stack.length + 2 := by
  unfold shuntStepIters shuntStep
  by_cases h1 : t.type = TokType.Number ∨ t.type = TokType.Var
  · rw [if_pos h1, if_pos h1]
    refine ⟨by omega, ?_⟩
    intro stack1 rpn1 h
    cases h
    omega
  rw [if_neg h1, if_neg h1]
  by_cases h2 : t.type = TokType.Func
  · rw [if_pos h2, if_pos h2]
    refine ⟨by omega, ?_⟩
    intro stack1 rpn1 h
    cases h
    simp only [List.length_cons]
    omega
  rw [if_neg h2, if_neg h2]
  by_cases h3 : t.type = TokType.Comma
  · rw [if_pos h3, if_pos h3]
    have hk := popToLParenKeep_iters stack rpn
    refine ⟨hk.2, ?_⟩
    intro stack1 rpn1 h
    generalize popToLParenKeep stack rpn = r at h hk
    obtain ⟨b, s1, r1⟩ := r
    cases b with
    | false => cases h
    | true =>
      cases h
      have := hk.1
      simp only at this
      omega
  rw [if_neg h3, if_neg h3]
  by_cases h4 : t.type = TokType.Op
  · rw [if_pos h4, if_pos h4]
    have hk := popOperators_iters t stack rpn
    refine ⟨hk.2, ?_⟩
    intro stack1 rpn1 h
    generalize popOperators t stack rpn = r at h hk
    obtain ⟨s1, r1⟩ := r
    cases h
    have := hk.1
    simp only [List.length_cons] at this ⊢
    omega
  rw [if_neg h4, if_neg h4]
  by_cases h5 : t.type = TokType.LParen
  · rw [if_pos h5, if_pos h5]
    refine ⟨by omega, ?_⟩
    intro stack1 rpn1 h
    cases h
    simp only [List.length_cons]
    omega
  rw [if_neg h5, if_neg h5]
  by_cases h6 : t.type = TokType.RParen
  · rw [if_pos h6, if_pos h6]
    have hk := popToLParenDrop_iters stack rpn
    refine ⟨hk.2, ?_⟩
    intro stack1 rpn1 h
    generalize popToLParenDrop stack rpn = r at h hk
    obtain ⟨b, s1, r1⟩ := r
    cases b with
    | false => cases h
    | true =>
      have := hk.1
      simp only at this h
      cases s1 with
      | nil =>
        cases h
        simp only [List.length_nil] at this ⊢
        omega
      | cons top rest =>
        simp only at h
        by_cases h7 : top.type = TokType.Func
        · rw [if_pos h7] at h
          cases h
          simp only [List.length_cons] at this
          omega
        · rw [if_neg h7] at h
          cases h
          simp only [List.length_cons] at this ⊢
          omega
  · rw [if_neg h6, if_neg h6]
    refine ⟨by omega, ?_⟩
    intro stack1 rpn1 h
    cases h
    omega

theorem shuntLoop_iters {D : Type} (ts : List (Token D)) :
    ∀ stack rpn : List (Token D),
      shuntLoopIters ts stack rpn +
          (match shuntLoop ts stack rpn with
            | Except.error _ => 0
            | Except.ok (stack1, _) => stack1.length) ≤
        3 * ts.length + stack.length := by
  induction ts with
  | nil =>
    intro stack rpn
    simp [shuntLoopIters, shuntLoop]
  | cons t ts ih =>
    intro stack rpn
    have hs := shuntStep_iters t stack rpn
    simp only [shuntLoopIters, shuntLoop, List.length_cons]
    cases hstep : shuntStep t stack rpn with
    | error m =>
      simp only
      have := hs.1
      omega
    | ok p =>
      obtain ⟨stack1, rpn1⟩ := p
      simp only
      have h1 := hs.2 stack1 rpn1 hstep
      have h2 := ih stack1 rpn1
      omega

theorem shuntDrain_iters {D : Type} (stack : List (Token D)) :
    shuntDrainIters stack ≤ stack.length := by
  induction stack with
  | nil => simp [shuntDrainIters]
  | cons top rest ih =>
    simp only [shuntDrainIters, List.length_cons]
    split_ifs <;> omega

theorem shuntingYard_iters {D : Type} (ts : List (Token D)) :
    shuntingYardIters ts ≤ 3 * ts.length := by
  have h := shuntLoop_iters ts [] []
  unfold shuntingYardIters
  cases hloop : shuntLoop ts [] [] with
  | error m =>
    rw [hloop] at h
    simp only [List.length_nil] at h ⊢
    omega
  | ok p =>
    obtain ⟨stack1, rpn1⟩ := p
    rw [hloop] at h
    have := shuntDrain_iters stack1
    simp only [List.length_nil] at h ⊢
    omega

theorem bindFunctions_iters {D : Type} (ts : List (Token D)) :
    bindFunctionsIters ts ≤ ts.length ∧
      ∀ out, bindFunctions ts = Except.ok out → bindFunctionsIters ts = ts.length := by
  induction ts with
  | nil => simp [bindFunctionsIters]
  | cons t ts ih =>
    by_cases h : t.type ≠ TokType.Func
    · simp only [bindFunctionsIters, bindFunctions, if_pos h, List.length_cons]
      refine ⟨by omega, ?_⟩
      intro out hout
      cases hb : bindFunctions ts with
      | error m => simp [hb] at hout
      | ok ts1 =>
        have := ih.2 ts1 hb
        omega
    · simp only [bindFunctionsIters, bindFunctions, if_neg h, List.length_cons]
      cases hf : findFn t.funcName with
      | none => simp
      | some d =>
        simp only
        refine ⟨by omega, ?_⟩
        intro out hout
        cases hb : bindFunctions ts with
        | error m => simp [hb] at hout
        | ok ts1 =>
          have := ih.2 ts1 hb
          omega

theorem evalLoop_iters {D : Type} (ops : DoubleOps D) (x : List D) (prog : List (Token D)) :
    ∀ st : List D, evalLoopIters ops x prog st ≤ prog.length ∧
      ∀ st1, evalLoop ops x prog st = Except.ok st1 →
        evalLoopIters ops x prog st = prog.length := by
  induction prog with
  | nil =>
    intro st
    simp [evalLoopIters]
  | cons t ts ih =>
    intro st
    simp only [evalLoopIters, evalLoop, List.length_cons]
    cases hstep : evalStep ops x t st with
    | error e => simp
    | ok st1 =>
      simp only
      have := ih st1
      refine ⟨by omega, ?_⟩
      intro st2 h2
      have := this.2 st2 h2
      omega

/-! ## The object after a failed `setExpression` -/

/-- C31: after a `setExpression` call that fails, whatever the object held
before, it holds the empty program together with the text and the dimension of
the failed call: `evaluate` returns the NaN sentinel on every vector of every
length, `expression()` returns the rejected text and `dimension()` the
dimension of the rejected call. -/
theorem setExpression_failed_state {D : Type} (ops : DoubleOps D) (self : ObjectiveFunction D)
    (expr : String) (dim : Int) (m : String)
    (h : (setExpression ops self expr dim).2 = Except.error m) :
    (setExpression ops self expr dim).1.rpn_ = [] ∧
      (∀ x : List D, evaluate ops (setExpression ops self expr dim).1 x = ops.nan) ∧
      expression (setExpression ops self expr dim).1 = expr ∧
      dimension (setExpression ops self expr dim).1 = dim := by
  have hs := setExpression_error_state ops self expr dim m h
  refine ⟨by rw [hs], ?_, by rw [hs]; rfl, by rw [hs]; rfl⟩
  intro x
  exact evaluate_empty_program ops _ (by rw [hs]) x

/-- An object that holds the program of `x0` at dimension 1 evaluates to 5 on
`[5]`; the call with the text `x0+(` at dimension 1 then fails with mismatched
parentheses, and the object evaluates to the NaN on every vector and returns the
rejected text and dimension. -/
theorem setExpression_failed_state_witness :
    (setExpression exactOps (setExpression exactOps (new ERat) "x0" 1).1 "x0+(" 1).2 =
        Except.error "Mismatched parentheses at end." ∧
      evaluate exactOps (setExpression exactOps (new ERat) "x0" 1).1 [ERat.fin 5] =
        ERat.fin 5 ∧
      (∀ x : List ERat,
        evaluate exactOps
          (setExpression exactOps (setExpression exactOps (new ERat) "x0" 1).1 "x0+(" 1).1 x =
          ERat.nan) ∧
      expression
          (setExpression exactOps (setExpression exactOps (new ERat) "x0" 1).1 "x0+(" 1).1 =
        "x0+(" ∧
      dimension
          (setExpression exactOps (setExpression exactOps (new ERat) "x0" 1).1 "x0+(" 1).1 =
        1 :=
  ⟨by decide!, by decide!,
    (setExpression_failed_state exactOps (setExpression exactOps (new ERat) "x0" 1).1 "x0+(" 1
      "Mismatched parentheses at end." (by decide!)).2.1,
    (setExpression_failed_state exactOps (setExpression exactOps (new ERat) "x0" 1).1 "x0+(" 1
      "Mismatched parentheses at end." (by decide!)).2.2.1,
    (setExpression_failed_state exactOps (setExpression exactOps (new ERat) "x0" 1).1 "x0+(" 1
      "Mismatched parentheses at end." (by decide!)).2.2.2⟩

/-! ## A dimension below 1 -/

/-- C36: for every text, `setExpression` with a dimension `<= 0` fails with the
message `Dimension must be >= 1.`; the result does not depend on what `tokenize`
would make of the text, and the object keeps the text, the dimension and the
empty program.  So no text, not even the constant `e`, compiles for dimension 0,
and a text that the tokenizer rejects is reported with the dimension message. -/
theorem setExpression_dimension_below_one {D : Type} (ops : DoubleOps D)
    (self : ObjectiveFunction D) (expr : String) (dim : Int) (hdim : dim ≤ 0) :
    setExpression ops self expr dim =
        (⟨dim, expr, []⟩, Except.error "Dimension must be >= 1.") ∧
      (∀ r : Except String (List (Token D)), tokenize ops expr.data dim = r →
        (setExpression ops self expr dim).2 = Except.error "Dimension must be >= 1.") ∧
      (setExpression ops self "e" 0).2 = Except.error "Dimension must be >= 1." ∧
      (setExpression ops self "#" 0).2 = Except.error "Dimension must be >= 1." := by
  have h1 : setExpression ops self expr dim =
      (⟨dim, expr, []⟩, Except.error "Dimension must be >= 1.") := by
    simp only [setExpression, if_pos hdim]
  refine ⟨h1, fun _ _ => by rw [h1], ?_, ?_⟩
  · simp only [setExpression, if_pos (show (0 : Int) ≤ 0 by decide)]
  · simp only [setExpression, if_pos (show (0 : Int) ≤ 0 by decide)]

/-- The text `e`: it tokenizes at dimension 0 to the constant and compiles at
dimension 1, and `setExpression` rejects it at the dimensions 0 and -3. -/
theorem setExpression_dimension_below_one_witness :
    tokenize exactOps "e".data 0 = Except.ok [Token.mkNumber exactOps exactOps.eLit] ∧
      (setExpression exactOps (new ERat) "e" 1).2 = Except.ok () ∧
      setExpression exactOps (new ERat) "e" 0 =
        (⟨0, "e", []⟩, Except.error "Dimension must be >= 1.") ∧
      setExpression exactOps (new ERat) "e" (-3) =
        (⟨-3, "e", []⟩, Except.error "Dimension must be >= 1.") :=
  ⟨by decide!, by decide!,
    (setExpression_dimension_below_one exactOps (new ERat) "e" 0 (by decide)).1,
    (setExpression_dimension_below_one exactOps (new ERat) "e" (-3) (by decide)).1⟩

/-! ## The empty text and texts of white space -/

theorem tokenizeLoop_spaces {D : Type} (ops : DoubleOps D) (s : List Char) (dim : Int)
    (hs : ∀ c ∈ s, isSpace c = true) (fuel : Nat) :
    ∀ (i : Nat) (ev : Bool) (out : List (Token D)), s.length - i ≤ fuel →
      tokenizeLoop ops s dim fuel i ev out = some (Except.ok out) := by
  induction fuel with
  | zero =>
    intro i ev out hfuel
    have hi : ¬ i < s.length := by omega
    simp [tokenizeLoop, hi]
  | succ n ih =>
    intro i ev out hfuel
    by_cases hi : i < s.length
    · obtain ⟨c, rest, hdrop⟩ : ∃ c rest, s.drop i = c :: rest := by
        cases hd : s.drop i with
        | nil =>
          have := List.drop_eq_nil_iff.mp hd
          omega
        | cons c rest => exact ⟨c, rest, rfl⟩
      have hc : isSpace c = true :=
        hs c (List.mem_of_mem_drop (by rw [hdrop]; exact List.mem_cons_self _ _))
      have hstep : tokenizeIter ops s dim i ev out = LexStep.next (i + 1) ev out := by
        simp [tokenizeIter, hdrop, hc]
      simp only [tokenizeLoop, if_pos hi, hstep]
      exact ih (i + 1) ev out (by omega)
    · simp [tokenizeLoop, hi]

theorem tokenize_spaces {D : Type} (ops : DoubleOps D) (s : List Char) (dim : Int)
    (hs : ∀ c ∈ s, isSpace c = true) : tokenize ops s dim = Except.ok [] := by
  have h := tokenizeLoop_spaces ops s dim hs s.length 0 true [] (by omega)
  simp only [tokenize, h]

/-- C33: for every dimension `>= 1`, `setExpression` on a text that consists of
white space only (the empty text included) succeeds, with no token and the empty
program, and `evaluate` then returns the NaN sentinel on every vector. -/
theorem setExpression_blank {D : Type} (ops : DoubleOps D) (self : ObjectiveFunction D)
    (expr : String) (dim : Int) (hdim : 1 ≤ dim) (hs : ∀ c ∈ expr.data, isSpace c = true) :
    tokenize ops expr.data dim = Except.ok [] ∧
      setExpression ops self expr dim = (⟨dim, expr, []⟩, Except.ok ()) ∧
      (∀ x : List D, evaluate ops (setExpression ops self expr dim).1 x = ops.nan) ∧
      (∀ x : List D, evalRun ops (setExpression ops self expr dim).1.rpn_ x =
        Except.error EvalExit.finalSize) := by
  have htok := tokenize_spaces ops expr.data dim hs
  have hnot : ¬ dim ≤ 0 := by omega
  have hset : setExpression ops self expr dim = (⟨dim, expr, []⟩, Except.ok ()) := by
    simp only [setExpression, if_neg hnot, htok]
    rfl
  refine ⟨htok, hset, ?_, ?_⟩
  · intro x
    exact evaluate_empty_program ops _ (by rw [hset]) x
  · intro x
    rw [hset]
    rfl

/-- The empty text and the text of a blank, a tab and a line feed at
dimension 2. -/
theorem setExpression_blank_witness :
    setExpression exactOps (new ERat) "" 2 = (⟨2, "", []⟩, Except.ok ()) ∧
      setExpression exactOps (new ERat) " \t\n" 2 = (⟨2, " \t\n", []⟩, Except.ok ()) ∧
      evaluate exactOps (setExpression exactOps (new ERat) " \t\n" 2).1
        [ERat.fin 1, ERat.fin 2] = ERat.nan :=
  ⟨(setExpression_blank exactOps (new ERat) "" 2 (by decide) (by decide)).2.1,
    (setExpression_blank exactOps (new ERat) " \t\n" 2 (by decide) (by decide)).2.1,
    (setExpression_blank exactOps (new ERat) " \t\n" 2 (by decide) (by decide)).2.2.1
      [ERat.fin 1, ERat.fin 2]⟩

/-! ## A decimal point at the start of a token -/

theorem tokenizeIter_dot {D : Type} (ops : DoubleOps D) (s : List Char) (dim : Int)
    (i : Nat) (ev : Bool) (out : List (Token D)) (rest : List Char)
    (hdrop : s.drop i = '.' :: rest) :
    tokenizeIter ops s dim i ev out = LexStep.fail "Invalid number token." := by
  have hscan : scanNumber ('.' :: rest) true = 0 := by
    simp [scanNumber, isDigit]
  simp [tokenizeIter, hdrop, isSpace, hscan, ops.stod_nil]

set_option maxRecDepth 10000 in
/-- C34: an iteration of the main loop of `tokenize` that stands on a `.` fails
with `Invalid number token.`: the number scanner consumes nothing and the empty
text is no number.  So `tokenize` fails with that message whenever its main loop
arrives at a `.`, and for every text `s` and every dimension `>= 1`
`setExpression("." + s)` fails with it; `.5` is rejected, and so is `1.2.3`,
where the loop arrives at the second point after the number `1.2`. -/
theorem tokenize_leading_dot {D : Type} (ops : DoubleOps D) (s : List Char) (dim : Int) :
    (∀ (i : Nat) (ev : Bool) (out : List (Token D)) (rest : List Char),
        s.drop i = '.' :: rest →
        tokenizeIter ops s dim i ev out = LexStep.fail "Invalid number token.") ∧
      (∀ (i : Nat) (ev : Bool) (out : List (Token D)) (rest : List Char),
        LexReach ops s dim i ev out → s.drop i = '.' :: rest →
        tokenize ops s dim = Except.error "Invalid number token.") ∧
      tokenize ops ('.' :: s) dim = Except.error "Invalid number token." ∧
      (∀ (self : ObjectiveFunction D) (text : String), 1 ≤ dim →
        (setExpression ops self ("." ++ text) dim).2 =
          Except.error "Invalid number token.") ∧
      tokenize ops ".5".data dim = Except.error "Invalid number token." ∧
      tokenize ops "1.2.3".data dim = Except.error "Invalid number token." := by
  have hfirst : ∀ r : List Char,
      tokenize ops ('.' :: r) dim = Except.error "Invalid number token." := by
    intro r
    exact tokenize_of_reach_fail ops ('.' :: r) dim 0 true [] _ LexReach.start
      (by simp) (tokenizeIter_dot ops ('.' :: r) dim 0 true [] r rfl)
  refine ⟨?_, ?_, hfirst s, ?_, hfirst _, ?_⟩
  · intro i ev out rest hdrop
    exact tokenizeIter_dot ops s dim i ev out rest hdrop
  · intro i ev out rest hr hdrop
    exact tokenize_of_reach_fail ops s dim i ev out _ hr
      (lt_length_of_drop s i '.' rest hdrop)
      (tokenizeIter_dot ops s dim i ev out rest hdrop)
  · intro self text hdim
    have hnot : ¬ dim ≤ 0 := by omega
    have hdata : ("." ++ text).data = '.' :: text.data := rfl
    simp only [setExpression, if_neg hnot, hdata, hfirst text.data]
  · cases h : ops.stod ['1', '.', '2'] <;>
      simp [tokenize, tokenizeLoop, tokenizeIter, isSpace, isDigit, scanNumber, scanDigits, h,
        ops.stod_nil]

/-- The exact arithmetic at dimension 1: the texts `.5`, `1.2.3` and `2*.5`
are rejected, the text `0.5` is the number one half. -/
theorem tokenize_leading_dot_witness :
    (setExpression exactOps (new ERat) ".5" 1).2 = Except.error "Invalid number token." ∧
      (setExpression exactOps (new ERat) "1.2.3" 1).2 =
        Except.error "Invalid number token." ∧
      tokenize exactOps "2*.5".data 1 = Except.error "Invalid number token." ∧
      tokenize exactOps "0.5".data 1 = Except.ok [Token.mkNumber exactOps (ERat.fin (1 / 2))] :=
  ⟨(tokenize_leading_dot exactOps [] 1).2.2.2.1 (new ERat) "5" (by decide),
    by decide!,
    (tokenize_leading_dot exactOps "2*.5".data 1).2.1 2 true
      [Token.mkNumber exactOps (ERat.fin 2), makeOp exactOps '*'] ['5']
      (LexReach.step 1 false [Token.mkNumber exactOps (ERat.fin 2)] 2 true _
        (LexReach.step 0 true [] 1 false _ LexReach.start (by decide) (by decide!))
        (by decide) (by decide!))
      (by decide),
    by decide!⟩

/-! ## The parser rearranges its input -/

theorem popOperators_word {D : Type} (t : Token D) (stack : List (Token D)) :
    ∀ rpn : List (Token D),
      (popOperators t stack rpn).2 ++ (popOperators t stack rpn).1 = rpn ++ stack := by
  induction stack with
  | nil =>
    intro rpn
    simp [popOperators]
  | cons top rest ih =>
    intro rpn
    unfold popOperators
    by_cases h1 : top.type ≠ TokType.Op
    · rw [if_pos h1]
    · rw [if_neg h1]
      split_ifs
      · rw [ih (rpn ++ [top])]
        simp
      · rfl

theorem popToLParenKeep_word {D : Type} (stack : List (Token D)) :
    ∀ rpn : List (Token D),
      (popToLParenKeep stack rpn).2.2 ++ (popToLParenKeep stack rpn).2.1 = rpn ++ stack ∨
        (popToLParenKeep stack rpn).1 = false := by
  induction stack with
  | nil =>
    intro rpn
    exact Or.inr rfl
  | cons top rest ih =>
    intro rpn
    unfold popToLParenKeep
    by_cases h1 : top.type = TokType.LParen
    · rw [if_pos h1]
      exact Or.inl rfl
    · rw [if_neg h1]
      rcases ih (rpn ++ [top]) with h | h
      · left
        rw [h]
        simp
      · exact Or.inr h

/-- The `RParen` branch, when it finds a `LParen`: the output and the stack
after it are the output and the stack before it with that `LParen` taken out. -/
theorem popToLParenDrop_word {D : Type} (stack : List (Token D)) :
    ∀ rpn : List (Token D), (popToLParenDrop stack rpn).1 = true →
      ∃ (pre : List (Token D)) (lp : Token D), lp.type = TokType.LParen ∧
        stack = pre ++ lp :: (popToLParenDrop stack rpn).2.1 ∧
        (popToLParenDrop stack rpn).2.2 = rpn ++ pre := by
  induction stack with
  | nil =>
    intro rpn h
    simp [popToLParenDrop] at h
  | cons top rest ih =>
    intro rpn h
    unfold popToLParenDrop at h ⊢
    by_cases h1 : top.type = TokType.LParen
    · rw [if_pos h1]
      exact ⟨[], top, h1, rfl, by simp⟩
    · rw [if_neg h1] at h ⊢
      obtain ⟨pre, lp, hlp, hst, hrpn⟩ := ih (rpn ++ [top]) h
      refine ⟨top :: pre, lp, hlp, ?_, ?_⟩
      · rw [List.cons_append, ← hst]
      · rw [hrpn]
        simp

theorem filter_isKept_of_not {D : Type} (t : Token D) (h : t.isKept = false) :
    [t].filter Token.isKept = [] := by
  simp [List.filter, h]

theorem filter_isKept_of {D : Type} (t : Token D) (h : t.isKept = true) :
    [t].filter Token.isKept = [t] := by
  simp [List.filter, h]

/-- One parser iteration: the kept tokens of the output followed by the stack
are those before it and the incoming token, up to order; the operands among them
keep their order when the stack holds no operand. -/
theorem shuntStep_word {D : Type} (t : Token D) (stack rpn stack1 rpn1 : List (Token D))
    (h : shuntStep t stack rpn = Except.ok (stack1, rpn1)) :
    ((rpn1 ++ stack1).filter Token.isKept).Perm
        ((rpn ++ stack).filter Token.isKept ++ [t].filter Token.isKept) ∧
      ((∀ u ∈ stack, u.isOperand = false) →
        (rpn1 ++ stack1).filter Token.isOperand =
          (rpn ++ stack).filter Token.isOperand ++ [t].filter Token.isOperand) := by
  unfold shuntStep at h
  by_cases h1 : t.type = TokType.Number ∨ t.type = TokType.Var
  · rw [if_pos h1] at h
    cases h
    have hk : t.isKept = true := by
      rcases h1 with h1 | h1 <;> simp [Token.isKept, h1]
    have ho : t.isOperand = true := by
      rcases h1 with h1 | h1 <;> simp [Token.isOperand, h1]
    constructor
    · simp only [List.filter_append, List.append_assoc]
      exact List.Perm.append_left _ List.perm_append_comm
    · intro hst
      have hs : stack.filter Token.isOperand = [] := by
        rw [List.filter_eq_nil_iff]
        intro u hu
        rw [hst u hu]
        decide
      simp only [List.filter_append, hs, List.append_nil]
  rw [if_neg h1] at h
  have hno : t.isOperand = false := by
    simp only [not_or] at h1
    simp [Token.isOperand, h1.1, h1.2]
  have hto : [t].filter Token.isOperand = [] := by
    simp [List.filter, hno]
  by_cases h2 : t.type = TokType.Func
  · rw [if_pos h2] at h
    cases h
    have hk : t.isKept = true := by simp [Token.isKept, h2]
    constructor
    · simp only [List.filter_append, List.filter_cons, hk, if_true, List.filter_nil,
        List.append_assoc]
      exact List.Perm.append_left _ (@List.perm_append_comm _ [t] _)
    · intro _
      simp only [List.filter_append, List.filter_cons, hno, List.filter_nil, List.append_nil]
      simp
  rw [if_neg h2] at h
  by_cases h3 : t.type = TokType.Comma
  · rw [if_pos h3] at h
    have hk : [t].filter Token.isKept = [] := by
      simp [List.filter, Token.isKept, h3]
    have hw := popToLParenKeep_word stack rpn
    generalize popToLParenKeep stack rpn = r at h hw
    obtain ⟨b, s1, r1⟩ := r
    cases b with
    | false => cases h
    | true =>
      cases h
      rcases hw with hw | hw
      · simp only at hw
        rw [hw, hk, hto]
        simp
      · cases hw
  rw [if_neg h3] at h
  by_cases h4 : t.type = TokType.Op
  · rw [if_pos h4] at h
    have hk : t.isKept = true := by simp [Token.isKept, h4]
    have hw := popOperators_word t stack rpn
    generalize popOperators t stack rpn = r at h hw
    obtain ⟨s1, r1⟩ := r
    cases h
    simp only at hw
    constructor
    · rw [← hw]
      simp only [List.filter_append, List.filter_cons, hk, if_true, List.filter_nil,
        List.append_assoc]
      exact List.Perm.append_left _ (@List.perm_append_comm _ [t] _)
    · intro _
      rw [← hw]
      simp only [List.filter_append, List.filter_cons, hno, List.filter_nil, List.append_nil]
      simp
  rw [if_neg h4] at h
  by_cases h5 : t.type = TokType.LParen
  · rw [if_pos h5] at h
    cases h
    have hk : t.isKept = false := by simp [Token.isKept, h5]
    constructor
    · simp only [List.filter_append, List.filter_cons, hk, List.filter_nil, List.append_nil]
      simp
    · intro _
      simp only [List.filter_append, List.filter_cons, hno, List.filter_nil, List.append_nil]
      simp
  rw [if_neg h5] at h
  by_cases h6 : t.type = TokType.RParen
  · rw [if_pos h6] at h
    have hk : [t].filter Token.isKept = [] := by
      simp [List.filter, Token.isKept, h6]
    have hw := popToLParenDrop_word stack rpn
    generalize popToLParenDrop stack rpn = r at h hw
    obtain ⟨b, s1, r1⟩ := r
    cases b with
    | false => cases h
    | true =>
      obtain ⟨pre, lp, hlp, hst, hrpn⟩ := hw rfl
      simp only at hst hrpn h
      have hlk : lp.isKept = false := by simp [Token.isKept, hlp]
      have hlo : lp.isOperand = false := by simp [Token.isOperand, hlp]
      have hfin : rpn1 ++ stack1 = r1 ++ s1 := by
        cases s1 with
        | nil =>
          cases h
          rfl
        | cons top rest =>
          simp only at h
          split_ifs at h
          · cases h
            simp
          · cases h
            rfl
      rw [hfin, hrpn, hst, hk, hto]
      constructor
      · simp only [List.filter_append, List.filter_cons, hlk, List.append_nil,
          List.append_assoc]
        simp
      · intro _
        simp only [List.filter_append, List.filter_cons, hlo, List.append_nil,
          List.append_assoc]
        simp
  · rw [if_neg h6] at h
    cases h
    have hk : [t].filter Token.isKept = [] := by
      simp only [not_or] at h1
      simp [List.filter, Token.isKept, h1.1, h1.2, h2, h4]
    rw [hk, hto]
    simp

theorem shuntLoop_word {D : Type} (ts : List (Token D)) :
    ∀ (stack rpn stack1 rpn1 : List (Token D)),
      shuntLoop ts stack rpn = Except.ok (stack1, rpn1) → (∀ u ∈ stack, u.StackKind) →
      ((rpn1 ++ stack1).filter Token.isKept).Perm
          ((rpn ++ stack).filter Token.isKept ++ ts.filter Token.isKept) ∧
        (rpn1 ++ stack1).filter Token.isOperand =
          (rpn ++ stack).filter Token.isOperand ++ ts.filter Token.isOperand := by
  induction ts with
  | nil =>
    intro stack rpn stack1 rpn1 h _
    simp only [shuntLoop, Except.ok.injEq, Prod.mk.injEq] at h
    obtain ⟨rfl, rfl⟩ := h
    simp
  | cons t ts ih =>
    intro stack rpn stack1 rpn1 h hst
    simp only [shuntLoop] at h
    cases hstep : shuntStep t stack rpn with
    | error m => simp [hstep] at h
    | ok p =>
      obtain ⟨s2, r2⟩ := p
      simp only [hstep] at h
      have hw := shuntStep_word t stack rpn s2 r2 hstep
      have hinv := shuntStep_inv (fun u : Token D => u.StackKind) (fun _ => True)
        (fun _ _ _ => trivial) t stack rpn s2 r2 (fun _ => trivial) (fun hk => hk) hstep hst
        (fun _ _ => trivial)
      have hrec := ih s2 r2 stack1 rpn1 h hinv.1
      have hop : ∀ u ∈ stack, u.isOperand = false := by
        intro u hu
        rcases hst u hu with hk | hk | hk <;> simp [Token.isOperand, hk]
      have hsplit : ∀ f : Token D → Bool, (t :: ts).filter f = [t].filter f ++ ts.filter f := by
        intro f
        rw [← List.filter_append]
        rfl
      constructor
      · rw [hsplit, ← List.append_assoc]
        exact hrec.1.trans (List.Perm.append_right _ hw.1)
      · rw [hrec.2, hw.2 hop, hsplit, List.append_assoc]

theorem shuntDrain_word {D : Type} (stack : List (Token D)) :
    ∀ rpn out : List (Token D), shuntDrain stack rpn = Except.ok out → out = rpn ++ stack := by
  induction stack with
  | nil =>
    intro rpn out h
    simp only [shuntDrain, Except.ok.injEq] at h
    simp [h]
  | cons top rest ih =>
    intro rpn out h
    unfold shuntDrain at h
    split_ifs at h
    rw [ih _ out h]
    simp

theorem length_filter_isKept {D : Type} (ts : List (Token D)) :
    (ts.filter Token.isKept).length + countType TokType.LParen ts +
        countType TokType.RParen ts + countType TokType.Comma ts = ts.length := by
  induction ts with
  | nil => rfl
  | cons a ts ih =>
    cases hty : a.type <;>
      simp [List.filter_cons, Token.isKept, countType, hty] at ih ⊢ <;> omega

/-- C35: whenever `shuntingYardToRPN` succeeds, its output is a permutation of
the Number, Var, Op and Func tokens of the input, so its length is the input
length minus the number of parentheses and commas; and the Number and Var tokens
stand in the output in the order in which they stand in the input. -/
theorem shuntingYard_permutation {D : Type} (ts out : List (Token D))
    (h : shuntingYardToRPN ts = Except.ok out) :
    out.Perm (ts.filter Token.isKept) ∧
      out.length + countType TokType.LParen ts + countType TokType.RParen ts +
        countType TokType.Comma ts = ts.length ∧
      out.filter Token.isOperand = ts.filter Token.isOperand := by
  have hkind := shuntingYard_postfixKind ts out h
  have hself : out.filter Token.isKept = out := by
    rw [List.filter_eq_self]
    intro u hu
    rcases hkind u hu with hk | hk | hk | hk <;> simp [Token.isKept, hk]
  unfold shuntingYardToRPN at h
  cases hloop : shuntLoop ts [] [] with
  | error m => simp [hloop] at h
  | ok p =>
    obtain ⟨stack1, rpn1⟩ := p
    simp only [hloop] at h
    have hout := shuntDrain_word stack1 rpn1 out h
    have hw := shuntLoop_word ts [] [] stack1 rpn1 hloop (by simp)
    rw [← hout] at hw
    simp only [List.append_nil, List.filter_nil, List.nil_append] at hw
    rw [hself] at hw
    refine ⟨hw.1, ?_, hw.2⟩
    rw [hw.1.length_eq]
    exact length_filter_isKept ts

/-- The tokens of `max(1,x0)+2`: the output `1 x0 max 2 +` has five of the nine
tokens, with the operands `1 x0 2` in the order of the input. -/
theorem shuntingYard_permutation_witness :
    shuntingYardToRPN
        [Token.mkFunc exactOps "max", Token.ofType exactOps TokType.LParen,
          Token.mkNumber exactOps (ERat.fin 1), Token.ofType exactOps TokType.Comma,
          Token.mkVar exactOps 0, Token.ofType exactOps TokType.RParen,
          makeOp exactOps '+', Token.mkNumber exactOps (ERat.fin 2)] =
        Except.ok [Token.mkNumber exactOps (ERat.fin 1), Token.mkVar exactOps 0,
          Token.mkFunc exactOps "max", Token.mkNumber exactOps (ERat.fin 2),
          makeOp exactOps '+'] ∧
      [Token.mkNumber exactOps (ERat.fin 1), Token.mkVar exactOps 0,
          Token.mkFunc exactOps "max", Token.mkNumber exactOps (ERat.fin 2),
          makeOp exactOps '+'].filter Token.isOperand =
        [Token.mkFunc exactOps "max", Token.ofType exactOps TokType.LParen,
          Token.mkNumber exactOps (ERat.fin 1), Token.ofType exactOps TokType.Comma,
          Token.mkVar exactOps 0, Token.ofType exactOps TokType.RParen,
          makeOp exactOps '+', Token.mkNumber exactOps (ERat.fin 2)].filter Token.isOperand :=
  ⟨by decide!,
    (shuntingYard_permutation
      [Token.mkFunc exactOps "max", Token.ofType exactOps TokType.LParen,
        Token.mkNumber exactOps (ERat.fin 1), Token.ofType exactOps TokType.Comma,
        Token.mkVar exactOps 0, Token.ofType exactOps TokType.RParen,
        makeOp exactOps '+', Token.mkNumber exactOps (ERat.fin 2)]
      [Token.mkNumber exactOps (ERat.fin 1), Token.mkVar exactOps 0,
        Token.mkFunc exactOps "max", Token.mkNumber exactOps (ERat.fin 2),
        makeOp exactOps '+'] (by decide!)).2.2⟩

/-! ## A minus sign after an operator -/

theorem scanDigits_le (l : List Char) : scanDigits l ≤ l.length := by
  induction l with
  | nil => simp [scanDigits]
  | cons a l ih =>
    simp only [scanDigits, List.length_cons]
    split_ifs <;> omega

theorem scanDigits_append (l : List Char) (c : Char) (rest : List Char)
    (h : scanDigits l = l.length) (hc : isDigit c = false) :
    scanDigits (l ++ c :: rest) = l.length := by
  induction l with
  | nil => simp [scanDigits, hc]
  | cons a l ih =>
    by_cases ha : isDigit a = true
    · simp only [scanDigits, if_pos ha, List.length_cons, Nat.add_right_cancel_iff] at h
      rw [List.cons_append, scanDigits, if_pos ha, ih h, List.length_cons]
    · simp [scanDigits, ha] at h

/-- The characters that stop the number scanner outside an exponent: the five
operator characters among them. -/
theorem scanNumber_stop (c : Char) (rest : List Char) (sd : Bool)
    (hc : c = '+' ∨ c = '-' ∨ c = '*' ∨ c = '/' ∨ c = '^') :
    scanNumber (c :: rest) sd = 0 ∧ isDigit c = false := by
  rcases hc with h | h | h | h | h <;> subst h <;> simp [scanNumber, isDigit]

theorem scanNumber_append (la : List Char) (c : Char) (rest : List Char)
    (hc : c = '+' ∨ c = '-' ∨ c = '*' ∨ c = '/' ∨ c = '^') :
    ∀ sd : Bool, la ≠ [] → scanNumber la sd = la.length →
      (∀ l ∈ la.getLast?, isDigit l = true ∨ l = '.') →
      scanNumber (la ++ c :: rest) sd = la.length := by
  have hstop := fun sd : Bool => scanNumber_stop c rest sd hc
  induction la with
  | nil =>
    intro sd hne
    exact absurd rfl hne
  | cons a l ih =>
    intro sd _ hlen hlast
    have hrec : ∀ sd1 : Bool, scanNumber l sd1 = l.length →
        scanNumber (l ++ c :: rest) sd1 = l.length := by
      intro sd1 h1
      cases l with
      | nil => exact (hstop sd1).1
      | cons b l1 =>
        exact ih sd1 (by simp) h1 (by
          intro x hx
          exact hlast x (by simpa [List.getLast?_cons_cons] using hx))
    unfold scanNumber at hlen
    rw [List.cons_append]
    unfold scanNumber
    by_cases h1 : isDigit a = true
    · rw [if_pos h1] at hlen ⊢
      simp only [List.length_cons, Nat.add_right_cancel_iff] at hlen
      rw [hrec sd hlen, List.length_cons]
    · rw [if_neg h1] at hlen ⊢
      by_cases h2 : a = '.' ∧ sd = false
      · rw [if_pos h2] at hlen ⊢
        simp only [List.length_cons, Nat.add_right_cancel_iff] at hlen
        rw [hrec true hlen, List.length_cons]
      · rw [if_neg h2] at hlen ⊢
        by_cases h3 : a = 'e' ∨ a = 'E'
        · rw [if_pos h3] at hlen ⊢
          cases l with
          | nil =>
            have := hlast a (by simp)
            rcases this with h | h
            · exact absurd h h1
            · rcases h3 with h3 | h3 <;> rw [h3] at h <;> exact absurd h (by decide)
          | cons c2 cs2 =>
            simp only [List.cons_append] at hlen ⊢
            by_cases h4 : c2 = '+' ∨ c2 = '-'
            · rw [if_pos h4] at hlen ⊢
              have hd : scanDigits cs2 = cs2.length := by
                simp only [List.length_cons] at hlen
                omega
              have hne : cs2 ≠ [] := by
                intro hnil
                subst hnil
                have := hlast c2 (by simp)
                rcases this with h | h
                · rcases h4 with h4 | h4 <;> rw [h4] at h <;> exact absurd h (by decide)
                · rcases h4 with h4 | h4 <;> rw [h4] at h <;> exact absurd h (by decide)
              rw [scanDigits_append cs2 c rest hd (hstop false).2]
              simp only [List.length_cons]
              omega
            · rw [if_neg h4] at hlen ⊢
              have hd : scanDigits (c2 :: cs2) = (c2 :: cs2).length := by
                simp only [List.length_cons] at hlen ⊢
                omega
              have := scanDigits_append (c2 :: cs2) c rest hd (hstop false).2
              rw [List.cons_append] at this
              rw [this]
              simp only [List.length_cons]
              omega
        · rw [if_neg h3] at hlen
          simp at hlen

theorem digit_branch (c : Char) (h : isDigit c = true) :
    isSpace c = false ∧ c ≠ '(' ∧ c ≠ ')' ∧ c ≠ ',' ∧ c ≠ '.' := by
  simp only [isDigit, Bool.and_eq_true, decide_eq_true_eq] at h
  refine ⟨?_, ?_, ?_, ?_, ?_⟩
  · simp only [isSpace, Bool.or_eq_false_iff, decide_eq_false_iff_not, Bool.and_eq_false_iff]
    omega
  · rintro rfl
    simp at h
  · rintro rfl
    simp at h
  · rintro rfl
    simp at h
  · rintro rfl
    simp at h

/-- An iteration of the main loop that stands on a numeric literal which the
scanner consumes whole emits its value. -/
theorem tokenizeIter_numeral {D : Type} (ops : DoubleOps D) (s : List Char) (dim : Int)
    (i : Nat) (ev : Bool) (out : List (Token D)) (la rest : List Char) (a : D)
    (hla : isNumeral la = true) (hdrop : s.drop i = la ++ rest)
    (hscan : scanNumber (la ++ rest) false = la.length) (ha : ops.stod la = some a) :
    tokenizeIter ops s dim i ev out =
      LexStep.next (i + la.length) false (out ++ [Token.mkNumber ops a]) := by
  cases la with
  | nil => simp [isNumeral] at hla
  | cons c la1 =>
    simp only [isNumeral, Bool.and_eq_true] at hla
    obtain ⟨hd, hdot⟩ : isDigit c = true ∧ c ≠ '.' :=
      ⟨hla.1.1, (digit_branch c hla.1.1).2.2.2.2⟩
    obtain ⟨h1, h2, h3, h4, _⟩ := digit_branch c hd
    rw [List.cons_append] at hdrop hscan
    have htake : (c :: (la1 ++ rest)).take (c :: la1).length = c :: la1 := by
      rw [← List.cons_append, List.take_left']
      rfl
    simp only [tokenizeIter, hdrop, h1, h2, h3, h4, hd, hdot, decide_False, hscan,
      Nat.add_sub_cancel_left, htake, ha, if_false, if_true, true_or, Bool.false_eq_true]

theorem tokenize_of_reach_end {D : Type} (ops : DoubleOps D) (s : List Char) (dim : Int)
    (i : Nat) (ev : Bool) (out : List (Token D)) (hr : LexReach ops s dim i ev out)
    (hi : s.length ≤ i) : tokenize ops s dim = Except.ok out := by
  have h := tokenizeLoop_reach ops s dim i ev out hr
  have h0 : s.length - i = 0 := by omega
  have hlt : ¬ i < s.length := by omega
  rw [h0] at h
  simp only [tokenizeLoop, if_neg hlt, Option.some.injEq] at h
  exact h.symm

theorem tokenizeIter_operator {D : Type} (ops : DoubleOps D) (s : List Char) (dim : Int)
    (i : Nat) (out : List (Token D)) (op : BinOp) (rest : List Char)
    (hdrop : s.drop i = op.sym :: rest) :
    tokenizeIter ops s dim i false out = LexStep.next (i + 1) true (out ++ [makeOp ops op.sym]) := by
  cases op <;> simp [tokenizeIter, hdrop, BinOp.sym, isSpace, isDigit]

theorem tokenizeIter_unary_minus {D : Type} (ops : DoubleOps D) (s : List Char) (dim : Int)
    (i : Nat) (out : List (Token D)) (rest : List Char) (hdrop : s.drop i = '-' :: rest) :
    tokenizeIter ops s dim i true out =
      LexStep.next (i + 1) true (out ++ [Token.mkNumber ops ops.zero, makeOp ops '-']) := by
  simp [tokenizeIter, hdrop, isSpace, isDigit]

/-- The tokens of `a op -b` for numeric literals `a` and `b`. -/
theorem tokenize_operator_minus {D : Type} (ops : DoubleOps D) (la lb : List Char) (a b : D)
    (op : BinOp) (dim : Int) (hla : isNumeral la = true) (hlb : isNumeral lb = true)
    (ha : ops.stod la = some a) (hb : ops.stod lb = some b) :
    tokenize ops (la ++ op.sym :: '-' :: lb) dim =
      Except.ok [Token.mkNumber ops a, makeOp ops op.sym, Token.mkNumber ops ops.zero,
        makeOp ops '-', Token.mkNumber ops b] := by
  have hopc : op.sym = '+' ∨ op.sym = '-' ∨ op.sym = '*' ∨ op.sym = '/' ∨ op.sym = '^' := by
    cases op <;> simp [BinOp.sym]
  have hla1 : la ≠ [] ∧ scanNumber la false = la.length ∧
      ∀ l ∈ la.getLast?, isDigit l = true ∨ l = '.' := by
    cases la with
    | nil => simp [isNumeral] at hla
    | cons c la1 =>
      simp only [isNumeral, Bool.and_eq_true, decide_eq_true_eq] at hla
      refine ⟨by simp, hla.1.2, ?_⟩
      intro l hl
      have h2 := hla.2
      rw [Option.mem_def] at hl
      rw [hl] at h2
      simpa using h2
  have hlb1 : scanNumber lb false = lb.length := by
    cases lb with
    | nil => simp [isNumeral] at hlb
    | cons c lb1 =>
      simp only [isNumeral, Bool.and_eq_true, decide_eq_true_eq] at hlb
      exact hlb.1.2
  set s := la ++ op.sym :: '-' :: lb with hs
  have hlen : s.length = la.length + 2 + lb.length := by
    simp [hs]
    omega
  have hd0 : s.drop 0 = la ++ op.sym :: '-' :: lb := rfl
  have hd1 : s.drop (0 + la.length) = op.sym :: '-' :: lb := by
    rw [Nat.zero_add, hs, List.drop_left]
  have hd2 : s.drop (0 + la.length + 1) = '-' :: lb := by
    rw [← List.drop_drop, hd1]
    rfl
  have hd3 : s.drop (0 + la.length + 1 + 1) = lb ++ [] := by
    rw [← List.drop_drop, hd2]
    simp
  have r0 : LexReach ops s dim 0 true ([] : List (Token D)) := LexReach.start
  have r1 := LexReach.step 0 true [] _ _ _ r0 (by rw [hlen]; omega)
    (tokenizeIter_numeral ops s dim 0 true [] la _ a hla hd0
      (scanNumber_append la op.sym _ hopc false hla1.1 hla1.2.1 hla1.2.2) ha)
  have r2 := LexReach.step _ false _ _ _ _ r1 (by rw [hlen]; omega)
    (tokenizeIter_operator ops s dim _ _ op _ hd1)
  have r3 := LexReach.step _ true _ _ _ _ r2 (by rw [hlen]; omega)
    (tokenizeIter_unary_minus ops s dim _ _ _ hd2)
  have hlbpos : 0 < lb.length := by
    cases lb with
    | nil => simp [isNumeral] at hlb
    | cons c lb1 => simp
  have r4 := LexReach.step _ true _ _ _ _ r3 (by rw [hlen]; omega)
    (tokenizeIter_numeral ops s dim _ true _ lb [] b hlb hd3
      (by rw [List.append_nil]; exact hlb1) hb)
  have hfin := tokenize_of_reach_end ops s dim _ _ _ r4 (by rw [hlen]; omega)
  rw [hfin]
  simp

/-- C32: for every operator `op` of `+ - * / ^` and all numeric literals `a` and
`b`, the text `a op -b` is lexed as `a op 0 - b` and compiles, at every dimension
`>= 1`, to the postfix program `a 0 op b -`; on every vector of the length of
the dimension it evaluates to `(a op 0) - b`.  In the exact arithmetic `2*-3`
evaluates to `-3`. -/
theorem setExpression_operator_minus {D : Type} (ops : DoubleOps D)
    (self : ObjectiveFunction D) (la lb : List Char) (a b : D) (op : BinOp) (dim : Int)
    (hdim : 1 ≤ dim) (hla : isNumeral la = true) (hlb : isNumeral lb = true)
    (ha : ops.stod la = some a) (hb : ops.stod lb = some b) :
    tokenize ops (la ++ op.sym :: '-' :: lb) dim =
        Except.ok [Token.mkNumber ops a, makeOp ops op.sym, Token.mkNumber ops ops.zero,
          makeOp ops '-', Token.mkNumber ops b] ∧
      setExpression ops self (String.mk (la ++ op.sym :: '-' :: lb)) dim =
        (⟨dim, String.mk (la ++ op.sym :: '-' :: lb),
            [Token.mkNumber ops a, Token.mkNumber ops ops.zero, makeOp ops op.sym,
              Token.mkNumber ops b, makeOp ops '-']⟩, Except.ok ()) ∧
      (∀ x : List D, (x.length : Int) = dim →
        evaluate ops (setExpression ops self (String.mk (la ++ op.sym :: '-' :: lb)) dim).1 x =
          ops.sub (op.apply ops a ops.zero) b) ∧
      evaluate exactOps (setExpression exactOps (new ERat) "2*-3" 1).1 [ERat.fin 0] =
        ERat.fin (-3) := by
  have htok := tokenize_operator_minus ops la lb a b op dim hla hlb ha hb
  have hnot : ¬ dim ≤ 0 := by omega
  have hset : setExpression ops self (String.mk (la ++ op.sym :: '-' :: lb)) dim =
      (⟨dim, String.mk (la ++ op.sym :: '-' :: lb),
          [Token.mkNumber ops a, Token.mkNumber ops ops.zero, makeOp ops op.sym,
            Token.mkNumber ops b, makeOp ops '-']⟩, Except.ok ()) := by
    simp only [setExpression, if_neg hnot, htok]
    cases op <;> rfl
  refine ⟨htok, hset, ?_, by decide!⟩
  intro x hx
  rw [hset]
  have hx1 : ¬ (x.length : Int) ≠ dim := by simp [hx]
  simp only [evaluate, if_neg hx1]
  cases op <;> rfl

/-- The exact arithmetic at dimension 1: `2*-3` is `(2*0)-3 = -3`, and
`1.5^-2` is `(1.5^0)-2 = -1`. -/
theorem setExpression_operator_minus_witness :
    isNumeral ['2'] = true ∧ isNumeral ['1', '.', '5'] = true ∧
      (setExpression exactOps (new ERat) "2*-3" 1).1.rpn_ =
        [Token.mkNumber exactOps (ERat.fin 2), Token.mkNumber exactOps (ERat.fin 0),
          makeOp exactOps '*', Token.mkNumber exactOps (ERat.fin 3), makeOp exactOps '-'] ∧
      evaluate exactOps (setExpression exactOps (new ERat) "2*-3" 1).1 [ERat.fin 7] =
        ERat.fin (-3) ∧
      evaluate exactOps (setExpression exactOps (new ERat) "1.5^-2" 1).1 [ERat.fin 7] =
        ERat.fin (-1) :=
  ⟨by decide, by decide,
    congrArg (fun p => p.1.rpn_)
      (setExpression_operator_minus exactOps (new ERat) ['2'] ['3'] (ERat.fin 2) (ERat.fin 3)
        BinOp.mul 1 (by decide) (by decide) (by decide) (by decide!) (by decide!)).2.1,
    ((setExpression_operator_minus exactOps (new ERat) ['2'] ['3'] (ERat.fin 2) (ERat.fin 3)
        BinOp.mul 1 (by decide) (by decide) (by decide) (by decide!) (by decide!)).2.2.1
      [ERat.fin 7] (by decide)).trans (by decide!),
    ((setExpression_operator_minus exactOps (new ERat) ['1', '.', '5'] ['2']
        (ERat.fin (3 / 2)) (ERat.fin 2)
        BinOp.pow 1 (by decide) (by decide) (by decide) (by decide!) (by decide!)).2.2.1
      [ERat.fin 7] (by decide)).trans (by decide!)⟩

/-! ## The parser, the binder and the stack discipline do not look at numbers -/

theorem popOperators_shape {D : Type} (t : Token D) (stack : List (Token D)) :
    ∀ rpn : List (Token D),
      popOperators t.shape (stack.map Token.shape) (rpn.map Token.shape) =
        ((popOperators t stack rpn).1.map Token.shape,
          (popOperators t stack rpn).2.map Token.shape) := by
  induction stack with
  | nil =>
    intro rpn
    rfl
  | cons top rest ih =>
    intro rpn
    simp only [List.map_cons, popOperators]
    by_cases h1 : top.type ≠ TokType.Op
    · have h1s : top.shape.type ≠ TokType.Op := h1
      rw [if_pos h1, if_pos h1s]
      rfl
    · have h1s : ¬ top.shape.type ≠ TokType.Op := h1
      rw [if_neg h1, if_neg h1s]
      by_cases h2 : ((!t.rightAssoc && decide (t.precedence ≤ top.precedence)) ||
          (t.rightAssoc && decide (t.precedence < top.precedence))) = true
      · have h2s : ((!t.shape.rightAssoc &&
            decide (t.shape.precedence ≤ top.shape.precedence)) ||
            (t.shape.rightAssoc && decide (t.shape.precedence < top.shape.precedence))) =
            true := h2
        rw [if_pos h2, if_pos h2s]
        have := ih (rpn ++ [top])
        rw [List.map_append] at this
        exact this
      · have h2s : ¬ ((!t.shape.rightAssoc &&
            decide (t.shape.precedence ≤ top.shape.precedence)) ||
            (t.shape.rightAssoc && decide (t.shape.precedence < top.shape.precedence))) =
            true := h2
        rw [if_neg h2, if_neg h2s]
        rfl

theorem popToLParenKeep_shape {D : Type} (stack : List (Token D)) :
    ∀ rpn : List (Token D),
      popToLParenKeep (stack.map Token.shape) (rpn.map Token.shape) =
        ((popToLParenKeep stack rpn).1, (popToLParenKeep stack rpn).2.1.map Token.shape,
          (popToLParenKeep stack rpn).2.2.map Token.shape) := by
  induction stack with
  | nil =>
    intro rpn
    rfl
  | cons top rest ih =>
    intro rpn
    simp only [List.map_cons, popToLParenKeep]
    by_cases h1 : top.type = TokType.LParen
    · have h1s : top.shape.type = TokType.LParen := h1
      rw [if_pos h1, if_pos h1s]
      rfl
    · have h1s : ¬ top.shape.type = TokType.LParen := h1
      rw [if_neg h1, if_neg h1s]
      have := ih (rpn ++ [top])
      rw [List.map_append] at this
      exact this

theorem popToLParenDrop_shape {D : Type} (stack : List (Token D)) :
    ∀ rpn : List (Token D),
      popToLParenDrop (stack.map Token.shape) (rpn.map Token.shape) =
        ((popToLParenDrop stack rpn).1, (popToLParenDrop stack rpn).2.1.map Token.shape,
          (popToLParenDrop stack rpn).2.2.map Token.shape) := by
  induction stack with
  | nil =>
    intro rpn
    rfl
  | cons top rest ih =>
    intro rpn
    simp only [List.map_cons, popToLParenDrop]
    by_cases h1 : top.type = TokType.LParen
    · have h1s : top.shape.type = TokType.LParen := h1
      rw [if_pos h1, if_pos h1s]
    · have h1s : ¬ top.shape.type = TokType.LParen := h1
      rw [if_neg h1, if_neg h1s]
      have := ih (rpn ++ [top])
      rw [List.map_append] at this
      exact this

/-- The image of a parser state under `shape`. -/
theorem shuntStep_shape {D : Type} (t : Token D) (stack rpn : List (Token D)) :
    shuntStep t.shape (stack.map Token.shape) (rpn.map Token.shape) =
      match shuntStep t stack rpn with
      | Except.error m => Except.error m
      | Except.ok (stack1, rpn1) =>
        Except.ok (stack1.map Token.shape, rpn1.map Token.shape) := by
  unfold shuntStep
  have hty : t.shape.type = t.type := rfl
  rw [hty]
  by_cases h1 : t.type = TokType.Number ∨ t.type = TokType.Var
  · simp only [if_pos h1, List.map_append, List.map_cons, List.map_nil]
  simp only [if_neg h1]
  by_cases h2 : t.type = TokType.Func
  · simp only [if_pos h2, List.map_cons]
  simp only [if_neg h2]
  by_cases h3 : t.type = TokType.Comma
  · simp only [if_pos h3]
    rw [popToLParenKeep_shape]
    generalize popToLParenKeep stack rpn = r
    obtain ⟨b, s1, r1⟩ := r
    cases b <;> rfl
  simp only [if_neg h3]
  by_cases h4 : t.type = TokType.Op
  · simp only [if_pos h4]
    rw [popOperators_shape]
    generalize popOperators t stack rpn = r
    obtain ⟨s1, r1⟩ := r
    rfl
  simp only [if_neg h4]
  by_cases h5 : t.type = TokType.LParen
  · simp only [if_pos h5, List.map_cons]
  simp only [if_neg h5]
  by_cases h6 : t.type = TokType.RParen
  · simp only [if_pos h6]
    rw [popToLParenDrop_shape]
    generalize popToLParenDrop stack rpn = r
    obtain ⟨b, s1, r1⟩ := r
    cases b with
    | false => rfl
    | true =>
      cases s1 with
      | nil => rfl
      | cons top rest =>
        simp only [List.map_cons]
        have hts : top.shape.type = top.type := rfl
        rw [hts]
        by_cases h7 : top.type = TokType.Func
        · simp only [if_pos h7, List.map_append, List.map_cons, List.map_nil]
        · simp only [if_neg h7, List.map_cons]
  · simp only [if_neg h6]

theorem shuntLoop_shape {D : Type} (ts : List (Token D)) :
    ∀ stack rpn : List (Token D),
      shuntLoop (ts.map Token.shape) (stack.map Token.shape) (rpn.map Token.shape) =
        match shuntLoop ts stack rpn with
        | Except.error m => Except.error m
        | Except.ok (stack1, rpn1) =>
          Except.ok (stack1.map Token.shape, rpn1.map Token.shape) := by
  induction ts with
  | nil =>
    intro stack rpn
    rfl
  | cons t ts ih =>
    intro stack rpn
    simp only [List.map_cons, shuntLoop]
    rw [shuntStep_shape]
    cases hstep : shuntStep t stack rpn with
    | error m => rfl
    | ok p =>
      obtain ⟨s1, r1⟩ := p
      simp only
      exact ih s1 r1

theorem shuntDrain_shape {D : Type} (stack : List (Token D)) :
    ∀ rpn : List (Token D),
      shuntDrain (stack.map Token.shape) (rpn.map Token.shape) =
        match shuntDrain stack rpn with
        | Except.error m => Except.error m
        | Except.ok out => Except.ok (out.map Token.shape) := by
  induction stack with
  | nil =>
    intro rpn
    rfl
  | cons top rest ih =>
    intro rpn
    simp only [List.map_cons, shuntDrain]
    have hts : top.shape.type = top.type := rfl
    rw [hts]
    by_cases h : top.type = TokType.LParen ∨ top.type = TokType.RParen
    · simp only [if_pos h]
    · simp only [if_neg h]
      have := ih (rpn ++ [top])
      rw [List.map_append] at this
      exact this

theorem shuntingYard_shape {D : Type} (ts : List (Token D)) :
    shuntingYardToRPN (ts.map Token.shape) =
      match shuntingYardToRPN ts with
      | Except.error m => Except.error m
      | Except.ok out => Except.ok (out.map Token.shape) := by
  unfold shuntingYardToRPN
  have h := shuntLoop_shape ts [] []
  simp only [List.map_nil] at h
  rw [h]
  cases shuntLoop ts [] [] with
  | error m => rfl
  | ok p =>
    obtain ⟨s1, r1⟩ := p
    simp only
    exact shuntDrain_shape s1 r1

theorem bindFunctions_shape {D : Type} (ts : List (Token D)) :
    bindFunctions (ts.map Token.shape) =
      match bindFunctions ts with
      | Except.error m => Except.error m
      | Except.ok out => Except.ok (out.map Token.shape) := by
  induction ts with
  | nil => rfl
  | cons t ts ih =>
    simp only [List.map_cons, bindFunctions]
    have hty : t.shape.type = t.type := rfl
    have hfn : t.shape.funcName = t.funcName := rfl
    rw [hty, hfn, ih]
    by_cases h : t.type ≠ TokType.Func
    · simp only [if_pos h]
      cases bindFunctions ts <;> rfl
    · simp only [if_neg h]
      cases findFn t.funcName with
      | none => rfl
      | some d => cases bindFunctions ts <;> rfl

theorem depthRun_shape {D : Type} (ts : List (Token D)) :
    ∀ d : Nat, depthRun (ts.map Token.shape) d = depthRun ts d := by
  induction ts with
  | nil =>
    intro d
    rfl
  | cons t ts ih =>
    intro d
    simp only [List.map_cons, depthRun]
    have hty : t.shape.type = t.type := rfl
    have har : t.shape.funcArity = t.funcArity := rfl
    rw [hty, har, ih, ih, ih]

/-- Two token sequences of the same shape are parsed alike. -/
theorem shuntingYard_of_shape {D E : Type} (ts : List (Token D)) (ts1 : List (Token E))
    (out : List (Token D)) (hs : ts1.map Token.shape = ts.map Token.shape)
    (h : shuntingYardToRPN ts = Except.ok out) :
    ∃ out1, shuntingYardToRPN ts1 = Except.ok out1 ∧
      out1.map Token.shape = out.map Token.shape := by
  have h1 := shuntingYard_shape ts1
  have h2 := shuntingYard_shape ts
  rw [hs, h2, h] at h1
  cases hr : shuntingYardToRPN ts1 with
  | error m =>
    rw [hr] at h1
    cases h1
  | ok out1 =>
    rw [hr] at h1
    simp only [Except.ok.injEq] at h1
    exact ⟨out1, rfl, h1.symm⟩

theorem bindFunctions_of_shape {D E : Type} (ts : List (Token D)) (ts1 : List (Token E))
    (out : List (Token D)) (hs : ts1.map Token.shape = ts.map Token.shape)
    (h : bindFunctions ts = Except.ok out) :
    ∃ out1, bindFunctions ts1 = Except.ok out1 ∧
      out1.map Token.shape = out.map Token.shape := by
  have h1 := bindFunctions_shape ts1
  have h2 := bindFunctions_shape ts
  rw [hs, h2, h] at h1
  cases hr : bindFunctions ts1 with
  | error m =>
    rw [hr] at h1
    cases h1
  | ok out1 =>
    rw [hr] at h1
    simp only [Except.ok.injEq] at h1
    exact ⟨out1, rfl, h1.symm⟩

/-! ## The tokenizer in two arithmetics -/

theorem map_shape_snoc {D E : Type} (out : List (Token D)) (out1 : List (Token E))
    (t : Token D) (t1 : Token E) (h : out1.map Token.shape = out.map Token.shape)
    (ht : t1.shape = t.shape) :
    (out1 ++ [t1]).map Token.shape = (out ++ [t]).map Token.shape := by
  rw [List.map_append, List.map_append, h]
  simp [ht]

theorem makeOp_shape {D E : Type} (ops : DoubleOps D) (ops1 : DoubleOps E) (c : Char) :
    (makeOp ops1 c).shape = (makeOp ops c).shape := by
  unfold makeOp
  split_ifs <;> rfl

theorem lexIdent_sim {D E : Type} (ops : DoubleOps D) (ops1 : DoubleOps E) (dim : Int)
    (id : List Char) (j : Nat) (out : List (Token D)) (out1 : List (Token E)) (i2 : Nat)
    (ev2 : Bool) (out2 : List (Token D))
    (h : lexIdent ops dim id j out = LexStep.next i2 ev2 out2)
    (hs : out1.map Token.shape = out.map Token.shape) :
    ∃ out3, lexIdent ops1 dim id j out1 = LexStep.next i2 ev2 out3 ∧
      out3.map Token.shape = out2.map Token.shape := by
  unfold lexIdent at h ⊢
  by_cases h1 : id = ['p', 'i'] ∨ id = ['P', 'I']
  · rw [if_pos h1] at h ⊢
    cases h
    exact ⟨_, rfl, map_shape_snoc out out1 _ _ hs rfl⟩
  · rw [if_neg h1] at h ⊢
    by_cases h2 : id = ['e']
    · rw [if_pos h2] at h ⊢
      cases h
      exact ⟨_, rfl, map_shape_snoc out out1 _ _ hs rfl⟩
    · rw [if_neg h2] at h ⊢
      generalize (if 2 ≤ id.length ∧ (id.head? = some 'x' ∨ id.head? = some 'X')
        then parseIndex id.tail 0 else none) = r at h ⊢
      cases r with
      | none =>
        cases h
        exact ⟨_, rfl, map_shape_snoc out out1 _ _ hs rfl⟩
      | some idx =>
        simp only at h ⊢
        by_cases h3 : idx < 0 ∨ idx ≥ dim
        · rw [if_pos h3] at h
          cases h
        · rw [if_neg h3] at h ⊢
          cases h
          exact ⟨_, rfl, map_shape_snoc out out1 _ _ hs rfl⟩

/-- An iteration of the main loop that goes on in one arithmetic goes on alike
in another that accepts the number text at the position. -/
theorem tokenizeIter_sim {D E : Type} (ops : DoubleOps D) (ops1 : DoubleOps E)
    (s : List Char) (dim : Int) (i : Nat) (ev : Bool) (out : List (Token D))
    (out1 : List (Token E)) (i2 : Nat) (ev2 : Bool) (out2 : List (Token D))
    (h : tokenizeIter ops s dim i ev out = LexStep.next i2 ev2 out2)
    (hs : out1.map Token.shape = out.map Token.shape)
    (hacc : ∀ c rest, s.drop i = c :: rest → isDigit c = true →
      (ops1.stod ((c :: rest).take (scanNumber (c :: rest) false))).isSome = true) :
    ∃ out3, tokenizeIter ops1 s dim i ev out1 = LexStep.next i2 ev2 out3 ∧
      out3.map Token.shape = out2.map Token.shape := by
  unfold tokenizeIter at h ⊢
  cases hdrop : s.drop i with
  | nil =>
    rw [hdrop] at h
    simp only at h ⊢
    cases h
    exact ⟨out1, rfl, hs⟩
  | cons c rest =>
    rw [hdrop] at h
    simp only at h ⊢
    by_cases h1 : isSpace c = true
    · rw [if_pos h1] at h ⊢
      cases h
      exact ⟨out1, rfl, hs⟩
    rw [if_neg h1] at h ⊢
    by_cases h2 : c = '('
    · rw [if_pos h2] at h ⊢
      cases h
      exact ⟨_, rfl, map_shape_snoc out out1 _ _ hs rfl⟩
    rw [if_neg h2] at h ⊢
    by_cases h3 : c = ')'
    · rw [if_pos h3] at h ⊢
      cases h
      exact ⟨_, rfl, map_shape_snoc out out1 _ _ hs rfl⟩
    rw [if_neg h3] at h ⊢
    by_cases h4 : c = ','
    · rw [if_pos h4] at h ⊢
      cases h
      exact ⟨_, rfl, map_shape_snoc out out1 _ _ hs rfl⟩
    rw [if_neg h4] at h ⊢
    by_cases h5 : isDigit c = true ∨ c = '.'
    · rw [if_pos h5] at h ⊢
      simp only [Nat.add_sub_cancel_left] at h ⊢
      by_cases hd : isDigit c = true
      · have hdot : decide (c = '.') = false := by
          simp [(digit_branch c hd).2.2.2.2]
        rw [hdot] at h ⊢
        have hsome := hacc c rest hdrop hd
        cases hv : ops.stod ((c :: rest).take (scanNumber (c :: rest) false)) with
        | none =>
          rw [hv] at h
          cases h
        | some v =>
          rw [hv] at h
          cases h
          obtain ⟨v1, hv1⟩ := Option.isSome_iff_exists.mp hsome
          rw [hv1]
          exact ⟨_, rfl, map_shape_snoc out out1 _ _ hs rfl⟩
      · have hc : c = '.' := by
          rcases h5 with h5 | h5
          · exact absurd h5 hd
          · exact h5
        subst hc
        have hscan : scanNumber ('.' :: rest) (decide ('.' = '.')) = 0 := by
          simp [scanNumber, isDigit]
        rw [hscan] at h
        simp only [List.take_zero, ops.stod_nil] at h
        cases h
    rw [if_neg h5] at h ⊢
    by_cases h6 : c = '+' ∨ c = '-' ∨ c = '*' ∨ c = '/' ∨ c = '^'
    · rw [if_pos h6] at h ⊢
      by_cases h7 : c = '-' ∧ ev = true
      · rw [if_pos h7] at h ⊢
        cases h
        refine ⟨_, rfl, ?_⟩
        have e1 : out1 ++ [Token.mkNumber ops1 ops1.zero, makeOp ops1 '-'] =
            (out1 ++ [Token.mkNumber ops1 ops1.zero]) ++ [makeOp ops1 '-'] := by simp
        have e2 : out ++ [Token.mkNumber ops ops.zero, makeOp ops '-'] =
            (out ++ [Token.mkNumber ops ops.zero]) ++ [makeOp ops '-'] := by simp
        rw [e1, e2]
        exact map_shape_snoc _ _ _ _ (map_shape_snoc out out1 _ _ hs rfl)
          (makeOp_shape ops ops1 '-')
      · rw [if_neg h7] at h ⊢
        cases h
        exact ⟨_, rfl, map_shape_snoc out out1 _ _ hs (makeOp_shape ops ops1 c)⟩
    rw [if_neg h6] at h ⊢
    by_cases h8 : isAlpha c = true ∨ c = '_'
    · rw [if_pos h8] at h ⊢
      exact lexIdent_sim ops ops1 dim _ _ out out1 i2 ev2 out2 h hs
    · rw [if_neg h8] at h
      cases h

theorem numeralsAccepted_at {D : Type} (ops : DoubleOps D) (s : List Char)
    (h : numeralsAccepted ops s = true) (i : Nat) (c : Char) (rest : List Char)
    (hdrop : s.drop i = c :: rest) (hd : isDigit c = true) :
    (ops.stod ((c :: rest).take (scanNumber (c :: rest) false))).isSome = true := by
  have hi : i < s.length := lt_length_of_drop s i c rest hdrop
  simp only [numeralsAccepted, List.all_eq_true, List.mem_range] at h
  have := h i hi
  rw [hdrop] at this
  simpa [hd] using this

theorem tokenizeLoop_sim {D E : Type} (ops : DoubleOps D) (ops1 : DoubleOps E)
    (s : List Char) (dim : Int) (hacc : numeralsAccepted ops1 s = true)
    (ts : List (Token D)) (fuel : Nat) :
    ∀ (i : Nat) (ev : Bool) (out : List (Token D)) (out1 : List (Token E)),
      tokenizeLoop ops s dim fuel i ev out = some (Except.ok ts) →
      out1.map Token.shape = out.map Token.shape →
      ∃ ts1, tokenizeLoop ops1 s dim fuel i ev out1 = some (Except.ok ts1) ∧
        ts1.map Token.shape = ts.map Token.shape := by
  induction fuel with
  | zero =>
    intro i ev out out1 h hs
    by_cases hi : i < s.length
    · simp [tokenizeLoop, hi] at h
    · simp only [tokenizeLoop, if_neg hi, Option.some.injEq, Except.ok.injEq] at h ⊢
      subst h
      exact ⟨out1, rfl, hs⟩
  | succ n ih =>
    intro i ev out out1 h hs
    by_cases hi : i < s.length
    · simp only [tokenizeLoop, if_pos hi] at h ⊢
      cases hstep : tokenizeIter ops s dim i ev out with
      | fail m => simp [hstep] at h
      | next i2 ev2 out2 =>
        simp only [hstep] at h
        obtain ⟨out3, hstep1, hs3⟩ := tokenizeIter_sim ops ops1 s dim i ev out out1 i2 ev2 out2
          hstep hs (fun c rest hdrop hd => numeralsAccepted_at ops1 s hacc i c rest hdrop hd)
        rw [hstep1]
        exact ih i2 ev2 out2 out3 h hs3
    · simp only [tokenizeLoop, if_neg hi, Option.some.injEq, Except.ok.injEq] at h ⊢
      subst h
      exact ⟨out1, rfl, hs⟩

/-- A text that one arithmetic tokenizes is tokenized, to tokens of the same
shape, by every arithmetic whose `std::stod` accepts its number texts. -/
theorem tokenize_sim {D E : Type} (ops : DoubleOps D) (ops1 : DoubleOps E)
    (s : List Char) (dim : Int) (hacc : numeralsAccepted ops1 s = true)
    (ts : List (Token D)) (h : tokenize ops s dim = Except.ok ts) :
    ∃ ts1, tokenize ops1 s dim = Except.ok ts1 ∧
      ts1.map Token.shape = ts.map Token.shape := by
  have h1 := tokenize_spec ops s dim
  rw [h] at h1
  obtain ⟨ts1, h2, hs⟩ := tokenizeLoop_sim ops ops1 s dim hacc ts s.length 0 true [] [] h1 rfl
  have h3 := tokenize_spec ops1 s dim
  rw [h2] at h3
  simp only [Option.some.injEq] at h3
  exact ⟨ts1, h3.symm, hs⟩

/-- A text that compiles in one arithmetic compiles, to a program of the same
shape, in every arithmetic whose `std::stod` accepts its number texts. -/
theorem setExpression_sim {D E : Type} (ops : DoubleOps D) (ops1 : DoubleOps E)
    (self : ObjectiveFunction D) (self1 : ObjectiveFunction E) (expr : String) (dim : Int)
    (hacc : numeralsAccepted ops1 expr.data = true)
    (h : (setExpression ops self expr dim).2 = Except.ok ()) :
    (setExpression ops1 self1 expr dim).2 = Except.ok () ∧
      (setExpression ops1 self1 expr dim).1.rpn_.map Token.shape =
        (setExpression ops self expr dim).1.rpn_.map Token.shape := by
  obtain ⟨toks, rpn, rpn1, hdim, htok, hparse, hbind, hset⟩ :=
    setExpression_ok_inv ops self expr dim h
  obtain ⟨toks1, htok1, hs1⟩ := tokenize_sim ops ops1 expr.data dim hacc toks htok
  obtain ⟨rpn2, hparse1, hs2⟩ := shuntingYard_of_shape toks toks1 rpn hs1 hparse
  obtain ⟨rpn3, hbind1, hs3⟩ := bindFunctions_of_shape rpn rpn2 rpn1 hs2 hbind
  have hnot : ¬ dim ≤ 0 := by omega
  have hset1 : setExpression ops1 self1 expr dim = (⟨dim, expr, rpn3⟩, Except.ok ()) := by
    simp only [setExpression, if_neg hnot, htok1, hparse1, hbind1]
  rw [hset1, hset]
  exact ⟨rfl, hs3⟩

/-! ## Builds: the tokenizer where the source leaves the index undefined -/

theorem lexIdentB_of_fits {D : Type} (b : Build) (ops : DoubleOps D) (dim : Int)
    (id : List Char) (j : Nat) (out : List (Token D)) (h : identFits id = true) :
    lexIdentB b ops dim id j out = lexIdent ops dim id j out := by
  simp only [lexIdentB, if_pos h]

theorem lexIdentB_next {D : Type} (b : Build) (ops : DoubleOps D) (dim : Int) (id : List Char)
    (j : Nat) (out : List (Token D)) (i1 : Nat) (ev1 : Bool) (out1 : List (Token D))
    (h : lexIdentB b ops dim id j out = LexStep.next i1 ev1 out1) : i1 = j := by
  unfold lexIdentB at h
  by_cases hf : identFits id = true
  · rw [if_pos hf] at h
    exact lexIdent_next ops dim id j out i1 ev1 out1 h
  · rw [if_neg hf] at h
    cases ho : b.onOverflow dim id with
    | reject =>
      rw [ho] at h
      cases h
    | asVariable idx =>
      rw [ho] at h
      cases h
      rfl
    | asFunction =>
      rw [ho] at h
      cases h
      rfl

/-- At a position where no identifier overflows, an iteration of the build is
the iteration of the source. -/
theorem tokenizeIterB_of_fits {D : Type} (b : Build) (ops : DoubleOps D) (s : List Char)
    (dim : Int) (i : Nat) (ev : Bool) (out : List (Token D))
    (h : ∀ c rest, s.drop i = c :: rest → (isAlpha c = true ∨ c = '_') →
      identFits ((c :: rest).take (scanIdent (c :: rest))) = true) :
    tokenizeIterB b ops s dim i ev out = tokenizeIter ops s dim i ev out := by
  unfold tokenizeIterB tokenizeIter
  cases hdrop : s.drop i with
  | nil => rfl
  | cons c rest =>
    simp only
    by_cases h8 : isAlpha c = true ∨ c = '_'
    · have hfit := h c rest hdrop h8
      simp only [Nat.add_sub_cancel_left, lexIdentB_of_fits b ops dim _ _ out hfit]
    · simp only [if_neg h8]

theorem textFits_at (s : List Char) (h : textFits s = true) (i : Nat) (c : Char)
    (rest : List Char) (hdrop : s.drop i = c :: rest) (hc : isAlpha c = true ∨ c = '_') :
    identFits ((c :: rest).take (scanIdent (c :: rest))) = true := by
  have hi : i < s.length := lt_length_of_drop s i c rest hdrop
  simp only [textFits, List.all_eq_true, List.mem_range] at h
  have := h i hi
  rw [hdrop] at this
  rcases hc with hc | hc
  · simpa [hc] using this
  · simpa [hc] using this

theorem tokenizeLoopB_of_fits {D : Type} (b : Build) (ops : DoubleOps D) (s : List Char)
    (dim : Int) (h : textFits s = true) (fuel : Nat) :
    ∀ (i : Nat) (ev : Bool) (out : List (Token D)),
      tokenizeLoopB b ops s dim fuel i ev out = tokenizeLoop ops s dim fuel i ev out := by
  induction fuel with
  | zero =>
    intro i ev out
    rfl
  | succ n ih =>
    intro i ev out
    simp only [tokenizeLoopB, tokenizeLoop]
    rw [tokenizeIterB_of_fits b ops s dim i ev out (textFits_at s h i)]
    by_cases hi : i < s.length
    · simp only [if_pos hi]
      cases tokenizeIter ops s dim i ev out with
      | fail m => rfl
      | next i1 ev1 out1 => exact ih i1 ev1 out1
    · simp only [if_neg hi]

/-- On a text on which the source is defined, every build tokenizes as the
source says. -/
theorem tokenizeB_of_fits {D : Type} (b : Build) (ops : DoubleOps D) (s : List Char)
    (dim : Int) (h : textFits s = true) : tokenizeB b ops s dim = tokenize ops s dim := by
  simp only [tokenizeB, tokenize, tokenizeLoopB_of_fits b ops s dim h]

/-- On a text on which the source is defined, every build compiles as the
source says. -/
theorem setExpressionB_of_fits {D : Type} (b : Build) (ops : DoubleOps D)
    (self : ObjectiveFunction D) (expr : String) (dim : Int) (h : textFits expr.data = true) :
    setExpressionB b ops self expr dim = setExpression ops self expr dim := by
  simp only [setExpressionB, setExpression, tokenizeB_of_fits b ops expr.data dim h]

/-- The build without optimisation is the tokenizer `lexIdent` of the
embedding. -/
theorem lexIdentB_plain {D : Type} (ops : DoubleOps D) (dim : Int) (id : List Char) (j : Nat)
    (out : List (Token D)) : lexIdentB Build.plain ops dim id j out = lexIdent ops dim id j out := by
  unfold lexIdentB
  by_cases hf : identFits id = true
  · rw [if_pos hf]
  · rw [if_neg hf]
    have hx : 2 ≤ id.length ∧ (id.head? = some 'x' ∨ id.head? = some 'X') := by
      by_contra hc
      simp [identFits, hc] at hf
    have h1 : ¬ (id = ['p', 'i'] ∨ id = ['P', 'I']) := by
      rintro (h | h) <;> subst h <;> simp at hx
    have h2 : ¬ id = ['e'] := by
      intro h
      subst h
      simp at hx
    unfold lexIdent
    rw [if_neg h1, if_neg h2, if_pos hx]
    simp only [Build.plain]
    cases parseIndex id.tail 0 with
    | none => rfl
    | some idx =>
      simp only
      by_cases h3 : idx < 0 ∨ idx ≥ dim
      · rw [if_pos h3, if_pos h3]
      · rw [if_neg h3, if_neg h3]

theorem tokenizeIterB_plain {D : Type} (ops : DoubleOps D) (s : List Char) (dim : Int)
    (i : Nat) (ev : Bool) (out : List (Token D)) :
    tokenizeIterB Build.plain ops s dim i ev out = tokenizeIter ops s dim i ev out := by
  unfold tokenizeIterB tokenizeIter
  cases hdrop : s.drop i with
  | nil => rfl
  | cons c rest =>
    simp only [lexIdentB_plain]

theorem tokenizeLoopB_plain {D : Type} (ops : DoubleOps D) (s : List Char) (dim : Int)
    (fuel : Nat) :
    ∀ (i : Nat) (ev : Bool) (out : List (Token D)),
      tokenizeLoopB Build.plain ops s dim fuel i ev out = tokenizeLoop ops s dim fuel i ev out := by
  induction fuel with
  | zero =>
    intro i ev out
    rfl
  | succ n ih =>
    intro i ev out
    simp only [tokenizeLoopB, tokenizeLoop, tokenizeIterB_plain]
    by_cases hi : i < s.length
    · simp only [if_pos hi]
      cases tokenizeIter ops s dim i ev out with
      | fail m => rfl
      | next i1 ev1 out1 => exact ih i1 ev1 out1
    · simp only [if_neg hi]

/-- The embedding `tokenize` is the tokenizer of the build without
optimisation. -/
theorem tokenizeB_plain {D : Type} (ops : DoubleOps D) (s : List Char) (dim : Int) :
    tokenizeB Build.plain ops s dim = tokenize ops s dim := by
  simp only [tokenizeB, tokenize, tokenizeLoopB_plain]

/-- Every iteration of the main loop of a build that does not return moves the
scan position forward. -/
theorem tokenizeIterB_progress {D : Type} (b : Build) (ops : DoubleOps D) (s : List Char)
    (dim : Int) (i : Nat) (ev : Bool) (out : List (Token D)) (i1 : Nat) (ev1 : Bool)
    (out1 : List (Token D)) (hi : i < s.length)
    (h : tokenizeIterB b ops s dim i ev out = LexStep.next i1 ev1 out1) : i < i1 := by
  by_cases hfit : ∀ c rest, s.drop i = c :: rest → (isAlpha c = true ∨ c = '_') →
      identFits ((c :: rest).take (scanIdent (c :: rest))) = true
  · rw [tokenizeIterB_of_fits b ops s dim i ev out hfit] at h
    exact tokenizeIter_progress ops s dim i ev out i1 ev1 out1 hi h
  · push_neg at hfit
    obtain ⟨c, rest, hdrop, hc, _⟩ := hfit
    have h1 : isSpace c = false ∧ c ≠ '(' ∧ c ≠ ')' ∧ c ≠ ',' ∧ isDigit c = false ∧ c ≠ '.' ∧
        ¬ (c = '+' ∨ c = '-' ∨ c = '*' ∨ c = '/' ∨ c = '^') := by
      rcases hc with hc | hc
      · simp only [isAlpha, Bool.or_eq_true, Bool.and_eq_true, decide_eq_true_eq] at hc
        refine ⟨?_, ?_, ?_, ?_, ?_, ?_, ?_⟩
        · simp only [isSpace, Bool.or_eq_false_iff, decide_eq_false_iff_not,
            Bool.and_eq_false_iff]
          omega
        · rintro rfl
          simp at hc
        · rintro rfl
          simp at hc
        · rintro rfl
          simp at hc
        · simp only [isDigit, Bool.and_eq_false_iff, decide_eq_false_iff_not]
          omega
        · rintro rfl
          simp at hc
        · rintro (h | h | h | h | h) <;> subst h <;> simp at hc
      · subst hc
        decide
    obtain ⟨s1, s2, s3, s4, s5, s6, s7⟩ := h1
    unfold tokenizeIterB at h
    rw [hdrop] at h
    simp only [s1, s2, s3, s4, s5, s6, s7, hc, if_false, if_true, or_self, Bool.false_eq_true,
      Nat.add_sub_cancel_left] at h
    have hj := lexIdentB_next b ops dim _ _ out i1 ev1 out1 h
    have hpos := scanIdent_pos c rest hc
    omega

theorem tokenizeLoopB_total {D : Type} (b : Build) (ops : DoubleOps D) (s : List Char)
    (dim : Int) (fuel : Nat) :
    ∀ (i : Nat) (ev : Bool) (out : List (Token D)), s.length - i ≤ fuel →
      ∃ r, tokenizeLoopB b ops s dim fuel i ev out = some r := by
  induction fuel with
  | zero =>
    intro i ev out hfuel
    have hi : ¬ i < s.length := by omega
    exact ⟨Except.ok out, by simp [tokenizeLoopB, hi]⟩
  | succ n ih =>
    intro i ev out hfuel
    by_cases hi : i < s.length
    · simp only [tokenizeLoopB, if_pos hi]
      cases hstep : tokenizeIterB b ops s dim i ev out with
      | fail m => exact ⟨Except.error m, rfl⟩
      | next i1 ev1 out1 =>
        have hlt := tokenizeIterB_progress b ops s dim i ev out i1 ev1 out1 hi hstep
        exact ih i1 ev1 out1 (by omega)
    · exact ⟨Except.ok out, by simp [tokenizeLoopB, hi]⟩

/-- In every build the main loop ends within `s.size()` iterations. -/
theorem tokenizeB_spec {D : Type} (b : Build) (ops : DoubleOps D) (s : List Char) (dim : Int) :
    tokenizeLoopB b ops s dim s.length 0 true [] = some (tokenizeB b ops s dim) := by
  obtain ⟨r, hr⟩ := tokenizeLoopB_total b ops s dim s.length 0 true [] (by omega)
  simp only [tokenizeB, hr]

/-! ## The counted loops are the embedded loops -/

theorem popToLParenKeepCounted_eq {D : Type} (stack : List (Token D)) :
    ∀ rpn : List (Token D),
      popToLParenKeepCounted stack rpn = (popToLParenKeep stack rpn, popToLParenKeepIters stack) := by
  induction stack with
  | nil =>
    intro rpn
    rfl
  | cons top rest ih =>
    intro rpn
    unfold popToLParenKeepCounted popToLParenKeep popToLParenKeepIters
    by_cases h : top.type = TokType.LParen
    · simp only [if_pos h]
    · simp only [if_neg h, ih]

theorem popOperatorsCounted_eq {D : Type} (t : Token D) (stack : List (Token D)) :
    ∀ rpn : List (Token D),
      popOperatorsCounted t stack rpn = (popOperators t stack rpn, popOperatorsIters t stack) := by
  induction stack with
  | nil =>
    intro rpn
    rfl
  | cons top rest ih =>
    intro rpn
    unfold popOperatorsCounted popOperators popOperatorsIters
    by_cases h : top.type ≠ TokType.Op
    · simp only [if_pos h]
    · simp only [if_neg h]
      by_cases h2 : ((!t.rightAssoc && decide (t.precedence ≤ top.precedence)) ||
          (t.rightAssoc && decide (t.precedence < top.precedence))) = true
      · simp only [if_pos h2, ih]
      · simp only [if_neg h2]

theorem popToLParenDropCounted_eq {D : Type} (stack : List (Token D)) :
    ∀ rpn : List (Token D),
      popToLParenDropCounted stack rpn = (popToLParenDrop stack rpn, popToLParenDropIters stack) := by
  induction stack with
  | nil =>
    intro rpn
    rfl
  | cons top rest ih =>
    intro rpn
    unfold popToLParenDropCounted popToLParenDrop popToLParenDropIters
    by_cases h : top.type = TokType.LParen
    · simp only [if_pos h]
    · simp only [if_neg h, ih]

theorem shuntStepCounted_eq {D : Type} (t : Token D) (stack rpn : List (Token D)) :
    shuntStepCounted t stack rpn = (shuntStep t stack rpn, shuntStepIters t stack) := by
  unfold shuntStepCounted shuntStep shuntStepIters
  by_cases h1 : t.type = TokType.Number ∨ t.type = TokType.Var
  · simp only [if_pos h1]
  simp only [if_neg h1]
  by_cases h2 : t.type = TokType.Func
  · simp only [if_pos h2]
  simp only [if_neg h2]
  by_cases h3 : t.type = TokType.Comma
  · simp only [if_pos h3, popToLParenKeepCounted_eq]
    generalize popToLParenKeep stack rpn = r
    obtain ⟨b, s1, r1⟩ := r
    cases b <;> rfl
  simp only [if_neg h3]
  by_cases h4 : t.type = TokType.Op
  · simp only [if_pos h4, popOperatorsCounted_eq]
  simp only [if_neg h4]
  by_cases h5 : t.type = TokType.LParen
  · simp only [if_pos h5]
  simp only [if_neg h5]
  by_cases h6 : t.type = TokType.RParen
  · simp only [if_pos h6, popToLParenDropCounted_eq]
    generalize popToLParenDrop stack rpn = r
    obtain ⟨b, s1, r1⟩ := r
    cases b with
    | false => rfl
    | true =>
      cases s1 with
      | nil => rfl
      | cons top rest =>
        simp only
        by_cases h7 : top.type = TokType.Func
        · simp only [if_pos h7]
        · simp only [if_neg h7]
  · simp only [if_neg h6]

theorem shuntLoopCounted_eq {D : Type} (ts : List (Token D)) :
    ∀ stack rpn : List (Token D),
      shuntLoopCounted ts stack rpn = (shuntLoop ts stack rpn, shuntLoopIters ts stack rpn) := by
  induction ts with
  | nil =>
    intro stack rpn
    rfl
  | cons t ts ih =>
    intro stack rpn
    simp only [shuntLoopCounted, shuntLoop, shuntLoopIters, shuntStepCounted_eq]
    cases shuntStep t stack rpn with
    | error m =>
      simp only [Prod.mk.injEq, true_and]
      omega
    | ok p =>
      obtain ⟨s1, r1⟩ := p
      simp only [ih, Prod.mk.injEq, true_and]
      omega

theorem shuntDrainCounted_eq {D : Type} (stack : List (Token D)) :
    ∀ rpn : List (Token D),
      shuntDrainCounted stack rpn = (shuntDrain stack rpn, shuntDrainIters stack) := by
  induction stack with
  | nil =>
    intro rpn
    rfl
  | cons top rest ih =>
    intro rpn
    unfold shuntDrainCounted shuntDrain shuntDrainIters
    by_cases h : top.type = TokType.LParen ∨ top.type = TokType.RParen
    · simp only [if_pos h]
    · simp only [if_neg h, ih]

/-- The counted parser returns the result of `shuntingYardToRPN` and the number
of loop iterations. -/
theorem shuntingYardCounted_eq {D : Type} (ts : List (Token D)) :
    shuntingYardCounted ts = (shuntingYardToRPN ts, shuntingYardIters ts) := by
  simp only [shuntingYardCounted, shuntingYardToRPN, shuntingYardIters, shuntLoopCounted_eq]
  cases shuntLoop ts [] [] with
  | error m => rfl
  | ok p =>
    obtain ⟨s1, r1⟩ := p
    simp only [shuntDrainCounted_eq]

theorem bindFunctionsCounted_eq {D : Type} (ts : List (Token D)) :
    bindFunctionsCounted ts = (bindFunctions ts, bindFunctionsIters ts) := by
  induction ts with
  | nil => rfl
  | cons t ts ih =>
    unfold bindFunctionsCounted bindFunctions bindFunctionsIters
    by_cases h : t.type ≠ TokType.Func
    · simp only [if_pos h, ih]
      cases bindFunctions ts with
      | error m =>
        simp only [Prod.mk.injEq, true_and]
        omega
      | ok ts1 =>
        simp only [Prod.mk.injEq, true_and]
        omega
    · simp only [if_neg h]
      cases findFn t.funcName with
      | none => rfl
      | some d =>
        simp only [ih]
        cases bindFunctions ts with
        | error m =>
          simp only [Prod.mk.injEq, true_and]
          omega
        | ok ts1 =>
          simp only [Prod.mk.injEq, true_and]
          omega

theorem evalLoopCounted_eq {D : Type} (ops : DoubleOps D) (x : List D) (prog : List (Token D)) :
    ∀ st : List D,
      evalLoopCounted ops x prog st = (evalLoop ops x prog st, evalLoopIters ops x prog st) := by
  induction prog with
  | nil =>
    intro st
    rfl
  | cons t ts ih =>
    intro st
    simp only [evalLoopCounted, evalLoop, evalLoopIters]
    cases evalStep ops x t st with
    | error e => rfl
    | ok st1 =>
      simp only [ih, Prod.mk.injEq, true_and]
      omega

/-! ## Termination and the number of loop iterations -/

set_option maxRecDepth 10000 in
/-- C26 (as the specification states it, refuted): the evaluator does not
perform one step per program token when it returns early.  The text `*+1`
compiles at dimension 1 to the program `* 1 +` of three tokens, and on the
vector `[0]` the evaluator returns at the first token with a stack underflow,
after one step.  And the loops of the parser run more often than there are
tokens: on the seven tokens of `2*(1+x0)` they run eleven iterations. -/
theorem evaluator_returns_early :
    (setExpression exactOps (new ERat) "*+1" 1).2 = Except.ok () ∧
      (setExpression exactOps (new ERat) "*+1" 1).1.rpn_ =
        [makeOp exactOps '*', Token.mkNumber exactOps (ERat.fin 1), makeOp exactOps '+'] ∧
      evalLoopCounted exactOps [ERat.fin 0]
          (setExpression exactOps (new ERat) "*+1" 1).1.rpn_ [] =
        (Except.error EvalExit.underflow, 1) ∧
      (setExpression exactOps (new ERat) "*+1" 1).1.rpn_.length = 3 ∧
      tokenize exactOps "2*(1+x0)".data 1 = Except.ok
        [Token.mkNumber exactOps (ERat.fin 2), makeOp exactOps '*',
          Token.ofType exactOps TokType.LParen, Token.mkNumber exactOps (ERat.fin 1),
          makeOp exactOps '+', Token.mkVar exactOps 0,
          Token.ofType exactOps TokType.RParen] ∧
      (shuntingYardCounted
        [Token.mkNumber exactOps (ERat.fin 2), makeOp exactOps '*',
          Token.ofType exactOps TokType.LParen, Token.mkNumber exactOps (ERat.fin 1),
          makeOp exactOps '+', Token.mkVar exactOps 0,
          Token.ofType exactOps TokType.RParen]).2 = 11 := by
  refine ⟨by decide!, by decide!, by decide!, by decide!, by decide!, by decide!⟩

/-- C26 (amended): compiling terminates.  Every iteration of the main loop of
`tokenize` at a position inside the text either returns with a message or goes
on at a strictly larger position, so the loop ends within `s.size()` iterations
with the result of `tokenize`.  On `n` tokens all loops of `shuntingYardToRPN`
together (the `for` loop, its inner `while` loops and the final `while` loop)
run at most `3 * n` iterations, and the loop of `bindFunctions` at most `n`,
exactly `n` when it succeeds.  The loop of the evaluator runs at most once per
program token, and exactly once per token when it reaches the end of the
program (it returns earlier at a sentinel exit).  The counted functions return
the results of the embedded ones. -/
theorem compile_terminates {D : Type} (ops : DoubleOps D) (s : List Char) (dim : Int)
    (ts prog : List (Token D)) (x st : List D) :
    (∀ (i : Nat) (ev : Bool) (out : List (Token D)), i < s.length →
        (∃ m, tokenizeIter ops s dim i ev out = LexStep.fail m) ∨
          ∃ i1 ev1 out1, tokenizeIter ops s dim i ev out = LexStep.next i1 ev1 out1 ∧
            i < i1) ∧
      tokenizeLoop ops s dim s.length 0 true [] = some (tokenize ops s dim) ∧
      (shuntingYardCounted ts).1 = shuntingYardToRPN ts ∧
      (shuntingYardCounted ts).2 ≤ 3 * ts.length ∧
      (bindFunctionsCounted ts).1 = bindFunctions ts ∧
      (bindFunctionsCounted ts).2 ≤ ts.length ∧
      (∀ out, bindFunctions ts = Except.ok out → (bindFunctionsCounted ts).2 = ts.length) ∧
      (evalLoopCounted ops x prog st).1 = evalLoop ops x prog st ∧
      (evalLoopCounted ops x prog st).2 ≤ prog.length ∧
      (∀ st1, evalLoop ops x prog st = Except.ok st1 →
        (evalLoopCounted ops x prog st).2 = prog.length) := by
  rw [shuntingYardCounted_eq, bindFunctionsCounted_eq, evalLoopCounted_eq]
  refine ⟨?_, tokenize_spec ops s dim, rfl, shuntingYard_iters ts, rfl,
    (bindFunctions_iters ts).1, (bindFunctions_iters ts).2, rfl,
    (evalLoop_iters ops x prog st).1, (evalLoop_iters ops x prog st).2⟩
  intro i ev out hi
  cases hstep : tokenizeIter ops s dim i ev out with
  | fail m => exact Or.inl ⟨m, rfl⟩
  | next i1 ev1 out1 =>
    exact Or.inr ⟨i1, ev1, out1, rfl,
      tokenizeIter_progress ops s dim i ev out i1 ev1 out1 hi hstep⟩

/-- The text `2*(1+x0)` at dimension 1: seven tokens, on which the loops of the
parser run eleven iterations, at most `3 * 7`; the evaluator runs five, one per
token of the program `2 1 x0 + *`, on the vector `[3]`. -/
theorem compile_terminates_witness :
    (shuntingYardCounted
        [Token.mkNumber exactOps (ERat.fin 2), makeOp exactOps '*',
          Token.ofType exactOps TokType.LParen, Token.mkNumber exactOps (ERat.fin 1),
          makeOp exactOps '+', Token.mkVar exactOps 0,
          Token.ofType exactOps TokType.RParen]).2 = 11 ∧
      (shuntingYardCounted
        [Token.mkNumber exactOps (ERat.fin 2), makeOp exactOps '*',
          Token.ofType exactOps TokType.LParen, Token.mkNumber exactOps (ERat.fin 1),
          makeOp exactOps '+', Token.mkVar exactOps 0,
          Token.ofType exactOps TokType.RParen]).2 ≤ 3 * 7 ∧
      (evalLoopCounted exactOps [ERat.fin 3]
        [Token.mkNumber exactOps (ERat.fin 2), Token.mkNumber exactOps (ERat.fin 1),
          Token.mkVar exactOps 0, makeOp exactOps '+', makeOp exactOps '*'] []).2 = 5 :=
  ⟨by decide!,
    (compile_terminates exactOps "2*(1+x0)".data 1
      [Token.mkNumber exactOps (ERat.fin 2), makeOp exactOps '*',
        Token.ofType exactOps TokType.LParen, Token.mkNumber exactOps (ERat.fin 1),
        makeOp exactOps '+', Token.mkVar exactOps 0,
        Token.ofType exactOps TokType.RParen]
      [Token.mkNumber exactOps (ERat.fin 2), Token.mkNumber exactOps (ERat.fin 1),
        Token.mkVar exactOps 0, makeOp exactOps '+', makeOp exactOps '*']
      [ERat.fin 3] []).2.2.2.1,
    (compile_terminates exactOps "2*(1+x0)".data 1
      [Token.mkNumber exactOps (ERat.fin 2), makeOp exactOps '*',
        Token.ofType exactOps TokType.LParen, Token.mkNumber exactOps (ERat.fin 1),
        makeOp exactOps '+', Token.mkVar exactOps 0,
        Token.ofType exactOps TokType.RParen]
      [Token.mkNumber exactOps (ERat.fin 2), Token.mkNumber exactOps (ERat.fin 1),
        Token.mkVar exactOps 0, makeOp exactOps '+', makeOp exactOps '*']
      [ERat.fin 3] []).2.2.2.2.2.2.2.2.2 [ERat.fin 8] (by decide!)⟩

/-! ## The stack-depth discipline of the evaluator -/

set_option maxRecDepth 100000 in
/-- C13 (the code at the failing input): on the identifier `x2147483648` the
index loop computes `214748364*10 + 8`, which is above `INT_MAX`: the source has
no defined behaviour there, and the wrapped accumulator is `-2147483648`.  The
build that carries out the test `idx<0` rejects the text; the optimised build,
which has dropped that test, accepts it at dimension 1 and stores the program
`[Variable -2147483648]`, an index that is not in `[0, 1)`, and on every vector
the evaluator then reads `x[varIndex]` outside the vector. -/
theorem setExpression_index_overflow {D : Type} (ops : DoubleOps D)
    (self : ObjectiveFunction D) :
    identFits "x2147483648".data = false ∧
      (214748364 : Int) * 10 + 8 = 2147483648 ∧ (2147483647 : Int) < 2147483648 ∧
      parseIndex "2147483648".data 0 = some (-2147483648) ∧
      tokenizeB Build.optimised ops "x2147483648".data 1 =
        Except.ok [Token.mkVar ops (-2147483648)] ∧
      setExpressionB Build.optimised ops self "x2147483648" 1 =
        (⟨1, "x2147483648", [Token.mkVar ops (-2147483648)]⟩, Except.ok ()) ∧
      (∀ x : List D,
        evalRun ops (setExpressionB Build.optimised ops self "x2147483648" 1).1.rpn_ x =
          Except.error EvalExit.outOfBounds) ∧
      (setExpression ops self "x2147483648" 1).2 =
        Except.error "Variable x2147483648 out of range for dimension 1." := by
  have hfit : identFits "x2147483648".data = false := by decide
  have hidx : parseIndex "2147483648".data 0 = some (-2147483648) := by decide
  have htokB : tokenizeB Build.optimised ops "x2147483648".data 1 =
      Except.ok [Token.mkVar ops (-2147483648)] := by
    simp [tokenizeB, tokenizeLoopB, tokenizeIterB, lexIdentB, Build.optimised, identFits,
      indexFits, isSpace, isDigit, isAlpha, isIdentChar, scanIdent, parseIndex, wrapInt32]
  have htok : tokenize ops "x2147483648".data 1 =
      Except.error "Variable x2147483648 out of range for dimension 1." := by
    simp [tokenize, tokenizeLoop, tokenizeIter, lexIdent, isSpace, isDigit, isAlpha,
      isIdentChar, scanIdent, parseIndex, wrapInt32]
    rfl
  have hsetB : setExpressionB Build.optimised ops self "x2147483648" 1 =
      (⟨1, "x2147483648", [Token.mkVar ops (-2147483648)]⟩, Except.ok ()) := by
    simp only [setExpressionB, htokB]
    rfl
  refine ⟨hfit, by decide, by decide, hidx, htokB, hsetB, ?_, ?_⟩
  · intro x
    rw [hsetB]
    rfl
  · simp only [setExpression, htok]
    rfl

/-! ## Well-formedness of the programs of well-formed expressions -/

/-- C9 (amended): in every build, every program built through the pipeline
from a well-formed infix expression on which the source is defined is
well-formed: for every expression text in which no variable identifier
overflows the index accumulator, and every dimension `>= 1`, whose token
sequence is derived by the expression grammar (operands, binary operators,
parenthesised groups, one-argument calls of the unary and two-argument calls of
the binary table functions), the build compiles the text as the source says,
`setExpression` returns true and stores the bound post-order of the expression,
and for every vector `x` whose length equals the dimension the evaluator takes
no sentinel exit (no stack underflow, no read outside `x`, exactly one value
left) and returns the value of the expression. -/
theorem compiled_program_wellformed {D : Type} (b : Build) (ops : DoubleOps D)
    (self : ObjectiveFunction D) (expr : String) (dim : Int) (ts : List (Token D))
    (t : CallTree D) (hdim : 1 ≤ dim) (hfit : textFits expr.data = true)
    (htok : tokenizeB b ops expr.data dim = Except.ok ts)
    (hder : Derives ops Level.expr ts t) :
    setExpressionB b ops self expr dim = setExpression ops self expr dim ∧
      (setExpressionB b ops self expr dim).2 = Except.ok () ∧
      (setExpressionB b ops self expr dim).1.rpn_ = t.program ops ∧
      ∀ x : List D, (x.length : Int) = dim →
        evalRun ops (setExpressionB b ops self expr dim).1.rpn_ x =
            Except.ok (t.value ops x) ∧
          evaluate ops (setExpressionB b ops self expr dim).1 x = t.value ops x := by
  have hB := setExpressionB_of_fits b ops self expr dim hfit
  rw [tokenizeB_of_fits b ops expr.data dim hfit] at htok
  have hset := setExpression_of_derives ops self expr dim ts t hdim htok hder
  rw [hB]
  refine ⟨rfl, by rw [hset], by rw [hset], ?_⟩
  intro x hx
  have hvars : t.VarsBelow x.length := by
    have h := derives_varsBelow ops hder dim (tokenize_lexed ops _ dim ts htok)
    have hlen : dim.toNat = x.length := by omega
    rwa [hlen] at h
  have hrun := evalRun_program ops x t hvars
  rw [hset]
  refine ⟨hrun, ?_⟩
  simp only [evaluate, evalRPN, hrun, hx, ne_eq, not_true_eq_false, if_false]

set_option maxRecDepth 10000 in
/-- The text `max(x0,2)*(1+x1)` for dimension 2 at the point `[3, 4]`, in the
optimised build. -/
theorem compiled_program_wellformed_witness :
    (1 : Int) ≤ 2 ∧ textFits "max(x0,2)*(1+x1)".data = true ∧
      tokenizeB Build.optimised exactOps "max(x0,2)*(1+x1)".data 2 = Except.ok
        [Token.mkFunc exactOps "max", Token.ofType exactOps TokType.LParen,
          Token.mkVar exactOps 0, Token.ofType exactOps TokType.Comma,
          Token.mkNumber exactOps (ERat.fin 2), Token.ofType exactOps TokType.RParen,
          makeOp exactOps '*', Token.ofType exactOps TokType.LParen,
          Token.mkNumber exactOps (ERat.fin 1), makeOp exactOps '+', Token.mkVar exactOps 1,
          Token.ofType exactOps TokType.RParen] ∧
      ((setExpressionB Build.optimised exactOps (new ERat) "max(x0,2)*(1+x1)" 2).2 =
          Except.ok () ∧
        evalRun exactOps
          (setExpressionB Build.optimised exactOps (new ERat) "max(x0,2)*(1+x1)" 2).1.rpn_
          [ERat.fin 3, ERat.fin 4] = Except.ok (ERat.fin 15)) :=
  have htok : tokenizeB Build.optimised exactOps "max(x0,2)*(1+x1)".data 2 = Except.ok
      [Token.mkFunc exactOps "max", Token.ofType exactOps TokType.LParen,
        Token.mkVar exactOps 0, Token.ofType exactOps TokType.Comma,
        Token.mkNumber exactOps (ERat.fin 2), Token.ofType exactOps TokType.RParen,
        makeOp exactOps '*', Token.ofType exactOps TokType.LParen,
        Token.mkNumber exactOps (ERat.fin 1), makeOp exactOps '+', Token.mkVar exactOps 1,
        Token.ofType exactOps TokType.RParen] := by decide!
  have hder : Derives exactOps Level.expr
      [Token.mkFunc exactOps "max", Token.ofType exactOps TokType.LParen,
        Token.mkVar exactOps 0, Token.ofType exactOps TokType.Comma,
        Token.mkNumber exactOps (ERat.fin 2), Token.ofType exactOps TokType.RParen,
        makeOp exactOps '*', Token.ofType exactOps TokType.LParen,
        Token.mkNumber exactOps (ERat.fin 1), makeOp exactOps '+', Token.mkVar exactOps 1,
        Token.ofType exactOps TokType.RParen]
      (CallTree.node
        (CallTree.call2 BinaryFn.max (CallTree.leaf (Leaf.var 0))
          (CallTree.leaf (Leaf.number (ERat.fin 2))))
        BinOp.mul
        (CallTree.node (CallTree.leaf (Leaf.number (ERat.fin 1))) BinOp.add
          (CallTree.leaf (Leaf.var 1)))) :=
    Derives.term _ _
      (Derives.mul
        [Token.mkFunc exactOps "max", Token.ofType exactOps TokType.LParen,
          Token.mkVar exactOps 0, Token.ofType exactOps TokType.Comma,
          Token.mkNumber exactOps (ERat.fin 2), Token.ofType exactOps TokType.RParen]
        [Token.ofType exactOps TokType.LParen, Token.mkNumber exactOps (ERat.fin 1),
          makeOp exactOps '+', Token.mkVar exactOps 1, Token.ofType exactOps TokType.RParen]
        _ _
        (Derives.power _ _ (Derives.primary _ _
          (Derives.call2 BinaryFn.max [Token.mkVar exactOps 0]
            [Token.mkNumber exactOps (ERat.fin 2)] _ _
            (Derives.term _ _ (Derives.power _ _ (Derives.primary _ _
              (Derives.operand (Leaf.var 0)))))
            (Derives.term _ _ (Derives.power _ _ (Derives.primary _ _
              (Derives.operand (Leaf.number (ERat.fin 2)))))))))
        (Derives.primary _ _
          (Derives.group
            [Token.mkNumber exactOps (ERat.fin 1), makeOp exactOps '+', Token.mkVar exactOps 1]
            _
            (Derives.add [Token.mkNumber exactOps (ERat.fin 1)] [Token.mkVar exactOps 1] _ _
              (Derives.term _ _ (Derives.power _ _ (Derives.primary _ _
                (Derives.operand (Leaf.number (ERat.fin 1))))))
              (Derives.power _ _ (Derives.primary _ _
                (Derives.operand (Leaf.var 1))))))))
  have hthm := compiled_program_wellformed Build.optimised exactOps (new ERat)
    "max(x0,2)*(1+x1)" 2 _ _ (by decide) (by decide) htok hder
  ⟨by decide, by decide, htok, hthm.2.1, by
    have h := (hthm.2.2.2 [ERat.fin 3, ERat.fin 4] rfl).1
    rw [h]
    decide!⟩

end ObjectiveFunction

/-! ## The heights stored by the mesh builder -/

namespace SurfaceWidget

theorem tameHeight_fin (q : ℚ) :
    tameHeight (ERat.fin q) =
      if heightLimit < q then ERat.fin heightLimit
      else if q < -heightLimit then ERat.fin (-heightLimit)
      else ERat.fin q := by
  have hL : (0 : ℚ) < heightLimit := by norm_num [heightLimit]
  by_cases hneg : q < 0
  · have h1 : ¬ heightLimit < q := by linarith
    have h2 : ¬ (0 : ℚ) < q := by linarith
    by_cases h3 : q < -heightLimit
    · have h4 : heightLimit < -q := by linarith
      simp [tameHeight, isFinite, ERat.unary, ERat.lt, hneg, h1, h2, h3, h4]
    · have h4 : ¬ heightLimit < -q := by linarith
      simp [tameHeight, isFinite, ERat.unary, ERat.lt, hneg, h1, h2, h3, h4]
  · by_cases h1 : heightLimit < q
    · have h2 : (0 : ℚ) < q := by linarith
      simp [tameHeight, isFinite, ERat.unary, ERat.lt, hneg, h1, h2]
    · have h3 : ¬ q < -heightLimit := by linarith
      simp [tameHeight, isFinite, ERat.unary, ERat.lt, hneg, h1, h3]

theorem tameHeight_not_finite (z : ERat) (h : isFinite z = false) :
    tameHeight z = ERat.fin 0 := by
  have hL : ¬ heightLimit < (0 : ℚ) := by norm_num [heightLimit]
  simp [tameHeight, h, ERat.unary, ERat.lt, hL]

theorem tameHeight_bounded (z : ERat) :
    ∃ q : ℚ, tameHeight z = ERat.fin q ∧ |q| ≤ heightLimit := by
  have hL : (0 : ℚ) < heightLimit := by norm_num [heightLimit]
  cases z with
  | fin q =>
    rw [tameHeight_fin]
    by_cases h1 : heightLimit < q
    · rw [if_pos h1]
      exact ⟨heightLimit, rfl, by rw [abs_of_pos hL]⟩
    · rw [if_neg h1]
      by_cases h2 : q < -heightLimit
      · rw [if_pos h2]
        exact ⟨-heightLimit, rfl, by rw [abs_neg, abs_of_pos hL]⟩
      · rw [if_neg h2]
        exact ⟨q, rfl, abs_le.mpr ⟨by linarith, by linarith⟩⟩
  | posInf => exact ⟨0, tameHeight_not_finite _ rfl, by rw [abs_zero]; exact le_of_lt hL⟩
  | negInf => exact ⟨0, tameHeight_not_finite _ rfl, by rw [abs_zero]; exact le_of_lt hL⟩
  | nan => exact ⟨0, tameHeight_not_finite _ rfl, by rw [abs_zero]; exact le_of_lt hL⟩

theorem mem_sampledHeights (sample : Nat → Nat → ERat) (N : Nat) (z : ERat) :
    z ∈ sampledHeights sample N ↔ ∃ j i, j < N ∧ i < N ∧ z = tameHeight (sample j i) := by
  simp only [sampledHeights, List.mem_flatMap, List.mem_map, List.mem_range]
  constructor
  · rintro ⟨j, hj, i, hi, h⟩
    exact ⟨j, i, hj, hi, h.symm⟩
  · rintro ⟨j, i, hj, hi, h⟩
    exact ⟨j, hj, i, hi, h.symm⟩

/-- C30: every height that `buildMeshCPU` stores in `zs` is finite and of
magnitude at most `1e12`; the stored heights are the treated samples of the grid
points, and the treatment replaces a value that is not finite (an infinity or a
NaN) by `0`, a value above `1e12` by `1e12`, a value below `-1e12` by `-1e12`,
and leaves every other value unchanged. -/
theorem buildMeshCPU_heights_tamed (sample : Nat → Nat → ERat) (N : Nat) :
    (∀ z ∈ sampledHeights sample N, ∃ q : ℚ, z = ERat.fin q ∧ |q| ≤ 1000000000000) ∧
      (∀ z, z ∈ sampledHeights sample N ↔
        ∃ j i, j < N ∧ i < N ∧ z = tameHeight (sample j i)) ∧
      (∀ z : ERat, isFinite z = false → tameHeight z = ERat.fin 0) ∧
      tameHeight ERat.posInf = ERat.fin 0 ∧ tameHeight ERat.negInf = ERat.fin 0 ∧
      tameHeight ERat.nan = ERat.fin 0 ∧
      (∀ q : ℚ, 1000000000000 < q → tameHeight (ERat.fin q) = ERat.fin 1000000000000) ∧
      (∀ q : ℚ, q < -1000000000000 → tameHeight (ERat.fin q) = ERat.fin (-1000000000000)) ∧
      (∀ q : ℚ, |q| ≤ 1000000000000 → tameHeight (ERat.fin q) = ERat.fin q) := by
  have hL : (0 : ℚ) < heightLimit := by norm_num [heightLimit]
  have hLim : heightLimit = 1000000000000 := rfl
  refine ⟨?_, mem_sampledHeights sample N, tameHeight_not_finite,
    tameHeight_not_finite _ rfl, tameHeight_not_finite _ rfl, tameHeight_not_finite _ rfl,
    ?_, ?_, ?_⟩
  · intro z hz
    obtain ⟨j, i, _, _, h⟩ := (mem_sampledHeights sample N z).mp hz
    obtain ⟨q, hq, hb⟩ := tameHeight_bounded (sample j i)
    exact ⟨q, by rw [h, hq], by rw [← hLim]; exact hb⟩
  · intro q h
    rw [tameHeight_fin, if_pos (by rw [hLim]; exact h), hLim]
  · intro q h
    have h1 : ¬ heightLimit < q := by rw [hLim]; linarith
    rw [tameHeight_fin, if_neg h1, if_pos (by rw [hLim]; exact h), hLim]
  · intro q h
    have hb := abs_le.mp h
    have h1 : ¬ heightLimit < q := by rw [hLim]; linarith [hb.2]
    have h2 : ¬ q < -heightLimit := by rw [hLim]; linarith [hb.1]
    rw [tameHeight_fin, if_neg h1, if_neg h2]

/-- A grid of two by two points on which `evaluate` of `1/x0` is sampled at
`x0 = 0` and `x0 = 1`: the stored heights are `0` (for the infinity) and `1`. -/
theorem buildMeshCPU_heights_tamed_witness :
    sampledHeights
        (fun _ i => ObjectiveFunction.evaluate exactOps
          (ObjectiveFunction.setExpression exactOps (ObjectiveFunction.new ERat) "1/x0" 1).1
          [ERat.fin i]) 2 =
      [ERat.fin 0, ERat.fin 1, ERat.fin 0, ERat.fin 1] ∧
      ∀ z ∈ sampledHeights
        (fun _ i => ObjectiveFunction.evaluate exactOps
          (ObjectiveFunction.setExpression exactOps (ObjectiveFunction.new ERat) "1/x0" 1).1
          [ERat.fin i]) 2, ∃ q : ℚ, z = ERat.fin q ∧ |q| ≤ 1000000000000 :=
  ⟨by decide!, (buildMeshCPU_heights_tamed _ 2).1⟩

/-! ## The height range of the mesh -/

theorem trackRange_step (a b q : ℚ) (hab : a ≤ b) :
    ∃ a1 b1 : ℚ,
      ((if ERat.lt (ERat.fin q) (ERat.fin a) = true then ERat.fin q else ERat.fin a,
        if ERat.lt (ERat.fin b) (ERat.fin q) = true then ERat.fin q else ERat.fin b) :
          ERat × ERat) = (ERat.fin a1, ERat.fin b1) ∧ a1 ≤ b1 := by
  simp only [ERat.lt, decide_eq_true_eq]
  by_cases h1 : q < a
  · have h2 : ¬ b < q := by linarith
    rw [if_pos h1, if_neg h2]
    exact ⟨q, b, rfl, by linarith⟩
  · rw [if_neg h1]
    by_cases h2 : b < q
    · rw [if_pos h2]
      exact ⟨a, q, rfl, by linarith⟩
    · rw [if_neg h2]
      exact ⟨a, b, rfl, hab⟩

theorem foldl_trackRange_finite (zs : List ERat) (hz : ∀ z ∈ zs, ∃ q : ℚ, z = ERat.fin q) :
    ∀ a b : ℚ, a ≤ b →
      ∃ a1 b1 : ℚ,
        zs.foldl
            (fun p z =>
              ((if ERat.lt z p.1 = true then z else p.1,
                if ERat.lt p.2 z = true then z else p.2) : ERat × ERat))
            (ERat.fin a, ERat.fin b) = (ERat.fin a1, ERat.fin b1) ∧ a1 ≤ b1 := by
  induction zs with
  | nil =>
    intro a b hab
    exact ⟨a, b, rfl, hab⟩
  | cons z zs ih =>
    intro a b hab
    obtain ⟨q, rfl⟩ := hz z (List.mem_cons_self _ _)
    obtain ⟨a1, b1, hstep, h1⟩ := trackRange_step a b q hab
    simp only [List.foldl_cons]
    rw [hstep]
    exact ih (fun z hz1 => hz z (List.mem_cons_of_mem _ hz1)) a1 b1 h1

/-- After at least one finite height, the running minimum and maximum are
finite and in order. -/
theorem trackRange_finite (zs : List ERat) (hne : zs ≠ [])
    (hz : ∀ z ∈ zs, ∃ q : ℚ, z = ERat.fin q) :
    ∃ a b : ℚ, trackRange zs = (ERat.fin a, ERat.fin b) ∧ a ≤ b := by
  cases zs with
  | nil => exact absurd rfl hne
  | cons z zs =>
    obtain ⟨q, rfl⟩ := hz z (List.mem_cons_self _ _)
    have h := foldl_trackRange_finite zs (fun z hz1 => hz z (List.mem_cons_of_mem _ hz1)) q q
      (le_refl q)
    simpa [trackRange, ERat.lt] using h

theorem sampledHeights_ne_nil (sample : Nat → Nat → ERat) (N : Nat) (hN : 0 < N) :
    sampledHeights sample N ≠ [] := by
  intro h
  have hmem : tameHeight (sample 0 0) ∈ sampledHeights sample N :=
    (mem_sampledHeights sample N _).mpr ⟨0, 0, hN, hN, rfl⟩
  rw [h] at hmem
  cases hmem

theorem sampledHeights_finite (sample : Nat → Nat → ERat) (N : Nat) :
    ∀ z ∈ sampledHeights sample N, ∃ q : ℚ, z = ERat.fin q := by
  intro z hz
  obtain ⟨j, i, _, _, h⟩ := (mem_sampledHeights sample N z).mp hz
  obtain ⟨q, hq, _⟩ := tameHeight_bounded (sample j i)
  exact ⟨q, by rw [h, hq]⟩

/-- C39: in `buildMeshCPU` with `N >= 3` the height range that divides the
vertex heights and the colours is never zero.  After the sampling pass `zMin`
and `zMax` are finite with `zMin <= zMax`; when they are equal the pair is reset
to `(0, 1)`; so after the reset `zMin < zMax`, and the divisor `zMax - zMin` of
both divisions is a finite value above 0. -/
theorem buildMeshCPU_height_range (sample : Nat → Nat → ERat) (N : Nat) (hN : 3 ≤ N) :
    (∃ a b : ℚ, trackRange (sampledHeights sample N) = (ERat.fin a, ERat.fin b) ∧ a ≤ b) ∧
      ((trackRange (sampledHeights sample N)).2 = (trackRange (sampledHeights sample N)).1 →
        heightRange (sampledHeights sample N) = (ERat.fin 0, ERat.fin 1)) ∧
      (∃ a b : ℚ, heightRange (sampledHeights sample N) = (ERat.fin a, ERat.fin b) ∧ a < b ∧
        zRange (sampledHeights sample N) = ERat.fin (b - a) ∧ 0 < b - a) := by
  obtain ⟨a, b, htr, hab⟩ := trackRange_finite (sampledHeights sample N)
    (sampledHeights_ne_nil sample N (by omega)) (sampledHeights_finite sample N)
  refine ⟨⟨a, b, htr, hab⟩, ?_, ?_⟩
  · intro heq
    simp only [heightRange]
    rw [if_pos (Or.inr (Or.inr heq))]
  · by_cases hEq : a = b
    · subst hEq
      have hr : heightRange (sampledHeights sample N) = (ERat.fin 0, ERat.fin 1) := by
        simp [heightRange, htr]
      refine ⟨0, 1, hr, by norm_num, ?_, by norm_num⟩
      simp only [zRange, hr, ERat.sub, ERat.add, ERat.neg]
      norm_num
    · have hlt : a < b := lt_of_le_of_ne hab hEq
      have hne : ¬ (isFinite (ERat.fin a) = false ∨ isFinite (ERat.fin b) = false ∨
          ERat.fin b = ERat.fin a) := by
        simp only [isFinite, Bool.true_eq_false, false_or, ERat.fin.injEq]
        exact fun h => hEq h.symm
      have hr : heightRange (sampledHeights sample N) = (ERat.fin a, ERat.fin b) := by
        simp only [heightRange, htr]
        rw [if_neg hne]
      refine ⟨a, b, hr, hlt, ?_, by linarith⟩
      simp only [zRange, hr, ERat.sub, ERat.add, ERat.neg]
      congr 1
      ring

/-- Grids of three by three points: on the constant sample 7 the running pair
is `(7, 7)` and is reset to `(0, 1)`, with divisor 1; on the samples `i + j` the
pair is `(0, 4)`, with divisor 4. -/
theorem buildMeshCPU_height_range_witness :
    trackRange (sampledHeights (fun _ _ => ERat.fin 7) 3) = (ERat.fin 7, ERat.fin 7) ∧
      heightRange (sampledHeights (fun _ _ => ERat.fin 7) 3) = (ERat.fin 0, ERat.fin 1) ∧
      zRange (sampledHeights (fun _ _ => ERat.fin 7) 3) = ERat.fin 1 ∧
      zRange (sampledHeights (fun j i => ERat.fin (i + j)) 3) = ERat.fin 4 ∧
      ∃ a b : ℚ, heightRange (sampledHeights (fun _ _ => ERat.fin 7) 3) =
          (ERat.fin a, ERat.fin b) ∧ a < b ∧
        zRange (sampledHeights (fun _ _ => ERat.fin 7) 3) = ERat.fin (b - a) ∧ 0 < b - a :=
  ⟨by decide!, by decide!, by decide!, by decide!,
    (buildMeshCPU_height_range (fun _ _ => ERat.fin 7) 3 (by decide)).2.2⟩

/-! ## The sizes of the mesh -/

theorem foldl_length_inv {α β : Type} (g : List α → β → List α)
    (hg : ∀ vs b, (g vs b).length = vs.length) :
    ∀ (bs : List β) (vs : List α), (bs.foldl g vs).length = vs.length := by
  intro bs
  induction bs with
  | nil =>
    intro vs
    rfl
  | cons b bs ih =>
    intro vs
    rw [List.foldl_cons, ih, hg]

theorem gridVertices_length (N : Nat) : (gridVertices N).length = N * N := by
  unfold gridVertices
  rw [foldl_length_inv]
  · exact List.length_replicate _ _
  · intro vs j
    rw [foldl_length_inv]
    intro vs1 i
    exact List.length_set _ _ _

theorem length_flatMap_const {α β : Type} (f : α → List β) (k : Nat)
    (hf : ∀ a, (f a).length = k) : ∀ l : List α, (l.flatMap f).length = l.length * k := by
  intro l
  induction l with
  | nil => simp
  | cons a l ih =>
    rw [List.flatMap_cons, List.length_append, ih, hf, List.length_cons]
    ring

theorem gridIndices_length (N : Nat) : (gridIndices N).length = 6 * (N - 1) * (N - 1) := by
  unfold gridIndices
  rw [length_flatMap_const _ ((N - 1) * 6)]
  · rw [List.length_range]
    ring
  · intro j
    rw [length_flatMap_const _ 6]
    · rw [List.length_range]
    · intro i
      rfl

theorem gridIndices_lt (N : Nat) : ∀ k ∈ gridIndices N, k < N * N := by
  intro k hk
  simp only [gridIndices, List.mem_flatMap, List.mem_range] at hk
  obtain ⟨j, hj, i, hi, hk⟩ := hk
  have h1 : (j + 1) * N ≤ (N - 1) * N := Nat.mul_le_mul_right N (by omega)
  have h2 : j * N ≤ (j + 1) * N := Nat.mul_le_mul_right N (by omega)
  have h3 : N * N = (N - 1) * N + N := by
    have hN : N = (N - 1) + 1 := by omega
    nth_rewrite 1 [hN]
    rw [Nat.add_mul, Nat.one_mul]
  simp only [cellIndices, List.mem_cons, List.mem_singleton, List.not_mem_nil, or_false] at hk
  rcases hk with h | h | h | h | h | h <;> omega

/-- C38 (as the specification states it, refuted): the sizes are computed in
`int`.  At the grid size 18920 the square `N*N` is still an `int`, but the
product `(N-1)*(N-1)*6 = 2147571366` of the `reserve` call is above the largest
`int` 2147483647, so the behaviour is undefined and no mesh is guaranteed. -/
theorem buildMeshCPU_int_overflow :
    (3 : Int) ≤ 18920 ∧ inInt (18920 * 18920) = true ∧
      ((18920 : Int) - 1) * (18920 - 1) * 6 = 2147571366 ∧ (2147483647 : Int) < 2147571366 ∧
      inInt (((18920 : Int) - 1) * (18920 - 1) * 6) = false ∧
      buildMeshCPU 18920 = none := by
  refine ⟨by decide, by decide, by decide, by decide, by decide, ?_⟩
  have h3 : ¬ ((18920 : Int) < 3) := by decide
  have hover : (inInt (18920 * 18920) && inInt ((18920 - 1) * (18920 - 1)) &&
      inInt ((18920 - 1) * (18920 - 1) * 6)) = false := by decide
  simp only [buildMeshCPU, if_neg h3, hover, Bool.false_eq_true, if_false]

/-- C38 (amended): for every grid size `N` with `3 <= N <= 18919`, the sizes
whose `int` products do not overflow (the spin box of the application keeps `N`
between 21 and 401), `buildMeshCPU` produces exactly `N*N` vertices and exactly
`6*(N-1)*(N-1)` triangle indices, every one of which is below `N*N`; for `N < 3`
it produces the empty mesh. -/
theorem buildMeshCPU_sizes (gridN : Int) :
    (3 ≤ gridN → gridN ≤ 18919 →
        ∃ m : Mesh, buildMeshCPU gridN = some m ∧
          (m.vertices.length : Int) = gridN * gridN ∧
          (m.indices.length : Int) = 6 * (gridN - 1) * (gridN - 1) ∧
          ∀ k ∈ m.indices, (k : Int) < gridN * gridN ∧ k < m.vertices.length) ∧
      (gridN < 3 → buildMeshCPU gridN = some { vertices := [], indices := [] }) := by
  constructor
  · intro h3 hmax
    obtain ⟨n, rfl⟩ : ∃ n : Nat, gridN = (n : Int) := ⟨gridN.toNat, by omega⟩
    have hn3 : 3 ≤ n := by omega
    have hnmax : n ≤ 18919 := by omega
    have hsq : n * n ≤ 18919 * 18919 := Nat.mul_le_mul hnmax hnmax
    have hsq1 : (n - 1) * (n - 1) ≤ 18918 * 18918 :=
      Nat.mul_le_mul (by omega) (by omega)
    have hc1 : ((n : Int) - 1) = ((n - 1 : Nat) : Int) := by omega
    have hin : (inInt ((n : Int) * n) && inInt (((n : Int) - 1) * ((n : Int) - 1)) &&
        inInt (((n : Int) - 1) * ((n : Int) - 1) * 6)) = true := by
      rw [hc1]
      simp only [inInt, Bool.and_eq_true, decide_eq_true_eq]
      have e1 : ((n : Int) * n) = ((n * n : Nat) : Int) := by push_cast; ring
      have e2 : (((n - 1 : Nat) : Int) * ((n - 1 : Nat) : Int)) =
          (((n - 1) * (n - 1) : Nat) : Int) := by push_cast; ring
      rw [e1, e2]
      refine ⟨⟨⟨by omega, by omega⟩, ⟨by omega, by omega⟩⟩, ⟨by omega, by omega⟩⟩
    have hlt : ¬ ((n : Int) < 3) := by omega
    refine ⟨{ vertices := gridVertices n, indices := gridIndices n }, ?_, ?_, ?_, ?_⟩
    · simp only [buildMeshCPU, if_neg hlt, hin, if_true, Int.toNat_ofNat]
    · simp only [gridVertices_length]
      push_cast
      ring
    · simp only [gridIndices_length, hc1]
      push_cast
      ring
    · intro k hk
      have := gridIndices_lt n k hk
      refine ⟨?_, by rw [gridVertices_length]; exact this⟩
      have e1 : ((n : Int) * n) = ((n * n : Nat) : Int) := by push_cast; ring
      rw [e1]
      exact_mod_cast this
  · intro h
    simp only [buildMeshCPU, if_pos h]

/-- The grid sizes 3, the default 81 and 2: four cells with 24 indices on 9
vertices; 6561 vertices and 38400 indices; the empty mesh. -/
theorem buildMeshCPU_sizes_witness :
    buildMeshCPU 3 = some { vertices := gridVertices 3, indices := gridIndices 3 } ∧
      gridIndices 3 =
        [0, 3, 1, 1, 3, 4, 1, 4, 2, 2, 4, 5, 3, 6, 4, 4, 6, 7, 4, 7, 5, 5, 7, 8] ∧
      (∃ m : Mesh, buildMeshCPU 81 = some m ∧ (m.vertices.length : Int) = 81 * 81 ∧
        (m.indices.length : Int) = 6 * (81 - 1) * (81 - 1) ∧
        ∀ k ∈ m.indices, (k : Int) < 81 * 81 ∧ k < m.vertices.length) ∧
      buildMeshCPU 2 = some { vertices := [], indices := [] } :=
  ⟨by decide, by decide, (buildMeshCPU_sizes 81).1 (by decide) (by decide),
    (buildMeshCPU_sizes 2).2 (by decide)⟩

end SurfaceWidget

/-! ## The presets of the catalog compile -/

namespace MainWindow

set_option maxRecDepth 100000 in
/-- In the exact arithmetic every analytic preset compiles at its dimension, to
a program that keeps the stack-depth discipline and ends with one value. -/
theorem analyticPresets_exact : ∀ p ∈ analyticPresets, presetCompiles p = true := by
  decide!

/-- C37: every preset of the catalog that is given as a string literal
(rastrigin .. zakharov, 27 entries, all of dimension 2) compiles with
`setExpression` at its declared dimension, and the program is well-formed: on
every vector of that dimension the evaluator takes none of its sentinel exits
and returns the one value left on its stack.  This holds in every double
arithmetic whose `std::stod` accepts the number texts of the presets. -/
theorem analyticPresets_compile {D : Type} (ops : ObjectiveFunction.DoubleOps D)
    (hacc : ∀ p ∈ analyticPresets, ObjectiveFunction.numeralsAccepted ops p.expr.data = true)
    (self : ObjectiveFunction D) :
    analyticPresets.map Preset.name =
        ["rastrigin", "rosenbrock", "ackley", "sphere", "griewank", "levy", "bohachevsky1",
          "bohachevsky2", "bohachevsky3", "branin", "camel", "cigar", "cosinemixture",
          "differentpowers", "easom", "ellipsoidal", "equalmaxima", "expotential",
          "goldstein", "griewankrosenbrock", "shubert", "stepellipsoidal", "himmelblau",
          "michalewicz", "schaffer", "schwefel", "zakharov"] ∧
      ∀ p ∈ analyticPresets,
        (ObjectiveFunction.setExpression ops self p.expr p.dim).2 = Except.ok () ∧
          ∀ x : List D, (x.length : Int) = p.dim →
            ∃ v, ObjectiveFunction.evalRun ops
                (ObjectiveFunction.setExpression ops self p.expr p.dim).1.rpn_ x =
                Except.ok v ∧
              ObjectiveFunction.evaluate ops
                (ObjectiveFunction.setExpression ops self p.expr p.dim).1 x = v := by
  refine ⟨by decide, ?_⟩
  intro p hp
  have hex := analyticPresets_exact p hp
  simp only [presetCompiles, Bool.and_eq_true, decide_eq_true_eq] at hex
  obtain ⟨hok0, hdepth0⟩ := hex
  obtain ⟨hok, hshape⟩ := ObjectiveFunction.setExpression_sim exactOps ops
    (ObjectiveFunction.new ERat) self p.expr p.dim (hacc p hp) hok0
  have hdepth : ObjectiveFunction.depthRun
      (ObjectiveFunction.setExpression ops self p.expr p.dim).1.rpn_ 0 = some 1 := by
    rw [← ObjectiveFunction.depthRun_shape, hshape, ObjectiveFunction.depthRun_shape]
    exact hdepth0
  refine ⟨hok, ?_⟩
  intro x hx
  obtain ⟨hrun, hvar⟩ :=
    ObjectiveFunction.setExpression_program_runnable ops self p.expr p.dim hok x hx
  have hout := ObjectiveFunction.depthOutcome_of_runnable ops _ x hrun hvar
  obtain ⟨v, hv⟩ := hout.1.mpr hdepth
  refine ⟨v, hv, ?_⟩
  have hdim : (ObjectiveFunction.setExpression ops self p.expr p.dim).1.dim_ = p.dim :=
    ObjectiveFunction.setExpression_dim ops self p.expr p.dim
  have hne : ¬ (x.length : Int) ≠
      (ObjectiveFunction.setExpression ops self p.expr p.dim).1.dim_ := by
    rw [hdim]
    simp [hx]
  simp only [ObjectiveFunction.evaluate, if_neg hne]
  exact (hout.2.1 v hv).2

set_option maxRecDepth 100000 in
/-- The exact arithmetic accepts the number texts of the presets, so every
preset compiles in it and evaluates without a sentinel on every vector of
length 2. -/
theorem analyticPresets_compile_witness :
    (∀ p ∈ analyticPresets,
        ObjectiveFunction.numeralsAccepted exactOps p.expr.data = true) ∧
      ∀ p ∈ analyticPresets,
        (ObjectiveFunction.setExpression exactOps (ObjectiveFunction.new ERat) p.expr p.dim).2 =
            Except.ok () ∧
          ∀ x : List ERat, (x.length : Int) = p.dim →
            ∃ v, ObjectiveFunction.evalRun exactOps
                (ObjectiveFunction.setExpression exactOps (ObjectiveFunction.new ERat)
                  p.expr p.dim).1.rpn_ x = Except.ok v ∧
              ObjectiveFunction.evaluate exactOps
                (ObjectiveFunction.setExpression exactOps (ObjectiveFunction.new ERat)
                  p.expr p.dim).1 x = v :=
  ⟨by decide!,
    (analyticPresets_compile exactOps (by decide!) (ObjectiveFunction.new ERat)).2⟩

end MainWindow
